import Mathlib

/-!
# Sudoku solvers and generator: the data model and the two search engines

A shallow embedding of `internal/domain`, `internal/solver`, `internal/validator`
and `internal/generator`.

Conventions of the embedding.

* `[9][9]uint8` is `Grid = Fin 9 → Fin 9 → Nat`; the code indexes it with `int`s, so the
  accessors `Grid.get` and `Grid.set` take natural numbers.
* A `context.Context` is observed only through polls (`ctx.Err()`, `ctx.Done()`); it is
  modelled by the index of the first poll that sees it cancelled (`Ctx`), and every
  search state carries the number of polls made so far (`tick`).
* Recursive searches and pointer-chasing loops take a fuel argument; the result `none`
  means that the fuel ran out (or that a nil pointer was dereferenced).
* `time.Duration` statistics are wall-clock readings and are left out of `Stats`.
-/

namespace Sudoku

/-! ## Domain types -/

/-- The 9×9 grid of cell values (`[9][9]uint8`), 0 meaning empty. -/
abbrev Grid := Fin 9 → Fin 9 → Nat

/-- The 9×9 mask of fixed cells (`[9][9]bool`). -/
abbrev Mask := Fin 9 → Fin 9 → Bool

/-- Read `b[r][c]`. -/
def Grid.get (b : Grid) (r c : Nat) : Nat :=
  if h : r < 9 ∧ c < 9 then b ⟨r, h.1⟩ ⟨c, h.2⟩ else 0

/-- Write `b[r][c] = v`. -/
def Grid.set (b : Grid) (r c v : Nat) : Grid :=
  fun i j => if i.val = r ∧ j.val = c then v else b i j

/-- Write `m[r][c] = v` in a mask. -/
def Mask.set (m : Mask) (r c : Nat) (v : Bool) : Mask :=
  fun i j => if i.val = r ∧ j.val = c then v else m i j

/-- The zero value of `[9][9]uint8`. -/
def Grid.zero : Grid := fun _ _ => 0

/-- The zero value of `[9][9]bool`. -/
def Mask.zero : Mask := fun _ _ => false

/-- A grid literal, row by row. -/
def Grid.ofRows (rows : List (List Nat)) : Grid :=
  fun i j => (rows.getD i.val []).getD j.val 0

/-- The type `domain.Board`. -/
structure Board where
  Values : Grid
  Fixed : Mask

/-- The type `ports.Stats` without its wall-clock field. -/
structure Stats where
  Nodes : Nat
deriving DecidableEq, Repr

/-- The error values the solvers and the generator return. -/
inductive Err where
  | invalidGiven
  | invalidRowMapping
  | noSolution
  | unsolvableOrCanceled
  | contextCanceled
deriving DecidableEq, Repr

/-- The type `domain.Difficulty` is an `int`. -/
abbrev Difficulty := Int

/-- Constant `domain.Easy`. -/
def Easy : Difficulty := 0
/-- Constant `domain.Medium`. -/
def Medium : Difficulty := 1
/-- Constant `domain.Hard`. -/
def Hard : Difficulty := 2
/-- Constant `domain.Expert`. -/
def Expert : Difficulty := 3

/-- The type `domain.Puzzle`, without the identifier, timestamp and free-text fields. -/
structure Puzzle where
  Seed : Int
  Difficulty : Difficulty
  Board : Board

/-- A cancellation signal: `some n` is seen cancelled from its poll number `n` on (the
first poll is number 0), `none` is never cancelled. -/
abbrev Ctx := Option Nat

/-- Whether the poll number `tick` of the context sees it cancelled. -/
def Ctx.done (ctx : Ctx) (tick : Nat) : Bool :=
  match ctx with
  | some n => decide (n ≤ tick)
  | none => false

/-! ## Backtracking solver (`internal/solver/backtrack*.go`) -/

/-- Function `isValid` of `backtrack.go`. -/
def isValid (b : Grid) (r c v : Nat) : Bool :=
  (List.range 9).all (fun i => !(b.get r i == v || b.get i c == v)) &&
  (List.range 3).all (fun dr => (List.range 3).all (fun dc =>
    !(b.get ((r / 3) * 3 + dr) ((c / 3) * 3 + dc) == v)))

/-- The cells in row-major order. -/
def cells : List (Nat × Nat) :=
  (List.range 9).flatMap (fun r => (List.range 9).map (fun c => (r, c)))

/-- Function `findEmpty` of `backtrack.go`: the first empty cell in row-major order. -/
def findEmpty (b : Grid) : Option (Nat × Nat) :=
  cells.find? (fun p => b.get p.1 p.2 == 0)

/-- The digits `1..9` in the order of `for v := uint8(1); v <= 9; v++`. -/
def digits : List Nat := List.range' 1 9

/-- The variables the closures `dfs` of the backtracking solver capture, with the number
of context polls made so far. -/
structure BTState where
  grid : Grid
  nodes : Nat
  count : Nat
  tick : Nat

/-- The digit loop of `dfs` in `BacktrackingSolver.Solve`, given the recursive call. -/
def solveDigits (dfs : BTState → Option (Bool × BTState)) (r c : Nat) :
    List Nat → BTState → Option (Bool × BTState)
  | [], s => some (false, s)
  | v :: vs, s =>
    let s1 := { s with nodes := s.nodes + 1 }
    if isValid s1.grid r c v then
      match dfs { s1 with grid := s1.grid.set r c v } with
      | none => none
      | some (true, s2) => some (true, s2)
      | some (false, s2) => solveDigits dfs r c vs { s2 with grid := s2.grid.set r c 0 }
    else solveDigits dfs r c vs s1

/-- The closure `dfs` of `BacktrackingSolver.Solve`. -/
def solveDfs (ctx : Ctx) : Nat → BTState → Option (Bool × BTState)
  | 0, _ => none
  | fuel + 1, s =>
    let s1 := { s with tick := s.tick + 1 }
    if ctx.done s.tick then some (false, s1)
    else
      match findEmpty s1.grid with
      | none => some (true, s1)
      | some (r, c) => solveDigits (solveDfs ctx fuel) r c digits s1

/-- What a call of `Solve` returns: the board or the error, the statistics, and the
number of context polls made. -/
structure SolveResult where
  board : Except Err Board
  stats : Stats
  tick : Nat

/-- What a call of `Unique` returns: the verdict, the statistics, the error (always nil
or an input error), and the number of context polls made. -/
structure UniqueResult where
  unique : Bool
  stats : Stats
  err : Option Err
  tick : Nat

/-- Recursion depth that the searches over a 9×9 grid never exceed. -/
def searchFuel : Nat := 82

/-- Method `BacktrackingSolver.Solve`; `tick` is the number of polls the context has
already answered. -/
def BacktrackingSolver.Solve (ctx : Ctx) (tick : Nat) (b : Board) : Option SolveResult :=
  match solveDfs ctx searchFuel { grid := b.Values, nodes := 0, count := 0, tick := tick } with
  | none => none
  | some (false, s) =>
    some { board := .error Err.unsolvableOrCanceled, stats := { Nodes := s.nodes }, tick := s.tick }
  | some (true, s) =>
    some { board := .ok { Values := s.grid, Fixed := b.Fixed }, stats := { Nodes := s.nodes },
           tick := s.tick }

/-- The digit loop of `dfs` in `BacktrackingSolver.Unique`, given the recursive call. -/
def uniqueDigits (dfs : BTState → Option (Bool × BTState)) (r c : Nat) :
    List Nat → BTState → Option (Bool × BTState)
  | [], s => some (false, s)
  | v :: vs, s =>
    let s1 := { s with nodes := s.nodes + 1 }
    if isValid s1.grid r c v then
      match dfs { s1 with grid := s1.grid.set r c v } with
      | none => none
      | some (true, s2) => some (true, s2)
      | some (false, s2) => uniqueDigits dfs r c vs { s2 with grid := s2.grid.set r c 0 }
    else uniqueDigits dfs r c vs s1

/-- The closure `dfs` of `BacktrackingSolver.Unique`. -/
def uniqueDfs (ctx : Ctx) : Nat → BTState → Option (Bool × BTState)
  | 0, _ => none
  | fuel + 1, s =>
    let s1 := { s with tick := s.tick + 1 }
    if ctx.done s.tick || decide (s.count ≥ 2) then some (true, s1)
    else
      match findEmpty s1.grid with
      | none =>
        let s2 := { s1 with count := s1.count + 1 }
        some (decide (s2.count ≥ 2), s2)
      | some (r, c) => uniqueDigits (uniqueDfs ctx fuel) r c digits s1

/-- Method `BacktrackingSolver.Unique`. -/
def BacktrackingSolver.Unique (ctx : Ctx) (tick : Nat) (b : Board) : Option UniqueResult :=
  match uniqueDfs ctx searchFuel { grid := b.Values, nodes := 0, count := 0, tick := tick } with
  | none => none
  | some (_, s) =>
    some { unique := decide (s.count = 1), stats := { Nodes := s.nodes }, err := none,
           tick := s.tick }

/-! ## Validator (`internal/validator/validator.go`) -/

/-- One step of a scan of `Validate`: the cell `p` against the bit mask `m` of the digits
already seen in the unit; `bit := 1 << val` is a 64-bit `int`. -/
def scanCell (b : Grid) (acc : Nat × List (Nat × Nat)) (p : Nat × Nat) :
    Nat × List (Nat × Nat) :=
  let val := b.get p.1 p.2
  if val = 0 then acc
  else
    let bit := (1 <<< val) % 2 ^ 64
    (acc.1 ||| bit, if acc.1 &&& bit ≠ 0 then acc.2 ++ [p] else acc.2)

/-- The scan of one unit, `m := 0` at its start, appending to `conf`. -/
def scanUnit (b : Grid) (unit : List (Nat × Nat)) (conf : List (Nat × Nat)) :
    List (Nat × Nat) :=
  (unit.foldl (scanCell b) (0, conf)).2

/-- The cells of row `r`, of column `c`, and of the box `(br, bc)`, in scan order. -/
def rowCells (r : Nat) : List (Nat × Nat) := (List.range 9).map (fun c => (r, c))
/-- The cells of column `c` in scan order. -/
def colCells (c : Nat) : List (Nat × Nat) := (List.range 9).map (fun r => (r, c))
/-- The cells of the box `(br, bc)` in scan order. -/
def boxCells (br bc : Nat) : List (Nat × Nat) :=
  (List.range 3).flatMap (fun dr => (List.range 3).map (fun dc => (br * 3 + dr, bc * 3 + dc)))

/-- The 27 units in the order `Validate` scans them. -/
def units : List (List (Nat × Nat)) :=
  (List.range 9).map rowCells ++ (List.range 9).map colCells ++
  (List.range 3).flatMap (fun br => (List.range 3).map (fun bc => boxCells br bc))

/-- Method `FastValidator.Validate`: `(ok, conflicts, err)`. -/
def FastValidator.Validate (b : Board) : Bool × List (Nat × Nat) × Option Err :=
  let conf := units.foldl (fun conf u => scanUnit b.Values u conf) []
  (conf.length == 0, conf, none)

/-! ## Generator (`internal/generator`) -/

/-- Function `targetGivens`. -/
def targetGivens (d : Difficulty) : Nat :=
  if d = Easy then 40
  else if d = Medium then 34
  else if d = Hard then 28
  else 24

/-- Function `countGivens`. -/
def countGivens (b : Grid) : Nat :=
  cells.foldl (fun n p => if b.get p.1 p.2 ≠ 0 then n + 1 else n) 0

/-- Function `allowed` of the generator. -/
def allowed (b : Grid) (r c v : Nat) : Bool :=
  (List.range 9).all (fun i => !(b.get r i == v || b.get i c == v)) &&
  (List.range 3).all (fun dr => (List.range 3).all (fun dc =>
    !(b.get ((r / 3) * 3 + dr) ((c / 3) * 3 + dc) == v)))

/-- The random source `*rand.Rand`, as far as the generator uses it: the call number `k`
of `rng.Shuffle(n, swap)` calls `swap(i % n, j % n)` for the pairs of `swaps k`, in
order. (The library draws them from the seed; here they are arbitrary.) -/
structure Rng where
  swaps : Nat → List (Nat × Nat)

/-- Swap the entries `i` and `j` of a list. -/
def swapAt (l : List Nat) (i j : Nat) : List Nat :=
  (l.set i (l.getD j 0)).set j (l.getD i 0)

/-- Call number `k` of `rng.Shuffle(len(l), swap)` on the list `l`. -/
def Rng.shuffle (rng : Rng) (k : Nat) (l : List Nat) : List Nat :=
  (rng.swaps k).foldl (fun acc p => swapAt acc (p.1 % l.length) (p.2 % l.length)) l

/-- The variables of `fillRandom`: the grid, the array `nums`, the number of shuffles
made, and the number of context polls made. -/
structure FillState where
  grid : Grid
  nums : List Nat
  shuffles : Nat
  tick : Nat

/-- The loop `for _, v := range nums` of `fillRandom` (over a copy of `nums`), given the
recursive call. -/
def fillDigits (dfs : FillState → Option (Bool × FillState)) (r c : Nat) :
    List Nat → FillState → Option (Bool × FillState)
  | [], s => some (false, s)
  | v :: vs, s =>
    if allowed s.grid r c v then
      match dfs { s with grid := s.grid.set r c v } with
      | none => none
      | some (true, s2) => some (true, s2)
      | some (false, s2) => fillDigits dfs r c vs { s2 with grid := s2.grid.set r c 0 }
    else fillDigits dfs r c vs s

/-- The closure `dfs` of `fillRandom`. -/
def fillDfs (ctx : Ctx) (rng : Rng) : Nat → Nat → Nat → FillState → Option (Bool × FillState)
  | 0, _, _, _ => none
  | fuel + 1, r, c, s =>
    let s1 := { s with tick := s.tick + 1 }
    if ctx.done s.tick then some (false, s1)
    else if r = 9 then some (true, s1)
    else
      let nr := if c + 1 = 9 then r + 1 else r
      let nc := if c + 1 = 9 then 0 else c + 1
      let s2 := { s1 with nums := rng.shuffle s1.shuffles s1.nums, shuffles := s1.shuffles + 1 }
      fillDigits (fillDfs ctx rng fuel nr nc) r c s2.nums s2

/-- Function `fillRandom`: the verdict and the final state. -/
def fillRandom (ctx : Ctx) (rng : Rng) (tick : Nat) (grid : Grid) :
    Option (Bool × FillState) :=
  fillDfs ctx rng searchFuel 0 0
    { grid := grid, nums := (List.range 9).map (fun i => i + 1), shuffles := 0, tick := tick }

/-- The interface `ports.Solver`: each method gets the context and the number of polls
the context has answered so far. -/
structure Solver where
  Solve : Ctx → Nat → Board → Option SolveResult
  Unique : Ctx → Nat → Board → Option UniqueResult

/-- The type `UniqueGenerator`. -/
structure UniqueGenerator where
  Solver : Solver

/-- What `Generate` reads from outside: the random source made from each seed, the
context, and the clock, `expired i` telling whether `time.Now().After(deadline)` holds at
the iteration number `i` of the carving loop. -/
structure GenEnv where
  rng : Int → Rng
  ctx : Ctx
  expired : Nat → Bool

/-- The variables of the carving loop, with the number of polls the context has answered
and a counter of the calls of `Solver.Unique` made so far (`checks` is not a variable of
the code; it only counts). -/
structure CarveState where
  puz : Grid
  fixed : Mask
  nodes : Nat
  tick : Nat
  checks : Nat

/-- The carving loop `for _, pos := range positions` of `Generate`; `i` is the number of
the iteration. -/
def carve (g : UniqueGenerator) (env : GenEnv) (target : Nat) :
    List Nat → Nat → CarveState → Option CarveState
  | [], _, s => some s
  | pos :: rest, i, s =>
    if env.expired i then some s
    else if countGivens s.puz ≤ target then some s
    else
      let r := pos / 9
      let c := pos % 9
      if s.puz.get r c = 0 then carve g env target rest (i + 1) s
      else
        let old := s.puz.get r c
        let puz := s.puz.set r c 0
        let fixed := s.fixed.set r c false
        match g.Solver.Unique env.ctx s.tick { Values := puz, Fixed := Mask.zero } with
        | none => none
        | some res =>
          let nodes := s.nodes + res.stats.Nodes
          if !res.unique then
            carve g env target rest (i + 1)
              { puz := puz.set r c old, fixed := fixed.set r c true, nodes := nodes,
                tick := res.tick, checks := s.checks + 1 }
          else
            carve g env target rest (i + 1)
              { puz := puz, fixed := fixed, nodes := nodes, tick := res.tick,
                checks := s.checks + 1 }

/-- What `Generate` returns. -/
structure GenResult where
  puzzle : Except Err Puzzle
  stats : Stats

/-- Method `UniqueGenerator.Generate`. -/
def UniqueGenerator.Generate (g : UniqueGenerator) (env : GenEnv) (seed : Int)
    (diff : Difficulty) : Option GenResult :=
  let rng := env.rng seed
  match fillRandom env.ctx rng 0 Grid.zero with
  | none => none
  | some (false, _) => some { puzzle := .error Err.contextCanceled, stats := { Nodes := 0 } }
  | some (true, fs) =>
    let positions := rng.shuffle fs.shuffles (List.range 81)
    let target := targetGivens diff
    match carve g env target positions 0
        { puz := fs.grid, fixed := fun _ _ => true, nodes := 0, tick := fs.tick,
          checks := 0 } with
    | none => none
    | some s =>
      some { puzzle := .ok { Seed := seed, Difficulty := diff,
                             Board := { Values := s.puz, Fixed := s.fixed } },
             stats := { Nodes := s.nodes } }

end Sudoku

namespace Sudoku

/-! ## Hinter (`internal/hint/singles.go`) -/

/-- The type `domain.StrategyTier` is an `int`. -/
abbrev StrategyTier := Int

/-- Constant `domain.StrategySingles`. -/
def StrategySingles : StrategyTier := 0
/-- Constant `domain.StrategyPairs`. -/
def StrategyPairs : StrategyTier := 1
/-- Constant `domain.StrategyAdvanced`. -/
def StrategyAdvanced : StrategyTier := 2
/-- Constant `domain.StrategyXWing`. -/
def StrategyXWing : StrategyTier := 3

/-- The type `domain.Hint`. -/
structure Hint where
  Message : String
  Cells : List (Nat × Nat)
  Strategy : StrategyTier
deriving DecidableEq, Repr

/-- The zero value `domain.Hint{}`. -/
def Hint.zero : Hint := { Message := "", Cells := [], Strategy := 0 }

/-- Function `allowed` of the package `hint`. -/
def hint.allowed (b : Grid) (r c v : Nat) : Bool :=
  (List.range 9).all (fun i => !(b.get r i == v || b.get i c == v)) &&
  (List.range 3).all (fun dr => (List.range 3).all (fun dc =>
    !(b.get ((r / 3) * 3 + dr) ((c / 3) * 3 + dc) == v)))

/-- The loop `for v := uint8(1); v <= 9; v++` of `soleCandidate` with its variables `count`
and `last`, and the `return last, count == 1` after it. -/
def hint.soleLoop (b : Grid) (r c : Nat) : List Nat → Nat → Nat → Nat × Bool
  | [], count, last => (last, count == 1)
  | v :: vs, count, last =>
    if hint.allowed b r c v then
      if count + 1 > 1 then (0, false) else hint.soleLoop b r c vs (count + 1) v
    else hint.soleLoop b r c vs count last

/-- Function `soleCandidate`. -/
def hint.soleCandidate (b : Grid) (r c : Nat) : Nat × Bool :=
  hint.soleLoop b r c digits 0 0

/-- The loops `for r ... for c ...` of `Singles.Hint` over the cells still to visit. -/
def hint.scan (b : Grid) : List (Nat × Nat) → Hint × Bool × Option Err
  | [] => (Hint.zero, false, none)
  | p :: rest =>
    if b.get p.1 p.2 ≠ 0 then hint.scan b rest
    else
      match hint.soleCandidate b p.1 p.2 with
      | (v, true) =>
        ({ Message := "Single: only " ++ toString v ++ " fits here", Cells := [(p.1, p.2)],
           Strategy := StrategySingles }, true, none)
      | (_, false) => hint.scan b rest

/-- Method `Singles.Hint`: the hint, whether one was found, and the error (always nil). -/
def Singles.Hint (b : Board) (max : StrategyTier) : Hint × Bool × Option Err :=
  if max < StrategySingles then (Hint.zero, false, none)
  else hint.scan b.Values cells

end Sudoku

namespace Sudoku

/-! ## The arena: arrays indexed by addresses

An array of the arena is a complete binary tree of depth 12 for the addresses below 4096
(the solver uses the addresses `0 .. 3240`), and a function for the addresses above. -/

/-- The complete binary trees of a given depth, with values at the leaves. -/
def PTree (α : Type) : Nat → Type
  | 0 => α
  | n + 1 => PTree α n × PTree α n

/-- The tree of depth `n` with the same value at every leaf. -/
def PTree.const {α : Type} (v : α) : (n : Nat) → PTree α n
  | 0 => v
  | n + 1 => (PTree.const v n, PTree.const v n)

/-- The leaf with index `a`, lowest bit first. -/
def PTree.get {α : Type} : (n : Nat) → PTree α n → Nat → α
  | 0, t, _ => t
  | n + 1, t, a => if a % 2 = 0 then PTree.get n t.1 (a / 2) else PTree.get n t.2 (a / 2)

/-- Replace the leaf with index `a`. -/
def PTree.set {α : Type} : (n : Nat) → PTree α n → Nat → α → PTree α n
  | 0, _, _, v => v
  | n + 1, t, a, v =>
    if a % 2 = 0 then (PTree.set n t.1 (a / 2) v, t.2) else (t.1, PTree.set n t.2 (a / 2) v)

theorem PTree.tree_get_const {α : Type} (v : α) : ∀ (n a : Nat), PTree.get n (PTree.const v n) a = v
  | 0, _ => rfl
  | n + 1, a => by
    simp only [PTree.get, PTree.const]
    split <;> exact PTree.tree_get_const v n _

theorem PTree.tree_get_set {α : Type} : ∀ (n : Nat) (t : PTree α n) (a b : Nat) (v : α),
    a < 2 ^ n → b < 2 ^ n →
    PTree.get n (PTree.set n t a v) b = if b = a then v else PTree.get n t b
  | 0, t, a, b, v, ha, hb => by
    have : b = a := by simp at ha hb; omega
    simp [PTree.get, PTree.set, this]
  | n + 1, t, a, b, v, ha, hb => by
    have ha2 : a / 2 < 2 ^ n := by rw [Nat.pow_succ] at ha; omega
    have hb2 : b / 2 < 2 ^ n := by rw [Nat.pow_succ] at hb; omega
    simp only [PTree.get, PTree.set]
    by_cases h1 : a % 2 = 0 <;> by_cases h2 : b % 2 = 0 <;>
      simp only [h1, h2, if_true, if_false]
    · rw [PTree.tree_get_set n _ _ _ _ ha2 hb2]
      by_cases h : b = a
      · simp [h]
      · have : b / 2 ≠ a / 2 := by omega
        simp [h, this]
    · have : b ≠ a := by omega
      simp [this]
    · have : b ≠ a := by omega
      simp [this]
    · rw [PTree.tree_get_set n _ _ _ _ ha2 hb2]
      by_cases h : b = a
      · simp [h]
      · have : b / 2 ≠ a / 2 := by omega
        simp [h, this]

theorem PTree.tree_ext {α : Type} : ∀ (n : Nat) (t u : PTree α n),
    (∀ a, a < 2 ^ n → PTree.get n t a = PTree.get n u a) → t = u
  | 0, t, u, h => h 0 (by simp)
  | n + 1, t, u, h => by
    apply Prod.ext
    · apply PTree.tree_ext n
      intro a ha
      have := h (2 * a) (by rw [Nat.pow_succ]; omega)
      simp only [PTree.get, Nat.mul_mod_right, if_true] at this
      rwa [Nat.mul_div_cancel_left a (by omega : 0 < 2)] at this
    · apply PTree.tree_ext n
      intro a ha
      have := h (2 * a + 1) (by rw [Nat.pow_succ]; omega)
      have h1 : (2 * a + 1) % 2 ≠ 0 := by omega
      have h2 : (2 * a + 1) / 2 = a := by omega
      simp only [PTree.get, h1, if_false, h2] at this
      exact this

attribute [irreducible] PTree

/-- An array of the arena. -/
structure Mem (α : Type) where
  low : PTree α 12
  high : Nat → α

/-- The array with the same value everywhere. -/
def Mem.const {α : Type} (v : α) : Mem α := { low := PTree.const v 12, high := fun _ => v }

/-- Read `m[a]`. -/
def Mem.get {α : Type} (m : Mem α) (a : Nat) : α :=
  if a < 4096 then PTree.get 12 m.low a else m.high (a - 4096)

/-- Write `m[a] = v`. -/
def Mem.set {α : Type} (m : Mem α) (a : Nat) (v : α) : Mem α :=
  if a < 4096 then { m with low := PTree.set 12 m.low a v }
  else { m with high := Function.update m.high (a - 4096) v }

theorem pow12 : (2 : Nat) ^ 12 = 4096 := by norm_num

@[simp] theorem Mem.get_const {α : Type} (v : α) (a : Nat) : (Mem.const v).get a = v := by
  unfold Mem.get Mem.const
  split
  · exact PTree.tree_get_const v 12 a
  · rfl

theorem Mem.get_set {α : Type} (m : Mem α) (a b : Nat) (v : α) :
    (m.set a v).get b = if b = a then v else m.get b := by
  unfold Mem.set
  by_cases ha : a < 4096
  · rw [if_pos ha]
    unfold Mem.get
    by_cases hb : b < 4096
    · rw [if_pos hb, if_pos hb]
      exact PTree.tree_get_set 12 m.low a b v (by rw [pow12]; exact ha) (by rw [pow12]; exact hb)
    · rw [if_neg hb, if_neg hb]
      have : b ≠ a := by omega
      rw [if_neg this]
  · rw [if_neg ha]
    unfold Mem.get
    by_cases hb : b < 4096
    · rw [if_pos hb, if_pos hb]
      have : b ≠ a := by omega
      rw [if_neg this]
    · rw [if_neg hb, if_neg hb]
      by_cases h : b = a
      · subst h
        rw [if_pos rfl]
        generalize b - 4096 = k
        exact Function.update_same _ _ _
      · have : b - 4096 ≠ a - 4096 := by omega
        rw [if_neg h]
        generalize a - 4096 = ka at this ⊢
        generalize b - 4096 = kb at this ⊢
        exact Function.update_noteq this _ _

@[simp] theorem Mem.get_set_same {α : Type} (m : Mem α) (a : Nat) (v : α) :
    (m.set a v).get a = v := by
  rw [Mem.get_set, if_pos rfl]

theorem Mem.get_set_ne {α : Type} (m : Mem α) {a b : Nat} (v : α) (h : b ≠ a) :
    (m.set a v).get b = m.get b := by
  rw [Mem.get_set, if_neg h]

theorem Mem.ext {α : Type} (m m' : Mem α) (h : ∀ a, m.get a = m'.get a) : m = m' := by
  obtain ⟨l, hi⟩ := m
  obtain ⟨l', hi'⟩ := m'
  have h1 : l = l' := by
    apply PTree.tree_ext 12
    intro a ha
    have := h a
    have ha' : a < 4096 := by rw [pow12] at ha; exact ha
    unfold Mem.get at this
    rw [if_pos ha', if_pos ha'] at this
    exact this
  have h2 : hi = hi' := by
    funext a
    have := h (a + 4096)
    unfold Mem.get at this
    have hn : ¬ a + 4096 < 4096 := by omega
    rw [if_neg hn, if_neg hn, Nat.add_sub_cancel] at this
    exact this
  rw [h1, h2]

theorem Mem.set_get_self {α : Type} (m : Mem α) (a : Nat) : m.set a (m.get a) = m := by
  apply Mem.ext
  intro b
  rw [Mem.get_set]
  split
  · rename_i h; rw [h]
  · rfl

theorem Mem.set_set {α : Type} (m : Mem α) (a : Nat) (v w : α) :
    (m.set a v).set a w = m.set a w := by
  apply Mem.ext
  intro b
  simp only [Mem.get_set]
  split <;> rfl

attribute [irreducible] Mem.get Mem.set Mem.const

end Sudoku

namespace Sudoku

/-! ## Exact-cover solver (`internal/solver/dlx.go`)

The nodes live in an arena addressed by natural numbers: the column `i` (and the node
embedded in it) has the address `i`, and the node number `k` of the candidate row `row` has
the address `nCols + 4 * row + k`. A nil pointer is the address `nilPtr`, outside the
arena. -/

/-- Constant `nSize`. -/
def nSize : Nat := 9
/-- Constant `nCells`. -/
def nCells : Nat := nSize * nSize
/-- Constant `nCols`. -/
def nCols : Nat := 4 * nCells
/-- Constant `nRows`. -/
def nRows : Nat := nCells * nSize
/-- Constant `colCell`. -/
def colCell : Nat := 0
/-- Constant `colRowNum`. -/
def colRowNum : Nat := 81
/-- Constant `colColNum`. -/
def colColNum : Nat := 162
/-- Constant `colBoxNum`. -/
def colBoxNum : Nat := 243

/-- The address of the node number `k` of the candidate row `row`. -/
def nodeAddr (row k : Nat) : Nat := nCols + 4 * row + k

/-- The nil pointer. -/
def nilPtr : Nat := nCols + 4 * nRows

/-- The types `node`, `column` and `dlx`, field by field over the arena, with the counter
`found` that `search` updates through a pointer and the number of context polls made. -/
structure DLX where
  left : Mem Nat
  right : Mem Nat
  up : Mem Nat
  down : Mem Nat
  col : Mem Nat
  rowIdx : Mem Nat
  size : Mem Int
  name : Mem Nat
  active : Mem Bool
  rowHead : Mem (Option Nat)
  sol : Mem (Option Nat)
  solLen : Nat
  nodes : Nat
  activeCnt : Int
  found : Nat
  tick : Nat

/-- The zero value `&dlx{}` over an arena of unallocated nodes. -/
def DLX.zero : DLX where
  left := Mem.const nilPtr
  right := Mem.const nilPtr
  up := Mem.const nilPtr
  down := Mem.const nilPtr
  col := Mem.const nilPtr
  rowIdx := Mem.const 0
  size := Mem.const 0
  name := Mem.const 0
  active := Mem.const false
  rowHead := Mem.const none
  sol := Mem.const none
  solLen := 0
  nodes := 0
  activeCnt := 0
  found := 0
  tick := 0

/-- Function `rowIndex`. -/
def rowIndex (r c v : Nat) : Nat := (r * nSize + c) * nSize + (v - 1)

/-- Function `rowColumns`. -/
def rowColumns (r c v : Nat) : List Nat :=
  let cell := colCell + r * nSize + c
  let rowN := colRowNum + r * nSize + (v - 1)
  let colN := colColNum + c * nSize + (v - 1)
  let box := (r / 3) * 3 + (c / 3)
  let boxN := colBoxNum + box * nSize + (v - 1)
  [cell, rowN, colN, boxN]

/-- Function `decodeRow`. -/
def decodeRow (row : Nat) : Nat × Nat × Nat :=
  let cell := row / nSize
  (cell / nSize, cell % nSize, (row % nSize) + 1)

/-- The first loop body of `newDLX`: the column `i`. -/
def addColumn (d : DLX) (i : Nat) : DLX :=
  { d with
    name := d.name.set i i
    active := d.active.set i true
    up := d.up.set i i
    down := d.down.set i i }

/-- The innermost loop body of `newDLX`: the new node `n` of the row `row` goes to the
bottom of the column `colID` and into the ring of its row, after `prev`. -/
def linkNode (d : DLX) (row colID n : Nat) (prev : Option Nat) : DLX :=
  let d1 := { d with col := d.col.set n colID,
                     rowIdx := d.rowIdx.set n row }
  let d2 := { d1 with down := d1.down.set n colID }
  let d3 := { d2 with up := d2.up.set n (d2.up.get colID) }
  let d4 := { d3 with down := d3.down.set (d3.up.get colID) n }
  let d5 := { d4 with up := d4.up.set colID n }
  let d6 := { d5 with size := d5.size.set colID (d5.size.get colID + 1) }
  match prev with
  | none => { d6 with left := d6.left.set n n,
                      right := d6.right.set n n }
  | some p =>
    let d7 := { d6 with left := d6.left.set n p }
    let d8 := { d7 with right := d7.right.set n (d7.right.get p) }
    let d9 := { d8 with left := d8.left.set (d8.right.get p) n }
    { d9 with right := d9.right.set p n }

/-- The loop `for _, colID := range cols` of `newDLX`, from the node number `k` on. -/
def linkRow (row : Nat) : List Nat → Nat → Option Nat → DLX → DLX
  | [], _, _, d => d
  | colID :: rest, k, prev, d =>
    linkRow row rest (k + 1) (some (nodeAddr row k)) (linkNode d row colID (nodeAddr row k) prev)

/-- The body of the loop over `(r, c, v)` of `newDLX`. -/
def buildRow (d : DLX) (p : Nat × Nat × Nat) : DLX :=
  let row := rowIndex p.1 p.2.1 p.2.2
  let d1 := linkRow row (rowColumns p.1 p.2.1 p.2.2) 0 none d
  { d1 with rowHead := d1.rowHead.set row (some (nodeAddr row 0)) }

/-- The candidates `(r, c, v)` in the order of the three nested loops of `newDLX`. -/
def candidates : List (Nat × Nat × Nat) :=
  (List.range nSize).flatMap (fun r => (List.range nSize).flatMap (fun c =>
    (List.range' 1 nSize).map (fun v => (r, c, v))))

/-- Function `newDLX`. -/
def newDLX : DLX :=
  let d0 := (List.range nCols).foldl addColumn DLX.zero
  candidates.foldl buildRow { d0 with activeCnt := nCols }

/-- The body of the inner loop of `cover`. -/
def unlinkNode (d : DLX) (j : Nat) : DLX :=
  let d1 := { d with up := d.up.set (d.down.get j) (d.up.get j) }
  let d2 := { d1 with down := d1.down.set (d1.up.get j) (d1.down.get j) }
  { d2 with size := d2.size.set (d2.col.get j) (d2.size.get (d2.col.get j) - 1) }

/-- The inner loop `for j := i.right; j != i; j = j.right` of `cover`. -/
def coverRow (i : Nat) : Nat → Nat → DLX → Option DLX
  | 0, _, _ => none
  | fuel + 1, j, d =>
    if j = i then some d
    else coverRow i fuel ((unlinkNode d j).right.get j) (unlinkNode d j)

/-- The outer loop `for i := col.down; i != &col.node; i = i.down` of `cover`. -/
def coverLoop (fuel : Nat) (col : Nat) : Nat → Nat → DLX → Option DLX
  | 0, _, _ => none
  | n + 1, i, d =>
    if i = col then some d
    else
      match coverRow i fuel (d.right.get i) d with
      | none => none
      | some d1 => coverLoop fuel col n (d1.down.get i) d1

/-- Function `cover`. -/
def cover (fuel : Nat) (col : Nat) (d : DLX) : Option DLX :=
  let d1 := if d.active.get col then
      { d with active := d.active.set col false, activeCnt := d.activeCnt - 1 }
    else d
  coverLoop fuel col fuel (d1.down.get col) d1

/-- The body of the inner loop of `uncover`. -/
def relinkNode (d : DLX) (j : Nat) : DLX :=
  let d1 := { d with size := d.size.set (d.col.get j) (d.size.get (d.col.get j) + 1) }
  let d2 := { d1 with up := d1.up.set (d1.down.get j) j }
  { d2 with down := d2.down.set (d2.up.get j) j }

/-- The inner loop `for j := i.left; j != i; j = j.left` of `uncover`. -/
def uncoverRow (i : Nat) : Nat → Nat → DLX → Option DLX
  | 0, _, _ => none
  | fuel + 1, j, d =>
    if j = i then some d
    else uncoverRow i fuel ((relinkNode d j).left.get j) (relinkNode d j)

/-- The outer loop `for i := col.up; i != &col.node; i = i.up` of `uncover`. -/
def uncoverLoop (fuel : Nat) (col : Nat) : Nat → Nat → DLX → Option DLX
  | 0, _, _ => none
  | n + 1, i, d =>
    if i = col then some d
    else
      match uncoverRow i fuel (d.left.get i) d with
      | none => none
      | some d1 => uncoverLoop fuel col n (d1.up.get i) d1

/-- Function `uncover`. -/
def uncover (fuel : Nat) (col : Nat) (d : DLX) : Option DLX :=
  match uncoverLoop fuel col fuel (d.up.get col) d with
  | none => none
  | some d1 =>
    some (if !d1.active.get col then
        { d1 with active := d1.active.set col true, activeCnt := d1.activeCnt + 1 }
      else d1)

/-- The loop of `chooseColumn` over the columns still to scan. -/
def chooseLoop (d : DLX) : List Nat → Option Nat → Option Nat
  | [], best => best
  | c :: rest, best =>
    if d.active.get c then
      if (match best with
          | none => true
          | some b => decide (d.size.get c < d.size.get b)) then
        if d.size.get c = 0 then some c else chooseLoop d rest (some c)
      else chooseLoop d rest best
    else chooseLoop d rest best

/-- Function `chooseColumn`: the active column of smallest size, nil when none is active. -/
def chooseColumn (d : DLX) : Option Nat := chooseLoop d (List.range nCols) none

/-- The loop `for j := r.right; j != r; j = j.right` of `search` that covers the other
columns of the row `r`. -/
def coverOthers (fuel : Nat) (r : Nat) : Nat → Nat → DLX → Option DLX
  | 0, _, _ => none
  | n + 1, j, d =>
    if j = r then some d
    else if d.active.get (d.col.get j) then
      match cover fuel (d.col.get j) d with
      | none => none
      | some d1 => coverOthers fuel r n (d1.right.get j) d1
    else coverOthers fuel r n (d.right.get j) d

/-- The loop `for j := r.left; j != r; j = j.left` of `search` that uncovers the other
columns of the row `r`. -/
def uncoverOthers (fuel : Nat) (r : Nat) : Nat → Nat → DLX → Option DLX
  | 0, _, _ => none
  | n + 1, j, d =>
    if j = r then some d
    else
      match uncover fuel (d.col.get j) d with
      | none => none
      | some d1 => uncoverOthers fuel r n (d1.left.get j) d1

/-- The loop `for r := c.down; r != &c.node; r = r.down` of `search`, with the final
`uncover(c, d)`, given the recursive call. -/
def searchRows (fuel : Nat) (dfs : DLX → Option (Bool × DLX)) (c k : Nat) :
    Nat → Nat → DLX → Option (Bool × DLX)
  | 0, _, _ => none
  | n + 1, r, d =>
    if r = c then
      match uncover fuel c d with
      | none => none
      | some d1 => some (false, d1)
    else
      let d1 := { d with nodes := d.nodes + 1 }
      let d2 := { d1 with sol := d1.sol.set k (some r) }
      match coverOthers fuel r fuel (d2.right.get r) d2 with
      | none => none
      | some d3 =>
        match dfs d3 with
        | none => none
        | some (true, d4) =>
          match uncoverOthers fuel r fuel (d4.left.get r) d4 with
          | none => none
          | some d5 =>
            match uncover fuel c d5 with
            | none => none
            | some d6 => some (true, d6)
        | some (false, d4) =>
          match uncoverOthers fuel r fuel (d4.left.get r) d4 with
          | none => none
          | some d5 => searchRows fuel dfs c k n (d5.down.get r) d5

/-- Method `dlx.search`; `fuel` bounds the pointer loops and `depth` the recursion. -/
def search (ctx : Ctx) (fuel : Nat) (wantCount : Nat) : Nat → Nat → DLX → Option (Bool × DLX)
  | 0, _, _ => none
  | depth + 1, k, d =>
    let d1 := { d with tick := d.tick + 1 }
    if ctx.done d.tick then some (true, d1)
    else if d1.activeCnt = 0 then
      let d2 := { d1 with solLen := k, found := d1.found + 1 }
      some (decide (d2.found ≥ wantCount), d2)
    else
      match chooseColumn d1 with
      | none => some (false, d1)
      | some c =>
        if d1.size.get c = 0 then some (false, d1)
        else
          match cover fuel c d1 with
          | none => none
          | some d2 =>
            searchRows fuel (search ctx fuel wantCount depth (k + 1)) c k fuel (d2.down.get c) d2

/-- The loop `for j := head; ; j = j.right` of `applyGiven`. -/
def applyLoop (fuel : Nat) (head : Nat) : Nat → Nat → DLX → Option DLX
  | 0, _, _ => none
  | n + 1, j, d =>
    match cover fuel (d.col.get j) d with
    | none => none
    | some d1 =>
      if d1.right.get j = head then some d1 else applyLoop fuel head n (d1.right.get j) d1

/-- Method `dlx.applyGiven`. -/
def applyGiven (fuel : Nat) (d : DLX) (r c v : Nat) : Option (Except Err DLX) :=
  match d.rowHead.get (rowIndex r c v) with
  | none => some (.error Err.invalidRowMapping)
  | some head =>
    match applyLoop fuel head fuel head d with
    | none => none
    | some d1 => some (.ok d1)

/-- The loops `for r ... for c ...` of `Solve` and `Unique` that apply the givens. -/
def applyGivens (fuel : Nat) (b : Grid) : List (Nat × Nat) → DLX → Option (Except Err DLX)
  | [], d => some (.ok d)
  | p :: rest, d =>
    let v := b.get p.1 p.2
    if v > 0 then
      if v < 1 ∨ v > 9 then some (.error Err.invalidGiven)
      else
        match applyGiven fuel d p.1 p.2 v with
        | none => none
        | some (.error e) => some (.error e)
        | some (.ok d1) => applyGivens fuel b rest d1
    else applyGivens fuel b rest d

/-- The loop of `Solve` that writes the chosen rows `sol[i]`, `i < solLen`, into the
board. -/
def reconstruct (d : DLX) : Nat → Nat → Grid → Option Grid
  | 0, _, out => some out
  | n + 1, i, out =>
    match d.sol.get i with
    | none => none
    | some node =>
      let p := decodeRow (d.rowIdx.get node)
      reconstruct d n (i + 1) (out.set p.1 p.2.1 p.2.2)

/-- Bound on the number of iterations of a pointer loop: the size of the arena. -/
def loopFuel : Nat := nCols + 4 * nRows + 1

/-- Method `DLXSolver.Solve`, with explicit bounds for the loops and the recursion. -/
def DLXSolver.solveWith (fuel depth : Nat) (ctx : Ctx) (tick : Nat) (b : Board) :
    Option SolveResult :=
  match applyGivens fuel b.Values cells { newDLX with tick := tick } with
  | none => none
  | some (.error e) => some { board := .error e, stats := { Nodes := 0 }, tick := tick }
  | some (.ok d) =>
    match search ctx fuel 1 depth 0 { d with found := 0 } with
    | none => none
    | some (_, d1) =>
      if d1.found < 1 then
        some { board := .error Err.noSolution, stats := { Nodes := d1.nodes }, tick := d1.tick }
      else
        match reconstruct d1 d1.solLen 0 Grid.zero with
        | none => none
        | some out =>
          some { board := .ok { Values := out, Fixed := Mask.zero },
                 stats := { Nodes := d1.nodes }, tick := d1.tick }

/-- Method `DLXSolver.Solve`. -/
def DLXSolver.Solve (ctx : Ctx) (tick : Nat) (b : Board) : Option SolveResult :=
  DLXSolver.solveWith loopFuel searchFuel ctx tick b

/-- Method `DLXSolver.Unique`, with explicit bounds for the loops and the recursion. -/
def DLXSolver.uniqueWith (fuel depth : Nat) (ctx : Ctx) (tick : Nat) (b : Board) :
    Option UniqueResult :=
  match applyGivens fuel b.Values cells { newDLX with tick := tick } with
  | none => none
  | some (.error e) =>
    some { unique := false, stats := { Nodes := 0 }, err := some e, tick := tick }
  | some (.ok d) =>
    match search ctx fuel 2 depth 0 { d with found := 0 } with
    | none => none
    | some (_, d1) =>
      some { unique := decide (d1.found = 1), stats := { Nodes := d1.nodes }, err := none,
             tick := d1.tick }

/-- Method `DLXSolver.Unique`. -/
def DLXSolver.Unique (ctx : Ctx) (tick : Nat) (b : Board) : Option UniqueResult :=
  DLXSolver.uniqueWith loopFuel searchFuel ctx tick b

/-- Function `NewDLXSolver`: the exact-cover solver as a `ports.Solver`. -/
def NewDLXSolver : Solver := { Solve := DLXSolver.Solve, Unique := DLXSolver.Unique }

/-- Function `NewBacktrackingSolver`: the backtracking solver as a `ports.Solver`. -/
def NewBacktrackingSolver : Solver :=
  { Solve := BacktrackingSolver.Solve, Unique := BacktrackingSolver.Unique }

end Sudoku

namespace Sudoku

/-! ## Specification vocabulary -/

/-- Two different cells that share a row, a column or a 3×3 box. -/
def Peers (r c r' c' : Fin 9) : Prop :=
  (r ≠ r' ∨ c ≠ c') ∧ (r = r' ∨ c = c' ∨ (r.val / 3 = r'.val / 3 ∧ c.val / 3 = c'.val / 3))

instance (r c r' c' : Fin 9) : Decidable (Peers r c r' c') := by
  unfold Peers; infer_instance

/-- No non-empty value is repeated in a row, a column or a box. -/
def NoRepeat (g : Grid) : Prop :=
  ∀ r c r' c', Peers r c r' c' → g r c ≠ 0 → g r c ≠ g r' c'

/-- The non-empty cells hold digits 1-9 with no repeat in any row, column or box. -/
def ValidGivens (g : Grid) : Prop := (∀ r c, g r c ≤ 9) ∧ NoRepeat g

/-- No cell is empty. -/
def Full (g : Grid) : Prop := ∀ r c, g r c ≠ 0

/-- The grid `h` agrees with `g` on every non-empty cell of `g`. -/
def Extends (g h : Grid) : Prop := ∀ r c, g r c ≠ 0 → h r c = g r c

/-- Every digit 1-9 occurs exactly once in every row, every column and every box. -/
def Solved (h : Grid) : Prop :=
  ∀ d, 1 ≤ d → d ≤ 9 →
    (∀ r : Fin 9, ∃! c : Fin 9, h r c = d) ∧
    (∀ c : Fin 9, ∃! r : Fin 9, h r c = d) ∧
    (∀ br bc : Fin 3, ∃! p : Fin 3 × Fin 3,
      h ⟨3 * br.val + p.1.val, by omega⟩ ⟨3 * bc.val + p.2.val, by omega⟩ = d)

/-- The grid `h` is a valid completion of `g`: a full grid extending the givens of `g` with
each digit once per row, column and box. -/
def IsCompletion (g h : Grid) : Prop := Solved h ∧ Extends g h

/-- The set of valid completions of a grid. -/
def completions (g : Grid) : Set Grid := {h | IsCompletion g h}

/-- The number of empty cells. -/
def empties (g : Grid) : Nat :=
  (Finset.univ.filter (fun p : Fin 9 × Fin 9 => g p.1 p.2 = 0)).card

instance (g : Grid) : Decidable (NoRepeat g) := by unfold NoRepeat; infer_instance
instance (g : Grid) : Decidable (ValidGivens g) := by unfold ValidGivens; infer_instance
instance (g : Grid) : Decidable (Full g) := by unfold Full; infer_instance
instance (g h : Grid) : Decidable (Extends g h) := by unfold Extends; infer_instance

end Sudoku

namespace Sudoku

/-! ## Grids -/

theorem Grid.get_fin (g : Grid) (r c : Fin 9) : g.get r.val c.val = g r c := by
  simp [Grid.get, r.isLt, c.isLt]

theorem Grid.get_of_lt (g : Grid) {r c : Nat} (hr : r < 9) (hc : c < 9) :
    g.get r c = g ⟨r, hr⟩ ⟨c, hc⟩ := by
  simp [Grid.get, hr, hc]

theorem Grid.set_same (g : Grid) (r c : Fin 9) (v : Nat) : g.set r.val c.val v r c = v := by
  simp [Grid.set]

theorem Grid.set_other (g : Grid) (r c : Fin 9) (v : Nat) (i j : Fin 9)
    (h : i ≠ r ∨ j ≠ c) : g.set r.val c.val v i j = g i j := by
  have : ¬ (i.val = r.val ∧ j.val = c.val) := by
    rintro ⟨h1, h2⟩
    rcases h with h | h
    · exact h (Fin.ext h1)
    · exact h (Fin.ext h2)
  simp [Grid.set, this]

theorem mem_cells (p : Nat × Nat) : p ∈ cells ↔ p.1 < 9 ∧ p.2 < 9 := by
  obtain ⟨r, c⟩ := p
  simp only [cells, List.mem_flatMap, List.mem_map, List.mem_range, Prod.mk.injEq]
  constructor
  · rintro ⟨a, ha, b, hb, rfl, rfl⟩; exact ⟨ha, hb⟩
  · rintro ⟨h1, h2⟩; exact ⟨r, h1, c, h2, rfl, rfl⟩

theorem findEmpty_none (g : Grid) : findEmpty g = none ↔ Full g := by
  simp only [findEmpty, List.find?_eq_none, mem_cells, beq_iff_eq, Full]
  constructor
  · intro h r c
    have := h (r.val, c.val) ⟨r.isLt, c.isLt⟩
    simpa [Grid.get_fin] using this
  · rintro h ⟨r, c⟩ ⟨hr, hc⟩
    simpa [Grid.get_of_lt g hr hc] using h ⟨r, hr⟩ ⟨c, hc⟩

theorem findEmpty_some (g : Grid) (r c : Nat) (h : findEmpty g = some (r, c)) :
    ∃ (hr : r < 9) (hc : c < 9), g ⟨r, hr⟩ ⟨c, hc⟩ = 0 := by
  have h1 := List.find?_some h
  have h2 := List.mem_of_find?_eq_some h
  rw [mem_cells] at h2
  refine ⟨h2.1, h2.2, ?_⟩
  simpa [Grid.get_of_lt g h2.1 h2.2] using h1

/-- What `isValid` checks: the digit occurs nowhere in the row, the column and the box of
the cell. -/
theorem isValid_iff (g : Grid) (r c : Fin 9) (v : Nat) :
    isValid g r.val c.val v = true ↔
      ∀ r' c' : Fin 9, (r' = r ∨ c' = c ∨ (r'.val / 3 = r.val / 3 ∧ c'.val / 3 = c.val / 3)) →
        g r' c' ≠ v := by
  simp only [isValid, Bool.and_eq_true, List.all_eq_true, List.mem_range, Bool.not_eq_true',
    Bool.or_eq_false_iff, beq_eq_false_iff_ne, ne_eq]
  constructor
  · rintro ⟨h1, h2⟩ r' c' hp
    rcases hp with rfl | rfl | ⟨hr, hc⟩
    · have := (h1 c'.val c'.isLt).1
      rwa [Grid.get_fin] at this
    · have := (h1 r'.val r'.isLt).2
      rwa [Grid.get_fin] at this
    · have := h2 (r'.val - r.val / 3 * 3) (by omega) (c'.val - c.val / 3 * 3) (by omega)
      have e1 : r.val / 3 * 3 + (r'.val - r.val / 3 * 3) = r'.val := by omega
      have e2 : c.val / 3 * 3 + (c'.val - c.val / 3 * 3) = c'.val := by omega
      rwa [e1, e2, Grid.get_fin] at this
  · intro h
    refine ⟨fun i hi => ⟨?_, ?_⟩, fun dr hdr dc hdc => ?_⟩
    · rw [Grid.get_of_lt g r.isLt hi]; exact h r ⟨i, hi⟩ (Or.inl rfl)
    · rw [Grid.get_of_lt g hi c.isLt]; exact h ⟨i, hi⟩ c (Or.inr (Or.inl rfl))
    · have hr : r.val / 3 * 3 + dr < 9 := by omega
      have hc : c.val / 3 * 3 + dc < 9 := by omega
      rw [Grid.get_of_lt g hr hc]
      exact h ⟨_, hr⟩ ⟨_, hc⟩ (Or.inr (Or.inr ⟨by simp; omega, by simp; omega⟩))

theorem allowed_eq_isValid (g : Grid) (r c v : Nat) : allowed g r c v = isValid g r c v := rfl

end Sudoku

namespace Sudoku

/-! ## Solved grids: each digit once per unit, or full with no repeat -/

theorem Solved.row_range {h : Grid} (hs : Solved h) (r c : Fin 9) : 1 ≤ h r c ∧ h r c ≤ 9 := by
  have key : ∀ d : Fin 9, ∃ c : Fin 9, h r c = d.val + 1 := fun d =>
    ((hs (d.val + 1) (by omega) (by omega)).1 r).exists
  choose f hf using key
  have hinj : Function.Injective f := by
    intro a b hab
    have h1 := hf a
    have h2 := hf b
    rw [hab] at h1
    apply Fin.ext
    omega
  obtain ⟨d, hd⟩ := (Finite.injective_iff_surjective.mp hinj) c
  have := hf d
  rw [hd] at this
  omega

theorem Solved.full {h : Grid} (hs : Solved h) : Full h := fun r c => by
  have := hs.row_range r c
  omega

theorem Solved.noRepeat {h : Grid} (hs : Solved h) : NoRepeat h := by
  intro r c r' c' hp hne heq
  obtain ⟨h1, h9⟩ := hs.row_range r c
  obtain ⟨hrow, hcol, hbox⟩ := hs (h r c) h1 h9
  obtain ⟨hdiff, hrel⟩ := hp
  rcases hrel with rfl | rfl | ⟨hr, hc⟩
  · have := (hrow r).unique rfl heq.symm
    simp_all
  · have := (hcol c).unique rfl heq.symm
    simp_all
  · have e1 : (⟨3 * (r.val / 3) + r.val % 3, by omega⟩ : Fin 9) = r := Fin.ext (by simp; omega)
    have e2 : (⟨3 * (c.val / 3) + c.val % 3, by omega⟩ : Fin 9) = c := Fin.ext (by simp; omega)
    have e3 : (⟨3 * (r.val / 3) + r'.val % 3, by omega⟩ : Fin 9) = r' := Fin.ext (by simp; omega)
    have e4 : (⟨3 * (c.val / 3) + c'.val % 3, by omega⟩ : Fin 9) = c' := Fin.ext (by simp; omega)
    have u : ((⟨r.val % 3, by omega⟩, ⟨c.val % 3, by omega⟩) : Fin 3 × Fin 3) =
        (⟨r'.val % 3, by omega⟩, ⟨c'.val % 3, by omega⟩) :=
      (hbox ⟨r.val / 3, by omega⟩ ⟨c.val / 3, by omega⟩).unique
        (by simp only [e1, e2]) (by simp only [e3, e4]; exact heq.symm)
    simp only [Prod.mk.injEq, Fin.mk.injEq] at u
    rcases hdiff with hd | hd
    · exact hd (Fin.ext (by omega))
    · exact hd (Fin.ext (by omega))

theorem Solved.validGivens {h : Grid} (hs : Solved h) : ValidGivens h :=
  ⟨fun r c => (hs.row_range r c).2, hs.noRepeat⟩

theorem existsUnique_of_inj {α : Type} [Fintype α] (hcard : Fintype.card α = 9)
    (f : α → Nat) (hr : ∀ a, 1 ≤ f a ∧ f a ≤ 9) (hinj : Function.Injective f)
    (d : Nat) (h1 : 1 ≤ d) (h9 : d ≤ 9) : ∃! a, f a = d := by
  let g : α → Fin 9 := fun a => ⟨f a - 1, by have := hr a; omega⟩
  have ginj : Function.Injective g := by
    intro a b hab
    apply hinj
    have := congrArg Fin.val hab
    simp only [g] at this
    have := hr a; have := hr b
    omega
  have gbij : Function.Bijective g := by
    rw [Fintype.bijective_iff_injective_and_card]
    exact ⟨ginj, by simp [hcard]⟩
  obtain ⟨a, ha, hu⟩ := gbij.existsUnique ⟨d - 1, by omega⟩
  refine ⟨a, ?_, ?_⟩
  · have := congrArg Fin.val ha
    simp only [g] at this
    have := hr a
    omega
  · intro b hb
    apply hu
    apply Fin.ext
    simp only [g]
    omega

theorem solved_of_valid_full {h : Grid} (hv : ValidGivens h) (hf : Full h) : Solved h := by
  have hr : ∀ r c, 1 ≤ h r c ∧ h r c ≤ 9 := fun r c =>
    ⟨Nat.pos_of_ne_zero (hf r c), hv.1 r c⟩
  intro d h1 h9
  refine ⟨fun r => ?_, fun c => ?_, fun br bc => ?_⟩
  · apply existsUnique_of_inj (by simp) (fun c => h r c) (fun c => hr r c) _ d h1 h9
    intro a b hab
    by_contra hne
    exact hv.2 r a r b ⟨Or.inr hne, Or.inl rfl⟩ (hf r a) hab
  · apply existsUnique_of_inj (by simp) (fun r => h r c) (fun r => hr r c) _ d h1 h9
    intro a b hab
    by_contra hne
    exact hv.2 a c b c ⟨Or.inl hne, Or.inr (Or.inl rfl)⟩ (hf a c) hab
  · apply existsUnique_of_inj (by simp)
      (fun p : Fin 3 × Fin 3 =>
        h ⟨3 * br.val + p.1.val, by omega⟩ ⟨3 * bc.val + p.2.val, by omega⟩)
      (fun p => hr _ _) _ d h1 h9
    rintro ⟨a1, a2⟩ ⟨b1, b2⟩ hab
    by_contra hne
    refine hv.2 _ _ _ _ ⟨?_, Or.inr (Or.inr ⟨?_, ?_⟩)⟩ (hf _ _) hab
    · by_contra hcon
      push_neg at hcon
      apply hne
      obtain ⟨q1, q2⟩ := hcon
      simp only [Fin.mk.injEq] at q1 q2
      rw [Prod.mk.injEq]
      exact ⟨Fin.ext (by omega), Fin.ext (by omega)⟩
    · simp only; omega
    · simp only; omega

theorem solved_iff (h : Grid) : Solved h ↔ ValidGivens h ∧ Full h :=
  ⟨fun hs => ⟨hs.validGivens, hs.full⟩, fun ⟨hv, hf⟩ => solved_of_valid_full hv hf⟩

theorem isCompletion_iff (g h : Grid) :
    IsCompletion g h ↔ ValidGivens h ∧ Full h ∧ Extends g h := by
  simp [IsCompletion, solved_iff, and_assoc]

end Sudoku

namespace Sudoku

/-! ## Placing a digit in an empty cell -/

theorem Grid.set_apply (g : Grid) (r c : Fin 9) (v : Nat) (i j : Fin 9) :
    g.set r.val c.val v i j = if i = r ∧ j = c then v else g i j := by
  by_cases h : i = r ∧ j = c
  · obtain ⟨rfl, rfl⟩ := h
    simp [Grid.set]
  · rw [if_neg h]
    apply Grid.set_other
    by_contra hcon
    push_neg at hcon
    exact h hcon

theorem Grid.set_set_zero (g : Grid) (r c : Fin 9) (v : Nat) (h0 : g r c = 0) :
    (g.set r.val c.val v).set r.val c.val 0 = g := by
  funext i j
  rw [Grid.set_apply, Grid.set_apply]
  by_cases h : i = r ∧ j = c
  · obtain ⟨rfl, rfl⟩ := h
    simp [h0]
  · simp [h]

theorem validGivens_set {g : Grid} (hv : ValidGivens g) (r c : Fin 9) (v : Nat)
    (h9 : v ≤ 9) (hval : isValid g r.val c.val v = true) :
    ValidGivens (g.set r.val c.val v) := by
  rw [isValid_iff] at hval
  refine ⟨fun i j => ?_, ?_⟩
  · rw [Grid.set_apply]
    split
    · exact h9
    · exact hv.1 i j
  · intro a b a' b' hp hne
    rw [Grid.set_apply] at hne ⊢
    rw [Grid.set_apply]
    obtain ⟨hdiff, hrel⟩ := hp
    by_cases h1 : a = r ∧ b = c
    · obtain ⟨rfl, rfl⟩ := h1
      have h2 : ¬ (a' = a ∧ b' = b) := by
        rintro ⟨rfl, rfl⟩
        simp at hdiff
      rw [if_pos ⟨rfl, rfl⟩, if_neg h2]
      refine (hval a' b' ?_).symm
      rcases hrel with h | h | ⟨h, h'⟩
      · exact Or.inl h.symm
      · exact Or.inr (Or.inl h.symm)
      · exact Or.inr (Or.inr ⟨h.symm, h'.symm⟩)
    · rw [if_neg h1] at hne ⊢
      by_cases h2 : a' = r ∧ b' = c
      · obtain ⟨rfl, rfl⟩ := h2
        rw [if_pos ⟨rfl, rfl⟩]
        exact hval a b hrel
      · rw [if_neg h2]
        exact hv.2 a b a' b' ⟨hdiff, hrel⟩ hne

theorem mem_completions_set {g : Grid} (r c : Fin 9) (v : Nat) (h0 : g r c = 0)
    (hv : v ≠ 0) (h : Grid) :
    h ∈ completions (g.set r.val c.val v) ↔ h ∈ completions g ∧ h r c = v := by
  simp only [completions, Set.mem_setOf_eq, IsCompletion, Extends]
  constructor
  · rintro ⟨hs, he⟩
    refine ⟨⟨hs, fun i j hij => ?_⟩, ?_⟩
    · have := he i j
      rw [Grid.set_apply] at this
      by_cases hc : i = r ∧ j = c
      · obtain ⟨rfl, rfl⟩ := hc
        exact absurd h0 hij
      · rw [if_neg hc] at this
        exact this hij
    · have := he r c
      rw [Grid.set_same] at this
      exact this hv
  · rintro ⟨⟨hs, he⟩, hrc⟩
    refine ⟨hs, fun i j hij => ?_⟩
    rw [Grid.set_apply] at hij ⊢
    by_cases hc : i = r ∧ j = c
    · obtain ⟨rfl, rfl⟩ := hc
      rw [if_pos ⟨rfl, rfl⟩]
      exact hrc
    · rw [if_neg hc] at hij ⊢
      exact he i j hij

theorem completions_set_invalid {g : Grid} (r c : Fin 9) (v : Nat) (h0 : g r c = 0)
    (hv : v ≠ 0) (hval : ¬ isValid g r.val c.val v = true) :
    completions (g.set r.val c.val v) = ∅ := by
  rw [isValid_iff] at hval
  push_neg at hval
  obtain ⟨r', c', hrel, heq⟩ := hval
  apply Set.eq_empty_of_forall_not_mem
  intro h hm
  rw [mem_completions_set r c v h0 hv] at hm
  obtain ⟨⟨hs, he⟩, hrc⟩ := hm
  have hne : r' ≠ r ∨ c' ≠ c := by
    by_contra hcon
    push_neg at hcon
    obtain ⟨rfl, rfl⟩ := hcon
    omega
  have h1 : h r' c' = v := by
    rw [he r' c' (by omega)]
    exact heq
  exact hs.noRepeat r' c' r c ⟨hne, hrel⟩ (by omega) (by omega)

theorem completions_of_full {g : Grid} (hv : ValidGivens g) (hf : Full g) :
    completions g = {g} := by
  ext h
  simp only [completions, Set.mem_setOf_eq, Set.mem_singleton_iff, IsCompletion]
  constructor
  · rintro ⟨_, he⟩
    funext i j
    exact he i j (hf i j)
  · rintro rfl
    exact ⟨solved_of_valid_full hv hf, fun _ _ _ => rfl⟩

theorem completions_subset_range (g : Grid) :
    completions g ⊆ {h | ∀ r c, h r c ≤ 9} :=
  fun _ hm r c => (hm.1.row_range r c).2

theorem bounded_grids_finite : {h : Grid | ∀ r c, h r c ≤ 9}.Finite := by
  let f : (Fin 9 → Fin 9 → Fin 10) → Grid := fun k r c => (k r c).val
  apply Set.Finite.subset (Set.finite_range f)
  intro h hh
  exact ⟨fun r c => ⟨h r c, Nat.lt_succ_of_le (hh r c)⟩, rfl⟩

theorem completions_finite (g : Grid) : (completions g).Finite :=
  bounded_grids_finite.subset (completions_subset_range g)

theorem empties_set_lt (g : Grid) (r c : Fin 9) (v : Nat) (h0 : g r c = 0) (hv : v ≠ 0) :
    empties (g.set r.val c.val v) < empties g := by
  unfold empties
  apply Finset.card_lt_card
  rw [Finset.ssubset_iff_of_subset]
  · refine ⟨(r, c), by simp [h0], ?_⟩
    simp [Grid.set_same, hv]
  · intro p hp
    simp only [Finset.mem_filter, Finset.mem_univ, true_and] at hp ⊢
    rw [Grid.set_apply] at hp
    split at hp
    · exact absurd hp hv
    · exact hp

/-- The completions of a grid with an empty cell, split by the digit they put there. -/
theorem ncard_completions_split (g : Grid) (r c : Fin 9) (h0 : g r c = 0) :
    (completions g).ncard =
      (digits.map (fun v => (completions (g.set r.val c.val v)).ncard)).sum := by
  have key : ∀ vs : List Nat, vs.Nodup → (∀ v ∈ vs, v ≠ 0) →
      ({h | h ∈ completions g ∧ h r c ∈ vs} : Set Grid).ncard =
        (vs.map (fun v => (completions (g.set r.val c.val v)).ncard)).sum := by
    intro vs
    induction vs with
    | nil => intro _ _; simp
    | cons v vs ih =>
      intro hnd hne
      rw [List.nodup_cons] at hnd
      have hsplit : ({h | h ∈ completions g ∧ h r c ∈ v :: vs} : Set Grid) =
          completions (g.set r.val c.val v) ∪ {h | h ∈ completions g ∧ h r c ∈ vs} := by
        ext h
        simp only [Set.mem_setOf_eq, List.mem_cons, Set.mem_union,
          mem_completions_set r c v h0 (hne v (List.mem_cons_self _ _))]
        tauto
      have hdisj : Disjoint (completions (g.set r.val c.val v))
          {h | h ∈ completions g ∧ h r c ∈ vs} := by
        rw [Set.disjoint_left]
        intro h hm hm2
        rw [mem_completions_set r c v h0 (hne v (List.mem_cons_self _ _))] at hm
        rw [Set.mem_setOf_eq, hm.2] at hm2
        exact hnd.1 hm2.2
      rw [hsplit, Set.ncard_union_eq hdisj (completions_finite _)
        ((completions_finite g).subset (fun h hm => hm.1)), List.map_cons, List.sum_cons,
        ih hnd.2 (fun w hw => hne w (List.mem_cons_of_mem _ hw))]
  have hall : ({h | h ∈ completions g ∧ h r c ∈ digits} : Set Grid) = completions g := by
    ext h
    simp only [Set.mem_setOf_eq, and_iff_left_iff_imp]
    intro hm
    have := hm.1.row_range r c
    simp only [digits, List.mem_range'_1]
    omega
  rw [← key digits (by decide) (by decide), hall]

end Sudoku

namespace Sudoku

/-! ## The backtracking search of `BacktrackingSolver.Solve` -/

theorem mem_digits (v : Nat) : v ∈ digits ↔ 1 ≤ v ∧ v ≤ 9 := by
  simp only [digits, List.mem_range'_1]
  omega

/-- What one run of a backtracking search establishes about its result. -/
structure SolveSpec (ctx : Ctx) (g : Grid) (b : Bool) (s' : BTState) : Prop where
  restore : b = false → s'.grid = g
  sound : ValidGivens g → b = true → IsCompletion g s'.grid
  complete : ValidGivens g → ctx = none → b = false → completions g = ∅

theorem solveDigits_spec (ctx : Ctx) (dfs : BTState → Option (Bool × BTState)) (n : Nat)
    (hdfs : ∀ s : BTState, empties s.grid < n →
      ∃ b s', dfs s = some (b, s') ∧ SolveSpec ctx s.grid b s')
    (r c : Fin 9) (vs : List Nat) (hvs : ∀ v ∈ vs, 1 ≤ v ∧ v ≤ 9) :
    ∀ s : BTState, s.grid r c = 0 → empties s.grid < n + 1 →
      ∃ b s', solveDigits dfs r.val c.val vs s = some (b, s') ∧
        (b = false → s'.grid = s.grid) ∧
        (ValidGivens s.grid → b = true → IsCompletion s.grid s'.grid) ∧
        (ValidGivens s.grid → ctx = none → b = false →
          ∀ v ∈ vs, completions (s.grid.set r.val c.val v) = ∅) := by
  induction vs with
  | nil =>
    intro s _ _
    exact ⟨false, s, rfl, fun _ => rfl, fun _ h => by simp at h, fun _ _ _ v hv => by simp at hv⟩
  | cons v vs ih =>
    intro s h0 hn
    have hv := hvs v (List.mem_cons_self _ _)
    have hv0 : v ≠ 0 := by omega
    have ih' := ih (fun w hw => hvs w (List.mem_cons_of_mem _ hw))
    simp only [solveDigits]
    by_cases hval : isValid s.grid r.val c.val v = true
    · rw [if_pos hval]
      have hlt : empties (s.grid.set r.val c.val v) < n := by
        have := empties_set_lt s.grid r c v h0 hv0
        omega
      obtain ⟨b, s2, hrun, hspec⟩ := hdfs
        { s with nodes := s.nodes + 1, grid := s.grid.set r.val c.val v } hlt
      rw [hrun]
      cases b with
      | true =>
        refine ⟨true, s2, rfl, fun h => by simp at h, fun hvg _ => ?_, fun _ _ h => by simp at h⟩
        have hc := hspec.sound (validGivens_set hvg r c v hv.2 hval) rfl
        have : s2.grid ∈ completions (s.grid.set r.val c.val v) := hc
        rw [mem_completions_set r c v h0 hv0] at this
        exact this.1
      | false =>
        have hg : s2.grid = s.grid.set r.val c.val v := hspec.restore rfl
        have hback : s2.grid.set r.val c.val 0 = s.grid := by
          rw [hg]; exact Grid.set_set_zero s.grid r c v h0
        obtain ⟨b, s3, hrun3, h3a, h3b, h3c⟩ := ih'
          { s2 with grid := s2.grid.set r.val c.val 0 } (by simp only [hback]; exact h0)
          (by simp only [hback]; exact hn)
        simp only [hback] at h3a h3b h3c
        refine ⟨b, s3, hrun3, h3a, h3b, fun hvg hctx hb w hw => ?_⟩
        rcases List.mem_cons.mp hw with rfl | hw
        · exact hspec.complete (validGivens_set hvg r c w hv.2 hval) hctx rfl
        · exact h3c hvg hctx hb w hw
    · rw [if_neg hval]
      obtain ⟨b, s3, hrun3, h3a, h3b, h3c⟩ := ih' { s with nodes := s.nodes + 1 } h0 hn
      refine ⟨b, s3, hrun3, h3a, h3b, fun hvg hctx hb w hw => ?_⟩
      rcases List.mem_cons.mp hw with rfl | hw
      · exact completions_set_invalid r c w h0 hv0 hval
      · exact h3c hvg hctx hb w hw

theorem solveDfs_spec (ctx : Ctx) : ∀ (fuel : Nat) (s : BTState), empties s.grid < fuel →
    ∃ b s', solveDfs ctx fuel s = some (b, s') ∧ SolveSpec ctx s.grid b s' := by
  intro fuel
  induction fuel with
  | zero => intro s h; omega
  | succ n ih =>
    intro s hn
    simp only [solveDfs]
    by_cases hd : ctx.done s.tick = true
    · rw [if_pos hd]
      refine ⟨false, _, rfl, fun _ => rfl, fun _ h => by simp at h, fun _ hctx _ => ?_⟩
      subst hctx
      simp [Ctx.done] at hd
    · rw [if_neg hd]
      cases hfe : findEmpty s.grid with
      | none =>
        have hfull := (findEmpty_none s.grid).mp hfe
        refine ⟨true, _, rfl, fun h => by simp at h, fun hvg _ => ?_, fun _ _ h => by simp at h⟩
        have : s.grid ∈ completions s.grid := by
          rw [completions_of_full hvg hfull]; rfl
        exact this
      | some p =>
        obtain ⟨r, c⟩ := p
        obtain ⟨hr, hc, h0⟩ := findEmpty_some s.grid r c hfe
        obtain ⟨b, s', hrun, ha, hb, hcm⟩ := solveDigits_spec ctx (solveDfs ctx n) n ih
          ⟨r, hr⟩ ⟨c, hc⟩ digits (fun v hv => (mem_digits v).mp hv)
          { s with tick := s.tick + 1 } h0 hn
        refine ⟨b, s', hrun, ha, hb, fun hvg hctx hbf => ?_⟩
        have hsum := ncard_completions_split s.grid ⟨r, hr⟩ ⟨c, hc⟩ h0
        have hz : ∀ x ∈ digits.map (fun v => (completions (s.grid.set r c v)).ncard), x = 0 := by
          intro x hx
          obtain ⟨v, hv, rfl⟩ := List.mem_map.mp hx
          rw [hcm hvg hctx hbf v hv]
          exact Set.ncard_empty _
        rw [List.sum_eq_zero hz] at hsum
        exact (Set.ncard_eq_zero (completions_finite _)).mp hsum

theorem empties_le (g : Grid) : empties g ≤ 81 := by
  unfold empties
  calc _ ≤ (Finset.univ : Finset (Fin 9 × Fin 9)).card := Finset.card_le_card (Finset.filter_subset _ _)
    _ = 81 := by simp

end Sudoku

namespace Sudoku

/-! ## The validator accepts grids without repeats -/

/-- `Peers` on natural-number coordinates. -/
def PeersNat (r c r' c' : Nat) : Prop :=
  r < 9 ∧ c < 9 ∧ r' < 9 ∧ c' < 9 ∧ (r ≠ r' ∨ c ≠ c') ∧
    (r = r' ∨ c = c' ∨ (r / 3 = r' / 3 ∧ c / 3 = c' / 3))

instance (r c r' c' : Nat) : Decidable (PeersNat r c r' c') := by
  unfold PeersNat; infer_instance

theorem units_pairwise_peers :
    ∀ u ∈ units, u.Pairwise (fun q p => PeersNat q.1 q.2 p.1 p.2) := by
  decide

theorem NoRepeat.get_ne {g : Grid} (hg : NoRepeat g) {r c r' c' : Nat}
    (hp : PeersNat r c r' c') (hne : g.get r c ≠ 0) : g.get r c ≠ g.get r' c' := by
  obtain ⟨h1, h2, h3, h4, hd, hr⟩ := hp
  rw [Grid.get_of_lt g h1 h2] at hne ⊢
  rw [Grid.get_of_lt g h3 h4]
  refine hg _ _ _ _ ⟨?_, ?_⟩ hne
  · rcases hd with hd | hd
    · exact Or.inl (fun h => hd (congrArg Fin.val h))
    · exact Or.inr (fun h => hd (congrArg Fin.val h))
  · rcases hr with hr | hr | hr
    · exact Or.inl (Fin.ext hr)
    · exact Or.inr (Or.inl (Fin.ext hr))
    · exact Or.inr (Or.inr hr)

theorem Grid.get_le {g : Grid} (h9 : ∀ r c, g r c ≤ 9) (r c : Nat) : g.get r c ≤ 9 := by
  unfold Grid.get
  split
  · exact h9 _ _
  · omega

theorem scan_no_conflict (b : Grid) (h64 : ∀ r c, b.get r c < 64) :
    ∀ (u : List (Nat × Nat)) (m : Nat) (conf : List (Nat × Nat)),
      (∀ d, m.testBit d = true → ∀ p ∈ u, b.get p.1 p.2 ≠ d) →
      u.Pairwise (fun q p => b.get q.1 q.2 ≠ 0 → b.get q.1 q.2 ≠ b.get p.1 p.2) →
      (u.foldl (scanCell b) (m, conf)).2 = conf := by
  intro u
  induction u with
  | nil => intro m conf _ _; rfl
  | cons p u ih =>
    intro m conf hm hpw
    rw [List.pairwise_cons] at hpw
    rw [List.foldl_cons]
    by_cases hz : b.get p.1 p.2 = 0
    · have : scanCell b (m, conf) p = (m, conf) := by simp [scanCell, hz]
      rw [this]
      exact ih m conf (fun d hd q hq => hm d hd q (List.mem_cons_of_mem _ hq)) hpw.2
    · have hlt := h64 p.1 p.2
      have hbit : (1 <<< b.get p.1 p.2) % 2 ^ 64 = 2 ^ b.get p.1 p.2 := by
        rw [Nat.one_shiftLeft]
        exact Nat.mod_eq_of_lt (Nat.pow_lt_pow_right (by norm_num) hlt)
      have hoff : m.testBit (b.get p.1 p.2) = false := by
        by_contra hcon
        rw [Bool.not_eq_false] at hcon
        exact hm _ hcon p (List.mem_cons_self _ _) rfl
      have hand : m &&& 2 ^ b.get p.1 p.2 = 0 := by
        rw [Nat.and_two_pow, hoff]; simp
      have : scanCell b (m, conf) p = (m ||| 2 ^ b.get p.1 p.2, conf) := by
        unfold scanCell
        simp only [hz, if_false, hbit, hand, ne_eq, not_true_eq_false]
      rw [this]
      apply ih _ conf _ hpw.2
      intro d hd q hq
      rw [Nat.testBit_or, Bool.or_eq_true] at hd
      rcases hd with hd | hd
      · exact hm d hd q (List.mem_cons_of_mem _ hq)
      · rw [Nat.testBit_two_pow, decide_eq_true_eq] at hd
        rw [← hd]
        exact (hpw.1 q hq hz).symm

theorem scanUnit_of_noRepeat (b : Grid) (h9 : ∀ r c, b r c ≤ 9) (hb : NoRepeat b)
    (u : List (Nat × Nat)) (hu : u ∈ units) (conf : List (Nat × Nat)) :
    scanUnit b u conf = conf := by
  unfold scanUnit
  apply scan_no_conflict b (fun r c => by have := Grid.get_le h9 r c; omega)
  · intro d hd
    simp at hd
  · exact (units_pairwise_peers u hu).imp (fun hp hne => hb.get_ne hp hne)

theorem validate_of_noRepeat (b : Board) (hb : ValidGivens b.Values) :
    (FastValidator.Validate b).1 = true := by
  have key : ∀ us : List (List (Nat × Nat)), (∀ u ∈ us, u ∈ units) →
      us.foldl (fun conf u => scanUnit b.Values u conf) [] = [] := by
    intro us
    induction us with
    | nil => intro _; rfl
    | cons u us ih =>
      intro hus
      rw [List.foldl_cons, scanUnit_of_noRepeat b.Values hb.1 hb.2 u
        (hus u (List.mem_cons_self _ _))]
      exact ih (fun w hw => hus w (List.mem_cons_of_mem _ hw))
  simp [FastValidator.Validate, key units (fun u hu => hu)]

end Sudoku

namespace Sudoku

/-! ## A quick test for valid givens -/

/-- Boolean test of `ValidGivens`, cell against cell. -/
def checkGivens (g : Grid) : Bool :=
  (List.range 81).all (fun p =>
    decide (g.get (p / 9) (p % 9) ≤ 9) &&
    (g.get (p / 9) (p % 9) == 0 ||
      (List.range 81).all (fun q =>
        p == q ||
        !(p / 9 == q / 9 || p % 9 == q % 9 ||
            (p / 9 / 3 == q / 9 / 3 && p % 9 / 3 == q % 9 / 3)) ||
        g.get (p / 9) (p % 9) != g.get (q / 9) (q % 9))))

theorem validGivens_of_check (g : Grid) (h : checkGivens g = true) : ValidGivens g := by
  simp only [checkGivens, List.all_eq_true, List.mem_range, Bool.and_eq_true,
    decide_eq_true_eq, Bool.or_eq_true, beq_iff_eq, Bool.not_eq_true', bne_iff_ne, ne_eq,
    Bool.or_eq_false_iff, Bool.and_eq_false_iff, beq_eq_false_iff_ne] at h
  refine ⟨fun r c => ?_, fun r c r' c' hp hne heq => ?_⟩
  · have := (h (9 * r.val + c.val) (by omega)).1
    have e1 : (9 * r.val + c.val) / 9 = r.val := by omega
    have e2 : (9 * r.val + c.val) % 9 = c.val := by omega
    rwa [e1, e2, Grid.get_fin] at this
  · have h1 := (h (9 * r.val + c.val) (by omega)).2
    have e1 : (9 * r.val + c.val) / 9 = r.val := by omega
    have e2 : (9 * r.val + c.val) % 9 = c.val := by omega
    have e3 : (9 * r'.val + c'.val) / 9 = r'.val := by omega
    have e4 : (9 * r'.val + c'.val) % 9 = c'.val := by omega
    rw [e1, e2, Grid.get_fin] at h1
    rcases h1 with h1 | h1
    · exact hne h1
    · have h2 := h1 (9 * r'.val + c'.val) (by omega)
      rw [e3, e4, Grid.get_fin] at h2
      obtain ⟨hd, hr⟩ := hp
      rcases h2 with (h2 | h2) | h2
      · have : r.val = r'.val ∧ c.val = c'.val := by omega
        rcases hd with hd | hd
        · exact hd (Fin.ext this.1)
        · exact hd (Fin.ext this.2)
      · obtain ⟨⟨q1, q2⟩, q3⟩ := h2
        rcases hr with rfl | rfl | ⟨q4, q5⟩
        · exact q1 rfl
        · exact q2 rfl
        · rcases q3 with q3 | q3
          · exact q3 q4
          · exact q3 q5
      · exact h2 heq

end Sudoku

namespace Sudoku

/-! ## The counting search of `BacktrackingSolver.Unique` -/

/-- What one run of the counting search establishes: on `false` the grid is restored, and
without cancellation the counter ends at the number of completions, capped at 2. -/
structure UniqueSpec (ctx : Ctx) (g : Grid) (k n : Nat) (b : Bool) (s' : BTState) : Prop where
  restore : b = false → s'.grid = g
  count : ValidGivens g → ctx = none → k < 2 →
    (2 ≤ k + n → s'.count = 2 ∧ b = true) ∧ (k + n < 2 → s'.count = k + n ∧ b = false)

theorem uniqueDigits_spec (ctx : Ctx) (dfs : BTState → Option (Bool × BTState)) (n : Nat)
    (hdfs : ∀ s : BTState, empties s.grid < n →
      ∃ b s', dfs s = some (b, s') ∧
        UniqueSpec ctx s.grid s.count (completions s.grid).ncard b s')
    (r c : Fin 9) (vs : List Nat) (hvs : ∀ v ∈ vs, 1 ≤ v ∧ v ≤ 9) :
    ∀ s : BTState, s.grid r c = 0 → empties s.grid < n + 1 →
      ∃ b s', uniqueDigits dfs r.val c.val vs s = some (b, s') ∧
        UniqueSpec ctx s.grid s.count
          (vs.map (fun v => (completions (s.grid.set r.val c.val v)).ncard)).sum b s' := by
  induction vs with
  | nil =>
    intro s _ _
    refine ⟨false, s, rfl, fun _ => rfl, fun _ _ hk => ?_⟩
    rw [List.map_nil, List.sum_nil, Nat.add_zero]
    exact ⟨fun h => by omega, fun _ => ⟨rfl, rfl⟩⟩
  | cons v vs ih =>
    intro s h0 hn
    have hv := hvs v (List.mem_cons_self _ _)
    have hv0 : v ≠ 0 := by omega
    have ih' := ih (fun w hw => hvs w (List.mem_cons_of_mem _ hw))
    simp only [uniqueDigits, List.map_cons, List.sum_cons]
    by_cases hval : isValid s.grid r.val c.val v = true
    · rw [if_pos hval]
      have hlt : empties (s.grid.set r.val c.val v) < n := by
        have := empties_set_lt s.grid r c v h0 hv0
        omega
      obtain ⟨b, s2, hrun, hspec⟩ := hdfs
        { s with nodes := s.nodes + 1, grid := s.grid.set r.val c.val v } hlt
      rw [hrun]
      cases b with
      | true =>
        refine ⟨true, s2, rfl, fun h => by simp at h, fun hvg hctx hk => ?_⟩
        have := hspec.count (validGivens_set hvg r c v hv.2 hval) hctx hk
        dsimp only at this
        have hge : 2 ≤ s.count + (completions (s.grid.set r.val c.val v)).ncard := by
          by_contra hcon
          have := (this.2 (by omega)).2
          simp at this
        exact ⟨fun _ => ⟨(this.1 hge).1, rfl⟩, fun h => by omega⟩
      | false =>
        have hg : s2.grid = s.grid.set r.val c.val v := hspec.restore rfl
        have hback : s2.grid.set r.val c.val 0 = s.grid := by
          rw [hg]; exact Grid.set_set_zero s.grid r c v h0
        obtain ⟨b, s3, hrun3, h3⟩ := ih'
          { s2 with grid := s2.grid.set r.val c.val 0 } (by simp only [hback]; exact h0)
          (by simp only [hback]; exact hn)
        simp only [hback] at h3
        refine ⟨b, s3, hrun3, h3.restore, fun hvg hctx hk => ?_⟩
        have h1 := hspec.count (validGivens_set hvg r c v hv.2 hval) hctx hk
        dsimp only at h1
        have hlt2 : s.count + (completions (s.grid.set r.val c.val v)).ncard < 2 := by
          by_contra hcon
          have := (h1.1 (by omega)).2
          simp at this
        have hc2 : s2.count = s.count + (completions (s.grid.set r.val c.val v)).ncard :=
          (h1.2 hlt2).1
        have h2 := h3.count hvg hctx (by omega)
        rw [hc2] at h2
        exact ⟨fun h => h2.1 (by omega), fun h => by have := h2.2 (by omega); exact ⟨by omega, this.2⟩⟩
    · rw [if_neg hval]
      obtain ⟨b, s3, hrun3, h3⟩ := ih' { s with nodes := s.nodes + 1 } h0 hn
      refine ⟨b, s3, hrun3, h3.restore, fun hvg hctx hk => ?_⟩
      have h2 := h3.count hvg hctx hk
      rw [completions_set_invalid r c v h0 hv0 hval, Set.ncard_empty, Nat.zero_add]
      exact h2

theorem uniqueDfs_spec (ctx : Ctx) : ∀ (fuel : Nat) (s : BTState), empties s.grid < fuel →
    ∃ b s', uniqueDfs ctx fuel s = some (b, s') ∧
      UniqueSpec ctx s.grid s.count (completions s.grid).ncard b s' := by
  intro fuel
  induction fuel with
  | zero => intro s h; omega
  | succ n ih =>
    intro s hn
    simp only [uniqueDfs]
    by_cases hd : (ctx.done s.tick || decide (s.count ≥ 2)) = true
    · rw [if_pos hd]
      refine ⟨true, _, rfl, fun h => by simp at h, fun _ hctx hk => ?_⟩
      subst hctx
      simp only [Ctx.done, Bool.false_or, decide_eq_true_eq] at hd
      omega
    · rw [if_neg hd]
      cases hfe : findEmpty s.grid with
      | none =>
        have hfull := (findEmpty_none s.grid).mp hfe
        refine ⟨_, _, rfl, fun _ => rfl, fun hvg _ hk => ?_⟩
        rw [completions_of_full hvg hfull, Set.ncard_singleton]
        dsimp only
        refine ⟨fun h => ⟨by omega, by simp; omega⟩, fun h => ⟨rfl, by simp; omega⟩⟩
      | some p =>
        obtain ⟨r, c⟩ := p
        obtain ⟨hr, hc, h0⟩ := findEmpty_some s.grid r c hfe
        obtain ⟨b, s', hrun, hsp⟩ := uniqueDigits_spec ctx (uniqueDfs ctx n) n ih
          ⟨r, hr⟩ ⟨c, hc⟩ digits (fun v hv => (mem_digits v).mp hv)
          { s with tick := s.tick + 1 } h0 hn
        refine ⟨b, s', hrun, ?_⟩
        rw [ncard_completions_split s.grid ⟨r, hr⟩ ⟨c, hc⟩ h0]
        exact hsp

end Sudoku

namespace Sudoku

/-! ## The backtracking solver: results of `Solve` and `Unique` -/

theorem ncard_eq_one_iff_existsUnique (g : Grid) :
    (completions g).ncard = 1 ↔ ∃! h, IsCompletion g h := by
  rw [Set.ncard_eq_one]
  constructor
  · rintro ⟨a, ha⟩
    refine ⟨a, ?_, fun y hy => ?_⟩
    · have : a ∈ completions g := by rw [ha]; rfl
      exact this
    · have : y ∈ completions g := hy
      rw [ha] at this
      exact this
  · rintro ⟨a, ha, hu⟩
    refine ⟨a, ?_⟩
    ext y
    simp only [Set.mem_singleton_iff]
    exact ⟨fun hy => hu y hy, fun hy => hy ▸ ha⟩

theorem completions_eq_empty_iff (g : Grid) :
    completions g = ∅ ↔ ¬ ∃ h, IsCompletion g h := by
  rw [Set.eq_empty_iff_forall_not_mem]
  exact ⟨fun h ⟨x, hx⟩ => h x hx, fun h x hx => h ⟨x, hx⟩⟩

/-- The run of the search inside `BacktrackingSolver.Solve`. -/
theorem bt_solve_run (ctx : Ctx) (tick : Nat) (b : Board) :
    ∃ ok s', solveDfs ctx searchFuel
        { grid := b.Values, nodes := 0, count := 0, tick := tick } = some (ok, s') ∧
      SolveSpec ctx b.Values ok s' ∧
      BacktrackingSolver.Solve ctx tick b = some
        (if ok then { board := .ok { Values := s'.grid, Fixed := b.Fixed },
                      stats := { Nodes := s'.nodes }, tick := s'.tick }
         else { board := .error Err.unsolvableOrCanceled,
                stats := { Nodes := s'.nodes }, tick := s'.tick }) := by
  obtain ⟨ok, s', hrun, hspec⟩ := solveDfs_spec ctx searchFuel
    { grid := b.Values, nodes := 0, count := 0, tick := tick }
    (by have := empties_le b.Values; simp only [searchFuel]; omega)
  refine ⟨ok, s', hrun, hspec, ?_⟩
  simp only [BacktrackingSolver.Solve, hrun]
  cases ok <;> rfl

/-- The run of the search inside `BacktrackingSolver.Unique`. -/
theorem bt_unique_run (ctx : Ctx) (tick : Nat) (b : Board) :
    ∃ stop s', uniqueDfs ctx searchFuel
        { grid := b.Values, nodes := 0, count := 0, tick := tick } = some (stop, s') ∧
      UniqueSpec ctx b.Values 0 (completions b.Values).ncard stop s' ∧
      BacktrackingSolver.Unique ctx tick b = some
        { unique := decide (s'.count = 1), stats := { Nodes := s'.nodes }, err := none,
          tick := s'.tick } := by
  obtain ⟨stop, s', hrun, hspec⟩ := uniqueDfs_spec ctx searchFuel
    { grid := b.Values, nodes := 0, count := 0, tick := tick }
    (by have := empties_le b.Values; simp only [searchFuel]; omega)
  refine ⟨stop, s', hrun, hspec, ?_⟩
  simp only [BacktrackingSolver.Unique, hrun]

/-- Without cancellation, `BacktrackingSolver.Unique` on valid givens answers whether the
number of completions is one. -/
theorem bt_unique_exact (tick : Nat) (b : Board) (hb : ValidGivens b.Values) :
    ∃ res, BacktrackingSolver.Unique none tick b = some res ∧ res.err = none ∧
      (res.unique = true ↔ (completions b.Values).ncard = 1) := by
  obtain ⟨stop, s', _, hspec, hres⟩ := bt_unique_run none tick b
  refine ⟨_, hres, rfl, ?_⟩
  have h := hspec.count hb rfl (by omega)
  simp only [decide_eq_true_eq]
  constructor
  · intro h1
    by_contra hcon
    by_cases h2 : 2 ≤ 0 + (completions b.Values).ncard
    · have := (h.1 h2).1; omega
    · have := (h.2 (by omega)).1; omega
  · intro h1
    have := (h.2 (by omega)).1
    omega

/-- Without cancellation, `BacktrackingSolver.Solve` on valid givens fails exactly when
there is no completion, and a board it returns is a completion. -/
theorem bt_solve_exact (tick : Nat) (b : Board) (hb : ValidGivens b.Values) :
    ∃ res, BacktrackingSolver.Solve none tick b = some res ∧
      ((∃ e, res.board = .error e) ↔ completions b.Values = ∅) ∧
      (∀ out, res.board = .ok out → IsCompletion b.Values out.Values) := by
  obtain ⟨ok, s', _, hspec, hres⟩ := bt_solve_run none tick b
  refine ⟨_, hres, ?_, ?_⟩
  · cases ok with
    | true =>
      have hc : s'.grid ∈ completions b.Values := hspec.sound hb rfl
      simp only [if_true, reduceCtorEq, exists_false, false_iff]
      intro he
      rw [he] at hc
      exact hc
    | false =>
      simp only [Bool.false_eq_true, if_false, Except.error.injEq, exists_eq', true_iff]
      exact hspec.complete hb rfl rfl
  · intro out hout
    cases ok with
    | true =>
      simp only [if_true, Except.ok.injEq] at hout
      rw [← hout]
      exact hspec.sound hb rfl
    | false => simp at hout

end Sudoku

namespace Sudoku

/-! ## The generator: counting givens -/

theorem Grid.get_set_cell (g : Grid) (r c v i j : Nat) :
    (g.set r c v).get i j = if i < 9 ∧ j < 9 ∧ i = r ∧ j = c then v else g.get i j := by
  unfold Grid.get Grid.set
  by_cases h : i < 9 ∧ j < 9
  · simp only [h, and_self, dite_true, true_and]
  · have : ¬ (i < 9 ∧ j < 9 ∧ i = r ∧ j = c) := fun hc => h ⟨hc.1, hc.2.1⟩
    simp only [h, dite_false, this, if_false]

theorem Grid.set_get_cell (g : Grid) (r c : Nat) : g.set r c (g.get r c) = g := by
  funext i j
  unfold Grid.set
  split
  · rename_i h
    obtain ⟨rfl, rfl⟩ := h
    exact Grid.get_fin g i j
  · rfl

theorem Grid.set_twice (g : Grid) (r c v w : Nat) : (g.set r c v).set r c w = g.set r c w := by
  funext i j
  unfold Grid.set
  split <;> rfl

theorem countGivens_eq_countP (g : Grid) :
    countGivens g = cells.countP (fun p => decide (g.get p.1 p.2 ≠ 0)) := by
  have key : ∀ (l : List (Nat × Nat)) (n : Nat),
      l.foldl (fun n p => if g.get p.1 p.2 ≠ 0 then n + 1 else n) n =
        n + l.countP (fun p => decide (g.get p.1 p.2 ≠ 0)) := by
    intro l
    induction l with
    | nil => intro n; rfl
    | cons p l ih =>
      intro n
      rw [List.foldl_cons, ih, List.countP_cons]
      by_cases h : g.get p.1 p.2 = 0
      · simp [h]
      · simp [h]; omega
  rw [countGivens, key, Nat.zero_add]

theorem cells_length : cells.length = 81 := by decide

theorem cells_nodup : cells.Nodup := by decide

theorem countGivens_le (g : Grid) : countGivens g ≤ 81 := by
  rw [countGivens_eq_countP, ← cells_length]
  exact List.countP_le_length _

theorem countGivens_of_full (g : Grid) (hf : Full g) : countGivens g = 81 := by
  rw [countGivens_eq_countP, ← cells_length, List.countP_eq_length]
  intro p hp
  rw [mem_cells] at hp
  rw [Grid.get_of_lt g hp.1 hp.2]
  simpa using hf _ _

theorem countP_le_of_agree_off (P Q : Nat × Nat → Bool) (x : Nat × Nat)
    (h : ∀ p, p ≠ x → P p = Q p) (l : List (Nat × Nat)) (hl : l.Nodup) :
    l.countP P ≤ l.countP Q + 1 := by
  induction l with
  | nil => simp
  | cons p l ih =>
    rw [List.nodup_cons] at hl
    rw [List.countP_cons, List.countP_cons]
    by_cases hp : p = x
    · subst hp
      have : l.countP P = l.countP Q :=
        List.countP_congr (fun q hq => by
          have hne : q ≠ p := fun hc => hl.1 (hc ▸ hq)
          rw [h q hne])
      rw [this]
      split <;> split <;> omega
    · rw [h p hp]
      have := ih hl.2
      split <;> omega

theorem countGivens_set_zero (g : Grid) (r c : Nat) :
    countGivens g ≤ countGivens (g.set r c 0) + 1 := by
  rw [countGivens_eq_countP, countGivens_eq_countP]
  exact countP_le_of_agree_off (fun p => decide (g.get p.1 p.2 ≠ 0))
    (fun p => decide ((g.set r c 0).get p.1 p.2 ≠ 0)) (r, c)
    (fun p hp => by
      have : ¬ (p.1 < 9 ∧ p.2 < 9 ∧ p.1 = r ∧ p.2 = c) := fun hc => hp (Prod.ext hc.2.2.1 hc.2.2.2)
      simp only [Grid.get_set_cell, this, if_false]) cells cells_nodup

theorem targetGivens_le (d : Difficulty) : 17 ≤ targetGivens d ∧ targetGivens d ≤ 81 := by
  unfold targetGivens
  split
  · omega
  · split
    · omega
    · split <;> omega

/-- The carving loop never goes below the target number of givens. -/
theorem carve_count (g : UniqueGenerator) (env : GenEnv) (target : Nat) :
    ∀ (ps : List Nat) (i : Nat) (s s' : CarveState),
      carve g env target ps i s = some s' → target ≤ countGivens s.puz →
        target ≤ countGivens s'.puz := by
  intro ps
  induction ps with
  | nil =>
    intro i s s' h ht
    simp only [carve, Option.some.injEq] at h
    rw [← h]; exact ht
  | cons pos rest ih =>
    intro i s s' h ht
    simp only [carve] at h
    split at h
    · simp only [Option.some.injEq] at h; rw [← h]; exact ht
    · split at h
      · simp only [Option.some.injEq] at h; rw [← h]; exact ht
      · rename_i hgt
        split at h
        · exact ih _ _ _ h ht
        · split at h
          · exact absurd h (by simp)
          · rename_i res hres
            split at h
            · refine ih _ _ _ h ?_
              dsimp only
              rw [Grid.set_twice, Grid.set_get_cell]
              exact ht
            · refine ih _ _ _ h ?_
              dsimp only
              have := countGivens_set_zero s.puz (pos / 9) (pos % 9)
              omega

end Sudoku

namespace Sudoku

/-! ## The generator: building the full grid -/

theorem swapAt_length (l : List Nat) (i j : Nat) : (swapAt l i j).length = l.length := by
  simp [swapAt]

theorem mem_of_mem_swapAt (l : List Nat) (i j : Nat) (hi : i < l.length) (hj : j < l.length)
    (x : Nat) (hx : x ∈ swapAt l i j) : x ∈ l := by
  unfold swapAt at hx
  have hgi : l.getD i 0 ∈ l := by
    rw [List.getD_eq_getElem l 0 hi]; exact List.getElem_mem _
  have hgj : l.getD j 0 ∈ l := by
    rw [List.getD_eq_getElem l 0 hj]; exact List.getElem_mem _
  rcases List.mem_or_eq_of_mem_set hx with h | h
  · rcases List.mem_or_eq_of_mem_set h with h | h
    · exact h
    · rw [h]; exact hgj
  · rw [h]; exact hgi

theorem mem_swapAt_of_mem (l : List Nat) (i j : Nat) (hi : i < l.length) (hj : j < l.length)
    (x : Nat) (hx : x ∈ l) : x ∈ swapAt l i j := by
  obtain ⟨n, hn, rfl⟩ := List.mem_iff_getElem.mp hx
  unfold swapAt
  rw [List.getD_eq_getElem l 0 hi, List.getD_eq_getElem l 0 hj]
  by_cases hnj : n = j
  · subst hnj
    by_cases hij : i = n
    · subst hij
      apply List.mem_iff_getElem.mpr
      exact ⟨i, by simp [hi], by simp⟩
    · apply List.mem_iff_getElem.mpr
      refine ⟨i, by simp [hi], ?_⟩
      rw [List.getElem_set_ne (fun e => hij e.symm), List.getElem_set_self]
  · by_cases hni : n = i
    · subst hni
      apply List.mem_iff_getElem.mpr
      exact ⟨j, by simp [hj], by simp⟩
    · apply List.mem_iff_getElem.mpr
      refine ⟨n, by simp [hn], ?_⟩
      rw [List.getElem_set_ne (fun e => hnj e.symm), List.getElem_set_ne (fun e => hni e.symm)]

theorem shuffle_mem (rng : Rng) (k : Nat) (l : List Nat) (hl : 0 < l.length) :
    ∀ x ∈ l, x ∈ rng.shuffle k l := by
  unfold Rng.shuffle
  generalize rng.swaps k = sw
  have key : ∀ (sw : List (Nat × Nat)) (acc : List Nat), acc.length = l.length →
      (∀ x ∈ l, x ∈ acc) →
        ∀ x ∈ l, x ∈ sw.foldl (fun acc p => swapAt acc (p.1 % l.length) (p.2 % l.length)) acc := by
    intro sw
    induction sw with
    | nil => intro acc _ h2; exact h2
    | cons p sw ih =>
      intro acc h1 h2
      rw [List.foldl_cons]
      apply ih
      · rw [swapAt_length, h1]
      · intro x hx
        exact mem_swapAt_of_mem acc _ _ (by rw [h1]; exact Nat.mod_lt _ hl)
          (by rw [h1]; exact Nat.mod_lt _ hl) x (h2 x hx)
  exact key sw l rfl (fun x hx => hx)

theorem shuffle_spec (rng : Rng) (k : Nat) (l : List Nat) (hl : 0 < l.length) :
    (rng.shuffle k l).length = l.length ∧ ∀ x ∈ rng.shuffle k l, x ∈ l := by
  unfold Rng.shuffle
  generalize rng.swaps k = sw
  have key : ∀ (sw : List (Nat × Nat)) (acc : List Nat), acc.length = l.length →
      (∀ x ∈ acc, x ∈ l) →
      (sw.foldl (fun acc p => swapAt acc (p.1 % l.length) (p.2 % l.length)) acc).length
          = l.length ∧
        ∀ x ∈ sw.foldl (fun acc p => swapAt acc (p.1 % l.length) (p.2 % l.length)) acc,
          x ∈ l := by
    intro sw
    induction sw with
    | nil => intro acc h1 h2; exact ⟨h1, h2⟩
    | cons p sw ih =>
      intro acc h1 h2
      rw [List.foldl_cons]
      apply ih
      · rw [swapAt_length, h1]
      · intro x hx
        exact h2 x (mem_of_mem_swapAt acc _ _ (by rw [h1]; exact Nat.mod_lt _ hl)
          (by rw [h1]; exact Nat.mod_lt _ hl) x hx)
  exact key sw l rfl (fun x hx => hx)

/-- The array `nums` holds the nine digits. -/
def NumsOK (nums : List Nat) : Prop :=
  nums.length = 9 ∧ (∀ v ∈ nums, 1 ≤ v ∧ v ≤ 9) ∧ ∀ v, 1 ≤ v → v ≤ 9 → v ∈ nums

theorem numsOK_init : NumsOK ((List.range 9).map (fun i => i + 1)) := by
  refine ⟨by simp, ?_, ?_⟩
  · intro v hv
    simp only [List.mem_map, List.mem_range] at hv
    obtain ⟨i, hi, rfl⟩ := hv
    omega
  · intro v h1 h9
    simp only [List.mem_map, List.mem_range]
    exact ⟨v - 1, by omega, by omega⟩

theorem numsOK_shuffle (rng : Rng) (k : Nat) (nums : List Nat) (h : NumsOK nums) :
    NumsOK (rng.shuffle k nums) := by
  obtain ⟨h1, h2⟩ := shuffle_spec rng k nums (by rw [h.1]; omega)
  exact ⟨by rw [h1, h.1], fun v hv => h.2.1 v (h2 v hv),
    fun v hv1 hv9 => shuffle_mem rng k nums (by rw [h.1]; omega) v (h.2.2 v hv1 hv9)⟩

/-- What a run of the closure `dfs` of `fillRandom` from the cell `(r, c)` establishes. -/
structure FillSpec (r c : Nat) (s : FillState) (b : Bool) (s' : FillState) : Prop where
  nums : NumsOK s'.nums
  restore : b = false → s'.grid = s.grid
  before : b = true → ∀ i j : Fin 9, 9 * i.val + j.val < 9 * r + c → s'.grid i j = s.grid i j
  filled : b = true → ∀ i j : Fin 9, 9 * r + c ≤ 9 * i.val + j.val → s'.grid i j ≠ 0
  valid : b = true → ValidGivens s.grid → ValidGivens s'.grid

theorem fillDigits_spec (dfs : FillState → Option (Bool × FillState)) (r c : Fin 9)
    (hdfs : ∀ s b s', NumsOK s.nums →
      (∀ i j : Fin 9, 9 * r.val + c.val + 1 ≤ 9 * i.val + j.val → s.grid i j = 0) →
      dfs s = some (b, s') → FillSpec 0 (9 * r.val + c.val + 1) s b s')
    (vs : List Nat) (hvs : ∀ v ∈ vs, 1 ≤ v ∧ v ≤ 9) :
    ∀ s b s', NumsOK s.nums →
      (∀ i j : Fin 9, 9 * r.val + c.val ≤ 9 * i.val + j.val → s.grid i j = 0) →
      fillDigits dfs r.val c.val vs s = some (b, s') → FillSpec r.val c.val s b s' := by
  induction vs with
  | nil =>
    intro s b s' hn _ h
    simp only [fillDigits, Option.some.injEq, Prod.mk.injEq] at h
    obtain ⟨rfl, rfl⟩ := h
    exact ⟨hn, fun _ => rfl, fun h => by simp at h, fun h => by simp at h, fun h => by simp at h⟩
  | cons v vs ih =>
    intro s b s' hn hz h
    have hv := hvs v (List.mem_cons_self _ _)
    have ih' := ih (fun w hw => hvs w (List.mem_cons_of_mem _ hw))
    have h0 : s.grid r c = 0 := hz r c (le_refl _)
    simp only [fillDigits] at h
    split at h
    · rename_i hal
      rw [allowed_eq_isValid] at hal
      split at h
      · exact absurd h (by simp)
      · rename_i s2 hrun
        simp only [Option.some.injEq, Prod.mk.injEq] at h
        obtain ⟨rfl, rfl⟩ := h
        have hsp := hdfs { s with grid := s.grid.set r.val c.val v } _ _ hn (fun i j hij => by
          dsimp only
          rw [Grid.set_apply, if_neg]
          · exact hz i j (by omega)
          · rintro ⟨rfl, rfl⟩; omega) hrun
        refine ⟨hsp.nums, fun h => by simp at h, fun _ i j hij => ?_, fun _ i j hij => ?_,
          fun _ hvg => ?_⟩
        · rw [hsp.before rfl i j (by omega)]
          dsimp only
          rw [Grid.set_apply, if_neg]
          rintro ⟨rfl, rfl⟩; omega
        · by_cases hc : i = r ∧ j = c
          · obtain ⟨rfl, rfl⟩ := hc
            rw [hsp.before rfl i j (by omega)]
            dsimp only
            rw [Grid.set_same]
            omega
          · apply hsp.filled rfl i j
            have : 9 * i.val + j.val ≠ 9 * r.val + c.val := by
              intro hcon
              apply hc
              exact ⟨Fin.ext (by omega), Fin.ext (by omega)⟩
            omega
        · exact hsp.valid rfl (validGivens_set hvg r c v hv.2 hal)
      · rename_i s2 hrun
        have hsp := hdfs { s with grid := s.grid.set r.val c.val v } _ _ hn (fun i j hij => by
          dsimp only
          rw [Grid.set_apply, if_neg]
          · exact hz i j (by omega)
          · rintro ⟨rfl, rfl⟩; omega) hrun
        have hg : s2.grid = s.grid.set r.val c.val v := hsp.restore rfl
        have hback : s2.grid.set r.val c.val 0 = s.grid := by
          rw [hg]; exact Grid.set_set_zero s.grid r c v h0
        have := ih' { s2 with grid := s2.grid.set r.val c.val 0 } b s' hsp.nums
          (by dsimp only; rw [hback]; exact hz) h
        exact ⟨this.nums, fun hb => by rw [this.restore hb, hback],
          fun hb i j hij => by rw [this.before hb i j hij, hback],
          this.filled, fun hb hvg => this.valid hb (by rw [hback]; exact hvg)⟩
    · exact ih' s b s' hn hz h

theorem fillDfs_spec (ctx : Ctx) (rng : Rng) : ∀ (fuel r c : Nat) (s : FillState) (b : Bool)
    (s' : FillState), c < 9 → r ≤ 9 → NumsOK s.nums →
    (∀ i j : Fin 9, 9 * r + c ≤ 9 * i.val + j.val → s.grid i j = 0) →
    fillDfs ctx rng fuel r c s = some (b, s') → FillSpec r c s b s' := by
  intro fuel
  induction fuel with
  | zero => intro r c s b s' _ _ _ _ h; simp [fillDfs] at h
  | succ n ih =>
    intro r c s b s' hc hr hn hz h
    simp only [fillDfs] at h
    split at h
    · simp only [Option.some.injEq, Prod.mk.injEq] at h
      obtain ⟨rfl, rfl⟩ := h
      exact ⟨hn, fun _ => rfl, fun h => by simp at h, fun h => by simp at h,
        fun h => by simp at h⟩
    · split at h
      · rename_i h9
        simp only [Option.some.injEq, Prod.mk.injEq] at h
        obtain ⟨rfl, rfl⟩ := h
        refine ⟨hn, fun _ => rfl, fun _ _ _ _ => rfl, fun _ i j hij => ?_, fun _ hv => hv⟩
        have := i.isLt; have := j.isLt
        omega
      · rename_i h9
        have hr9 : r < 9 := by omega
        have e : 9 * (if c + 1 = 9 then r + 1 else r) + (if c + 1 = 9 then 0 else c + 1)
            = 9 * r + c + 1 := by split <;> omega
        have hsp := fillDigits_spec (fillDfs ctx rng n (if c + 1 = 9 then r + 1 else r)
            (if c + 1 = 9 then 0 else c + 1)) ⟨r, hr9⟩ ⟨c, hc⟩
          (fun s1 b1 s1' hn1 hz1 hrun1 => by
            have := ih _ _ s1 b1 s1' (by split <;> omega) (by split <;> omega) hn1
              (fun i j hij => hz1 i j (by rw [e] at hij; exact hij)) hrun1
            exact ⟨this.nums, this.restore,
              fun hb i j hij => this.before hb i j (by rw [e]; dsimp only at hij; omega),
              fun hb i j hij => this.filled hb i j (by rw [e]; dsimp only at hij; omega),
              this.valid⟩)
          _ (numsOK_shuffle rng s.shuffles s.nums hn).2.1
          { grid := s.grid, nums := rng.shuffle s.shuffles s.nums,
            shuffles := s.shuffles + 1, tick := s.tick + 1 } b s'
          (numsOK_shuffle rng s.shuffles s.nums hn) hz h
        exact ⟨hsp.nums, hsp.restore, hsp.before, hsp.filled, hsp.valid⟩

end Sudoku

namespace Sudoku

/-! ## The generator: the result of `Generate` -/

theorem validGivens_set_zero {g : Grid} (hv : ValidGivens g) (r c : Nat) :
    ValidGivens (g.set r c 0) := by
  refine ⟨fun i j => ?_, fun i j i' j' hp hne => ?_⟩
  · unfold Grid.set
    split
    · omega
    · exact hv.1 i j
  · unfold Grid.set at hne ⊢
    split at hne
    · exact absurd rfl hne
    · rename_i h1
      rw [if_neg h1]
      split
      · exact hne
      · exact hv.2 i j i' j' hp hne

/-- A successful `Generate` went through a successful `fillRandom` and a carving loop. -/
theorem generate_ok (g : UniqueGenerator) (env : GenEnv) (seed : Int) (diff : Difficulty)
    (res : GenResult) (p : Puzzle)
    (hrun : g.Generate env seed diff = some res) (hok : res.puzzle = .ok p) :
    ∃ fs s', fillRandom env.ctx (env.rng seed) 0 Grid.zero = some (true, fs) ∧
      carve g env (targetGivens diff) ((env.rng seed).shuffle fs.shuffles (List.range 81)) 0
        { puz := fs.grid, fixed := fun _ _ => true, nodes := 0, tick := fs.tick,
          checks := 0 } = some s' ∧
      p.Board.Values = s'.puz ∧ p.Board.Fixed = s'.fixed := by
  unfold UniqueGenerator.Generate at hrun
  dsimp only at hrun
  split at hrun
  · exact absurd hrun (by simp)
  · simp only [Option.some.injEq] at hrun
    rw [← hrun] at hok
    simp at hok
  · rename_i fs hfill
    split at hrun
    · exact absurd hrun (by simp)
    · rename_i s' hcarve
      simp only [Option.some.injEq] at hrun
      rw [← hrun] at hok
      simp only [Except.ok.injEq] at hok
      refine ⟨fs, s', hfill, hcarve, ?_, ?_⟩ <;> rw [← hok]

/-- The grid that a successful `fillRandom` leaves is full and has no repeat. -/
theorem fillRandom_ok (ctx : Ctx) (rng : Rng) (tick : Nat) (fs : FillState)
    (h : fillRandom ctx rng tick Grid.zero = some (true, fs)) :
    Full fs.grid ∧ ValidGivens fs.grid := by
  have hsp := fillDfs_spec ctx rng searchFuel 0 0 _ true fs (by omega) (by omega) numsOK_init
    (fun _ _ _ => rfl) h
  refine ⟨fun r c => hsp.filled rfl r c (by omega), hsp.valid rfl ?_⟩
  exact ⟨fun _ _ => by simp [Grid.zero], fun _ _ _ _ _ hne => absurd rfl hne⟩

/-- A solver whose `Unique`, without cancellation and on valid givens, answers whether
the board has exactly one completion. -/
def ExactUnique (sv : Solver) : Prop :=
  ∀ tick b, ValidGivens b.Values →
    ∃ res, sv.Unique none tick b = some res ∧
      (res.unique = true ↔ (completions b.Values).ncard = 1)

/-- With an exact solver and no cancellation, carving keeps the puzzle uniquely
solvable. -/
theorem carve_unique (g : UniqueGenerator) (env : GenEnv) (target : Nat)
    (hctx : env.ctx = none) (hsv : ExactUnique g.Solver) :
    ∀ (ps : List Nat) (i : Nat) (s s' : CarveState),
      carve g env target ps i s = some s' →
      ValidGivens s.puz → (completions s.puz).ncard = 1 →
        ValidGivens s'.puz ∧ (completions s'.puz).ncard = 1 := by
  intro ps
  induction ps with
  | nil =>
    intro i s s' h hv hn
    simp only [carve, Option.some.injEq] at h
    rw [← h]; exact ⟨hv, hn⟩
  | cons pos rest ih =>
    intro i s s' h hv hn
    simp only [carve] at h
    split at h
    · simp only [Option.some.injEq] at h; rw [← h]; exact ⟨hv, hn⟩
    · split at h
      · simp only [Option.some.injEq] at h; rw [← h]; exact ⟨hv, hn⟩
      · split at h
        · exact ih _ _ _ h hv hn
        · split at h
          · exact absurd h (by simp)
          · rename_i res hres
            have hv0 := validGivens_set_zero hv (pos / 9) (pos % 9)
            obtain ⟨res', hres', hiff⟩ := hsv s.tick
              { Values := s.puz.set (pos / 9) (pos % 9) 0, Fixed := Mask.zero } hv0
            rw [hctx, hres'] at hres
            simp only [Option.some.injEq] at hres
            subst hres
            split at h
            · refine ih _ _ _ h ?_ ?_
              · dsimp only
                rw [Grid.set_twice, Grid.set_get_cell]; exact hv
              · dsimp only
                rw [Grid.set_twice, Grid.set_get_cell]; exact hn
            · rename_i hu
              refine ih _ _ _ h hv0 ?_
              dsimp only
              apply hiff.mp
              simpa using hu

/-- With an exact solver and no cancellation, every puzzle `Generate` returns has exactly
one completion. -/
theorem generate_unique_of_exact (g : UniqueGenerator) (env : GenEnv) (seed : Int)
    (diff : Difficulty) (res : GenResult) (p : Puzzle)
    (hctx : env.ctx = none) (hsv : ExactUnique g.Solver)
    (hrun : g.Generate env seed diff = some res) (hok : res.puzzle = .ok p) :
    ValidGivens p.Board.Values ∧ (completions p.Board.Values).ncard = 1 := by
  obtain ⟨fs, s', hfill, hcarve, hval, _⟩ := generate_ok g env seed diff res p hrun hok
  obtain ⟨hfull, hvalid⟩ := fillRandom_ok _ _ _ fs hfill
  rw [hval]
  refine carve_unique g env _ hctx hsv _ _ _ _ hcarve hvalid ?_
  dsimp only
  rw [completions_of_full hvalid hfull, Set.ncard_singleton]

theorem bt_exactUnique : ExactUnique NewBacktrackingSolver := by
  intro tick b hb
  obtain ⟨res, h1, _, h2⟩ := bt_unique_exact tick b hb
  exact ⟨res, h1, h2⟩

end Sudoku

namespace Sudoku

/-! ## Chains of pointers -/

/-- Following the pointers `f` from `p` visits the nodes of `l` in order and then reaches
the header `h`. -/
def PtrChain (f : Nat → Nat) (h : Nat) : Nat → List Nat → Prop
  | p, [] => f p = h
  | p, x :: xs => f p = x ∧ PtrChain f h x xs

theorem PtrChain.frame {f f' : Nat → Nat} {h : Nat} :
    ∀ {p : Nat} {l : List Nat}, PtrChain f h p l → (∀ a ∈ p :: l, f' a = f a) →
      PtrChain f' h p l
  | p, [], hc, hf => by
    simp only [PtrChain] at hc ⊢
    rw [hf p (List.mem_cons_self _ _)]; exact hc
  | p, x :: xs, hc, hf => by
    simp only [PtrChain] at hc ⊢
    refine ⟨by rw [hf p (List.mem_cons_self _ _)]; exact hc.1, ?_⟩
    exact PtrChain.frame hc.2 (fun a ha => hf a (List.mem_cons_of_mem _ ha))

/-- The node that follows the last node of `l1` in the chain `l1 ++ l2`. -/
theorem PtrChain.next_of_append {f : Nat → Nat} {h : Nat} :
    ∀ {p : Nat} {l1 l2 : List Nat}, PtrChain f h p (l1 ++ l2) →
      f ((p :: l1).getLast (List.cons_ne_nil _ _)) = (l2 ++ [h]).head (by simp)
  | p, [], [], hc => by simpa [PtrChain] using hc
  | p, [], y :: ys, hc => by
    simp only [List.nil_append, PtrChain] at hc
    simpa using hc.1
  | p, x :: xs, l2, hc => by
    simp only [List.cons_append, PtrChain] at hc
    have := PtrChain.next_of_append hc.2
    rw [List.getLast_cons (List.cons_ne_nil _ _)]
    exact this

/-- The rest of a chain is a chain. -/
theorem PtrChain.tail_of_append {f : Nat → Nat} {h : Nat} :
    ∀ {p : Nat} {l1 l2 : List Nat}, PtrChain f h p (l1 ++ l2) →
      PtrChain f h ((p :: l1).getLast (List.cons_ne_nil _ _)) l2
  | p, [], l2, hc => by simpa using hc
  | p, x :: xs, l2, hc => by
    simp only [List.cons_append, PtrChain] at hc
    rw [List.getLast_cons (List.cons_ne_nil _ _)]
    exact PtrChain.tail_of_append hc.2

/-- Appending a new node at the end of a chain. -/
theorem PtrChain.append_node {f f' : Nat → Nat} {h x : Nat} :
    ∀ {p : Nat} {l : List Nat}, PtrChain f h p l → (p :: l).Nodup → x ∉ p :: l →
      f' x = h → f' ((p :: l).getLast (List.cons_ne_nil _ _)) = x →
      (∀ a ∈ p :: l, a ≠ (p :: l).getLast (List.cons_ne_nil _ _) → f' a = f a) →
      PtrChain f' h p (l ++ [x])
  | p, [], _, _, _, hx, hlast, _ => by
    simp only [List.nil_append, PtrChain]
    exact ⟨by simpa using hlast, hx⟩
  | p, y :: ys, hc, hnd, hnot, hx, hlast, hfr => by
    simp only [PtrChain] at hc
    simp only [List.cons_append, PtrChain]
    rw [List.getLast_cons (List.cons_ne_nil _ _)] at hlast
    have hnd' := List.nodup_cons.mp hnd
    refine ⟨?_, PtrChain.append_node hc.2 hnd'.2
      (fun hm => hnot (List.mem_cons_of_mem _ hm)) hx hlast ?_⟩
    · rw [hfr p (List.mem_cons_self _ _) ?_]
      · exact hc.1
      · rw [List.getLast_cons (List.cons_ne_nil _ _)]
        intro hcon
        exact hnd'.1 (hcon ▸ List.getLast_mem _)
    · intro a ha hne
      apply hfr a (List.mem_cons_of_mem _ ha)
      rw [List.getLast_cons (List.cons_ne_nil _ _)]
      exact hne

/-- Putting a new node right after the header of a chain that starts at its header. -/
theorem PtrChain.cons_node {f f' : Nat → Nat} {h x : Nat} {l : List Nat}
    (hc : PtrChain f h h l) (hx : x ∉ h :: l) (hh : h ∉ l)
    (h1 : f' h = x) (h2 : f' x = f h) (hfr : ∀ a ∈ l, f' a = f a) :
    PtrChain f' h h (x :: l) := by
  simp only [PtrChain]
  refine ⟨h1, ?_⟩
  cases l with
  | nil =>
    simp only [PtrChain] at hc ⊢
    rw [h2, hc]
  | cons y ys =>
    simp only [PtrChain] at hc ⊢
    refine ⟨by rw [h2, hc.1], PtrChain.frame hc.2 hfr⟩

/-- Taking a node out of a chain. -/
theorem PtrChain.remove_node {f f' : Nat → Nat} {h x : Nat} :
    ∀ {p : Nat} {l1 l2 : List Nat}, PtrChain f h p (l1 ++ x :: l2) →
      (p :: (l1 ++ x :: l2)).Nodup →
      f' ((p :: l1).getLast (List.cons_ne_nil _ _)) = f x →
      (∀ a ∈ p :: (l1 ++ l2), a ≠ (p :: l1).getLast (List.cons_ne_nil _ _) → f' a = f a) →
      PtrChain f' h p (l1 ++ l2)
  | p, [], l2, hc, hnd, hlast, hfr => by
    simp only [List.nil_append, PtrChain] at hc
    simp only [List.nil_append]
    simp only [List.getLast_singleton] at hlast hfr
    have hnd' := List.nodup_cons.mp hnd
    have hp : ∀ a ∈ l2, a ≠ p := fun a ha hcon =>
      hnd'.1 (by simp only [List.nil_append]; exact hcon ▸ List.mem_cons_of_mem _ ha)
    cases l2 with
    | nil =>
      simp only [PtrChain] at hc ⊢
      rw [hlast]; exact hc.2
    | cons y ys =>
      simp only [PtrChain] at hc ⊢
      refine ⟨by rw [hlast]; exact hc.2.1, PtrChain.frame hc.2.2 ?_⟩
      intro a ha
      exact hfr a (List.mem_cons_of_mem _ ha) (hp a ha)
  | p, y :: ys, l2, hc, hnd, hlast, hfr => by
    simp only [List.cons_append, PtrChain] at hc ⊢
    rw [List.getLast_cons (List.cons_ne_nil _ _)] at hlast
    have hnd' := List.nodup_cons.mp hnd
    refine ⟨?_, PtrChain.remove_node hc.2 hnd'.2 hlast ?_⟩
    · rw [hfr p (List.mem_cons_self _ _) ?_]
      · exact hc.1
      · rw [List.getLast_cons (List.cons_ne_nil _ _)]
        intro hcon
        apply hnd'.1
        rw [hcon]
        have : (y :: ys).getLast (List.cons_ne_nil _ _) ∈ y :: ys := List.getLast_mem _
        simp only [List.cons_append]
        rcases List.mem_cons.mp this with h1 | h1
        · rw [h1]; exact List.mem_cons_self _ _
        · exact List.mem_cons_of_mem _ (List.mem_append_left _ h1)
    · intro a ha hne
      apply hfr a (by
        simp only [List.cons_append]
        exact List.mem_cons_of_mem _ ha)
      rw [List.getLast_cons (List.cons_ne_nil _ _)]
      exact hne

end Sudoku

namespace Sudoku

/-! ## The shape of the exact-cover matrix -/

@[simp] theorem nSize_eq : nSize = 9 := rfl
@[simp] theorem nCells_eq : nCells = 81 := rfl
@[simp] theorem nCols_eq : nCols = 324 := rfl
@[simp] theorem nRows_eq : nRows = 729 := rfl
@[simp] theorem colCell_eq : colCell = 0 := rfl
@[simp] theorem colRowNum_eq : colRowNum = 81 := rfl
@[simp] theorem colColNum_eq : colColNum = 162 := rfl
@[simp] theorem colBoxNum_eq : colBoxNum = 243 := rfl

theorem nodeAddr_eq (row k : Nat) : nodeAddr row k = 324 + 4 * row + k := rfl

/-- The column number `k` of the candidate row `row`: the entry `k` of
`rowColumns(decodeRow(row))`. -/
def rcol (row k : Nat) : Nat :=
  (rowColumns (decodeRow row).1 (decodeRow row).2.1 (decodeRow row).2.2).getD k 0

theorem rcol_zero (row : Nat) : rcol row 0 = row / 9 := by
  simp only [rcol, rowColumns, decodeRow, nSize_eq, colCell_eq, List.getD_cons_zero]
  omega

theorem rcol_one (row : Nat) : rcol row 1 = 81 + row / 81 * 9 + row % 9 := by
  simp only [rcol, rowColumns, decodeRow, nSize_eq, colRowNum_eq, List.getD_cons_succ,
    List.getD_cons_zero]
  omega

theorem rcol_two (row : Nat) : rcol row 2 = 162 + row / 9 % 9 * 9 + row % 9 := by
  simp only [rcol, rowColumns, decodeRow, nSize_eq, colColNum_eq, List.getD_cons_succ,
    List.getD_cons_zero]
  omega

theorem rcol_three (row : Nat) :
    rcol row 3 = 243 + (row / 81 / 3 * 3 + row / 9 % 9 / 3) * 9 + row % 9 := by
  simp only [rcol, rowColumns, decodeRow, nSize_eq, colBoxNum_eq, List.getD_cons_succ,
    List.getD_cons_zero]
  omega

theorem rcol_range {row k : Nat} (hr : row < 729) (hk : k < 4) :
    81 * k ≤ rcol row k ∧ rcol row k < 81 * (k + 1) := by
  have h4 : k = 0 ∨ k = 1 ∨ k = 2 ∨ k = 3 := by omega
  rcases h4 with rfl | rfl | rfl | rfl
  · rw [rcol_zero]; omega
  · rw [rcol_one]; omega
  · rw [rcol_two]; omega
  · rw [rcol_three]; omega

theorem rcol_div {row k : Nat} (hr : row < 729) (hk : k < 4) : rcol row k / 81 = k := by
  have := rcol_range hr hk
  omega

theorem rcol_lt {row k : Nat} (hr : row < 729) (hk : k < 4) : rcol row k < 324 := by
  have := rcol_range hr hk
  omega

theorem rowIndex_decodeRow {row : Nat} :
    rowIndex (decodeRow row).1 (decodeRow row).2.1 (decodeRow row).2.2 = row := by
  simp only [rowIndex, decodeRow, nSize_eq]
  omega

theorem rowColumns_decodeRow (row : Nat) :
    rowColumns (decodeRow row).1 (decodeRow row).2.1 (decodeRow row).2.2 =
      [rcol row 0, rcol row 1, rcol row 2, rcol row 3] := by
  simp [rcol, rowColumns]

set_option maxRecDepth 1000000 in
theorem candidates_eq : candidates = (List.range 729).map decodeRow := by
  decide

/-- The node of the candidate row `row` in the column `c`. -/
def nodeOf (c row : Nat) : Nat := nodeAddr row (c / 81)

/-- The fields that `newDLX` sets once and for all, for the candidate rows below `n`. -/
structure StaticUpTo (d : DLX) (n : Nat) : Prop where
  col : ∀ row k, row < n → k < 4 → d.col.get (nodeAddr row k) = rcol row k
  right : ∀ row k, row < n → k < 4 → d.right.get (nodeAddr row k) = nodeAddr row ((k + 1) % 4)
  left : ∀ row k, row < n → k < 4 → d.left.get (nodeAddr row k) = nodeAddr row ((k + 3) % 4)
  rowIdx : ∀ row k, row < n → k < 4 → d.rowIdx.get (nodeAddr row k) = row
  rowHead : ∀ row, row < n → d.rowHead.get row = some (nodeAddr row 0)

/-- The fields that `newDLX` sets once and for all. -/
def Static (d : DLX) : Prop := StaticUpTo d 729

/-- The column `c` links the nodes of the candidate rows `l`, top to bottom, and its size
is their number. -/
structure ColOK (d : DLX) (c : Nat) (l : List Nat) : Prop where
  down : PtrChain d.down.get c c (l.map (nodeOf c))
  up : PtrChain d.up.get c c (l.map (nodeOf c)).reverse
  nodup : l.Nodup
  mem : ∀ row ∈ l, row < 729 ∧ rcol row (c / 81) = c
  size : d.size.get c = (l.length : Int)

/-- Every column links the candidate rows that `lst` gives for it. -/
def Vert (d : DLX) (lst : Nat → List Nat) : Prop := ∀ c, c < 324 → ColOK d c (lst c)

end Sudoku

namespace Sudoku

/-! ## The matrix that `newDLX` builds -/

/-- The fields of the matrix outside the links: untouched by everything but `search`. -/
structure AuxZero (d : DLX) : Prop where
  sol : d.sol = Mem.const none
  solLen : d.solLen = 0
  nodes : d.nodes = 0
  found : d.found = 0
  tick : d.tick = 0

theorem addColumns_spec (n : Nat) :
    (∀ i, i < n → ((List.range n).foldl addColumn DLX.zero).up.get i = i ∧
      ((List.range n).foldl addColumn DLX.zero).down.get i = i ∧
      ((List.range n).foldl addColumn DLX.zero).active.get i = true) ∧
    ((List.range n).foldl addColumn DLX.zero).size = Mem.const 0 ∧
    AuxZero ((List.range n).foldl addColumn DLX.zero) := by
  induction n with
  | zero =>
    refine ⟨fun i hi => by omega, rfl, ⟨rfl, rfl, rfl, rfl, rfl⟩⟩
  | succ n ih =>
    rw [List.range_succ, List.foldl_append, List.foldl_cons, List.foldl_nil]
    obtain ⟨h1, h2, h3⟩ := ih
    refine ⟨fun i hi => ?_, h2, ⟨h3.sol, h3.solLen, h3.nodes, h3.found, h3.tick⟩⟩
    simp only [addColumn]
    by_cases hin : i = n
    · subst hin
      simp only [Mem.get_set_same, and_self]
    · have := h1 i (by omega)
      simp only [Mem.get_set_ne _ _ hin]
      exact this

theorem linkNode_down (d : DLX) (row c a : Nat) (prev : Option Nat) (hac : a ≠ c) :
    (linkNode d row c a prev).down = (d.down.set a c).set (d.up.get c) a := by
  cases prev <;> simp only [linkNode, Mem.get_set_ne _ _ (Ne.symm hac)]

theorem linkNode_up (d : DLX) (row c a : Nat) (prev : Option Nat) :
    (linkNode d row c a prev).up = (d.up.set a (d.up.get c)).set c a := by
  cases prev <;> simp only [linkNode]

theorem linkNode_size (d : DLX) (row c a : Nat) (prev : Option Nat) :
    (linkNode d row c a prev).size = d.size.set c (d.size.get c + 1) := by
  cases prev <;> simp only [linkNode]

theorem linkNode_col (d : DLX) (row c a : Nat) (prev : Option Nat) :
    (linkNode d row c a prev).col = d.col.set a c := by
  cases prev <;> simp only [linkNode]

theorem linkNode_rowIdx (d : DLX) (row c a : Nat) (prev : Option Nat) :
    (linkNode d row c a prev).rowIdx = d.rowIdx.set a row := by
  cases prev <;> simp only [linkNode]

theorem linkNode_other (d : DLX) (row c a : Nat) (prev : Option Nat) :
    (linkNode d row c a prev).active = d.active ∧
    (linkNode d row c a prev).activeCnt = d.activeCnt ∧
    (linkNode d row c a prev).rowHead = d.rowHead ∧
    (linkNode d row c a prev).sol = d.sol ∧
    (linkNode d row c a prev).solLen = d.solLen ∧
    (linkNode d row c a prev).nodes = d.nodes ∧
    (linkNode d row c a prev).found = d.found ∧
    (linkNode d row c a prev).tick = d.tick := by
  cases prev <;> simp only [linkNode, and_self]

theorem nodeOf_ne_header (c row h : Nat) (hh : h < 324) : nodeOf c row ≠ h := by
  simp only [nodeOf, nodeAddr_eq]; omega

theorem nodeOf_inj {c c' row row' : Nat} (hc : c < 324) (hc' : c' < 324)
    (h : nodeOf c row = nodeOf c' row') : row = row' ∧ c / 81 = c' / 81 := by
  simp only [nodeOf, nodeAddr_eq] at h
  omega

/-- The last node of a column's list. -/
theorem getLast_header_map (c : Nat) (l : List Nat) :
    (c :: l.map (nodeOf c)).getLast (List.cons_ne_nil _ _) = c ∨
      ∃ row ∈ l, (c :: l.map (nodeOf c)).getLast (List.cons_ne_nil _ _) = nodeOf c row := by
  cases l with
  | nil => left; rfl
  | cons x xs =>
    right
    have hm : (c :: (x :: xs).map (nodeOf c)).getLast (List.cons_ne_nil _ _) ∈
        (x :: xs).map (nodeOf c) := by
      rw [List.getLast_cons (by simp)]
      exact List.getLast_mem _
    obtain ⟨row, hrow, heq⟩ := List.mem_map.mp hm
    exact ⟨row, hrow, heq.symm⟩

theorem colOK_nodup_nodes {d : DLX} {c : Nat} {l : List Nat} (hc : c < 324)
    (h : ColOK d c l) : (c :: l.map (nodeOf c)).Nodup := by
  rw [List.nodup_cons]
  refine ⟨?_, ?_⟩
  · intro hm
    obtain ⟨row, _, heq⟩ := List.mem_map.mp hm
    exact nodeOf_ne_header c row c hc heq
  · apply List.Nodup.map_on _ h.nodup
    intro x _ y _ hxy
    exact (nodeOf_inj hc hc hxy).1

theorem up_header_eq {d : DLX} {c : Nat} {l : List Nat} (h : ColOK d c l) :
    d.up.get c = (c :: l.map (nodeOf c)).getLast (List.cons_ne_nil _ _) := by
  have hu := h.up
  cases hl : (l.map (nodeOf c)).reverse with
  | nil =>
    rw [hl] at hu
    simp only [PtrChain] at hu
    have : l.map (nodeOf c) = [] := by simpa using hl
    simp only [this, List.getLast_singleton]
    exact hu
  | cons x xs =>
    rw [hl] at hu
    simp only [PtrChain] at hu
    have : l.map (nodeOf c) = xs.reverse ++ [x] := by
      have := congrArg List.reverse hl
      simpa using this
    simp only [this]
    rw [hu.1]
    simp

/-- Linking the new node of the candidate row `n` at the bottom of its column. -/
theorem linkNode_colOK {d : DLX} {c n : Nat} {l : List Nat} (prev : Option Nat)
    (hc : c < 324) (hn : n < 729) (hcol : rcol n (c / 81) = c) (hl : ∀ row ∈ l, row < n)
    (h : ColOK d c l) : ColOK (linkNode d n c (nodeOf c n) prev) c (l ++ [n]) := by
  have hlast := up_header_eq h
  have hnd := colOK_nodup_nodes hc h
  have hfresh : nodeOf c n ∉ c :: l.map (nodeOf c) := by
    intro hm
    rcases List.mem_cons.mp hm with h1 | h1
    · exact nodeOf_ne_header c n c hc h1
    · obtain ⟨row, hrow, heq⟩ := List.mem_map.mp h1
      have := (nodeOf_inj hc hc heq).1
      have := hl row hrow
      omega
  have hac : nodeOf c n ≠ c := nodeOf_ne_header c n c hc
  refine ⟨?_, ?_, ?_, ?_, ?_⟩
  · rw [linkNode_down d n c _ prev hac, List.map_append, List.map_cons, List.map_nil]
    apply PtrChain.append_node h.down hnd hfresh
    · rw [Mem.get_set]
      split
      · rename_i heq
        exfalso
        apply hfresh
        rw [heq, hlast]
        exact List.getLast_mem _
      · exact Mem.get_set_same _ _ _
    · rw [← hlast]; exact Mem.get_set_same _ _ _
    · intro a ha hne
      rw [← hlast] at hne
      rw [Mem.get_set_ne _ _ hne, Mem.get_set_ne]
      intro hcon
      exact hfresh (hcon ▸ ha)
  · rw [linkNode_up, List.map_append, List.map_cons, List.map_nil, List.reverse_append,
      List.reverse_singleton, List.singleton_append]
    apply PtrChain.cons_node h.up
    · intro hm
      apply hfresh
      rcases List.mem_cons.mp hm with h1 | h1
      · rw [h1]; exact List.mem_cons_self _ _
      · exact List.mem_cons_of_mem _ (List.mem_reverse.mp h1)
    · intro hm
      exact (List.nodup_cons.mp hnd).1 (List.mem_reverse.mp hm)
    · exact Mem.get_set_same _ _ _
    · rw [Mem.get_set_ne _ _ hac, Mem.get_set_same]
    · intro a ha
      have ha' : a ∈ l.map (nodeOf c) := List.mem_reverse.mp ha
      rw [Mem.get_set_ne, Mem.get_set_ne]
      · intro hcon
        exact hfresh (hcon ▸ List.mem_cons_of_mem _ ha')
      · intro hcon
        exact (List.nodup_cons.mp hnd).1 (hcon ▸ ha')
  · rw [List.nodup_append]
    refine ⟨h.nodup, List.nodup_singleton _, ?_⟩
    intro a ha hb
    rw [List.mem_singleton] at hb
    have := hl a ha
    omega
  · intro row hrow
    rcases List.mem_append.mp hrow with h1 | h1
    · exact h.mem row h1
    · rw [List.mem_singleton] at h1
      rw [h1]; exact ⟨hn, hcol⟩
  · rw [linkNode_size, Mem.get_set_same, h.size]
    simp

/-- Linking a node into the column `c` leaves the other columns as they are. -/
theorem linkNode_colOK_other {d : DLX} {c c' n : Nat} {l l' : List Nat} (prev : Option Nat)
    (hc : c < 324) (hc' : c' < 324) (hne : c' ≠ c)
    (hl' : ∀ row ∈ l', nodeOf c' row ≠ nodeOf c n)
    (h : ColOK d c l) (h' : ColOK d c' l') :
    ColOK (linkNode d n c (nodeOf c n) prev) c' l' := by
  have hlast := up_header_eq h
  have hac : nodeOf c n ≠ c := nodeOf_ne_header c n c hc
  have hnot : ∀ a ∈ c' :: l'.map (nodeOf c'), a ≠ nodeOf c n ∧ a ≠ c ∧ a ≠ d.up.get c := by
    intro a ha
    rcases List.mem_cons.mp ha with h1 | h1
    · subst h1
      refine ⟨(nodeOf_ne_header c n a hc').symm, hne, ?_⟩
      rw [hlast]
      rcases getLast_header_map c l with h2 | ⟨row, _, h2⟩
      · rw [h2]; exact hne
      · rw [h2]; exact (nodeOf_ne_header c row a hc').symm
    · obtain ⟨row, hrow, rfl⟩ := List.mem_map.mp h1
      refine ⟨hl' row hrow, nodeOf_ne_header c' row c hc, ?_⟩
      · rw [hlast]
        rcases getLast_header_map c l with h2 | ⟨row2, hrow2, h2⟩
        · rw [h2]; exact nodeOf_ne_header c' row c hc
        · rw [h2]
          intro hcon
          obtain ⟨e1, e2⟩ := nodeOf_inj hc' hc hcon
          subst e1
          have m1 := (h'.mem row hrow).2
          have m2 := (h.mem row hrow2).2
          rw [e2] at m1
          exact hne (m1.symm.trans m2)
  refine ⟨?_, ?_, h'.nodup, h'.mem, ?_⟩
  · rw [linkNode_down d n c _ prev hac]
    apply PtrChain.frame h'.down
    intro a ha
    obtain ⟨n1, n2, n3⟩ := hnot a ha
    rw [Mem.get_set_ne _ _ n3, Mem.get_set_ne _ _ n1]
  · rw [linkNode_up]
    apply PtrChain.frame h'.up
    intro a ha
    have ha' : a ∈ c' :: l'.map (nodeOf c') := by
      rcases List.mem_cons.mp ha with h1 | h1
      · rw [h1]; exact List.mem_cons_self _ _
      · exact List.mem_cons_of_mem _ (List.mem_reverse.mp h1)
    obtain ⟨n1, n2, n3⟩ := hnot a ha'
    rw [Mem.get_set_ne _ _ n2, Mem.get_set_ne _ _ n1]
  · rw [linkNode_size, Mem.get_set_ne _ _ hne]
    exact h'.size


theorem linkNode_ring_none (d : DLX) (row c a : Nat) :
    (linkNode d row c a none).right = d.right.set a a ∧
    (linkNode d row c a none).left = d.left.set a a := by
  simp only [linkNode, and_self]

theorem linkNode_ring_some (d : DLX) (row c a p : Nat) (hp : p ≠ a) :
    (linkNode d row c a (some p)).right = (d.right.set a (d.right.get p)).set p a ∧
    (linkNode d row c a (some p)).left = (d.left.set a p).set (d.right.get p) a := by
  simp only [linkNode, Mem.get_set_ne _ _ hp, and_self]

/-- The invariant of the loop of `newDLX` over the candidate rows: the rows below `n`
are linked. -/
structure BuildInv (d : DLX) (n : Nat) : Prop where
  static : StaticUpTo d n
  vert : ∀ c, c < 324 → ColOK d c ((List.range n).filter (fun row => rcol row (c / 81) = c))
  active : ∀ c, c < 324 → d.active.get c = true
  activeCnt : d.activeCnt = 324
  aux : AuxZero d

/-- The columns' lists while the nodes of the row `n` are being linked: the first `j`
columns of the row already hold it. -/
def partialList (n j c : Nat) : List Nat :=
  (List.range n).filter (fun row => rcol row (c / 81) = c) ++
    (if c / 81 < j ∧ rcol n (c / 81) = c then [n] else [])

theorem mem_partialList_lt {n j c row : Nat} (h : row ∈ partialList n j c) : row ≤ n := by
  simp only [partialList, List.mem_append, List.mem_filter, List.mem_range] at h
  rcases h with h | h
  · omega
  · split at h
    · simp at h; omega
    · simp at h

theorem linkNode_partial {d : DLX} {n j : Nat} (prev : Option Nat) (hn : n < 729) (hj : j < 4)
    (h : ∀ c, c < 324 → ColOK d c (partialList n j c)) :
    ∀ c, c < 324 →
      ColOK (linkNode d n (rcol n j) (nodeAddr n j) prev) c (partialList n (j + 1) c) := by
  intro c hc
  have hcj := rcol_lt hn hj
  have hdiv := rcol_div hn hj
  have haddr : nodeAddr n j = nodeOf (rcol n j) n := by simp only [nodeOf, hdiv]
  rw [haddr]
  by_cases hcc : c = rcol n j
  · subst hcc
    have e1 : partialList n j (rcol n j) =
        (List.range n).filter (fun row => rcol row (rcol n j / 81) = rcol n j) := by
      simp only [partialList, hdiv, Nat.lt_irrefl, false_and, if_false, List.append_nil]
    have e2 : partialList n (j + 1) (rcol n j) =
        (List.range n).filter (fun row => rcol row (rcol n j / 81) = rcol n j) ++ [n] := by
      simp only [partialList, hdiv, Nat.lt_succ_self, true_and, if_true]
    rw [e2]
    have := h _ hc
    rw [e1] at this
    exact linkNode_colOK prev hc hn (by rw [hdiv]) (fun row hrow => by
      simp only [List.mem_filter, List.mem_range] at hrow
      exact hrow.1) this
  · have e : partialList n (j + 1) c = partialList n j c := by
      simp only [partialList]
      by_cases hk : c / 81 = j
      · have : rcol n (c / 81) ≠ c := by rw [hk]; exact fun hh => hcc hh.symm
        simp only [this, and_false, if_false]
      · have hiff : (c / 81 < j + 1 ∧ rcol n (c / 81) = c) ↔
            (c / 81 < j ∧ rcol n (c / 81) = c) := by
          constructor <;> rintro ⟨h1, h2⟩ <;> exact ⟨by omega, h2⟩
        rw [if_congr hiff rfl rfl]
    rw [e]
    refine linkNode_colOK_other prev hcj hc hcc ?_ (h _ hcj) (h _ hc)
    intro row hrow hcon
    obtain ⟨e1, e2⟩ := nodeOf_inj hc hcj hcon
    subst e1
    rw [hdiv] at e2
    simp only [partialList, List.mem_append, List.mem_filter, List.mem_range] at hrow
    rcases hrow with hrow | hrow
    · omega
    · split at hrow
      · rename_i hh
        omega
      · simp at hrow

end Sudoku

namespace Sudoku

/-- The four nodes of the candidate row `n`, linked one after the other. -/
def linkedRow (d : DLX) (n : Nat) : DLX :=
  linkNode (linkNode (linkNode (linkNode d n (rcol n 0) (nodeAddr n 0) none)
    n (rcol n 1) (nodeAddr n 1) (some (nodeAddr n 0)))
    n (rcol n 2) (nodeAddr n 2) (some (nodeAddr n 1)))
    n (rcol n 3) (nodeAddr n 3) (some (nodeAddr n 2))

theorem buildRow_eq (d : DLX) (n : Nat) :
    buildRow d (decodeRow n) =
      { linkedRow d n with
        rowHead := (linkedRow d n).rowHead.set n (some (nodeAddr n 0)) } := by
  unfold buildRow
  dsimp only
  rw [rowIndex_decodeRow, rowColumns_decodeRow]
  rfl

theorem linkedRow_col (d : DLX) (n : Nat) :
    (linkedRow d n).col = (((d.col.set (nodeAddr n 0) (rcol n 0)).set (nodeAddr n 1)
      (rcol n 1)).set (nodeAddr n 2) (rcol n 2)).set (nodeAddr n 3) (rcol n 3) := by
  simp only [linkedRow, linkNode_col]

theorem linkedRow_rowIdx (d : DLX) (n : Nat) :
    (linkedRow d n).rowIdx = (((d.rowIdx.set (nodeAddr n 0) n).set (nodeAddr n 1)
      n).set (nodeAddr n 2) n).set (nodeAddr n 3) n := by
  simp only [linkedRow, linkNode_rowIdx]

theorem linkedRow_other (d : DLX) (n : Nat) :
    (linkedRow d n).active = d.active ∧ (linkedRow d n).activeCnt = d.activeCnt ∧
    (linkedRow d n).rowHead = d.rowHead ∧ (linkedRow d n).sol = d.sol ∧
    (linkedRow d n).solLen = d.solLen ∧ (linkedRow d n).nodes = d.nodes ∧
    (linkedRow d n).found = d.found ∧ (linkedRow d n).tick = d.tick := by
  simp only [linkedRow, linkNode_other, and_self]

theorem linkedRow_right (d : DLX) (n : Nat) :
    (linkedRow d n).right =
      (((((((d.right.set (nodeAddr n 0) (nodeAddr n 0)).set (nodeAddr n 1) (nodeAddr n 0)).set
        (nodeAddr n 0) (nodeAddr n 1)).set (nodeAddr n 2) (nodeAddr n 0)).set
        (nodeAddr n 1) (nodeAddr n 2)).set (nodeAddr n 3) (nodeAddr n 0)).set
        (nodeAddr n 2) (nodeAddr n 3)) := by
  have h01 : nodeAddr n 0 ≠ nodeAddr n 1 := by simp only [nodeAddr_eq]; omega
  have h12 : nodeAddr n 1 ≠ nodeAddr n 2 := by simp only [nodeAddr_eq]; omega
  have h23 : nodeAddr n 2 ≠ nodeAddr n 3 := by simp only [nodeAddr_eq]; omega
  have h02 : nodeAddr n 0 ≠ nodeAddr n 2 := by simp only [nodeAddr_eq]; omega
  have h10 : nodeAddr n 1 ≠ nodeAddr n 0 := by simp only [nodeAddr_eq]; omega
  have h20 : nodeAddr n 2 ≠ nodeAddr n 0 := by simp only [nodeAddr_eq]; omega
  have h21 : nodeAddr n 2 ≠ nodeAddr n 1 := by simp only [nodeAddr_eq]; omega
  simp only [linkedRow, (linkNode_ring_none _ _ _ _).1, (linkNode_ring_some _ _ _ _ _ h01).1,
    (linkNode_ring_some _ _ _ _ _ h12).1, (linkNode_ring_some _ _ _ _ _ h23).1,
    Mem.get_set_same, Mem.get_set_ne _ _ h10, Mem.get_set_ne _ _ h20, Mem.get_set_ne _ _ h21]

theorem linkedRow_left (d : DLX) (n : Nat) :
    (linkedRow d n).left =
      (((((((d.left.set (nodeAddr n 0) (nodeAddr n 0)).set (nodeAddr n 1) (nodeAddr n 0)).set
        (nodeAddr n 0) (nodeAddr n 1)).set (nodeAddr n 2) (nodeAddr n 1)).set
        (nodeAddr n 0) (nodeAddr n 2)).set (nodeAddr n 3) (nodeAddr n 2)).set
        (nodeAddr n 0) (nodeAddr n 3)) := by
  have h01 : nodeAddr n 0 ≠ nodeAddr n 1 := by simp only [nodeAddr_eq]; omega
  have h12 : nodeAddr n 1 ≠ nodeAddr n 2 := by simp only [nodeAddr_eq]; omega
  have h23 : nodeAddr n 2 ≠ nodeAddr n 3 := by simp only [nodeAddr_eq]; omega
  have h10 : nodeAddr n 1 ≠ nodeAddr n 0 := by simp only [nodeAddr_eq]; omega
  have h20 : nodeAddr n 2 ≠ nodeAddr n 0 := by simp only [nodeAddr_eq]; omega
  have h21 : nodeAddr n 2 ≠ nodeAddr n 1 := by simp only [nodeAddr_eq]; omega
  simp only [linkedRow, (linkNode_ring_none _ _ _ _).1, (linkNode_ring_none _ _ _ _).2,
    (linkNode_ring_some _ _ _ _ _ h01).1, (linkNode_ring_some _ _ _ _ _ h01).2,
    (linkNode_ring_some _ _ _ _ _ h12).1, (linkNode_ring_some _ _ _ _ _ h12).2,
    (linkNode_ring_some _ _ _ _ _ h23).2,
    Mem.get_set_same, Mem.get_set_ne _ _ h10, Mem.get_set_ne _ _ h20, Mem.get_set_ne _ _ h21]

theorem partialList_zero (n c : Nat) :
    partialList n 0 c = (List.range n).filter (fun row => rcol row (c / 81) = c) := by
  simp [partialList]

theorem partialList_four (n c : Nat) (hc : c < 324) :
    partialList n 4 c = (List.range (n + 1)).filter (fun row => rcol row (c / 81) = c) := by
  have h4 : c / 81 < 4 := by omega
  simp only [partialList, h4, true_and, List.range_succ, List.filter_append]
  congr 1
  by_cases h : rcol n (c / 81) = c
  · simp [h]
  · simp [h]

theorem buildRow_inv {d : DLX} {n : Nat} (hn : n < 729) (h : BuildInv d n) :
    BuildInv (buildRow d (decodeRow n)) (n + 1) := by
  rw [buildRow_eq]
  obtain ⟨ho1, ho2, ho3, ho4, ho5, ho6, ho7, ho8⟩ := linkedRow_other d n
  have hne : ∀ row k j, row < n → k < 4 → j < 4 → nodeAddr row k ≠ nodeAddr n j := by
    intro row k j h1 h2 h3
    simp only [nodeAddr_eq]; omega
  refine ⟨⟨?_, ?_, ?_, ?_, ?_⟩, ?_, ?_, ?_, ?_⟩
  · intro row k hrow hk
    show (linkedRow d n).col.get (nodeAddr row k) = rcol row k
    rw [linkedRow_col]
    by_cases hr : row = n
    · subst hr
      have hk4 : k = 0 ∨ k = 1 ∨ k = 2 ∨ k = 3 := by omega
      rcases hk4 with rfl | rfl | rfl | rfl <;>
        simp [Mem.get_set, nodeAddr_eq]
    · have hlt : row < n := by omega
      rw [Mem.get_set_ne _ _ (hne row k 3 hlt hk (by omega)),
        Mem.get_set_ne _ _ (hne row k 2 hlt hk (by omega)),
        Mem.get_set_ne _ _ (hne row k 1 hlt hk (by omega)),
        Mem.get_set_ne _ _ (hne row k 0 hlt hk (by omega))]
      exact h.static.col row k hlt hk
  · intro row k hrow hk
    show (linkedRow d n).right.get (nodeAddr row k) = nodeAddr row ((k + 1) % 4)
    rw [linkedRow_right]
    by_cases hr : row = n
    · subst hr
      have hk4 : k = 0 ∨ k = 1 ∨ k = 2 ∨ k = 3 := by omega
      rcases hk4 with rfl | rfl | rfl | rfl <;>
        simp [Mem.get_set, nodeAddr_eq]
    · have hlt : row < n := by omega
      rw [Mem.get_set_ne _ _ (hne row k 2 hlt hk (by omega)),
        Mem.get_set_ne _ _ (hne row k 3 hlt hk (by omega)),
        Mem.get_set_ne _ _ (hne row k 1 hlt hk (by omega)),
        Mem.get_set_ne _ _ (hne row k 2 hlt hk (by omega)),
        Mem.get_set_ne _ _ (hne row k 0 hlt hk (by omega)),
        Mem.get_set_ne _ _ (hne row k 1 hlt hk (by omega)),
        Mem.get_set_ne _ _ (hne row k 0 hlt hk (by omega))]
      exact h.static.right row k hlt hk
  · intro row k hrow hk
    show (linkedRow d n).left.get (nodeAddr row k) = nodeAddr row ((k + 3) % 4)
    rw [linkedRow_left]
    by_cases hr : row = n
    · subst hr
      have hk4 : k = 0 ∨ k = 1 ∨ k = 2 ∨ k = 3 := by omega
      rcases hk4 with rfl | rfl | rfl | rfl <;>
        simp [Mem.get_set, nodeAddr_eq]
    · have hlt : row < n := by omega
      rw [Mem.get_set_ne _ _ (hne row k 0 hlt hk (by omega)),
        Mem.get_set_ne _ _ (hne row k 3 hlt hk (by omega)),
        Mem.get_set_ne _ _ (hne row k 0 hlt hk (by omega)),
        Mem.get_set_ne _ _ (hne row k 2 hlt hk (by omega)),
        Mem.get_set_ne _ _ (hne row k 0 hlt hk (by omega)),
        Mem.get_set_ne _ _ (hne row k 1 hlt hk (by omega)),
        Mem.get_set_ne _ _ (hne row k 0 hlt hk (by omega))]
      exact h.static.left row k hlt hk
  · intro row k hrow hk
    show (linkedRow d n).rowIdx.get (nodeAddr row k) = row
    rw [linkedRow_rowIdx]
    by_cases hr : row = n
    · subst hr
      have hk4 : k = 0 ∨ k = 1 ∨ k = 2 ∨ k = 3 := by omega
      rcases hk4 with rfl | rfl | rfl | rfl <;>
        simp [Mem.get_set, nodeAddr_eq]
    · have hlt : row < n := by omega
      rw [Mem.get_set_ne _ _ (hne row k 3 hlt hk (by omega)),
        Mem.get_set_ne _ _ (hne row k 2 hlt hk (by omega)),
        Mem.get_set_ne _ _ (hne row k 1 hlt hk (by omega)),
        Mem.get_set_ne _ _ (hne row k 0 hlt hk (by omega))]
      exact h.static.rowIdx row k hlt hk
  · intro row hrow
    show ((linkedRow d n).rowHead.set n (some (nodeAddr n 0))).get row = some (nodeAddr row 0)
    rw [ho3, Mem.get_set]
    split
    · rename_i heq; rw [heq]
    · exact h.static.rowHead row (by omega)
  · intro c hc
    have h0 : ∀ c, c < 324 → ColOK d c (partialList n 0 c) := fun c hc => by
      rw [partialList_zero]; exact h.vert c hc
    have h1 := linkNode_partial none hn (by omega) h0
    have h2 := linkNode_partial (some (nodeAddr n 0)) hn (by omega) h1
    have h3 := linkNode_partial (some (nodeAddr n 1)) hn (by omega) h2
    have h4 := linkNode_partial (some (nodeAddr n 2)) hn (by omega) h3 c hc
    rw [partialList_four n c hc] at h4
    exact ⟨h4.down, h4.up, h4.nodup, h4.mem, h4.size⟩
  · intro c hc
    show (linkedRow d n).active.get c = true
    rw [ho1]; exact h.active c hc
  · show (linkedRow d n).activeCnt = 324
    rw [ho2]; exact h.activeCnt
  · exact ⟨ho4.trans h.aux.sol, ho5.trans h.aux.solLen, ho6.trans h.aux.nodes,
      ho7.trans h.aux.found, ho8.trans h.aux.tick⟩

theorem foldl_buildRow_inv (d : DLX) (h0 : BuildInv d 0) :
    ∀ n, n ≤ 729 → BuildInv (((List.range n).map decodeRow).foldl buildRow d) n := by
  intro n
  induction n with
  | zero => intro _; exact h0
  | succ n ih =>
    intro hn
    rw [List.range_succ, List.map_append, List.foldl_append, List.map_cons, List.map_nil,
      List.foldl_cons, List.foldl_nil]
    exact buildRow_inv (by omega) (ih (by omega))

theorem buildInv_columns (d0 : DLX)
    (h1 : ∀ i, i < 324 → d0.up.get i = i ∧ d0.down.get i = i ∧ d0.active.get i = true)
    (h2 : d0.size = Mem.const 0) (h3 : AuxZero d0) :
    BuildInv { d0 with activeCnt := 324 } 0 := by
  refine ⟨⟨fun _ _ h => by omega, fun _ _ h => by omega, fun _ _ h => by omega,
    fun _ _ h => by omega, fun _ h => by omega⟩, ?_, ?_, rfl,
    ⟨h3.sol, h3.solLen, h3.nodes, h3.found, h3.tick⟩⟩
  · intro c hc
    obtain ⟨hu, hd, _⟩ := h1 c hc
    refine ⟨?_, ?_, ?_, ?_, ?_⟩
    · simpa [PtrChain] using hd
    · simpa [PtrChain] using hu
    · simp
    · simp
    · show d0.size.get c = _
      rw [h2]; simp
  · intro c hc
    exact (h1 c hc).2.2

/-- The matrix that `newDLX` returns. -/
theorem newDLX_inv : BuildInv newDLX 729 := by
  unfold newDLX
  rw [candidates_eq]
  apply foldl_buildRow_inv _ _ 729 (le_refl _)
  obtain ⟨h1, h2, h3⟩ := addColumns_spec 324
  exact buildInv_columns _ h1 h2 h3

end Sudoku

namespace Sudoku

/-! ## Taking a node out of its column and putting it back -/

theorem getLast_cons_reverse (c : Nat) (l : List Nat) :
    (c :: l.reverse).getLast (List.cons_ne_nil _ _) = (l ++ [c]).head (by simp) := by
  cases l with
  | nil => rfl
  | cons x xs =>
    rw [List.getLast_cons (by simp)]
    simp

theorem head_reverse_append (c : Nat) (l : List Nat) :
    (l.reverse ++ [c]).head (by simp) = (c :: l).getLast (List.cons_ne_nil _ _) := by
  have := getLast_cons_reverse c l.reverse
  simp only [List.reverse_reverse] at this
  exact this.symm

/-- The neighbours of a linked node. -/
theorem colOK_neighbours {d : DLX} {c row : Nat} {l : List Nat}
    (h : ColOK d c l) (hrow : row ∈ l) :
    ∃ l1 l2 : List Nat, l = l1 ++ row :: l2 ∧
      d.down.get ((c :: l1.map (nodeOf c)).getLast (List.cons_ne_nil _ _)) = nodeOf c row ∧
      d.down.get (nodeOf c row) = (l2.map (nodeOf c) ++ [c]).head (by simp) ∧
      d.up.get ((l2.map (nodeOf c) ++ [c]).head (by simp)) = nodeOf c row ∧
      d.up.get (nodeOf c row) = (c :: l1.map (nodeOf c)).getLast (List.cons_ne_nil _ _) := by
  obtain ⟨l1, l2, hl⟩ := List.append_of_mem hrow
  refine ⟨l1, l2, hl, ?_, ?_, ?_, ?_⟩
  · have hd := h.down
    rw [hl, List.map_append, List.map_cons] at hd
    have := PtrChain.next_of_append hd
    simpa using this
  · have hd := h.down
    rw [hl, List.map_append, List.map_cons] at hd
    have h2 : PtrChain d.down.get c c ((l1.map (nodeOf c) ++ [nodeOf c row]) ++ l2.map (nodeOf c)) := by
      simpa using hd
    have := PtrChain.next_of_append h2
    rw [List.getLast_cons (by simp)] at this
    simpa using this
  · have hu := h.up
    rw [hl, List.map_append, List.map_cons, List.reverse_append, List.reverse_cons,
      List.append_assoc, List.singleton_append] at hu
    have := PtrChain.next_of_append hu
    rw [getLast_cons_reverse] at this
    simpa using this
  · have hu := h.up
    rw [hl, List.map_append, List.map_cons, List.reverse_append, List.reverse_cons,
      List.append_assoc, List.singleton_append] at hu
    have h2 : PtrChain d.up.get c c
        (((l2.map (nodeOf c)).reverse ++ [nodeOf c row]) ++ (l1.map (nodeOf c)).reverse) := by
      simpa using hu
    have := PtrChain.next_of_append h2
    rw [List.getLast_cons (by simp)] at this
    rw [head_reverse_append] at this
    simpa using this

theorem filter_ne_of_split {l1 l2 : List Nat} {row : Nat} (hnd : (l1 ++ row :: l2).Nodup) :
    (l1 ++ row :: l2).filter (fun r => decide (r ≠ row)) = l1 ++ l2 := by
  have h1 : ∀ r ∈ l1, r ≠ row := by
    intro r hr hcon
    subst hcon
    have := List.nodup_append.mp hnd
    exact this.2.2 hr (List.mem_cons_self _ _)
  have h2 : ∀ r ∈ l2, r ≠ row := by
    intro r hr hcon
    subst hcon
    have := (List.nodup_append.mp hnd).2.1
    exact (List.nodup_cons.mp this).1 hr
  rw [List.filter_append, List.filter_cons]
  simp only [ne_eq, not_true_eq_false, decide_False, Bool.false_eq_true, if_false]
  rw [List.filter_eq_self.mpr (fun r hr => by simpa using h1 r hr),
    List.filter_eq_self.mpr (fun r hr => by simpa using h2 r hr)]


theorem unlinkNode_up (d : DLX) (j : Nat) :
    (unlinkNode d j).up = d.up.set (d.down.get j) (d.up.get j) := rfl

theorem unlinkNode_down (d : DLX) (j : Nat) (h : j ≠ d.down.get j) :
    (unlinkNode d j).down = d.down.set (d.up.get j) (d.down.get j) := by
  simp only [unlinkNode, Mem.get_set_ne _ _ h]

theorem unlinkNode_size (d : DLX) (j : Nat) :
    (unlinkNode d j).size = d.size.set (d.col.get j) (d.size.get (d.col.get j) - 1) := rfl

/-- The fields that `cover` and `uncover` leave alone in a node. -/
structure SameFrame (d d' : DLX) : Prop where
  left : d'.left = d.left
  right : d'.right = d.right
  col : d'.col = d.col
  rowIdx : d'.rowIdx = d.rowIdx
  rowHead : d'.rowHead = d.rowHead
  name : d'.name = d.name
  sol : d'.sol = d.sol
  solLen : d'.solLen = d.solLen
  nodes : d'.nodes = d.nodes
  found : d'.found = d.found
  tick : d'.tick = d.tick

theorem SameFrame.refl (d : DLX) : SameFrame d d :=
  ⟨rfl, rfl, rfl, rfl, rfl, rfl, rfl, rfl, rfl, rfl, rfl⟩

theorem SameFrame.trans {a b c : DLX} (h1 : SameFrame a b) (h2 : SameFrame b c) :
    SameFrame a c :=
  ⟨h2.left.trans h1.left, h2.right.trans h1.right, h2.col.trans h1.col,
    h2.rowIdx.trans h1.rowIdx, h2.rowHead.trans h1.rowHead, h2.name.trans h1.name,
    h2.sol.trans h1.sol, h2.solLen.trans h1.solLen, h2.nodes.trans h1.nodes,
    h2.found.trans h1.found, h2.tick.trans h1.tick⟩

theorem unlinkNode_frame (d : DLX) (j : Nat) :
    SameFrame d (unlinkNode d j) ∧ (unlinkNode d j).active = d.active ∧
      (unlinkNode d j).activeCnt = d.activeCnt :=
  ⟨⟨rfl, rfl, rfl, rfl, rfl, rfl, rfl, rfl, rfl, rfl, rfl⟩, rfl, rfl⟩

theorem StaticUpTo.of_frame {d d' : DLX} {n : Nat} (h : StaticUpTo d n) (hf : SameFrame d d') :
    StaticUpTo d' n :=
  ⟨fun r k hr hk => by rw [hf.col]; exact h.col r k hr hk,
   fun r k hr hk => by rw [hf.right]; exact h.right r k hr hk,
   fun r k hr hk => by rw [hf.left]; exact h.left r k hr hk,
   fun r k hr hk => by rw [hf.rowIdx]; exact h.rowIdx r k hr hk,
   fun r hr => by rw [hf.rowHead]; exact h.rowHead r hr⟩

theorem DLX.eq_of_fields (d d' : DLX) (hf : SameFrame d d') (h1 : d'.up = d.up)
    (h2 : d'.down = d.down) (h3 : d'.size = d.size) (h4 : d'.active = d.active)
    (h5 : d'.activeCnt = d.activeCnt) : d' = d := by
  obtain ⟨a1, a2, a3, a4, a5, a6, a7, a8, a9, a10, a11⟩ := hf
  cases d
  cases d'
  simp only at a1 a2 a3 a4 a5 a6 a7 a8 a9 a10 a11 h1 h2 h3 h4 h5
  subst a1 a2 a3 a4 a5 a6 a7 a8 a9 a10 a11 h1 h2 h3 h4 h5
  rfl

/-- Unlinking a linked node and linking it again right away changes nothing. -/
theorem relink_unlink (d : DLX) (j : Nat) (hPj : d.down.get (d.up.get j) = j)
    (hNj : d.up.get (d.down.get j) = j) (hne1 : j ≠ d.down.get j) (hne2 : j ≠ d.up.get j) :
    relinkNode (unlinkNode d j) j = d := by
  have hdown := unlinkNode_down d j hne1
  apply DLX.eq_of_fields
  · exact ⟨rfl, rfl, rfl, rfl, rfl, rfl, rfl, rfl, rfl, rfl, rfl⟩
  · show (unlinkNode d j).up.set ((unlinkNode d j).down.get j) j = d.up
    rw [hdown, Mem.get_set_ne _ _ hne2, unlinkNode_up, Mem.set_set]
    have := Mem.set_get_self d.up (d.down.get j)
    rw [hNj] at this
    exact this
  · show (unlinkNode d j).down.set
      (((unlinkNode d j).up.set ((unlinkNode d j).down.get j) j).get j) j = d.down
    rw [hdown, Mem.get_set_ne _ _ hne2, unlinkNode_up, Mem.set_set,
      Mem.get_set_ne _ _ hne1, Mem.set_set]
    have := Mem.set_get_self d.down (d.up.get j)
    rw [hPj] at this
    exact this
  · show (unlinkNode d j).size.set ((unlinkNode d j).col.get j)
      ((unlinkNode d j).size.get ((unlinkNode d j).col.get j) + 1) = d.size
    rw [unlinkNode_size]
    show (d.size.set (d.col.get j) (d.size.get (d.col.get j) - 1)).set (d.col.get j)
      ((d.size.set (d.col.get j) (d.size.get (d.col.get j) - 1)).get (d.col.get j) + 1) = d.size
    rw [Mem.get_set_same, Mem.set_set, Int.sub_add_cancel, Mem.set_get_self]
  · rfl
  · rfl

end Sudoku

namespace Sudoku

/-- The facts about a linked node that unlinking and relinking it use. -/
structure Linked (d : DLX) (c row : Nat) (l l1 l2 : List Nat) : Prop where
  split : l = l1 ++ row :: l2
  downPrev : d.down.get ((c :: l1.map (nodeOf c)).getLast (List.cons_ne_nil _ _))
    = nodeOf c row
  downSelf : d.down.get (nodeOf c row) = (l2.map (nodeOf c) ++ [c]).head (by simp)
  upNext : d.up.get ((l2.map (nodeOf c) ++ [c]).head (by simp)) = nodeOf c row
  upSelf : d.up.get (nodeOf c row) = (c :: l1.map (nodeOf c)).getLast (List.cons_ne_nil _ _)
  nodupNodes : (c :: (l1.map (nodeOf c) ++ nodeOf c row :: l2.map (nodeOf c))).Nodup
  neNext : nodeOf c row ≠ d.down.get (nodeOf c row)
  nePrev : nodeOf c row ≠ d.up.get (nodeOf c row)

theorem colOK_linked {d : DLX} {c row : Nat} {l : List Nat} (hc : c < 324)
    (h : ColOK d c l) (hrow : row ∈ l) : ∃ l1 l2, Linked d c row l l1 l2 := by
  obtain ⟨l1, l2, hl, h1, h2, h3, h4⟩ := colOK_neighbours h hrow
  have hnd := colOK_nodup_nodes hc h
  rw [hl, List.map_append, List.map_cons] at hnd
  have hj1 : nodeOf c row ∉ c :: l1.map (nodeOf c) := by
    intro hm
    rw [List.nodup_cons] at hnd
    rcases List.mem_cons.mp hm with e | e
    · exact nodeOf_ne_header c row c hc e
    · have := (List.nodup_append.mp hnd.2).2.2 e (List.mem_cons_self _ _)
      exact this
  have hj2 : nodeOf c row ∉ l2.map (nodeOf c) ++ [c] := by
    intro hm
    rw [List.nodup_cons] at hnd
    rcases List.mem_append.mp hm with e | e
    · have := (List.nodup_append.mp hnd.2).2.1
      exact (List.nodup_cons.mp this).1 e
    · rw [List.mem_singleton] at e
      exact nodeOf_ne_header c row c hc e
  refine ⟨l1, l2, hl, h1, h2, h3, h4, hnd, ?_, ?_⟩
  · rw [h2]
    intro hcon
    exact hj2 (hcon ▸ List.head_mem _)
  · rw [h4]
    intro hcon
    exact hj1 (hcon ▸ List.getLast_mem _)

/-- Unlinking a node takes its candidate row out of the list of its column. -/
theorem unlinkNode_colOK {d : DLX} {c row : Nat} {l : List Nat} (hc : c < 324)
    (h : ColOK d c l) (hrow : row ∈ l) (hcol : d.col.get (nodeOf c row) = c) :
    ColOK (unlinkNode d (nodeOf c row)) c (l.filter (fun r => decide (r ≠ row))) := by
  obtain ⟨l1, l2, hL⟩ := colOK_linked hc h hrow
  have hnd := h.nodup
  rw [hL.split] at hnd
  rw [hL.split, filter_ne_of_split hnd]
  have hd := h.down
  have hu := h.up
  rw [hL.split, List.map_append, List.map_cons] at hd hu
  refine ⟨?_, ?_, ?_, ?_, ?_⟩
  · rw [unlinkNode_down d _ hL.neNext, List.map_append]
    apply PtrChain.remove_node hd hL.nodupNodes
    · rw [hL.upSelf, Mem.get_set_same]
    · intro a _ hne
      rw [hL.upSelf, Mem.get_set_ne _ _ hne]
  · rw [unlinkNode_up, List.map_append, List.reverse_append]
    rw [List.reverse_append, List.reverse_cons, List.append_assoc, List.singleton_append] at hu
    apply PtrChain.remove_node hu
    · have hp : (c :: ((l2.map (nodeOf c)).reverse ++ nodeOf c row :: (l1.map (nodeOf c)).reverse)).Perm
          (c :: (l1.map (nodeOf c) ++ nodeOf c row :: l2.map (nodeOf c))) := by
        apply List.Perm.cons
        have e : (l2.map (nodeOf c)).reverse ++ nodeOf c row :: (l1.map (nodeOf c)).reverse =
            (l1.map (nodeOf c) ++ nodeOf c row :: l2.map (nodeOf c)).reverse := by simp
        rw [e]
        exact List.reverse_perm _
      exact hp.nodup_iff.mpr hL.nodupNodes
    · rw [getLast_cons_reverse, hL.downSelf, Mem.get_set_same]
    · intro a _ hne
      rw [getLast_cons_reverse] at hne
      rw [hL.downSelf, Mem.get_set_ne _ _ hne]
  · have := List.nodup_append.mp hnd
    rw [List.nodup_append]
    exact ⟨this.1, (List.nodup_cons.mp this.2.1).2,
      fun a h1 h2 => this.2.2 h1 (List.mem_cons_of_mem _ h2)⟩
  · intro r hr
    apply h.mem r
    rw [hL.split]
    rcases List.mem_append.mp hr with e | e
    · exact List.mem_append_left _ e
    · exact List.mem_append_right _ (List.mem_cons_of_mem _ e)
  · rw [unlinkNode_size, hcol, Mem.get_set_same, h.size, hL.split]
    simp only [List.length_append, List.length_cons]
    push_cast
    omega

/-- Unlinking a node of the column `c` leaves the other columns as they are. -/
theorem unlinkNode_colOK_other {d : DLX} {c c' row : Nat} {l l' : List Nat} (hc : c < 324)
    (hc' : c' < 324) (hne : c' ≠ c) (h : ColOK d c l) (hrow : row ∈ l)
    (hcol : d.col.get (nodeOf c row) = c) (h' : ColOK d c' l') :
    ColOK (unlinkNode d (nodeOf c row)) c' l' := by
  obtain ⟨l1, l2, hL⟩ := colOK_linked hc h hrow
  have hcolumn : ∀ x, x ∈ c :: l.map (nodeOf c) → ∀ a ∈ c' :: l'.map (nodeOf c'), a ≠ x := by
    intro x hx a ha hax
    subst hax
    rcases List.mem_cons.mp hx with e1 | e1 <;> rcases List.mem_cons.mp ha with e2 | e2
    · exact hne (e2.symm.trans e1)
    · obtain ⟨r, _, rfl⟩ := List.mem_map.mp e2
      exact nodeOf_ne_header c' r c hc e1
    · obtain ⟨r, _, hr⟩ := List.mem_map.mp e1
      exact nodeOf_ne_header c r c' hc' (hr.trans e2)
    · obtain ⟨r, hr, e1⟩ := List.mem_map.mp e1
      obtain ⟨r', hr', e2⟩ := List.mem_map.mp e2
      obtain ⟨q1, q2⟩ := nodeOf_inj hc hc' (e1.trans e2.symm)
      subst q1
      have m1 := (h.mem r hr).2
      have m2 := (h'.mem r hr').2
      rw [q2] at m1
      exact hne (m2.symm.trans m1)
  have hP : (c :: l1.map (nodeOf c)).getLast (List.cons_ne_nil _ _) ∈ c :: l.map (nodeOf c) := by
    have := List.getLast_mem (List.cons_ne_nil c (l1.map (nodeOf c)))
    rw [hL.split, List.map_append]
    rcases List.mem_cons.mp this with e | e
    · rw [e]; exact List.mem_cons_self _ _
    · exact List.mem_cons_of_mem _ (List.mem_append_left _ e)
  have hN : (l2.map (nodeOf c) ++ [c]).head (by simp) ∈ c :: l.map (nodeOf c) := by
    have := List.head_mem (l := l2.map (nodeOf c) ++ [c]) (by simp)
    rw [hL.split, List.map_append, List.map_cons]
    rcases List.mem_append.mp this with e | e
    · exact List.mem_cons_of_mem _ (List.mem_append_right _ (List.mem_cons_of_mem _ e))
    · rw [List.mem_singleton] at e
      rw [e]; exact List.mem_cons_self _ _
  refine ⟨?_, ?_, h'.nodup, h'.mem, ?_⟩
  · rw [unlinkNode_down d _ hL.neNext]
    apply PtrChain.frame h'.down
    intro a ha
    rw [hL.upSelf, Mem.get_set_ne _ _ (hcolumn _ hP a ha)]
  · rw [unlinkNode_up]
    apply PtrChain.frame h'.up
    intro a ha
    have ha' : a ∈ c' :: l'.map (nodeOf c') := by
      rcases List.mem_cons.mp ha with e | e
      · rw [e]; exact List.mem_cons_self _ _
      · exact List.mem_cons_of_mem _ (List.mem_reverse.mp e)
    rw [hL.downSelf, Mem.get_set_ne _ _ (hcolumn _ hN a ha')]
  · rw [unlinkNode_size, hcol, Mem.get_set_ne _ _ hne]
    exact h'.size

/-- Unlinking a linked node and linking it again restores the matrix. -/
theorem relink_unlink_linked {d : DLX} {c row : Nat} {l : List Nat} (hc : c < 324)
    (h : ColOK d c l) (hrow : row ∈ l) :
    relinkNode (unlinkNode d (nodeOf c row)) (nodeOf c row) = d := by
  obtain ⟨l1, l2, hL⟩ := colOK_linked hc h hrow
  apply relink_unlink d _ _ _ hL.neNext hL.nePrev
  · rw [hL.upSelf]; exact hL.downPrev
  · rw [hL.downSelf]; exact hL.upNext

end Sudoku

namespace Sudoku

/-! ## Covering and uncovering one candidate row -/

theorem nodeAddr_eq_nodeOf {row k : Nat} (hr : row < 729) (hk : k < 4) :
    nodeAddr row k = nodeOf (rcol row k) row := by
  simp only [nodeOf, rcol_div hr hk]

/-- The lists of the columns once the candidate row `row` is unlinked from the column
with the number `k`. -/
def dropAt (lst : Nat → List Nat) (row k : Nat) : Nat → List Nat :=
  fun c' => if c' = rcol row k then (lst c').filter (fun r => decide (r ≠ row)) else lst c'

theorem unlinkNode_vert {d : DLX} {lst : Nat → List Nat} {row k : Nat} (hs : Static d)
    (hv : Vert d lst) (hr : row < 729) (hk : k < 4) (hm : row ∈ lst (rcol row k)) :
    Vert (unlinkNode d (nodeAddr row k)) (dropAt lst row k) := by
  intro c' hc'
  have hc := rcol_lt hr hk
  have hcol : d.col.get (nodeOf (rcol row k) row) = rcol row k := by
    rw [← nodeAddr_eq_nodeOf hr hk]; exact hs.col row k hr hk
  rw [nodeAddr_eq_nodeOf hr hk]
  unfold dropAt
  by_cases h : c' = rcol row k
  · rw [if_pos h, h]
    exact unlinkNode_colOK hc (hv _ hc) hm hcol
  · rw [if_neg h]
    exact unlinkNode_colOK_other hc hc' h (hv _ hc) hm hcol (hv _ hc')

theorem relink_unlink_vert {d : DLX} {lst : Nat → List Nat} {row k : Nat}
    (hv : Vert d lst) (hr : row < 729) (hk : k < 4) (hm : row ∈ lst (rcol row k)) :
    relinkNode (unlinkNode d (nodeAddr row k)) (nodeAddr row k) = d := by
  rw [nodeAddr_eq_nodeOf hr hk]
  exact relink_unlink_linked (rcol_lt hr hk) (hv _ (rcol_lt hr hk)) hm

/-- The three unlinks that the inner loop of `cover` makes for the candidate row `row`,
met in the column with the number `k0`. -/
def unlinkRow (d : DLX) (row k0 : Nat) : DLX :=
  unlinkNode (unlinkNode (unlinkNode d (nodeAddr row ((k0 + 1) % 4)))
    (nodeAddr row ((k0 + 2) % 4))) (nodeAddr row ((k0 + 3) % 4))

/-- The three relinks that the inner loop of `uncover` makes for the candidate row
`row`, met in the column with the number `k0`. -/
def relinkRow (d : DLX) (row k0 : Nat) : DLX :=
  relinkNode (relinkNode (relinkNode d (nodeAddr row ((k0 + 3) % 4)))
    (nodeAddr row ((k0 + 2) % 4))) (nodeAddr row ((k0 + 1) % 4))

theorem unlinkNode_right (d : DLX) (j : Nat) : (unlinkNode d j).right = d.right := rfl
theorem relinkNode_left (d : DLX) (j : Nat) : (relinkNode d j).left = d.left := rfl

theorem relinkNode_frame (d : DLX) (j : Nat) :
    SameFrame d (relinkNode d j) ∧ (relinkNode d j).active = d.active ∧
      (relinkNode d j).activeCnt = d.activeCnt :=
  ⟨⟨rfl, rfl, rfl, rfl, rfl, rfl, rfl, rfl, rfl, rfl, rfl⟩, rfl, rfl⟩

theorem coverRow_eq {d : DLX} {row k0 fuel : Nat} (hs : Static d) (hr : row < 729)
    (hk : k0 < 4) (hf : 4 ≤ fuel) :
    coverRow (nodeAddr row k0) fuel (d.right.get (nodeAddr row k0)) d =
      some (unlinkRow d row k0) := by
  obtain ⟨f, rfl⟩ : ∃ f, fuel = f + 4 := ⟨fuel - 4, by omega⟩
  have r0 := hs.right row k0 hr hk
  have r1 := hs.right row ((k0 + 1) % 4) hr (Nat.mod_lt _ (by omega))
  have r2 := hs.right row ((k0 + 2) % 4) hr (Nat.mod_lt _ (by omega))
  have r3 := hs.right row ((k0 + 3) % 4) hr (Nat.mod_lt _ (by omega))
  have e2 : ((k0 + 1) % 4 + 1) % 4 = (k0 + 2) % 4 := by omega
  have e3 : ((k0 + 2) % 4 + 1) % 4 = (k0 + 3) % 4 := by omega
  have e4 : ((k0 + 3) % 4 + 1) % 4 = k0 := by omega
  rw [e2] at r1
  rw [e3] at r2
  rw [e4] at r3
  have n1 : nodeAddr row ((k0 + 1) % 4) ≠ nodeAddr row k0 := by
    simp only [nodeAddr_eq]; omega
  have n2 : nodeAddr row ((k0 + 2) % 4) ≠ nodeAddr row k0 := by
    simp only [nodeAddr_eq]; omega
  have n3 : nodeAddr row ((k0 + 3) % 4) ≠ nodeAddr row k0 := by
    simp only [nodeAddr_eq]; omega
  rw [r0]
  simp only [coverRow, if_neg n1, if_neg n2, if_neg n3, unlinkNode_right, r1, r2, r3, if_true,
    unlinkRow]

theorem uncoverRow_eq {d : DLX} {row k0 fuel : Nat} (hs : Static d) (hr : row < 729)
    (hk : k0 < 4) (hf : 4 ≤ fuel) :
    uncoverRow (nodeAddr row k0) fuel (d.left.get (nodeAddr row k0)) d =
      some (relinkRow d row k0) := by
  obtain ⟨f, rfl⟩ : ∃ f, fuel = f + 4 := ⟨fuel - 4, by omega⟩
  have r0 := hs.left row k0 hr hk
  have r1 := hs.left row ((k0 + 1) % 4) hr (Nat.mod_lt _ (by omega))
  have r2 := hs.left row ((k0 + 2) % 4) hr (Nat.mod_lt _ (by omega))
  have r3 := hs.left row ((k0 + 3) % 4) hr (Nat.mod_lt _ (by omega))
  have e1 : ((k0 + 1) % 4 + 3) % 4 = k0 := by omega
  have e2 : ((k0 + 2) % 4 + 3) % 4 = (k0 + 1) % 4 := by omega
  have e3 : ((k0 + 3) % 4 + 3) % 4 = (k0 + 2) % 4 := by omega
  rw [e1] at r1
  rw [e2] at r2
  rw [e3] at r3
  have n1 : nodeAddr row ((k0 + 1) % 4) ≠ nodeAddr row k0 := by
    simp only [nodeAddr_eq]; omega
  have n2 : nodeAddr row ((k0 + 2) % 4) ≠ nodeAddr row k0 := by
    simp only [nodeAddr_eq]; omega
  have n3 : nodeAddr row ((k0 + 3) % 4) ≠ nodeAddr row k0 := by
    simp only [nodeAddr_eq]; omega
  rw [r0]
  simp only [uncoverRow, if_neg n1, if_neg n2, if_neg n3, relinkNode_left, r1, r2, r3, if_true,
    relinkRow]

/-- The lists of the columns once the candidate row `row` is unlinked from its columns
other than `c`. -/
def dropRow (lst : Nat → List Nat) (c row : Nat) : Nat → List Nat :=
  fun c' => if c' = c then lst c' else (lst c').filter (fun r => decide (r ≠ row))

theorem not_mem_of_not_col {d : DLX} {lst : Nat → List Nat} (hv : Vert d lst) {row c' : Nat}
    (hr : row < 729) (hc' : c' < 324) (h : ∀ k, k < 4 → c' ≠ rcol row k) : row ∉ lst c' := by
  intro hm
  have := ((hv c' hc').mem row hm).2
  exact h (c' / 81) (by omega) this.symm

theorem rcol_ne {row k k' : Nat} (hr : row < 729) (hk : k < 4) (hk' : k' < 4) (h : k ≠ k') :
    rcol row k ≠ rcol row k' := by
  intro hcon
  have h1 := rcol_div hr hk
  have h2 := rcol_div hr hk'
  rw [hcon] at h1
  omega

theorem unlinkRow_spec {d : DLX} {lst : Nat → List Nat} {row k0 : Nat} (hs : Static d)
    (hv : Vert d lst) (hr : row < 729) (hk : k0 < 4)
    (hm : ∀ k, k < 4 → k ≠ k0 → row ∈ lst (rcol row k)) :
    Vert (unlinkRow d row k0) (dropRow lst (rcol row k0) row) ∧
      relinkRow (unlinkRow d row k0) row k0 = d ∧
      SameFrame d (unlinkRow d row k0) ∧
      (unlinkRow d row k0).active = d.active ∧
      (unlinkRow d row k0).activeCnt = d.activeCnt := by
  have k1 : (k0 + 1) % 4 < 4 := Nat.mod_lt _ (by omega)
  have k2 : (k0 + 2) % 4 < 4 := Nat.mod_lt _ (by omega)
  have k3 : (k0 + 3) % 4 < 4 := Nat.mod_lt _ (by omega)
  have m1 := hm _ k1 (by omega)
  have m2 := hm _ k2 (by omega)
  have m3 := hm _ k3 (by omega)
  have c12 := rcol_ne hr k1 k2 (by omega)
  have c13 := rcol_ne hr k1 k3 (by omega)
  have c23 := rcol_ne hr k2 k3 (by omega)
  have c01 := rcol_ne hr hk k1 (by omega)
  have c02 := rcol_ne hr hk k2 (by omega)
  have c03 := rcol_ne hr hk k3 (by omega)
  have v1 := unlinkNode_vert hs hv hr k1 m1
  have s1 : Static (unlinkNode d (nodeAddr row ((k0 + 1) % 4))) :=
    hs.of_frame (unlinkNode_frame _ _).1
  have m2' : row ∈ dropAt lst row ((k0 + 1) % 4) (rcol row ((k0 + 2) % 4)) := by
    simp only [dropAt, if_neg c12.symm]; exact m2
  have v2 := unlinkNode_vert s1 v1 hr k2 m2'
  have s2 : Static (unlinkNode (unlinkNode d (nodeAddr row ((k0 + 1) % 4)))
      (nodeAddr row ((k0 + 2) % 4))) := s1.of_frame (unlinkNode_frame _ _).1
  have m3' : row ∈ dropAt (dropAt lst row ((k0 + 1) % 4)) row ((k0 + 2) % 4)
      (rcol row ((k0 + 3) % 4)) := by
    simp only [dropAt, if_neg c13.symm, if_neg c23.symm]; exact m3
  have v3 := unlinkNode_vert s2 v2 hr k3 m3'
  refine ⟨?_, ?_, ?_, rfl, rfl⟩
  · intro c' hc'
    have := v3 c' hc'
    have e : dropAt (dropAt (dropAt lst row ((k0 + 1) % 4)) row ((k0 + 2) % 4)) row
        ((k0 + 3) % 4) c' = dropRow lst (rcol row k0) row c' := by
      simp only [dropAt, dropRow]
      by_cases h0 : c' = rcol row k0
      · subst h0
        simp only [if_neg c03, if_neg c02, if_neg c01, if_true]
      · rw [if_neg h0]
        by_cases h3 : c' = rcol row ((k0 + 3) % 4)
        · subst h3
          simp only [if_true, if_neg c23.symm, if_neg c13.symm]
        · rw [if_neg h3]
          by_cases h2 : c' = rcol row ((k0 + 2) % 4)
          · subst h2
            simp only [if_true, if_neg c12.symm]
          · rw [if_neg h2]
            by_cases h1 : c' = rcol row ((k0 + 1) % 4)
            · subst h1
              simp only [if_true]
            · rw [if_neg h1]
              have hnot : row ∉ lst c' := by
                apply not_mem_of_not_col hv hr hc'
                intro k hk4
                have : k = k0 ∨ k = (k0 + 1) % 4 ∨ k = (k0 + 2) % 4 ∨ k = (k0 + 3) % 4 := by
                  omega
                rcases this with rfl | rfl | rfl | rfl <;> assumption
              symm
              rw [List.filter_eq_self]
              intro r hr'
              simp only [ne_eq, decide_not, Bool.not_eq_true', decide_eq_false_iff_not]
              intro hcon
              exact hnot (hcon ▸ hr')
    rw [e] at this
    exact this
  · unfold relinkRow unlinkRow
    rw [relink_unlink_vert v2 hr k3 m3', relink_unlink_vert v1 hr k2 m2',
      relink_unlink_vert hv hr k1 m1]
  · exact ((unlinkNode_frame _ _).1.trans (unlinkNode_frame _ _).1).trans (unlinkNode_frame _ _).1

end Sudoku

namespace Sudoku

/-! ## `cover` and `uncover` on a column -/

/-- The unlinks of `cover` for the candidate rows `rows` of a column. -/
def coverRows (d : DLX) (k0 : Nat) (rows : List Nat) : DLX :=
  rows.foldl (fun d row => unlinkRow d row k0) d

/-- The lists of the columns once the candidate rows `rows` of the column `c` are unlinked
from their other columns. -/
def dropRows (lst : Nat → List Nat) (c : Nat) (rows : List Nat) : Nat → List Nat :=
  fun c' => if c' = c then lst c' else (lst c').filter (fun r => decide (r ∉ rows))

theorem ColOK.congr {d : DLX} {c : Nat} {l l' : List Nat} (h : ColOK d c l) (e : l = l') :
    ColOK d c l' := e ▸ h

theorem dropRows_nil (lst : Nat → List Nat) (c : Nat) : dropRows lst c [] = lst := by
  funext c'
  simp [dropRows]

theorem dropRows_cons (lst : Nat → List Nat) (c row : Nat) (rest : List Nat) :
    dropRows (dropRow lst c row) c rest = dropRows lst c (row :: rest) := by
  funext c'
  simp only [dropRows, dropRow]
  by_cases h : c' = c
  · simp only [h, if_true]
  · simp only [h, if_false, List.filter_filter]
    congr 1
    funext r
    by_cases h1 : r = row <;> by_cases h2 : r ∈ rest <;> simp [h1, h2]

theorem getLast_map_append_singleton (c : Nat) (pre : List Nat) (row : Nat) :
    (c :: (pre ++ [row]).map (nodeOf c)).getLast (List.cons_ne_nil _ _) = nodeOf c row := by
  rw [List.getLast_cons (by simp)]
  simp

/-- The loops of `cover` and `uncover` over the candidate rows of a column, from any
point of the column on. -/
theorem coverLoop_spec {c fuel : Nat} (hc : c < 324) (hf : 4 ≤ fuel) :
    ∀ (suffix pre : List Nat) (d : DLX) (lst : Nat → List Nat), Static d → Vert d lst →
      lst c = pre ++ suffix →
      (∀ row ∈ suffix, ∀ k, k < 4 → k ≠ c / 81 → row ∈ lst (rcol row k)) →
      (∀ n, suffix.length < n →
        coverLoop fuel c n
          (d.down.get ((c :: pre.map (nodeOf c)).getLast (List.cons_ne_nil _ _))) d
          = some (coverRows d (c / 81) suffix)) ∧
      Static (coverRows d (c / 81) suffix) ∧
      Vert (coverRows d (c / 81) suffix) (dropRows lst c suffix) ∧
      SameFrame d (coverRows d (c / 81) suffix) ∧
      (coverRows d (c / 81) suffix).active = d.active ∧
      (coverRows d (c / 81) suffix).activeCnt = d.activeCnt ∧
      (∀ m, uncoverLoop fuel c (m + suffix.length)
          ((c :: (pre ++ suffix).map (nodeOf c)).getLast (List.cons_ne_nil _ _))
          (coverRows d (c / 81) suffix) =
        uncoverLoop fuel c m
          ((c :: pre.map (nodeOf c)).getLast (List.cons_ne_nil _ _)) d) := by
  intro suffix
  induction suffix with
  | nil =>
    intro pre d lst hs hv hl _
    refine ⟨?_, hs, ?_, SameFrame.refl d, rfl, rfl, ?_⟩
    · intro n hn
      obtain ⟨n', rfl⟩ : ∃ n', n = n' + 1 := ⟨n - 1, by simp at hn; omega⟩
      have hd := (hv c hc).down
      rw [hl, List.map_append] at hd
      have := PtrChain.next_of_append hd
      simp only [List.map_nil, List.nil_append, List.head_cons] at this
      simp only [coverLoop, this, if_true, coverRows, List.foldl_nil]
    · rw [dropRows_nil]; exact hv
    · intro m
      simp only [List.append_nil, List.length_nil, Nat.add_zero, coverRows, List.foldl_nil]
  | cons row rest ih =>
    intro pre d lst hs hv hl hm
    have hcol := hv c hc
    have hrow_mem : row ∈ lst c := by rw [hl]; simp
    obtain ⟨hr, hrc⟩ := hcol.mem row hrow_mem
    have hk0 : c / 81 < 4 := by omega
    have haddr : nodeOf c row = nodeAddr row (c / 81) := rfl
    have hrc' : rcol row (c / 81) = c := hrc
    obtain ⟨hv1, hrel, hfr, hact, hcnt⟩ := unlinkRow_spec hs hv hr hk0
      (fun k hk hne => hm row (List.mem_cons_self _ _) k hk hne)
    rw [hrc'] at hv1
    have hs1 : Static (unlinkRow d row (c / 81)) := hs.of_frame hfr
    have hl1 : dropRow lst c row c = (pre ++ [row]) ++ rest := by
      simp only [dropRow, if_true, hl, List.append_assoc, List.singleton_append]
    have hnd : (pre ++ row :: rest).Nodup := hl ▸ hcol.nodup
    have hm1 : ∀ row' ∈ rest, ∀ k, k < 4 → k ≠ c / 81 →
        row' ∈ dropRow lst c row (rcol row' k) := by
      intro row' hrow' k hk hne
      have hmem := hm row' (List.mem_cons_of_mem _ hrow') k hk hne
      have hr' : row' < 729 := by
        have : row' ∈ lst c := by
          rw [hl]; exact List.mem_append_right _ (List.mem_cons_of_mem _ hrow')
        exact (hcol.mem row' this).1
      have hcne : rcol row' k ≠ c := by
        intro hcon
        have := rcol_div hr' hk
        rw [hcon] at this
        exact hne this.symm
      simp only [dropRow, if_neg hcne, List.mem_filter, hmem, true_and, ne_eq, decide_not,
        Bool.not_eq_true', decide_eq_false_iff_not]
      intro hcon
      subst hcon
      have := (List.nodup_append.mp hnd).2.1
      exact (List.nodup_cons.mp this).1 hrow'
    obtain ⟨i1, i2, i3, i4, i5, i6, i7⟩ := ih (pre ++ [row]) _ _ hs1 hv1 hl1 hm1
    have hdown : d.down.get ((c :: pre.map (nodeOf c)).getLast (List.cons_ne_nil _ _))
        = nodeOf c row := by
      have hd := hcol.down
      rw [hl, List.map_append] at hd
      have := PtrChain.next_of_append hd
      simpa using this
    have hup : d.up.get (nodeOf c row)
        = (c :: pre.map (nodeOf c)).getLast (List.cons_ne_nil _ _) := by
      have hu := hcol.up
      rw [hl, List.map_append, List.map_cons, List.reverse_append, List.reverse_cons,
        List.append_assoc, List.singleton_append] at hu
      have h2 : PtrChain d.up.get c c
          (((rest.map (nodeOf c)).reverse ++ [nodeOf c row]) ++ (pre.map (nodeOf c)).reverse) := by
        simpa using hu
      have := PtrChain.next_of_append h2
      rw [List.getLast_cons (by simp)] at this
      rw [head_reverse_append] at this
      simpa using this
    have hne : nodeOf c row ≠ c := nodeOf_ne_header c row c hc
    have hcr : coverRows d (c / 81) (row :: rest) =
        coverRows (unlinkRow d row (c / 81)) (c / 81) rest := rfl
    rw [getLast_map_append_singleton] at i1 i7
    refine ⟨?_, ?_, ?_, ?_, ?_, ?_, ?_⟩
    · intro n hn
      obtain ⟨n', rfl⟩ : ∃ n', n = n' + 1 := ⟨n - 1, by simp at hn; omega⟩
      rw [hdown]
      simp only [coverLoop, if_neg hne]
      rw [haddr, coverRow_eq hs hr hk0 hf]
      simp only
      rw [← haddr, hcr]
      exact i1 n' (by simp at hn; omega)
    · rw [hcr]; exact i2
    · rw [hcr, ← dropRows_cons]; exact i3
    · rw [hcr]; exact hfr.trans i4
    · rw [hcr, i5, hact]
    · rw [hcr, i6, hcnt]
    · intro m
      have e : (pre ++ [row]) ++ rest = pre ++ row :: rest := by simp
      have := i7 (m + 1)
      rw [e] at this
      have e2 : m + (row :: rest).length = (m + 1) + rest.length := by
        simp only [List.length_cons]; omega
      rw [hcr, e2, this]
      simp only [uncoverLoop, if_neg hne]
      rw [haddr, uncoverRow_eq hs1 hr hk0 hf, hrel]
      simp only
      rw [← haddr, hup]

end Sudoku

namespace Sudoku

/-- The matrix of `d` with the counters and the solution list of `x`. -/
def DLX.withAux (d x : DLX) : DLX :=
  { d with sol := x.sol, solLen := x.solLen, nodes := x.nodes, found := x.found, tick := x.tick }

theorem unlinkNode_withAux (d x : DLX) (j : Nat) :
    unlinkNode (d.withAux x) j = (unlinkNode d j).withAux x := rfl

theorem relinkNode_withAux (d x : DLX) (j : Nat) :
    relinkNode (d.withAux x) j = (relinkNode d j).withAux x := rfl

theorem coverRow_withAux (x : DLX) (i : Nat) : ∀ (fuel j : Nat) (d : DLX),
    coverRow i fuel j (d.withAux x) = (coverRow i fuel j d).map (fun r => r.withAux x) := by
  intro fuel
  induction fuel with
  | zero => intro j d; rfl
  | succ n ih =>
    intro j d
    simp only [coverRow]
    split
    · rfl
    · rw [unlinkNode_withAux, ← ih]
      rfl

theorem uncoverRow_withAux (x : DLX) (i : Nat) : ∀ (fuel j : Nat) (d : DLX),
    uncoverRow i fuel j (d.withAux x) = (uncoverRow i fuel j d).map (fun r => r.withAux x) := by
  intro fuel
  induction fuel with
  | zero => intro j d; rfl
  | succ n ih =>
    intro j d
    simp only [uncoverRow]
    split
    · rfl
    · rw [relinkNode_withAux, ← ih]
      rfl

theorem coverLoop_withAux (x : DLX) (fuel col : Nat) : ∀ (n i : Nat) (d : DLX),
    coverLoop fuel col n i (d.withAux x) =
      (coverLoop fuel col n i d).map (fun r => r.withAux x) := by
  intro n
  induction n with
  | zero => intro i d; rfl
  | succ n ih =>
    intro i d
    simp only [coverLoop]
    split
    · rfl
    · have e : (d.withAux x).right = d.right := rfl
      rw [e, coverRow_withAux]
      cases coverRow i fuel (d.right.get i) d with
      | none => rfl
      | some d1 =>
        simp only [Option.map_some']
        rw [← ih]
        rfl

theorem uncoverLoop_withAux (x : DLX) (fuel col : Nat) : ∀ (n i : Nat) (d : DLX),
    uncoverLoop fuel col n i (d.withAux x) =
      (uncoverLoop fuel col n i d).map (fun r => r.withAux x) := by
  intro n
  induction n with
  | zero => intro i d; rfl
  | succ n ih =>
    intro i d
    simp only [uncoverLoop]
    split
    · rfl
    · have e : (d.withAux x).left = d.left := rfl
      rw [e, uncoverRow_withAux]
      cases uncoverRow i fuel (d.left.get i) d with
      | none => rfl
      | some d1 =>
        simp only [Option.map_some']
        rw [← ih]
        rfl

theorem cover_withAux (x : DLX) (fuel col : Nat) (d : DLX) :
    cover fuel col (d.withAux x) = (cover fuel col d).map (fun r => r.withAux x) := by
  unfold cover
  have e : (d.withAux x).active = d.active := rfl
  by_cases h : d.active.get col = true
  · simp only [e, h, if_true]
    exact coverLoop_withAux x fuel col fuel (d.down.get col)
      { d with active := d.active.set col false, activeCnt := d.activeCnt - 1 }
  · simp only [e, h, if_false]
    exact coverLoop_withAux x fuel col fuel (d.down.get col) d

theorem uncover_withAux (x : DLX) (fuel col : Nat) (d : DLX) :
    uncover fuel col (d.withAux x) = (uncover fuel col d).map (fun r => r.withAux x) := by
  unfold uncover
  have e : (d.withAux x).up = d.up := rfl
  rw [e, uncoverLoop_withAux]
  cases uncoverLoop fuel col fuel (d.up.get col) d with
  | none => rfl
  | some d1 =>
    simp only [Option.map_some']
    have e2 : (d1.withAux x).active = d1.active := rfl
    rw [e2]
    split <;> rfl

theorem Vert.of_links {d d' : DLX} {lst : Nat → List Nat} (h : Vert d lst)
    (h1 : d'.up = d.up) (h2 : d'.down = d.down) (h3 : d'.size = d.size) : Vert d' lst := by
  intro c hc
  have := h c hc
  exact ⟨by rw [h2]; exact this.down, by rw [h1]; exact this.up, this.nodup, this.mem,
    by rw [h3]; exact this.size⟩

/-- Function `cover` on an active column whose candidate rows are linked in all their
columns: the rows leave the other columns, and `uncover` undoes it exactly. -/
theorem cover_spec {d : DLX} {lst : Nat → List Nat} {c fuel : Nat} (hs : Static d)
    (hv : Vert d lst) (hc : c < 324) (hf : 4 ≤ fuel) (hlen : (lst c).length < fuel)
    (hm : ∀ row ∈ lst c, ∀ k, k < 4 → k ≠ c / 81 → row ∈ lst (rcol row k))
    (hact : d.active.get c = true) :
    ∃ d', cover fuel c d = some d' ∧ Static d' ∧ Vert d' (dropRows lst c (lst c)) ∧
      SameFrame d d' ∧ d'.active = d.active.set c false ∧
      d'.activeCnt = d.activeCnt - 1 ∧ uncover fuel c d' = some d := by
  have hf1 : SameFrame d
      { d with active := d.active.set c false, activeCnt := d.activeCnt - 1 } :=
    ⟨rfl, rfl, rfl, rfl, rfl, rfl, rfl, rfl, rfl, rfl, rfl⟩
  have hs1 : Static { d with active := d.active.set c false, activeCnt := d.activeCnt - 1 } :=
    hs.of_frame hf1
  have hv1 : Vert { d with active := d.active.set c false, activeCnt := d.activeCnt - 1 } lst :=
    hv.of_links rfl rfl rfl
  obtain ⟨i1, i2, i3, i4, i5, i6, i7⟩ := coverLoop_spec hc hf (lst c) [] _ lst hs1 hv1
    (by simp) hm
  refine ⟨_, ?_, i2, i3, ?_, i5, i6, ?_⟩
  · unfold cover
    rw [if_pos hact]
    exact i1 fuel hlen
  · exact hf1.trans i4
  · unfold uncover
    have hcol := i3 c hc
    have hup := up_header_eq hcol
    have e : dropRows lst c (lst c) c = lst c := by simp [dropRows]
    rw [hup]
    simp only [e]
    have h7 := i7 (fuel - (lst c).length)
    simp only [List.nil_append, List.map_nil, List.getLast_singleton] at h7
    have e2 : fuel - (lst c).length + (lst c).length = fuel := by omega
    rw [e2] at h7
    rw [h7]
    obtain ⟨m, hm'⟩ : ∃ m, fuel - (lst c).length = m + 1 :=
      ⟨fuel - (lst c).length - 1, by omega⟩
    rw [hm']
    simp only [uncoverLoop, if_true, Mem.get_set_same, Bool.not_false]
    congr 1
    apply DLX.eq_of_fields
    · exact ⟨rfl, rfl, rfl, rfl, rfl, rfl, rfl, rfl, rfl, rfl, rfl⟩
    · rfl
    · rfl
    · rfl
    · show (d.active.set c false).set c true = d.active
      rw [Mem.set_set]
      have := Mem.set_get_self d.active c
      rw [hact] at this
      exact this
    · show d.activeCnt - 1 + 1 = d.activeCnt
      omega

end Sudoku

namespace Sudoku

/-! ## The matrix after covering a list of columns -/

/-- The candidate rows of the column `c`, top to bottom. -/
def rowsOf (c : Nat) : List Nat := (List.range 729).filter (fun row => rcol row (c / 81) = c)

/-- None of the four columns of the candidate row is in `S`. -/
def freeRow (S : List Nat) (row : Nat) : Prop := ∀ k, k < 4 → rcol row k ∉ S

instance (S : List Nat) (row : Nat) : Decidable (freeRow S row) := by
  unfold freeRow; infer_instance

/-- The candidate rows linked in the column `c` after the columns of `S` were covered in
this order: those that were free when `c` was covered, or are free now. -/
def lstOf (S : List Nat) (c : Nat) : List Nat :=
  (rowsOf c).filter (fun row => decide (freeRow (S.takeWhile (fun x => decide (x ≠ c))) row))

/-- The matrix `d` is the one that `newDLX` builds, with the columns of `S` covered in
this order. -/
structure Rep (d : DLX) (S : List Nat) : Prop where
  static : Static d
  vert : Vert d (lstOf S)
  active : ∀ c, c < 324 → d.active.get c = decide (c ∉ S)
  activeCnt : d.activeCnt = 324 - (S.length : Int)
  nodup : S.Nodup
  lt : ∀ c ∈ S, c < 324

theorem takeWhile_ne_of_not_mem {S : List Nat} {c : Nat} (h : c ∉ S) :
    S.takeWhile (fun x => decide (x ≠ c)) = S := by
  rw [List.takeWhile_eq_self_iff]
  intro x hx
  simp only [ne_eq, decide_not, Bool.not_eq_true', decide_eq_false_iff_not]
  intro hcon
  exact h (hcon ▸ hx)

theorem takeWhile_append_of_mem {S T : List Nat} {c : Nat} (h : c ∈ S) :
    (S ++ T).takeWhile (fun x => decide (x ≠ c)) = S.takeWhile (fun x => decide (x ≠ c)) := by
  induction S with
  | nil => simp at h
  | cons x xs ih =>
    simp only [List.cons_append, List.takeWhile_cons]
    by_cases hx : x = c
    · simp [hx]
    · have : c ∈ xs := by
        rcases List.mem_cons.mp h with e | e
        · exact absurd e.symm hx
        · exact e
      simp only [ne_eq, hx, not_false_eq_true, decide_True, if_true]
      rw [ih this]

theorem takeWhile_append_self {S : List Nat} {c : Nat} (h : c ∉ S) (T : List Nat) :
    (S ++ c :: T).takeWhile (fun x => decide (x ≠ c)) = S := by
  induction S with
  | nil => simp
  | cons x xs ih =>
    have hx : x ≠ c := fun e => h (e ▸ List.mem_cons_self _ _)
    simp only [List.cons_append, List.takeWhile_cons, ne_eq, hx, not_false_eq_true, decide_True,
      if_true]
    rw [ih (fun hm => h (List.mem_cons_of_mem _ hm))]

theorem mem_rowsOf {c row : Nat} : row ∈ rowsOf c ↔ row < 729 ∧ rcol row (c / 81) = c := by
  simp [rowsOf]

theorem mem_lstOf_of_not_mem {S : List Nat} {c row : Nat} (hc : c ∉ S) :
    row ∈ lstOf S c ↔ (row < 729 ∧ rcol row (c / 81) = c) ∧ freeRow S row := by
  simp only [lstOf, takeWhile_ne_of_not_mem hc, List.mem_filter, mem_rowsOf, decide_eq_true_eq]

theorem rowsOf_length_le (c : Nat) : (rowsOf c).length ≤ 729 := by
  unfold rowsOf
  calc _ ≤ (List.range 729).length := List.length_filter_le _ _
    _ = 729 := List.length_range _

theorem lstOf_length_le (S : List Nat) (c : Nat) : (lstOf S c).length ≤ 729 := by
  unfold lstOf
  exact (List.length_filter_le _ _).trans (rowsOf_length_le c)

/-- The matrix of `newDLX` has no column covered. -/
theorem newDLX_rep : Rep newDLX [] := by
  have h := newDLX_inv
  refine ⟨h.static, ?_, ?_, ?_, List.nodup_nil, fun c hc => by simp at hc⟩
  · intro c hc
    apply (h.vert c hc).congr
    simp only [lstOf, rowsOf, List.takeWhile_nil, freeRow, List.not_mem_nil, not_false_eq_true,
      implies_true, decide_True, List.filter_true]
  · intro c hc
    simp only [List.not_mem_nil, not_false_eq_true, decide_True]
    exact h.active c hc
  · rw [h.activeCnt]; simp

/-- Covering an active column. -/
theorem cover_rep {d : DLX} {S : List Nat} {c fuel : Nat} (h : Rep d S) (hc : c < 324)
    (hcS : c ∉ S) (hf : 730 ≤ fuel) :
    ∃ d', cover fuel c d = some d' ∧ Rep d' (S ++ [c]) ∧ SameFrame d d' ∧
      uncover fuel c d' = some d := by
  have hact : d.active.get c = true := by
    rw [h.active c hc]; simpa using hcS
  have hm : ∀ row ∈ lstOf S c, ∀ k, k < 4 → k ≠ c / 81 → row ∈ lstOf S (rcol row k) := by
    intro row hrow k hk _
    rw [mem_lstOf_of_not_mem hcS] at hrow
    obtain ⟨⟨hr, _⟩, hfree⟩ := hrow
    rw [mem_lstOf_of_not_mem (hfree k hk)]
    exact ⟨⟨hr, by rw [rcol_div hr hk]⟩, hfree⟩
  have hf4 : 4 ≤ fuel := by omega
  have hlen : (lstOf S c).length < fuel := by have := lstOf_length_le S c; omega
  obtain ⟨d', h1, h2, h3, h4, h5, h6, h7⟩ := cover_spec h.static h.vert hc hf4 hlen hm hact
  refine ⟨d', h1, ⟨h2, ?_, ?_, ?_, ?_, ?_⟩, h4, h7⟩
  · intro c' hc'
    apply (h3 c' hc').congr
    simp only [dropRows]
    by_cases hcc : c' = c
    · subst hcc
      simp only [if_true, lstOf, takeWhile_append_self hcS, takeWhile_ne_of_not_mem hcS]
    · rw [if_neg hcc]
      by_cases hS : c' ∈ S
      · have e : lstOf (S ++ [c]) c' = lstOf S c' := by
          simp only [lstOf, takeWhile_append_of_mem hS]
        rw [e, List.filter_eq_self]
        intro row hrow
        simp only [decide_not, Bool.not_eq_true', decide_eq_false_iff_not]
        intro hrow2
        rw [mem_lstOf_of_not_mem hcS] at hrow2
        have hr := hrow2.1.1
        have hmem := ((h.vert c' hc').mem row hrow).2
        exact hrow2.2 (c' / 81) (by omega) (by rw [hmem]; exact hS)
      · have hS' : c' ∉ S ++ [c] := by
          simp only [List.mem_append, List.mem_singleton, not_or]
          exact ⟨hS, hcc⟩
        have ea : lstOf S c' = (rowsOf c').filter (fun row => decide (freeRow S row)) := by
          simp only [lstOf, takeWhile_ne_of_not_mem hS]
        have eb : lstOf (S ++ [c]) c' =
            (rowsOf c').filter (fun row => decide (freeRow (S ++ [c]) row)) := by
          simp only [lstOf, takeWhile_ne_of_not_mem hS']
        rw [ea, eb, List.filter_filter]
        apply List.filter_congr
        intro row hrow
        rw [mem_rowsOf] at hrow
        have hr := hrow.1
        by_cases hfree : freeRow S row
        · have e1 : row ∈ lstOf S c ↔ rcol row (c / 81) = c := by
            rw [mem_lstOf_of_not_mem hcS]
            simp only [hr, true_and, hfree, and_true]
          have e2 : freeRow (S ++ [c]) row ↔ ¬ rcol row (c / 81) = c := by
            constructor
            · intro hf2 hcon
              exact hf2 (c / 81) (by omega) (by rw [hcon]; simp)
            · intro hne k hk
              simp only [List.mem_append, List.mem_singleton, not_or]
              refine ⟨hfree k hk, fun hcon => hne ?_⟩
              have := rcol_div hr hk
              rw [hcon] at this
              rw [this]; exact hcon
          simp only [hfree, e1, e2, decide_True, Bool.and_true, decide_not]
        · have e2 : ¬ freeRow (S ++ [c]) row := by
            intro hf2
            apply hfree
            intro k hk hcon
            exact hf2 k hk (List.mem_append_left _ hcon)
          simp only [hfree, e2, decide_False, Bool.and_false]
  · intro c' hc'
    rw [h5, Mem.get_set]
    split
    · rename_i e
      simp [e]
    · rename_i e
      rw [h.active c' hc']
      simp only [List.mem_append, List.mem_singleton, not_or, e, not_false_eq_true, and_true]
  · rw [h6, h.activeCnt]
    simp only [List.length_append, List.length_singleton]
    push_cast
    omega
  · rw [List.nodup_append]
    refine ⟨h.nodup, List.nodup_singleton _, ?_⟩
    intro a ha hb
    rw [List.mem_singleton] at hb
    exact hcS (hb ▸ ha)
  · intro x hx
    rcases List.mem_append.mp hx with e | e
    · exact h.lt x e
    · rw [List.mem_singleton] at e
      rw [e]; exact hc

attribute [irreducible] rowsOf

end Sudoku

namespace Sudoku

/-! ## The generator: termination, and success without cancellation -/

/-- A solved grid, used as a test board. -/
def solvedGrid : Grid := Grid.ofRows [
  [5, 3, 4, 6, 7, 8, 9, 1, 2], [6, 7, 2, 1, 9, 5, 3, 4, 8], [1, 9, 8, 3, 4, 2, 5, 6, 7],
  [8, 5, 9, 7, 6, 1, 4, 2, 3], [4, 2, 6, 8, 5, 3, 7, 9, 1], [7, 1, 3, 9, 2, 4, 8, 5, 6],
  [9, 6, 1, 5, 3, 7, 2, 8, 4], [2, 8, 7, 4, 1, 9, 6, 3, 5], [3, 4, 5, 2, 8, 6, 1, 7, 9]]

theorem solvedGrid_valid : ValidGivens solvedGrid := validGivens_of_check _ (by decide!)

theorem solvedGrid_full : Full solvedGrid := by decide

theorem solvedGrid_solved : Solved solvedGrid :=
  solved_of_valid_full solvedGrid_valid solvedGrid_full

theorem completions_zero_nonempty : completions Grid.zero ≠ ∅ := by
  intro h
  have : solvedGrid ∈ completions Grid.zero :=
    ⟨solvedGrid_solved, fun r c hne => absurd rfl hne⟩
  rw [h] at this
  exact this

theorem fillDigits_total (dfs : FillState → Option (Bool × FillState)) (r c : Nat)
    (hdfs : ∀ s, ∃ b s', dfs s = some (b, s')) :
    ∀ (vs : List Nat) (s : FillState), ∃ b s', fillDigits dfs r c vs s = some (b, s') := by
  intro vs
  induction vs with
  | nil => intro s; exact ⟨false, s, rfl⟩
  | cons v vs ih =>
    intro s
    simp only [fillDigits]
    split
    · obtain ⟨b, s2, hrun⟩ := hdfs { s with grid := s.grid.set r c v }
      rw [hrun]
      cases b with
      | true => exact ⟨true, s2, rfl⟩
      | false => exact ih _
    · exact ih s

/-- The recursion of `fillRandom` ends: from the cell `(r, c)` it is at most
`82 - (9 r + c)` calls deep. -/
theorem fillDfs_total (ctx : Ctx) (rng : Rng) : ∀ (fuel r c : Nat) (s : FillState),
    82 ≤ 9 * r + c + fuel → 9 * r + c ≤ 81 → c < 9 →
    ∃ b s', fillDfs ctx rng fuel r c s = some (b, s') := by
  intro fuel
  induction fuel with
  | zero => intro r c s h1 h2 _; omega
  | succ n ih =>
    intro r c s h1 h2 hc
    simp only [fillDfs]
    split
    · exact ⟨_, _, rfl⟩
    · split
      · exact ⟨_, _, rfl⟩
      · rename_i h9
        apply fillDigits_total
        intro s1
        apply ih
        · split <;> omega
        · split <;> omega
        · split <;> omega

theorem fillRandom_total (ctx : Ctx) (rng : Rng) (tick : Nat) (grid : Grid) :
    ∃ b fs, fillRandom ctx rng tick grid = some (b, fs) :=
  fillDfs_total ctx rng searchFuel 0 0 _ (by simp [searchFuel]) (by omega) (by omega)

theorem fillDigits_complete (dfs : FillState → Option (Bool × FillState)) (r c : Fin 9)
    (hdfs : ∀ s b s', NumsOK s.nums →
      (∀ i j : Fin 9, 9 * r.val + c.val + 1 ≤ 9 * i.val + j.val → s.grid i j = 0) →
      dfs s = some (b, s') → FillSpec 0 (9 * r.val + c.val + 1) s b s')
    (hcomp : ∀ s s', NumsOK s.nums →
      (∀ i j : Fin 9, 9 * r.val + c.val + 1 ≤ 9 * i.val + j.val → s.grid i j = 0) →
      ValidGivens s.grid → dfs s = some (false, s') → completions s.grid = ∅)
    (vs : List Nat) (hvs : ∀ v ∈ vs, 1 ≤ v ∧ v ≤ 9) :
    ∀ s s', NumsOK s.nums →
      (∀ i j : Fin 9, 9 * r.val + c.val ≤ 9 * i.val + j.val → s.grid i j = 0) →
      ValidGivens s.grid →
      fillDigits dfs r.val c.val vs s = some (false, s') →
      ∀ v ∈ vs, completions (s.grid.set r.val c.val v) = ∅ := by
  induction vs with
  | nil => intro s s' _ _ _ _ v hv; simp at hv
  | cons v vs ih =>
    intro s s' hn hz hvg h w hw
    have hv := hvs v (List.mem_cons_self _ _)
    have hv0 : v ≠ 0 := by omega
    have ih' := ih (fun w hw => hvs w (List.mem_cons_of_mem _ hw))
    have h0 : s.grid r c = 0 := hz r c (le_refl _)
    simp only [fillDigits] at h
    split at h
    · rename_i hal
      rw [allowed_eq_isValid] at hal
      have hz1 : ∀ i j : Fin 9, 9 * r.val + c.val + 1 ≤ 9 * i.val + j.val →
          (s.grid.set r.val c.val v) i j = 0 := by
        intro i j hij
        rw [Grid.set_apply, if_neg]
        · exact hz i j (by omega)
        · rintro ⟨rfl, rfl⟩; omega
      split at h
      · exact absurd h (by simp)
      · simp at h
      · rename_i s2 hrun
        have hsp := hdfs { s with grid := s.grid.set r.val c.val v } _ _ hn hz1 hrun
        have hem := hcomp { s with grid := s.grid.set r.val c.val v } _ hn hz1
          (validGivens_set hvg r c v hv.2 hal) hrun
        have hg : s2.grid = s.grid.set r.val c.val v := hsp.restore rfl
        have hback : s2.grid.set r.val c.val 0 = s.grid := by
          rw [hg]; exact Grid.set_set_zero s.grid r c v h0
        rcases List.mem_cons.mp hw with rfl | hw
        · exact hem
        · have := ih' { s2 with grid := s2.grid.set r.val c.val 0 } s' hsp.nums
            (by dsimp only; rw [hback]; exact hz) (by dsimp only; rw [hback]; exact hvg) h w hw
          dsimp only at this
          rw [hback] at this
          exact this
    · rename_i hal
      rw [allowed_eq_isValid] at hal
      rcases List.mem_cons.mp hw with rfl | hw
      · exact completions_set_invalid r c w h0 hv0 hal
      · exact ih' s s' hn hz hvg h w hw

/-- Without cancellation, the closure `dfs` of `fillRandom` fails only where the grid has
no completion. -/
theorem fillDfs_complete (rng : Rng) : ∀ (fuel r c : Nat) (s s' : FillState),
    c < 9 → r ≤ 9 → NumsOK s.nums →
    (∀ i j : Fin 9, 9 * r + c ≤ 9 * i.val + j.val → s.grid i j = 0) →
    ValidGivens s.grid →
    fillDfs none rng fuel r c s = some (false, s') → completions s.grid = ∅ := by
  intro fuel
  induction fuel with
  | zero => intro r c s s' _ _ _ _ _ h; simp [fillDfs] at h
  | succ n ih =>
    intro r c s s' hc hr hn hz hvg h
    simp only [fillDfs, Ctx.done, Bool.false_eq_true, if_false] at h
    split at h
    · simp at h
    · rename_i h9
      have hr9 : r < 9 := by omega
      have e : 9 * (if c + 1 = 9 then r + 1 else r) + (if c + 1 = 9 then 0 else c + 1)
          = 9 * r + c + 1 := by split <;> omega
      have hall := fillDigits_complete (fillDfs none rng n (if c + 1 = 9 then r + 1 else r)
          (if c + 1 = 9 then 0 else c + 1)) ⟨r, hr9⟩ ⟨c, hc⟩
        (fun s1 b1 s1' hn1 hz1 hrun1 => by
          have := fillDfs_spec none rng n _ _ s1 b1 s1' (by split <;> omega) (by split <;> omega)
            hn1 (fun i j hij => hz1 i j (by rw [e] at hij; exact hij)) hrun1
          exact ⟨this.nums, this.restore,
            fun hb i j hij => this.before hb i j (by rw [e]; dsimp only at hij; omega),
            fun hb i j hij => this.filled hb i j (by rw [e]; dsimp only at hij; omega),
            this.valid⟩)
        (fun s1 s1' hn1 hz1 hvg1 hrun1 =>
          ih _ _ s1 s1' (by split <;> omega) (by split <;> omega) hn1
            (fun i j hij => hz1 i j (by rw [e] at hij; exact hij)) hvg1 hrun1)
        _ (numsOK_shuffle rng s.shuffles s.nums hn).2.1
        { grid := s.grid, nums := rng.shuffle s.shuffles s.nums,
          shuffles := s.shuffles + 1, tick := s.tick + 1 } s'
        (numsOK_shuffle rng s.shuffles s.nums hn) hz hvg h
      have h0 : s.grid ⟨r, hr9⟩ ⟨c, hc⟩ = 0 := hz _ _ (le_refl _)
      have hsum := ncard_completions_split s.grid ⟨r, hr9⟩ ⟨c, hc⟩ h0
      have hzero : ∀ x ∈ digits.map (fun v => (completions (s.grid.set r c v)).ncard),
          x = 0 := by
        intro x hx
        obtain ⟨v, hv, rfl⟩ := List.mem_map.mp hx
        have hv' := (mem_digits v).mp hv
        have hmem := (numsOK_shuffle rng s.shuffles s.nums hn).2.2 v hv'.1 hv'.2
        rw [hall v hmem]
        exact Set.ncard_empty _
      rw [List.sum_eq_zero hzero] at hsum
      exact (Set.ncard_eq_zero (completions_finite _)).mp hsum

/-- Without cancellation `fillRandom` builds a full grid from the empty one. -/
theorem fillRandom_none (rng : Rng) (tick : Nat) :
    ∃ fs, fillRandom none rng tick Grid.zero = some (true, fs) := by
  obtain ⟨b, fs, h⟩ := fillRandom_total none rng tick Grid.zero
  cases b with
  | true => exact ⟨fs, h⟩
  | false =>
    exfalso
    apply completions_zero_nonempty
    exact fillDfs_complete rng searchFuel 0 0 _ fs (by omega) (by omega) numsOK_init
      (fun _ _ _ => rfl)
      ⟨fun _ _ => by simp [Grid.zero], fun _ _ _ _ _ hne => absurd rfl hne⟩ h

end Sudoku

namespace Sudoku

/-! ## The generator: the carving loop -/

/-- The solver's `Unique` returns on every board with valid givens, whatever the
context. -/
def UniqueReturns (sv : Solver) : Prop :=
  ∀ ctx tick b, ValidGivens b.Values → ∃ res, sv.Unique ctx tick b = some res

theorem bt_uniqueReturns : UniqueReturns NewBacktrackingSolver := by
  intro ctx tick b _
  obtain ⟨_, _, _, _, h⟩ := bt_unique_run ctx tick b
  exact ⟨_, h⟩

/-- The carving loop ends when every uniqueness check ends. -/
theorem carve_total (g : UniqueGenerator) (env : GenEnv) (target : Nat)
    (hsv : UniqueReturns g.Solver) :
    ∀ (ps : List Nat) (i : Nat) (s : CarveState), ValidGivens s.puz →
      ∃ s', carve g env target ps i s = some s' := by
  intro ps
  induction ps with
  | nil => intro i s _; exact ⟨s, rfl⟩
  | cons pos rest ih =>
    intro i s hv
    simp only [carve]
    split
    · exact ⟨s, rfl⟩
    · split
      · exact ⟨s, rfl⟩
      · split
        · exact ih _ _ hv
        · have hv0 := validGivens_set_zero hv (pos / 9) (pos % 9)
          obtain ⟨res, hres⟩ := hsv env.ctx s.tick
            { Values := s.puz.set (pos / 9) (pos % 9) 0, Fixed := Mask.zero } hv0
          rw [hres]
          dsimp only
          split
          · apply ih
            dsimp only
            rw [Grid.set_twice, Grid.set_get_cell]; exact hv
          · exact ih _ _ hv0

/-- The carving loop makes at most one uniqueness check for each position. -/
theorem carve_checks (g : UniqueGenerator) (env : GenEnv) (target : Nat) :
    ∀ (ps : List Nat) (i : Nat) (s s' : CarveState),
      carve g env target ps i s = some s' → s'.checks ≤ s.checks + ps.length := by
  intro ps
  induction ps with
  | nil =>
    intro i s s' h
    simp only [carve, Option.some.injEq] at h
    rw [← h]; simp
  | cons pos rest ih =>
    intro i s s' h
    simp only [carve] at h
    simp only [List.length_cons]
    split at h
    · simp only [Option.some.injEq] at h; rw [← h]; omega
    · split at h
      · simp only [Option.some.injEq] at h; rw [← h]; omega
      · split at h
        · have := ih _ _ _ h; omega
        · split at h
          · exact absurd h (by simp)
          · split at h
            · have := ih _ _ _ h
              dsimp only at this
              omega
            · have := ih _ _ _ h
              dsimp only at this
              omega

theorem positions_length (rng : Rng) (k : Nat) :
    (rng.shuffle k (List.range 81)).length = 81 := by
  rw [(shuffle_spec rng k (List.range 81) (by simp)).1]; simp

/-- The invariant of `domain.Board` relative to the full grid `full`: the mask marks the
non-empty cells, and these hold the digits of `full`. -/
def BoardInv (full puz : Grid) (fixed : Mask) : Prop :=
  ∀ r c : Fin 9, (fixed r c = true ↔ puz r c ≠ 0) ∧ (puz r c ≠ 0 → puz r c = full r c)

theorem boardInv_set_zero {full puz : Grid} {fixed : Mask} (h : BoardInv full puz fixed)
    (r c : Nat) : BoardInv full (puz.set r c 0) (fixed.set r c false) := by
  intro i j
  unfold Grid.set Mask.set
  by_cases hij : i.val = r ∧ j.val = c
  · simp [hij]
  · simp only [hij, if_false]
    exact h i j

/-- The carving loop keeps the board invariant. -/
theorem carve_inv (g : UniqueGenerator) (env : GenEnv) (target : Nat) (full : Grid) :
    ∀ (ps : List Nat) (i : Nat) (s s' : CarveState),
      carve g env target ps i s = some s' → BoardInv full s.puz s.fixed →
        BoardInv full s'.puz s'.fixed := by
  intro ps
  induction ps with
  | nil =>
    intro i s s' h hinv
    simp only [carve, Option.some.injEq] at h
    rw [← h]; exact hinv
  | cons pos rest ih =>
    intro i s s' h hinv
    simp only [carve] at h
    split at h
    · simp only [Option.some.injEq] at h; rw [← h]; exact hinv
    · split at h
      · simp only [Option.some.injEq] at h; rw [← h]; exact hinv
      · split at h
        · exact ih _ _ _ h hinv
        · rename_i hne
          split at h
          · exact absurd h (by simp)
          · split at h
            · refine ih _ _ _ h ?_
              dsimp only
              rw [Grid.set_twice, Grid.set_get_cell]
              intro a b
              refine ⟨?_, (hinv a b).2⟩
              unfold Mask.set
              by_cases hab : a.val = pos / 9 ∧ b.val = pos % 9
              · simp only [hab, and_self, if_true, true_iff]
                rw [← hab.1, ← hab.2, Grid.get_fin] at hne
                exact hne
              · simp only [hab, if_false]
                exact (hinv a b).1
            · exact ih _ _ _ h (boardInv_set_zero hinv _ _)

/-- `Generate` returns when every uniqueness check returns; it fails exactly when
`fillRandom` does, with the cancellation error. -/
theorem generate_total (g : UniqueGenerator) (env : GenEnv) (seed : Int) (diff : Difficulty)
    (hsv : UniqueReturns g.Solver) :
    ∃ res b fs, fillRandom env.ctx (env.rng seed) 0 Grid.zero = some (b, fs) ∧
      g.Generate env seed diff = some res ∧
      (b = false → res.puzzle = .error Err.contextCanceled) ∧
      (b = true → ∃ p, res.puzzle = .ok p) := by
  obtain ⟨b, fs, hfill⟩ := fillRandom_total env.ctx (env.rng seed) 0 Grid.zero
  cases b with
  | false =>
    refine ⟨{ puzzle := .error Err.contextCanceled, stats := { Nodes := 0 } }, false, fs,
      hfill, ?_, fun _ => rfl, fun h => by simp at h⟩
    simp only [UniqueGenerator.Generate, hfill]
  | true =>
    obtain ⟨_, hvalid⟩ := fillRandom_ok _ _ _ fs hfill
    obtain ⟨s', hcarve⟩ := carve_total g env (targetGivens diff) hsv
      ((env.rng seed).shuffle fs.shuffles (List.range 81)) 0
      { puz := fs.grid, fixed := fun _ _ => true, nodes := 0, tick := fs.tick, checks := 0 }
      hvalid
    refine ⟨{ puzzle := .ok { Seed := seed, Difficulty := diff,
                              Board := { Values := s'.puz, Fixed := s'.fixed } },
              stats := { Nodes := s'.nodes } }, true, fs, hfill, ?_,
      fun h => by simp at h, fun _ => ⟨_, rfl⟩⟩
    simp only [UniqueGenerator.Generate, hfill, hcarve]

/-- Without cancellation `Generate` returns a puzzle. -/
theorem generate_none (g : UniqueGenerator) (env : GenEnv) (seed : Int) (diff : Difficulty)
    (hsv : UniqueReturns g.Solver) (hctx : env.ctx = none) :
    ∃ res p, g.Generate env seed diff = some res ∧ res.puzzle = .ok p := by
  obtain ⟨res, b, fs, hfill, hgen, _, hok⟩ := generate_total g env seed diff hsv
  obtain ⟨fs', hfill'⟩ := fillRandom_none (env.rng seed) 0
  rw [hctx, hfill'] at hfill
  simp only [Option.some.injEq, Prod.mk.injEq] at hfill
  obtain ⟨p, hp⟩ := hok hfill.1.symm
  exact ⟨res, p, hgen, hp⟩

end Sudoku

namespace Sudoku

/-! ## Covering the columns of a candidate row -/

theorem Rep.ofAux {d : DLX} {S : List Nat} (h : Rep d S) (x : DLX) :
    Rep (d.withAux x) S := by
  have hs : StaticUpTo d 729 := h.static
  have hs' : StaticUpTo (d.withAux x) 729 := ⟨hs.col, hs.right, hs.left, hs.rowIdx, hs.rowHead⟩
  exact ⟨hs', Vert.of_links h.vert rfl rfl rfl, h.active, h.activeCnt, h.nodup, h.lt⟩

theorem DLX.withAux_withAux (d x y : DLX) : (d.withAux x).withAux y = d.withAux y := rfl

theorem DLX.withAux_self (d : DLX) : d.withAux d = d := rfl

theorem SameFrame.aux_eq {d d' : DLX} (h : SameFrame d d') : d'.withAux d = d' := by
  cases d; cases d'
  obtain ⟨_, _, _, _, _, _, h1, h2, h3, h4, h5⟩ := h
  simp only at h1 h2 h3 h4 h5
  simp only [DLX.withAux, h1, h2, h3, h4, h5]

/-- Covering an active column, and uncovering it again whatever happened to the counters
and the solution list in between. -/
theorem cover_rep_aux {d : DLX} {S : List Nat} {c fuel : Nat} (h : Rep d S) (hc : c < 324)
    (hcS : c ∉ S) (hf : 730 ≤ fuel) :
    ∃ d', cover fuel c d = some d' ∧ Rep d' (S ++ [c]) ∧ SameFrame d d' ∧
      ∀ x, uncover fuel c (d'.withAux x) = some (d.withAux x) := by
  obtain ⟨d', h1, h2, h3, h4⟩ := cover_rep h hc hcS hf
  refine ⟨d', h1, h2, h3, fun x => ?_⟩
  rw [uncover_withAux, h4]
  rfl

theorem rcol_ne_of_ne {row k k' : Nat} (hr : row < 729) (hk : k < 4) (hk' : k' < 4)
    (h : k ≠ k') : rcol row k ≠ rcol row k' := by
  intro e
  have h1 := rcol_div hr hk
  have h2 := rcol_div hr hk'
  rw [e] at h1
  omega

/-- The loop of `search` that covers the other columns of the row of the node `r`, and the
loop that uncovers them. -/
theorem coverOthers_rep {d : DLX} {S : List Nat} {row k0 fuel : Nat} (h : Rep d S)
    (hr : row < 729) (hk : k0 < 4) (hf : 730 ≤ fuel)
    (hfree : ∀ m, 1 ≤ m → m < 4 → rcol row ((k0 + m) % 4) ∉ S) :
    ∃ d', coverOthers fuel (nodeAddr row k0) fuel (d.right.get (nodeAddr row k0)) d = some d' ∧
      Rep d' (S ++ [rcol row ((k0 + 1) % 4), rcol row ((k0 + 2) % 4), rcol row ((k0 + 3) % 4)]) ∧
      SameFrame d d' ∧
      ∀ x, uncoverOthers fuel (nodeAddr row k0) fuel (d'.left.get (nodeAddr row k0))
        (d'.withAux x) = some (d.withAux x) := by
  have hk1 : (k0 + 1) % 4 < 4 := Nat.mod_lt _ (by omega)
  have hk2 : (k0 + 2) % 4 < 4 := Nat.mod_lt _ (by omega)
  have hk3 : (k0 + 3) % 4 < 4 := Nat.mod_lt _ (by omega)
  have hs := h.static
  have c1 : rcol row ((k0 + 1) % 4) ∉ S := hfree 1 (by omega) (by omega)
  have c2 : rcol row ((k0 + 2) % 4) ∉ S ++ [rcol row ((k0 + 1) % 4)] := by
    simp only [List.mem_append, List.mem_singleton, not_or]
    exact ⟨hfree 2 (by omega) (by omega), rcol_ne_of_ne hr hk2 hk1 (by omega)⟩
  have c3 : rcol row ((k0 + 3) % 4) ∉
      S ++ [rcol row ((k0 + 1) % 4)] ++ [rcol row ((k0 + 2) % 4)] := by
    simp only [List.mem_append, List.mem_singleton, not_or]
    exact ⟨⟨hfree 3 (by omega) (by omega), rcol_ne_of_ne hr hk3 hk1 (by omega)⟩,
      rcol_ne_of_ne hr hk3 hk2 (by omega)⟩
  obtain ⟨d1, hd1, hrep1, hfr1, hun1⟩ := cover_rep_aux h (rcol_lt hr hk1) c1 hf
  obtain ⟨d2, hd2, hrep2, hfr2, hun2⟩ := cover_rep_aux hrep1 (rcol_lt hr hk2) c2 hf
  obtain ⟨d3, hd3, hrep3, hfr3, hun3⟩ := cover_rep_aux hrep2 (rcol_lt hr hk3) c3 hf
  have hfr12 : SameFrame d d2 := hfr1.trans hfr2
  have hfr13 : SameFrame d d3 := hfr12.trans hfr3
  have e2 : ((k0 + 1) % 4 + 1) % 4 = (k0 + 2) % 4 := by omega
  have e3 : ((k0 + 2) % 4 + 1) % 4 = (k0 + 3) % 4 := by omega
  have e4 : ((k0 + 3) % 4 + 1) % 4 = k0 := by omega
  have f1 : ((k0 + 1) % 4 + 3) % 4 = k0 := by omega
  have f2 : ((k0 + 2) % 4 + 3) % 4 = (k0 + 1) % 4 := by omega
  have f3 : ((k0 + 3) % 4 + 3) % 4 = (k0 + 2) % 4 := by omega
  have n1 : nodeAddr row ((k0 + 1) % 4) ≠ nodeAddr row k0 := by
    simp only [nodeAddr_eq]; omega
  have n2 : nodeAddr row ((k0 + 2) % 4) ≠ nodeAddr row k0 := by
    simp only [nodeAddr_eq]; omega
  have n3 : nodeAddr row ((k0 + 3) % 4) ≠ nodeAddr row k0 := by
    simp only [nodeAddr_eq]; omega
  have a1 : d.active.get (rcol row ((k0 + 1) % 4)) = true := by
    rw [h.active _ (rcol_lt hr hk1)]; simpa using c1
  have a2 : d1.active.get (rcol row ((k0 + 2) % 4)) = true := by
    rw [hrep1.active _ (rcol_lt hr hk2)]; simpa using c2
  have a3 : d2.active.get (rcol row ((k0 + 3) % 4)) = true := by
    rw [hrep2.active _ (rcol_lt hr hk3)]; simpa using c3
  refine ⟨d3, ?_, ?_, hfr13, fun x => ?_⟩
  · obtain ⟨f, rfl⟩ : ∃ f, fuel = f + 4 := ⟨fuel - 4, by omega⟩
    rw [hs.right row k0 hr hk]
    simp only [coverOthers, if_neg n1, hs.col row _ hr hk1, a1, if_true, hd1]
    rw [hfr1.right, hs.right row _ hr hk1, e2]
    simp only [if_neg n2, hfr1.col, hs.col row _ hr hk2, a2, if_true, hd2]
    rw [hfr12.right, hs.right row _ hr hk2, e3]
    simp only [if_neg n3, hfr12.col, hs.col row _ hr hk3, a3, if_true, hd3]
    rw [hfr13.right, hs.right row _ hr hk3, e4]
    simp only [if_true]
  · have := hrep3
    simp only [List.append_assoc, List.singleton_append] at this
    exact this
  · obtain ⟨f, rfl⟩ : ∃ f, fuel = f + 4 := ⟨fuel - 4, by omega⟩
    have l0 : d3.left = d.left := hfr13.left
    have hcol : ∀ y : DLX, (y.withAux x).col = y.col := fun _ => rfl
    have hleft : ∀ y : DLX, (y.withAux x).left = y.left := fun _ => rfl
    rw [l0, hs.left row k0 hr hk]
    simp only [uncoverOthers, if_neg n3, hcol, hfr13.col, hs.col row _ hr hk3, hun3]
    rw [hleft, hfr12.left, hs.left row _ hr hk3, f3]
    simp only [if_neg n2, hcol, hfr12.col, hs.col row _ hr hk2, hun2]
    rw [hleft, hfr1.left, hs.left row _ hr hk2, f2]
    simp only [if_neg n1, hcol, hfr1.col, hs.col row _ hr hk1, hun1]
    rw [hleft, hs.left row _ hr hk1, f1]
    simp only [if_true]

/-- The loop of `applyGiven` covers the four columns of the row. -/
theorem applyLoop_rep {d : DLX} {S : List Nat} {row fuel : Nat} (h : Rep d S)
    (hr : row < 729) (hf : 730 ≤ fuel) (hfree : freeRow S row) :
    ∃ d', applyLoop fuel (nodeAddr row 0) fuel (nodeAddr row 0) d = some d' ∧
      Rep d' (S ++ [rcol row 0, rcol row 1, rcol row 2, rcol row 3]) ∧ SameFrame d d' := by
  have hs := h.static
  have c0 : rcol row 0 ∉ S := hfree 0 (by omega)
  have c1 : rcol row 1 ∉ S ++ [rcol row 0] := by
    simp only [List.mem_append, List.mem_singleton, not_or]
    exact ⟨hfree 1 (by omega), rcol_ne_of_ne hr (by omega) (by omega) (by omega)⟩
  have c2 : rcol row 2 ∉ S ++ [rcol row 0] ++ [rcol row 1] := by
    simp only [List.mem_append, List.mem_singleton, not_or]
    exact ⟨⟨hfree 2 (by omega), rcol_ne_of_ne hr (by omega) (by omega) (by omega)⟩,
      rcol_ne_of_ne hr (by omega) (by omega) (by omega)⟩
  have c3 : rcol row 3 ∉ S ++ [rcol row 0] ++ [rcol row 1] ++ [rcol row 2] := by
    simp only [List.mem_append, List.mem_singleton, not_or]
    exact ⟨⟨⟨hfree 3 (by omega), rcol_ne_of_ne hr (by omega) (by omega) (by omega)⟩,
      rcol_ne_of_ne hr (by omega) (by omega) (by omega)⟩,
      rcol_ne_of_ne hr (by omega) (by omega) (by omega)⟩
  obtain ⟨d0, hd0, hrep0, hfr0, _⟩ := cover_rep_aux h (rcol_lt hr (by omega)) c0 hf
  obtain ⟨d1, hd1, hrep1, hfr1, _⟩ := cover_rep_aux hrep0 (rcol_lt hr (by omega)) c1 hf
  obtain ⟨d2, hd2, hrep2, hfr2, _⟩ := cover_rep_aux hrep1 (rcol_lt hr (by omega)) c2 hf
  obtain ⟨d3, hd3, hrep3, hfr3, _⟩ := cover_rep_aux hrep2 (rcol_lt hr (by omega)) c3 hf
  have hfr01 : SameFrame d d1 := hfr0.trans hfr1
  have hfr02 : SameFrame d d2 := hfr01.trans hfr2
  have hfr03 : SameFrame d d3 := hfr02.trans hfr3
  have n1 : nodeAddr row 1 ≠ nodeAddr row 0 := by simp only [nodeAddr_eq]; omega
  have n2 : nodeAddr row 2 ≠ nodeAddr row 0 := by simp only [nodeAddr_eq]; omega
  have n3 : nodeAddr row 3 ≠ nodeAddr row 0 := by simp only [nodeAddr_eq]; omega
  refine ⟨d3, ?_, ?_, hfr03⟩
  · obtain ⟨f, rfl⟩ : ∃ f, fuel = f + 4 := ⟨fuel - 4, by omega⟩
    have r0 := hs.right row 0 hr (by omega)
    have r1 := hs.right row 1 hr (by omega)
    have r2 := hs.right row 2 hr (by omega)
    have r3 := hs.right row 3 hr (by omega)
    simp only [Nat.reduceAdd, Nat.reduceMod] at r0 r1 r2 r3
    simp only [applyLoop, hs.col row 0 hr (by omega), hd0, hfr0.right, r0, if_neg n1,
      hfr0.col, hs.col row 1 hr (by omega), hd1, hfr01.right, r1, if_neg n2,
      hfr01.col, hs.col row 2 hr (by omega), hd2, hfr02.right, r2, if_neg n3,
      hfr02.col, hs.col row 3 hr (by omega), hd3, hfr03.right, r3, if_true]
  · have := hrep3
    simp only [List.append_assoc, List.singleton_append] at this
    exact this

end Sudoku

namespace Sudoku

/-! ## Choosing a column -/

theorem chooseLoop_none (d : DLX) : ∀ (l : List Nat) (best : Option Nat),
    chooseLoop d l best = none → best = none ∧ ∀ c ∈ l, d.active.get c = false := by
  intro l
  induction l with
  | nil => intro best h; exact ⟨h, fun c hc => by simp at hc⟩
  | cons c rest ih =>
    intro best h
    simp only [chooseLoop] at h
    split at h
    · split at h
      · split at h
        · simp at h
        · have := (ih _ h).1
          simp at this
      · rename_i hact _
        have := ih _ h
        refine ⟨this.1, ?_⟩
        obtain ⟨rfl, _⟩ := this
        simp at *
    · rename_i hact
      have := ih _ h
      refine ⟨this.1, fun x hx => ?_⟩
      rcases List.mem_cons.mp hx with rfl | hx
      · simpa using hact
      · exact this.2 x hx

theorem chooseLoop_some (d : DLX) : ∀ (l : List Nat) (best : Option Nat) (c : Nat),
    chooseLoop d l best = some c → best = some c ∨ (c ∈ l ∧ d.active.get c = true) := by
  intro l
  induction l with
  | nil => intro best c h; exact Or.inl h
  | cons x rest ih =>
    intro best c h
    simp only [chooseLoop] at h
    split at h
    · rename_i hact
      split at h
      · split at h
        · simp only [Option.some.injEq] at h
          subst h
          exact Or.inr ⟨List.mem_cons_self _ _, hact⟩
        · rcases ih _ _ h with h1 | h1
          · simp only [Option.some.injEq] at h1
            subst h1
            exact Or.inr ⟨List.mem_cons_self _ _, hact⟩
          · exact Or.inr ⟨List.mem_cons_of_mem _ h1.1, h1.2⟩
      · rcases ih _ _ h with h1 | h1
        · exact Or.inl h1
        · exact Or.inr ⟨List.mem_cons_of_mem _ h1.1, h1.2⟩
    · rcases ih _ _ h with h1 | h1
      · exact Or.inl h1
      · exact Or.inr ⟨List.mem_cons_of_mem _ h1.1, h1.2⟩

/-- The column `chooseColumn` returns is an active one. -/
theorem chooseColumn_some {d : DLX} {c : Nat} (h : chooseColumn d = some c) :
    c < 324 ∧ d.active.get c = true := by
  rcases chooseLoop_some d _ none c h with h1 | h1
  · simp at h1
  · exact ⟨by simpa using h1.1, h1.2⟩

/-- When `chooseColumn` returns nil no column is active. -/
theorem chooseColumn_none {d : DLX} (h : chooseColumn d = none) :
    ∀ c, c < 324 → d.active.get c = false := by
  intro c hc
  exact (chooseLoop_none d _ none h).2 c (by simpa using hc)

theorem length_le_of_covered {S : List Nat} (hn : S.Nodup) (hlt : ∀ c ∈ S, c < 324) :
    S.length ≤ 324 := by
  have hsub : S ⊆ List.range 324 := fun c hc => List.mem_range.mpr (hlt c hc)
  have := (List.subperm_of_subset hn hsub).length_le
  simpa using this

theorem mem_of_length_covered {S : List Nat} (hn : S.Nodup) (hlt : ∀ c ∈ S, c < 324)
    (hlen : S.length = 324) : ∀ c, c < 324 → c ∈ S := by
  intro c hc
  have hsub : S ⊆ List.range 324 := fun c hc => List.mem_range.mpr (hlt c hc)
  have hp := (List.subperm_of_subset hn hsub).perm_of_length_le (by simp [hlen])
  exact hp.mem_iff.mpr (List.mem_range.mpr hc)

theorem length_of_all_covered {S : List Nat} (hn : S.Nodup) (hlt : ∀ c ∈ S, c < 324)
    (hall : ∀ c, c < 324 → c ∈ S) : S.length = 324 := by
  have h1 := length_le_of_covered hn hlt
  have hsub : List.range 324 ⊆ S := fun c hc => hall c (List.mem_range.mp hc)
  have := (List.subperm_of_subset (List.nodup_range 324) hsub).length_le
  simp only [List.length_range] at this
  omega

/-- In a matrix with an active column, `chooseColumn` finds a column that is not
covered. -/
theorem chooseColumn_rep {d : DLX} {S : List Nat} (h : Rep d S) (hne : d.activeCnt ≠ 0) :
    ∃ c, chooseColumn d = some c ∧ c < 324 ∧ c ∉ S := by
  cases hc : chooseColumn d with
  | none =>
    exfalso
    apply hne
    have hall : ∀ c, c < 324 → c ∈ S := by
      intro c hc'
      have h1 := chooseColumn_none hc c hc'
      rw [h.active c hc'] at h1
      simpa using h1
    rw [h.activeCnt, length_of_all_covered h.nodup h.lt hall]
    rfl
  | some c =>
    obtain ⟨h1, h2⟩ := chooseColumn_some hc
    refine ⟨c, rfl, h1, ?_⟩
    rw [h.active c h1] at h2
    simpa using h2

/-- All columns are covered exactly when the counter of active columns is zero. -/
theorem activeCnt_zero_iff {d : DLX} {S : List Nat} (h : Rep d S) :
    d.activeCnt = 0 ↔ ∀ c, c < 324 → c ∈ S := by
  constructor
  · intro h0
    have hl := length_le_of_covered h.nodup h.lt
    apply mem_of_length_covered h.nodup h.lt
    rw [h.activeCnt] at h0
    omega
  · intro hall
    rw [h.activeCnt, length_of_all_covered h.nodup h.lt hall]
    rfl

end Sudoku

namespace Sudoku

/-! ## The matrix and the grid -/

/-- The grid row of a candidate row. -/
def rr (row : Nat) : Fin 9 := ⟨row / 81 % 9, Nat.mod_lt _ (by omega)⟩
/-- The grid column of a candidate row. -/
def rc (row : Nat) : Fin 9 := ⟨row / 9 % 9, Nat.mod_lt _ (by omega)⟩
/-- The digit of a candidate row. -/
def rv (row : Nat) : Nat := row % 9 + 1

/-- The candidate row is one of the entries of the grid. -/
def placed (g : Grid) (row : Nat) : Prop := g (rr row) (rc row) = rv row

/-- The columns of `S` are the constraints that the entries of the grid `g` satisfy. -/
def Covers (S : List Nat) (g : Grid) : Prop :=
  ∀ c, c < 324 → (c ∈ S ↔ ∃ row, row < 729 ∧ placed g row ∧ rcol row (c / 81) = c)

theorem rr_val {row : Nat} (h : row < 729) : (rr row).val = row / 81 := by
  simp only [rr]; omega

theorem rc_val (row : Nat) : (rc row).val = row / 9 % 9 := rfl

theorem rcol_zero_eq {row : Nat} (h : row < 729) :
    rcol row 0 = 9 * (rr row).val + (rc row).val := by
  rw [rcol_zero, rr_val h, rc_val]; omega

theorem rcol_one_eq {row : Nat} (h : row < 729) :
    rcol row 1 = 81 + 9 * (rr row).val + (rv row - 1) := by
  rw [rcol_one, rr_val h]; simp only [rv]; omega

theorem rcol_two_eq (row : Nat) :
    rcol row 2 = 162 + 9 * (rc row).val + (rv row - 1) := by
  rw [rcol_two, rc_val]; simp only [rv]; omega

theorem rcol_three_eq {row : Nat} (h : row < 729) :
    rcol row 3 = 243 + 9 * ((rr row).val / 3 * 3 + (rc row).val / 3) + (rv row - 1) := by
  rw [rcol_three, rr_val h, rc_val]; simp only [rv]; omega

theorem row_eq_of_parts {row row' : Nat} (h : row < 729) (h' : row' < 729)
    (h1 : rr row = rr row') (h2 : rc row = rc row') (h3 : rv row = rv row') : row = row' := by
  have e1 := congrArg Fin.val h1
  have e2 := congrArg Fin.val h2
  rw [rr_val h, rr_val h'] at e1
  rw [rc_val, rc_val] at e2
  simp only [rv] at h3
  omega

/-- The candidate row of a cell and a digit. -/
def mkRow (r c : Fin 9) (v : Nat) : Nat := 81 * r.val + 9 * c.val + (v - 1)

theorem mkRow_spec (r c : Fin 9) {v : Nat} (h1 : 1 ≤ v) (h9 : v ≤ 9) :
    mkRow r c v < 729 ∧ rr (mkRow r c v) = r ∧ rc (mkRow r c v) = c ∧ rv (mkRow r c v) = v := by
  have := r.isLt
  have := c.isLt
  refine ⟨by simp only [mkRow]; omega, Fin.ext ?_, Fin.ext ?_, ?_⟩
  · simp only [rr, mkRow]; omega
  · simp only [rc, mkRow]; omega
  · simp only [rv, mkRow]; omega

/-- What sharing the column number `k` means for two candidate rows. -/
theorem rcol_eq_iff {row row' k : Nat} (h : row < 729) (h' : row' < 729) (hk : k < 4) :
    rcol row k = rcol row' k ↔
      (k = 0 ∧ rr row = rr row' ∧ rc row = rc row') ∨
      (k = 1 ∧ rr row = rr row' ∧ rv row = rv row') ∨
      (k = 2 ∧ rc row = rc row' ∧ rv row = rv row') ∨
      (k = 3 ∧ (rr row).val / 3 = (rr row').val / 3 ∧ (rc row).val / 3 = (rc row').val / 3 ∧
        rv row = rv row') := by
  have a1 := (rr row).isLt
  have a2 := (rr row').isLt
  have a3 := (rc row).isLt
  have a4 := (rc row').isLt
  have a5 : 1 ≤ rv row ∧ rv row ≤ 9 := by simp only [rv]; omega
  have a6 : 1 ≤ rv row' ∧ rv row' ≤ 9 := by simp only [rv]; omega
  have h4 : k = 0 ∨ k = 1 ∨ k = 2 ∨ k = 3 := by omega
  rcases h4 with rfl | rfl | rfl | rfl
  · rw [rcol_zero_eq h, rcol_zero_eq h']
    simp only [Fin.ext_iff]
    constructor
    · intro he
      exact Or.inl ⟨trivial, by omega, by omega⟩
    · rintro (⟨_, h1, h2⟩ | ⟨hk, _⟩ | ⟨hk, _⟩ | ⟨hk, _⟩) <;> omega
  · rw [rcol_one_eq h, rcol_one_eq h']
    simp only [Fin.ext_iff]
    constructor
    · intro he
      exact Or.inr (Or.inl ⟨trivial, by omega, by omega⟩)
    · rintro (⟨hk, _⟩ | ⟨_, h1, h2⟩ | ⟨hk, _⟩ | ⟨hk, _⟩) <;> omega
  · rw [rcol_two_eq, rcol_two_eq]
    simp only [Fin.ext_iff]
    constructor
    · intro he
      exact Or.inr (Or.inr (Or.inl ⟨trivial, by omega, by omega⟩))
    · rintro (⟨hk, _⟩ | ⟨hk, _⟩ | ⟨_, h1, h2⟩ | ⟨hk, _⟩) <;> omega
  · rw [rcol_three_eq h, rcol_three_eq h']
    constructor
    · intro he
      exact Or.inr (Or.inr (Or.inr ⟨rfl, by omega, by omega, by omega⟩))
    · rintro (⟨hk, _⟩ | ⟨hk, _⟩ | ⟨hk, _⟩ | ⟨_, h1, h2, h3⟩) <;> omega

/-- Two entries of a grid without repeats that satisfy the same constraint are the same
entry. -/
theorem placed_unique {g : Grid} (hv : ValidGivens g) {row row' k : Nat} (h : row < 729)
    (h' : row' < 729) (hk : k < 4) (hp : placed g row) (hp' : placed g row')
    (he : rcol row k = rcol row' k) : row = row' := by
  unfold placed at hp hp'
  have hne : g (rr row) (rc row) ≠ 0 := by rw [hp]; simp [rv]
  by_cases hcell : rr row = rr row' ∧ rc row = rc row'
  · apply row_eq_of_parts h h' hcell.1 hcell.2
    rw [← hp, ← hp', hcell.1, hcell.2]
  · exfalso
    have hvv : rv row = rv row' ∧
        (rr row = rr row' ∨ rc row = rc row' ∨
          ((rr row).val / 3 = (rr row').val / 3 ∧ (rc row).val / 3 = (rc row').val / 3)) := by
      rcases (rcol_eq_iff h h' hk).mp he with ⟨_, h1, h2⟩ | ⟨_, h1, h2⟩ | ⟨_, h1, h2⟩ |
        ⟨_, h1, h2, h3⟩
      · exact absurd ⟨h1, h2⟩ hcell
      · exact ⟨h2, Or.inl h1⟩
      · exact ⟨h2, Or.inr (Or.inl h1)⟩
      · exact ⟨h3, Or.inr (Or.inr ⟨h1, h2⟩)⟩
    have hpeers : Peers (rr row) (rc row) (rr row') (rc row') := by
      refine ⟨?_, hvv.2⟩
      by_contra hcon
      push_neg at hcon
      exact hcell hcon
    apply hv.2 _ _ _ _ hpeers hne
    rw [hp, hp', hvv.1]

/-- The candidate rows free of the covered columns are the digits that `isValid` accepts in
the empty cells. -/
theorem freeRow_iff {g : Grid} {S : List Nat} (hv : ValidGivens g) (hcov : Covers S g)
    {row : Nat} (h : row < 729) :
    freeRow S row ↔
      g (rr row) (rc row) = 0 ∧ isValid g (rr row).val (rc row).val (rv row) = true := by
  have hrv : 1 ≤ rv row ∧ rv row ≤ 9 := by simp only [rv]; omega
  have hmem : ∀ k, k < 4 →
      (rcol row k ∈ S ↔ ∃ row', row' < 729 ∧ placed g row' ∧ rcol row' k = rcol row k) := by
    intro k hk
    rw [hcov _ (rcol_lt h hk), rcol_div h hk]
  rw [isValid_iff]
  constructor
  · intro hfree
    have hcell : g (rr row) (rc row) = 0 := by
      by_contra hne
      have hb : 1 ≤ g (rr row) (rc row) ∧ g (rr row) (rc row) ≤ 9 :=
        ⟨Nat.pos_of_ne_zero hne, hv.1 _ _⟩
      obtain ⟨m1, m2, m3, m4⟩ := mkRow_spec (rr row) (rc row) hb.1 hb.2
      apply hfree 0 (by omega)
      rw [hmem 0 (by omega)]
      refine ⟨_, m1, ?_, ?_⟩
      · unfold placed; rw [m2, m3, m4]
      · rw [rcol_eq_iff m1 h (by omega)]
        exact Or.inl ⟨rfl, m2, m3⟩
    refine ⟨hcell, fun r' c' hrel heq => ?_⟩
    obtain ⟨m1, m2, m3, m4⟩ := mkRow_spec r' c' hrv.1 hrv.2
    have hpl : placed g (mkRow r' c' (rv row)) := by
      unfold placed; rw [m2, m3, m4]; exact heq
    rcases hrel with rfl | rfl | ⟨hr, hc⟩
    · apply hfree 1 (by omega)
      rw [hmem 1 (by omega)]
      refine ⟨_, m1, hpl, ?_⟩
      rw [rcol_eq_iff m1 h (by omega)]
      exact Or.inr (Or.inl ⟨rfl, m2, m4⟩)
    · apply hfree 2 (by omega)
      rw [hmem 2 (by omega)]
      refine ⟨_, m1, hpl, ?_⟩
      rw [rcol_eq_iff m1 h (by omega)]
      exact Or.inr (Or.inr (Or.inl ⟨rfl, m3, m4⟩))
    · apply hfree 3 (by omega)
      rw [hmem 3 (by omega)]
      refine ⟨_, m1, hpl, ?_⟩
      rw [rcol_eq_iff m1 h (by omega)]
      refine Or.inr (Or.inr (Or.inr ⟨rfl, ?_, ?_, m4⟩))
      · rw [m2]; exact hr
      · rw [m3]; exact hc
  · rintro ⟨hcell, hval⟩ k hk hin
    rw [hmem k hk] at hin
    obtain ⟨row', h', hpl, he⟩ := hin
    unfold placed at hpl
    have hrv' : 1 ≤ rv row' := by simp only [rv]; omega
    rcases (rcol_eq_iff h' h hk).mp he with ⟨_, h1, h2⟩ | ⟨_, h1, h2⟩ | ⟨_, h1, h2⟩ |
      ⟨_, h1, h2, h3⟩
    · rw [h1, h2, hcell] at hpl; omega
    · exact hval (rr row') (rc row') (Or.inl h1) (by rw [hpl, h2])
    · exact hval (rr row') (rc row') (Or.inr (Or.inl h1)) (by rw [hpl, h2])
    · exact hval (rr row') (rc row') (Or.inr (Or.inr ⟨h1, h2⟩)) (by rw [hpl, h3])

/-- Writing a candidate row into an empty cell adds this one entry to the grid. -/
theorem placed_set {g : Grid} {row : Nat} (h : row < 729) (h0 : g (rr row) (rc row) = 0)
    {row' : Nat} (h' : row' < 729) :
    placed (g.set (rr row).val (rc row).val (rv row)) row' ↔ placed g row' ∨ row' = row := by
  unfold placed
  rw [Grid.set_apply]
  by_cases hcell : rr row' = rr row ∧ rc row' = rc row
  · rw [if_pos hcell]
    constructor
    · intro hv
      exact Or.inr (row_eq_of_parts h' h hcell.1 hcell.2 hv.symm)
    · rintro (hp | rfl)
      · rw [hcell.1, hcell.2, h0] at hp
        simp only [rv] at hp
        omega
      · rfl
  · rw [if_neg hcell]
    constructor
    · exact Or.inl
    · rintro (hp | rfl)
      · exact hp
      · exact absurd ⟨rfl, rfl⟩ hcell

/-- Covering the columns of a candidate row corresponds to writing it into the grid. -/
theorem covers_set {g : Grid} {S S' : List Nat} (hcov : Covers S g) {row : Nat}
    (h : row < 729) (h0 : g (rr row) (rc row) = 0)
    (hS : ∀ c, c ∈ S' ↔ c ∈ S ∨ ∃ k, k < 4 ∧ rcol row k = c) :
    Covers S' (g.set (rr row).val (rc row).val (rv row)) := by
  intro c hc
  rw [hS, hcov c hc]
  constructor
  · rintro (⟨row', h', hp, he⟩ | ⟨k, hk, he⟩)
    · exact ⟨row', h', (placed_set h h0 h').mpr (Or.inl hp), he⟩
    · refine ⟨row, h, (placed_set h h0 h).mpr (Or.inr rfl), ?_⟩
      rw [← he, rcol_div h hk]
  · rintro ⟨row', h', hp, he⟩
    rcases (placed_set h h0 h').mp hp with hp | rfl
    · exact Or.inl ⟨row', h', hp, he⟩
    · exact Or.inr ⟨c / 81, by omega, he⟩

theorem rcol_mkRow (r c : Fin 9) {v : Nat} (h1 : 1 ≤ v) (h9 : v ≤ 9) :
    rcol (mkRow r c v) 0 = 9 * r.val + c.val ∧
    rcol (mkRow r c v) 1 = 81 + 9 * r.val + (v - 1) ∧
    rcol (mkRow r c v) 2 = 162 + 9 * c.val + (v - 1) ∧
    rcol (mkRow r c v) 3 = 243 + 9 * (r.val / 3 * 3 + c.val / 3) + (v - 1) := by
  obtain ⟨m1, m2, m3, m4⟩ := mkRow_spec r c h1 h9
  refine ⟨?_, ?_, ?_, ?_⟩
  · rw [rcol_zero_eq m1, m2, m3]
  · rw [rcol_one_eq m1, m2, m4]
  · rw [rcol_two_eq, m3, m4]
  · rw [rcol_three_eq m1, m2, m3, m4]

theorem placed_mkRow {h : Grid} (r c : Fin 9) {v : Nat} (h1 : 1 ≤ v) (h9 : v ≤ 9)
    (hv : h r c = v) : placed h (mkRow r c v) := by
  obtain ⟨_, m2, m3, m4⟩ := mkRow_spec r c h1 h9
  unfold placed; rw [m2, m3, m4]; exact hv

/-- A solved grid satisfies every constraint. -/
theorem solved_filled {h : Grid} (hs : Solved h) {c : Nat} (hc : c < 324) :
    ∃ row, row < 729 ∧ placed h row ∧ rcol row (c / 81) = c := by
  have h4 : c / 81 = 0 ∨ c / 81 = 1 ∨ c / 81 = 2 ∨ c / 81 = 3 := by omega
  rcases h4 with e | e | e | e
  · obtain ⟨r, hr⟩ : ∃ r : Fin 9, r.val = c / 9 := ⟨⟨c / 9, by omega⟩, rfl⟩
    obtain ⟨j, hj⟩ : ∃ j : Fin 9, j.val = c % 9 := ⟨⟨c % 9, Nat.mod_lt _ (by omega)⟩, rfl⟩
    have hb := hs.row_range r j
    refine ⟨_, (mkRow_spec r j hb.1 hb.2).1, placed_mkRow r j hb.1 hb.2 rfl, ?_⟩
    rw [e, (rcol_mkRow r j hb.1 hb.2).1]
    omega
  · obtain ⟨r, hr⟩ : ∃ r : Fin 9, r.val = (c - 81) / 9 := ⟨⟨(c - 81) / 9, by omega⟩, rfl⟩
    obtain ⟨v, hv⟩ : ∃ v : Nat, v = (c - 81) % 9 + 1 := ⟨_, rfl⟩
    have hd : 1 ≤ v ∧ v ≤ 9 := by omega
    obtain ⟨j, hj, _⟩ := (hs v hd.1 hd.2).1 r
    refine ⟨_, (mkRow_spec r j hd.1 hd.2).1, placed_mkRow r j hd.1 hd.2 hj, ?_⟩
    rw [e, (rcol_mkRow r j hd.1 hd.2).2.1]
    omega
  · obtain ⟨j, hj⟩ : ∃ j : Fin 9, j.val = (c - 162) / 9 := ⟨⟨(c - 162) / 9, by omega⟩, rfl⟩
    obtain ⟨v, hv⟩ : ∃ v : Nat, v = (c - 162) % 9 + 1 := ⟨_, rfl⟩
    have hd : 1 ≤ v ∧ v ≤ 9 := by omega
    obtain ⟨r, hr, _⟩ := (hs v hd.1 hd.2).2.1 j
    refine ⟨_, (mkRow_spec r j hd.1 hd.2).1, placed_mkRow r j hd.1 hd.2 hr, ?_⟩
    rw [e, (rcol_mkRow r j hd.1 hd.2).2.2.1]
    omega
  · obtain ⟨br, hbr⟩ : ∃ br : Fin 3, br.val = (c - 243) / 9 / 3 :=
      ⟨⟨(c - 243) / 9 / 3, by omega⟩, rfl⟩
    obtain ⟨bc, hbc⟩ : ∃ bc : Fin 3, bc.val = (c - 243) / 9 % 3 :=
      ⟨⟨(c - 243) / 9 % 3, Nat.mod_lt _ (by omega)⟩, rfl⟩
    obtain ⟨v, hv⟩ : ∃ v : Nat, v = (c - 243) % 9 + 1 := ⟨_, rfl⟩
    have hd : 1 ≤ v ∧ v ≤ 9 := by omega
    obtain ⟨p, hp, _⟩ := (hs v hd.1 hd.2).2.2 br bc
    have hp1 := p.1.isLt
    have hp2 := p.2.isLt
    have hbr3 := br.isLt
    have hbc3 := bc.isLt
    obtain ⟨r, hr⟩ : ∃ r : Fin 9, r.val = 3 * br.val + p.1.val :=
      ⟨⟨3 * br.val + p.1.val, by omega⟩, rfl⟩
    obtain ⟨j, hj⟩ : ∃ j : Fin 9, j.val = 3 * bc.val + p.2.val :=
      ⟨⟨3 * bc.val + p.2.val, by omega⟩, rfl⟩
    have hp' : h r j = v := by
      have e1 : r = ⟨3 * br.val + p.1.val, by omega⟩ := Fin.ext hr
      have e2 : j = ⟨3 * bc.val + p.2.val, by omega⟩ := Fin.ext hj
      rw [e1, e2]; exact hp
    refine ⟨_, (mkRow_spec r j hd.1 hd.2).1, placed_mkRow r j hd.1 hd.2 hp', ?_⟩
    rw [e, (rcol_mkRow r j hd.1 hd.2).2.2.2]
    omega

/-- When no column is active the grid is full. -/
theorem full_of_all_covered {g : Grid} {S : List Nat} (hcov : Covers S g)
    (hall : ∀ c, c < 324 → c ∈ S) : Full g := by
  intro r c
  have hr := r.isLt
  have hc := c.isLt
  obtain ⟨row, h, hp, he⟩ := (hcov (9 * r.val + c.val) (by omega)).mp (hall _ (by omega))
  have e0 : (9 * r.val + c.val) / 81 = 0 := by omega
  rw [e0, rcol_zero_eq h] at he
  have a1 := (rr row).isLt
  have a2 := (rc row).isLt
  have e1 : rr row = r := Fin.ext (by omega)
  have e2 : rc row = c := Fin.ext (by omega)
  unfold placed at hp
  rw [e1, e2] at hp
  rw [hp]
  simp [rv]

end Sudoku

namespace Sudoku

/-! ## The completions of a grid, split by the entry that satisfies a constraint -/

/-- The grid with the candidate row written in. -/
def withRow (g : Grid) (row : Nat) : Grid := g.set (rr row).val (rc row).val (rv row)

theorem rv_ne_zero (row : Nat) : rv row ≠ 0 := by simp [rv]

theorem rv_range (row : Nat) : 1 ≤ rv row ∧ rv row ≤ 9 := by simp only [rv]; omega

theorem mem_completions_withRow {g : Grid} {row : Nat} (h0 : g (rr row) (rc row) = 0)
    (h : Grid) : h ∈ completions (withRow g row) ↔ h ∈ completions g ∧ placed h row :=
  mem_completions_set (rr row) (rc row) (rv row) h0 (rv_ne_zero row) h

/-- The completions of a grid, split by the entry with which they satisfy a constraint
that the grid does not satisfy yet. -/
theorem ncard_completions_rows {g : Grid} {c : Nat} (hc : c < 324)
    (hun : ¬ ∃ row, row < 729 ∧ placed g row ∧ rcol row (c / 81) = c)
    (L : List Nat) (hnd : L.Nodup)
    (hL : ∀ row, row ∈ L ↔ (row < 729 ∧ rcol row (c / 81) = c) ∧ g (rr row) (rc row) = 0 ∧
      isValid g (rr row).val (rc row).val (rv row) = true) :
    (completions g).ncard = (L.map (fun row => (completions (withRow g row)).ncard)).sum := by
  have key : ∀ vs : List Nat, vs.Nodup →
      (∀ row ∈ vs, row < 729 ∧ rcol row (c / 81) = c ∧ g (rr row) (rc row) = 0) →
      ({h | h ∈ completions g ∧ ∃ row ∈ vs, placed h row} : Set Grid).ncard =
        (vs.map (fun row => (completions (withRow g row)).ncard)).sum := by
    intro vs
    induction vs with
    | nil => intro _ _; simp
    | cons row vs ih =>
      intro hnd hin
      rw [List.nodup_cons] at hnd
      obtain ⟨hr, hcol, h0⟩ := hin row (List.mem_cons_self _ _)
      have hsplit : ({h | h ∈ completions g ∧ ∃ row' ∈ row :: vs, placed h row'} : Set Grid) =
          completions (withRow g row) ∪
            {h | h ∈ completions g ∧ ∃ row' ∈ vs, placed h row'} := by
        ext h
        simp only [Set.mem_setOf_eq, List.mem_cons, Set.mem_union, mem_completions_withRow h0,
          exists_eq_or_imp]
        tauto
      have hdisj : Disjoint (completions (withRow g row))
          {h | h ∈ completions g ∧ ∃ row' ∈ vs, placed h row'} := by
        rw [Set.disjoint_left]
        intro h hm hm2
        rw [mem_completions_withRow h0] at hm
        obtain ⟨_, row', hrow', hp'⟩ := hm2
        obtain ⟨hr', hcol', _⟩ := hin row' (List.mem_cons_of_mem _ hrow')
        have hk : c / 81 < 4 := by omega
        have : row = row' := placed_unique hm.1.1.validGivens hr hr' hk hm.2 hp'
          (by rw [hcol, hcol'])
        exact hnd.1 (this ▸ hrow')
      rw [hsplit, Set.ncard_union_eq hdisj (completions_finite _)
        ((completions_finite g).subset (fun h hm => hm.1)), List.map_cons, List.sum_cons,
        ih hnd.2 (fun w hw => hin w (List.mem_cons_of_mem _ hw))]
  have hall : ({h | h ∈ completions g ∧ ∃ row ∈ L, placed h row} : Set Grid) =
      completions g := by
    ext h
    simp only [Set.mem_setOf_eq, and_iff_left_iff_imp]
    intro hm
    obtain ⟨row, hr, hp, hcol⟩ := solved_filled hm.1 hc
    refine ⟨row, ?_, hp⟩
    rw [hL]
    have hcell : g (rr row) (rc row) = 0 := by
      by_contra hne
      apply hun
      refine ⟨row, hr, ?_, hcol⟩
      unfold placed at hp ⊢
      rw [← hm.2 _ _ hne]; exact hp
    refine ⟨⟨hr, hcol⟩, hcell, ?_⟩
    rw [isValid_iff]
    intro r' c' hrel heq
    have hne : g r' c' ≠ 0 := by rw [heq]; exact rv_ne_zero row
    have hh : h r' c' = rv row := by rw [hm.2 _ _ hne]; exact heq
    by_cases hsame : r' = rr row ∧ c' = rc row
    · rw [hsame.1, hsame.2] at hne
      exact hne hcell
    · have hpeers : Peers r' c' (rr row) (rc row) := by
        refine ⟨?_, hrel⟩
        by_contra hcon
        push_neg at hcon
        exact hsame hcon
      apply hm.1.noRepeat _ _ _ _ hpeers
      · rw [hh]; exact rv_ne_zero row
      · unfold placed at hp
        rw [hh, hp]
  rw [← key L hnd (fun row hrow => by
    have := (hL row).mp hrow
    exact ⟨this.1.1, this.1.2, this.2.1⟩), hall]

end Sudoku

namespace Sudoku

/-! ## The counters of the search -/

theorem coverOthers_withAux (x : DLX) (fuel r : Nat) : ∀ (n j : Nat) (d : DLX),
    coverOthers fuel r n j (d.withAux x) =
      (coverOthers fuel r n j d).map (fun q => q.withAux x) := by
  intro n
  induction n with
  | zero => intro j d; rfl
  | succ n ih =>
    intro j d
    simp only [coverOthers]
    have e1 : (d.withAux x).col = d.col := rfl
    have e2 : (d.withAux x).active = d.active := rfl
    have e3 : (d.withAux x).right = d.right := rfl
    rw [e1, e2, e3]
    split
    · rfl
    · split
      · rw [cover_withAux]
        cases cover fuel (d.col.get j) d with
        | none => rfl
        | some d1 =>
          simp only [Option.map_some']
          exact ih _ d1
      · exact ih _ d

theorem uncoverOthers_withAux (x : DLX) (fuel r : Nat) : ∀ (n j : Nat) (d : DLX),
    uncoverOthers fuel r n j (d.withAux x) =
      (uncoverOthers fuel r n j d).map (fun q => q.withAux x) := by
  intro n
  induction n with
  | zero => intro j d; rfl
  | succ n ih =>
    intro j d
    simp only [uncoverOthers]
    have e1 : (d.withAux x).col = d.col := rfl
    rw [e1]
    split
    · rfl
    · rw [uncover_withAux]
      cases uncover fuel (d.col.get j) d with
      | none => rfl
      | some d1 =>
        simp only [Option.map_some']
        exact ih _ d1

/-- An operation that commutes with `withAux` leaves the counters and the solution list
alone. -/
theorem aux_of_commute {f : DLX → Option DLX}
    (hf : ∀ x d, f (d.withAux x) = (f d).map (fun q => q.withAux x)) {d d' : DLX}
    (h : f d = some d') : d'.withAux d = d' := by
  have := hf d d
  rw [DLX.withAux_self, h] at this
  simp only [Option.map_some', Option.some.injEq] at this
  exact this.symm

theorem cover_aux {fuel c : Nat} {d d' : DLX} (h : cover fuel c d = some d') :
    d'.withAux d = d' :=
  aux_of_commute (f := cover fuel c) (fun x d => cover_withAux x fuel c d) h

theorem uncover_aux {fuel c : Nat} {d d' : DLX} (h : uncover fuel c d = some d') :
    d'.withAux d = d' :=
  aux_of_commute (f := uncover fuel c) (fun x d => uncover_withAux x fuel c d) h

theorem coverOthers_aux {fuel r n : Nat} {d d' : DLX}
    (h : coverOthers fuel r n (d.right.get r) d = some d') : d'.withAux d = d' := by
  have := coverOthers_withAux d fuel r n (d.right.get r) d
  have e : (d.withAux d).right = d.right := rfl
  rw [DLX.withAux_self, h] at this
  simp only [Option.map_some', Option.some.injEq] at this
  exact this.symm

theorem uncoverOthers_aux {fuel r n : Nat} {d d' : DLX}
    (h : uncoverOthers fuel r n (d.left.get r) d = some d') : d'.withAux d = d' := by
  have := uncoverOthers_withAux d fuel r n (d.left.get r) d
  rw [DLX.withAux_self, h] at this
  simp only [Option.map_some', Option.some.injEq] at this
  exact this.symm

theorem aux_fields {d d' : DLX} (h : d'.withAux d = d') :
    d'.found = d.found ∧ d'.tick = d.tick ∧ d'.nodes = d.nodes ∧ d'.sol = d.sol ∧
      d'.solLen = d.solLen := by
  rw [← h]
  exact ⟨rfl, rfl, rfl, rfl, rfl⟩

/-- The state after the cancellation check of `search`. -/
def polled (d : DLX) : DLX := { d with tick := d.tick + 1 }

/-- The state in which `search` records a solution of `k` rows. -/
def leafState (d : DLX) (k : Nat) : DLX := { d with solLen := k, found := d.found + 1 }

/-- The state in which `search` tries the row of the node `r` as its choice number `k`. -/
def pushRow (d : DLX) (k r : Nat) : DLX :=
  { d with nodes := d.nodes + 1, sol := d.sol.set k (some r) }

theorem search_succ (ctx : Ctx) (fuel want depth k : Nat) (d : DLX) :
    search ctx fuel want (depth + 1) k d =
      if ctx.done d.tick then some (true, polled d)
      else if (polled d).activeCnt = 0 then
        some (decide ((leafState (polled d) k).found ≥ want), leafState (polled d) k)
      else
        match chooseColumn (polled d) with
        | none => some (false, polled d)
        | some c =>
          if (polled d).size.get c = 0 then some (false, polled d)
          else
            match cover fuel c (polled d) with
            | none => none
            | some d2 =>
              searchRows fuel (search ctx fuel want depth (k + 1)) c k fuel (d2.down.get c) d2 :=
  rfl

theorem searchRows_end (fuel : Nat) (dfs : DLX → Option (Bool × DLX)) (c k n : Nat) (d : DLX) :
    searchRows fuel dfs c k (n + 1) c d =
      match uncover fuel c d with
      | none => none
      | some d1 => some (false, d1) := by
  simp only [searchRows, if_true] <;> rfl

theorem searchRows_step (fuel : Nat) (dfs : DLX → Option (Bool × DLX)) (c k n r : Nat) (d : DLX)
    (hne : r ≠ c) :
    searchRows fuel dfs c k (n + 1) r d =
      match coverOthers fuel r fuel ((pushRow d k r).right.get r) (pushRow d k r) with
      | none => none
      | some d3 =>
        match dfs d3 with
        | none => none
        | some (true, d4) =>
          match uncoverOthers fuel r fuel (d4.left.get r) d4 with
          | none => none
          | some d5 =>
            match uncover fuel c d5 with
            | none => none
            | some d6 => some (true, d6)
        | some (false, d4) =>
          match uncoverOthers fuel r fuel (d4.left.get r) d4 with
          | none => none
          | some d5 => searchRows fuel dfs c k n (d5.down.get r) d5 := by
  simp only [searchRows, if_neg hne] <;> rfl

/-- What every run of `search`, and of its loop over the rows of a column, does to the
counters, with or without cancellation: `found` does not decrease and, from below the cap
`want`, does not pass it; the run returns false only below the cap and true only at the
cap or after a poll that saw the cancellation; no poll follows the first one that saw the
cancellation; and `tick` and `nodes` do not decrease. -/
structure Bound (ctx : Ctx) (want : Nat) (d : DLX) (b : Bool) (d' : DLX) : Prop where
  mono : d.found ≤ d'.found
  le : d.found < want → d'.found ≤ want
  lt : d.found < want → b = false → d'.found < want
  stop : d.found < want → b = true →
    d'.found = want ∨ (d.tick < d'.tick ∧ ctx.done (d'.tick - 1) = true)
  quiet : ∀ n, ctx = some n → d.tick ≤ n → d'.tick ≤ n + 1 ∧ (b = false → d'.tick ≤ n)
  tick : d.tick ≤ d'.tick
  nodes : d.nodes ≤ d'.nodes

theorem Bound.same (ctx : Ctx) (want : Nat) {d d' : DLX} (h1 : d'.found = d.found)
    (h2 : d'.tick = d.tick) (h3 : d.nodes ≤ d'.nodes) : Bound ctx want d false d' where
  mono := by omega
  le := fun _ => by omega
  lt := fun _ _ => by omega
  stop := fun _ h => by simp at h
  quiet := fun n _ _ => ⟨by omega, fun _ => by omega⟩
  tick := by omega
  nodes := h3

theorem Bound.of_eq {ctx : Ctx} {want : Nat} {d d' e e' : DLX} {b : Bool}
    (h : Bound ctx want d b d') (h1 : e.found = d.found) (h2 : e.tick = d.tick)
    (h3 : e.nodes ≤ d.nodes) (h4 : e'.found = d'.found) (h5 : e'.tick = d'.tick)
    (h6 : e'.nodes = d'.nodes) : Bound ctx want e b e' where
  mono := by have := h.mono; omega
  le := fun hl => by have := h.le (by omega); omega
  lt := fun hl hb => by have := h.lt (by omega) hb; omega
  stop := fun hl hb => by
    rw [h4, h5, h2]
    exact h.stop (by omega) hb
  quiet := fun n hn ht => by
    rw [h5]
    exact h.quiet n hn (by omega)
  tick := by have := h.tick; omega
  nodes := by have := h.nodes; omega

theorem Bound.after_false {ctx : Ctx} {want : Nat} {d d1 d2 : DLX} {b : Bool}
    (h1 : Bound ctx want d false d1) (h2 : Bound ctx want d1 b d2) : Bound ctx want d b d2 where
  mono := le_trans h1.mono h2.mono
  le := fun hl => h2.le (h1.lt hl rfl)
  lt := fun hl hb => h2.lt (h1.lt hl rfl) hb
  stop := fun hl hb => by
    rcases h2.stop (h1.lt hl rfl) hb with h | ⟨h, h'⟩
    · exact Or.inl h
    · exact Or.inr ⟨lt_of_le_of_lt h1.tick h, h'⟩
  quiet := fun n hn ht => h2.quiet n hn ((h1.quiet n hn ht).2 rfl)
  tick := le_trans h1.tick h2.tick
  nodes := le_trans h1.nodes h2.nodes

/-- The loop of `search` over the rows of a column keeps the bounds that the recursive
call keeps. -/
theorem searchRows_bound {ctx : Ctx} {want fuel c k : Nat} (dfs : DLX → Option (Bool × DLX))
    (hdfs : ∀ x b x', dfs x = some (b, x') → Bound ctx want x b x') :
    ∀ (n r : Nat) (d : DLX) (b : Bool) (d' : DLX),
      searchRows fuel dfs c k n r d = some (b, d') → Bound ctx want d b d' := by
  intro n
  induction n with
  | zero => intro r d b d' h; simp [searchRows] at h
  | succ n ih =>
    intro r d b d' h
    by_cases hr : r = c
    · subst hr
      rw [searchRows_end] at h
      cases hu : uncover fuel r d with
      | none => rw [hu] at h; simp at h
      | some d1 =>
        rw [hu] at h
        simp only [Option.some.injEq, Prod.mk.injEq] at h
        obtain ⟨rfl, rfl⟩ := h
        obtain ⟨a1, a2, a3, _, _⟩ := aux_fields (uncover_aux hu)
        exact Bound.same ctx want a1 a2 (by omega)
    · rw [searchRows_step _ _ _ _ _ _ _ hr] at h
      cases h3 : coverOthers fuel r fuel ((pushRow d k r).right.get r) (pushRow d k r) with
      | none => rw [h3] at h; simp at h
      | some d3 =>
        rw [h3] at h
        simp only at h
        obtain ⟨a1, a2, a3, _, _⟩ := aux_fields (coverOthers_aux h3)
        have e1 : d3.found = d.found := a1
        have e2 : d3.tick = d.tick := a2
        have e3 : d3.nodes = d.nodes + 1 := a3
        cases h4 : dfs d3 with
        | none => rw [h4] at h; simp at h
        | some res =>
          obtain ⟨b4, d4⟩ := res
          have hb4 := hdfs d3 b4 d4 h4
          rw [h4] at h
          cases b4 with
          | true =>
            simp only at h
            cases h5 : uncoverOthers fuel r fuel (d4.left.get r) d4 with
            | none => rw [h5] at h; simp at h
            | some d5 =>
              rw [h5] at h
              simp only at h
              cases h6 : uncover fuel c d5 with
              | none => rw [h6] at h; simp at h
              | some d6 =>
                rw [h6] at h
                simp only [Option.some.injEq, Prod.mk.injEq] at h
                obtain ⟨rfl, rfl⟩ := h
                obtain ⟨b1, b2, b3, _, _⟩ := aux_fields (uncoverOthers_aux h5)
                obtain ⟨c1, c2, c3, _, _⟩ := aux_fields (uncover_aux h6)
                exact hb4.of_eq (by omega) (by omega) (by omega) (by omega) (by omega)
                  (by omega)
          | false =>
            simp only at h
            cases h5 : uncoverOthers fuel r fuel (d4.left.get r) d4 with
            | none => rw [h5] at h; simp at h
            | some d5 =>
              rw [h5] at h
              simp only at h
              obtain ⟨b1, b2, b3, _, _⟩ := aux_fields (uncoverOthers_aux h5)
              have hrest := ih _ _ _ _ h
              have hfirst : Bound ctx want d false d5 :=
                hb4.of_eq (by omega) (by omega) (by omega) (by omega) (by omega) (by omega)
              exact hfirst.after_false hrest

/-- The bounds that every run of `search` keeps. -/
theorem search_bound (ctx : Ctx) (fuel want : Nat) : ∀ (depth k : Nat) (d : DLX) (b : Bool)
    (d' : DLX), search ctx fuel want depth k d = some (b, d') → Bound ctx want d b d' := by
  intro depth
  induction depth with
  | zero => intro k d b d' h; simp [search] at h
  | succ n ih =>
    intro k d b d' h
    rw [search_succ] at h
    have hpolled : ¬ ctx.done d.tick = true → ∀ e : DLX, e.found = d.found →
        e.tick = d.tick + 1 → d.nodes ≤ e.nodes → Bound ctx want d false e := by
      intro hnd e h1 h2 h3
      refine ⟨by omega, fun _ => by omega, fun _ _ => by omega, fun _ hb => by simp at hb,
        fun m hm ht => ?_, by omega, h3⟩
      subst hm
      simp only [Ctx.done, decide_eq_true_eq] at hnd
      exact ⟨by omega, fun _ => by omega⟩
    by_cases hdone : ctx.done d.tick = true
    · rw [if_pos hdone] at h
      simp only [Option.some.injEq, Prod.mk.injEq] at h
      obtain ⟨rfl, rfl⟩ := h
      refine ⟨le_refl _, fun hl => le_of_lt hl, fun _ hb => by simp at hb, fun _ _ => ?_,
        fun m hm ht => ?_, Nat.le_succ _, le_refl _⟩
      · refine Or.inr ⟨Nat.lt_succ_self _, ?_⟩
        show ctx.done (d.tick + 1 - 1) = true
        rw [Nat.add_sub_cancel]
        exact hdone
      · subst hm
        simp only [Ctx.done, decide_eq_true_eq] at hdone
        refine ⟨?_, fun hb => by simp at hb⟩
        show d.tick + 1 ≤ m + 1
        omega
    · rw [if_neg hdone] at h
      by_cases hact : (polled d).activeCnt = 0
      · rw [if_pos hact] at h
        simp only [Option.some.injEq, Prod.mk.injEq] at h
        obtain ⟨rfl, rfl⟩ := h
        have e1 : (leafState (polled d) k).found = d.found + 1 := rfl
        have e2 : (leafState (polled d) k).tick = d.tick + 1 := rfl
        refine ⟨by omega, fun hl => by omega, fun hl hb => ?_, fun hl hb => ?_,
          fun m hm ht => ?_, by omega, le_refl _⟩
        · simp only [decide_eq_false_iff_not, e1] at hb
          omega
        · simp only [decide_eq_true_eq, e1] at hb
          exact Or.inl (by omega)
        · subst hm
          simp only [Ctx.done, decide_eq_true_eq] at hdone
          exact ⟨by omega, fun _ => by omega⟩
      · rw [if_neg hact] at h
        cases hch : chooseColumn (polled d) with
        | none =>
          rw [hch] at h
          simp only [Option.some.injEq, Prod.mk.injEq] at h
          obtain ⟨rfl, rfl⟩ := h
          exact hpolled hdone _ rfl rfl (le_refl _)
        | some c =>
          rw [hch] at h
          simp only at h
          by_cases hsz : (polled d).size.get c = 0
          · rw [if_pos hsz] at h
            simp only [Option.some.injEq, Prod.mk.injEq] at h
            obtain ⟨rfl, rfl⟩ := h
            exact hpolled hdone _ rfl rfl (le_refl _)
          · rw [if_neg hsz] at h
            cases hcv : cover fuel c (polled d) with
            | none => rw [hcv] at h; simp at h
            | some d2 =>
              rw [hcv] at h
              simp only at h
              obtain ⟨a1, a2, a3, _, _⟩ := aux_fields (cover_aux hcv)
              have hrows := searchRows_bound (search ctx fuel want n (k + 1)) (ih (k + 1))
                _ _ _ _ _ h
              have hfirst : Bound ctx want d false d2 :=
                hpolled hdone d2 a1 a2 (le_of_eq a3.symm)
              exact hfirst.after_false hrows

end Sudoku

namespace Sudoku

/-! ## The search -/

theorem lstOf_append_self {S : List Nat} {c : Nat} (hcS : c ∉ S) :
    lstOf (S ++ [c]) c = lstOf S c := by
  simp only [lstOf, takeWhile_append_self hcS, takeWhile_ne_of_not_mem hcS]

/-- The columns of a candidate row, listed from any of them on. -/
theorem ring_cols (row : Nat) {k0 : Nat} (hk0 : k0 < 4) (c : Nat) :
    (∃ k, k < 4 ∧ rcol row k = c) ↔
      c = rcol row k0 ∨ c = rcol row ((k0 + 1) % 4) ∨ c = rcol row ((k0 + 2) % 4) ∨
        c = rcol row ((k0 + 3) % 4) := by
  constructor
  · rintro ⟨k, hk, rfl⟩
    have h4 : k = k0 ∨ k = (k0 + 1) % 4 ∨ k = (k0 + 2) % 4 ∨ k = (k0 + 3) % 4 := by omega
    rcases h4 with e | e | e | e
    · exact Or.inl (by rw [e])
    · exact Or.inr (Or.inl (by rw [← e]))
    · exact Or.inr (Or.inr (Or.inl (by rw [← e])))
    · exact Or.inr (Or.inr (Or.inr (by rw [← e])))
  · rintro (e | e | e | e)
    · exact ⟨k0, hk0, e.symm⟩
    · exact ⟨_, Nat.mod_lt _ (by omega), e.symm⟩
    · exact ⟨_, Nat.mod_lt _ (by omega), e.symm⟩
    · exact ⟨_, Nat.mod_lt _ (by omega), e.symm⟩

/-- The entries of `sol` below `k`, and below `solLen`, are set. -/
def SolOK (d : DLX) (k : Nat) : Prop :=
  (∀ i, i < k → (d.sol.get i).isSome = true) ∧
  (∀ i, i < d.solLen → (d.sol.get i).isSome = true)

/-- What a run of `search`, or of its loop over the rows of the chosen column,
establishes: the result has the matrix of `m`; the entries of `sol` in use are set; without
cancellation the counter `found` has advanced by the number `N`, capped at `want`, the flag
telling whether the cap was reached; when the counter has advanced, `solLen` is the depth
`k` plus the number of empty cells of the grid `g`; the entries of `sol` below `k` are
untouched; and when the counter has advanced by one to the cap, the entries of `sol` from
`k` on are the missing entries of a completion of `g`. -/
structure SearchPost (ctx : Ctx) (want N k : Nat) (g : Grid) (m d : DLX) (b : Bool) (d' : DLX) :
    Prop where
  matrix : m.withAux d' = d'
  sol : SolOK d' k
  count : ctx = none → d.found < want →
    (want ≤ d.found + N → d'.found = want ∧ b = true) ∧
    (d.found + N < want → d'.found = d.found + N ∧ b = false)
  len : d.found < want →
    (d'.found = d.found ∧ d'.solLen = d.solLen) ∨
    (d.found < d'.found ∧ d'.solLen = k + empties g)
  frame : ∀ i, i < k → d'.sol.get i = d.sol.get i
  trail : d'.found = d.found + 1 → d'.found = want →
    ∃ h, IsCompletion g h ∧ ∀ out : Grid, reconstruct d' (empties g) k out =
      some (fun r c => if g r c = 0 then h r c else out r c)

theorem reconstruct_congr {d d' : DLX} (hs : d'.sol = d.sol) (hr : d'.rowIdx = d.rowIdx) :
    ∀ (n i : Nat) (out : Grid), reconstruct d' n i out = reconstruct d n i out := by
  intro n
  induction n with
  | zero => intro i out; rfl
  | succ n ih =>
    intro i out
    simp only [reconstruct, hs, hr]
    cases d.sol.get i with
    | none => rfl
    | some node => exact ih _ _

theorem decodeRow_eq {row : Nat} (h : row < 729) :
    decodeRow row = ((rr row).val, (rc row).val, rv row) := by
  rw [rr_val h, rc_val]
  simp only [decodeRow, nSize_eq, rv, Prod.mk.injEq, and_true]
  omega

theorem empties_set_add_one (g : Grid) (r c : Fin 9) (v : Nat) (h0 : g r c = 0) (hv : v ≠ 0) :
    empties (g.set r.val c.val v) + 1 = empties g := by
  unfold empties
  have hmem : (r, c) ∈ Finset.univ.filter (fun p : Fin 9 × Fin 9 => g p.1 p.2 = 0) := by
    simp [h0]
  have e : Finset.univ.filter (fun p : Fin 9 × Fin 9 => g.set r.val c.val v p.1 p.2 = 0) =
      (Finset.univ.filter (fun p : Fin 9 × Fin 9 => g p.1 p.2 = 0)).erase (r, c) := by
    ext p
    obtain ⟨i, j⟩ := p
    simp only [Finset.mem_filter, Finset.mem_univ, true_and, Finset.mem_erase, ne_eq,
      Prod.mk.injEq, Grid.set_apply]
    by_cases hij : i = r ∧ j = c
    · simp only [hij, and_self, if_true, not_true_eq_false, false_and, iff_false]
      exact hv
    · simp only [hij, if_false, not_false_eq_true, true_and]
  rw [e, Finset.card_erase_of_mem hmem]
  have := Finset.card_pos.mpr ⟨_, hmem⟩
  omega

theorem empties_withRow {g : Grid} {row : Nat} (h0 : g (rr row) (rc row) = 0) :
    empties (withRow g row) + 1 = empties g :=
  empties_set_add_one g (rr row) (rc row) (rv row) h0 (rv_ne_zero row)

theorem empties_of_full {g : Grid} (hf : Full g) : empties g = 0 := by
  unfold empties
  rw [Finset.card_eq_zero, Finset.filter_eq_empty_iff]
  intro p _
  exact hf p.1 p.2

/-- The overlay of a completion on the empty cells, after the entry of one row was
written. -/
theorem overlay_withRow {g h out : Grid} {row : Nat} (h0 : g (rr row) (rc row) = 0)
    (hp : placed h row) :
    (fun r c => if withRow g row r c = 0 then h r c else withRow out row r c) =
      (fun r c => if g r c = 0 then h r c else out r c) := by
  funext r c
  unfold withRow
  rw [Grid.set_apply, Grid.set_apply]
  by_cases hrc : r = rr row ∧ c = rc row
  · obtain ⟨rfl, rfl⟩ := hrc
    simp only [and_self, if_true]
    rw [if_neg (rv_ne_zero row), if_pos h0]
    exact hp.symm
  · simp only [hrc, if_false]

theorem withAux_congr {m d : DLX} (h : m.withAux d = d) (x : DLX) :
    d.withAux x = m.withAux x := by
  rw [← h]; rfl

theorem SolOK.set {d : DLX} {k : Nat} (h : SolOK d k) (r : Nat) (n : Nat) :
    SolOK { d with nodes := n, sol := d.sol.set k (some r) } (k + 1) := by
  constructor
  · intro i hi
    simp only [Mem.get_set]
    split
    · rfl
    · exact h.1 i (by omega)
  · intro i hi
    simp only [Mem.get_set]
    split
    · rfl
    · exact h.2 i hi

theorem withAux_pushRow {m d : DLX} (h : m.withAux d = d) (k r : Nat) :
    m.withAux (pushRow d k r) = pushRow d k r := by
  conv_rhs => rw [← h]
  rfl

/-- The statement about the recursive calls of `search`. -/
def SearchIH (ctx : Ctx) (fuel want depth : Nat) : Prop :=
  ∀ (k : Nat) (d : DLX) (S : List Nat) (g : Grid), Rep d S → Covers S g → ValidGivens g →
    empties g < depth → SolOK d k →
    ∃ b d', search ctx fuel want depth k d = some (b, d') ∧
      SearchPost ctx want (completions g).ncard k g d d b d'

/-- The loop of `search` over the rows of the chosen column `c`, from any row on. -/
theorem searchRows_spec {ctx : Ctx} {fuel want depth k c : Nat} {S : List Nat} {g : Grid}
    {d1 d2 : DLX} {L : List Nat} (hf : 730 ≤ fuel) (ih : SearchIH ctx fuel want depth)
    (hrep : Rep d2 (S ++ [c])) (hcov : Covers S g) (hvg : ValidGivens g) (hc : c < 324)
    (hdepth : empties g < depth + 1)
    (hun : ∀ x, uncover fuel c (d2.withAux x) = some (d1.withAux x))
    (hcol : ColOK d2 c L)
    (hL : ∀ row ∈ L, (row < 729 ∧ rcol row (c / 81) = c) ∧ freeRow S row)
    (hidx : d1.rowIdx = d2.rowIdx) :
    ∀ (rest pre : List Nat), L = pre ++ rest →
      ∀ (n : Nat) (d : DLX), rest.length < n → d2.withAux d = d → SolOK d k →
      ∃ b d', searchRows fuel (search ctx fuel want depth (k + 1)) c k n
          (d2.down.get ((c :: pre.map (nodeOf c)).getLast (List.cons_ne_nil _ _))) d
            = some (b, d') ∧
        SearchPost ctx want ((rest.map (fun row => (completions (withRow g row)).ncard)).sum)
          k g d1 d b d' := by
  intro rest
  induction rest with
  | nil =>
    intro pre hl n d hn hd hsol
    obtain ⟨n', rfl⟩ : ∃ n', n = n' + 1 := ⟨n - 1, by simp at hn; omega⟩
    have hdown : d2.down.get ((c :: pre.map (nodeOf c)).getLast (List.cons_ne_nil _ _)) = c := by
      have hd := hcol.down
      rw [hl, List.map_append] at hd
      have := PtrChain.next_of_append hd
      simpa using this
    have hu := hun d
    rw [hd] at hu
    rw [hdown, searchRows_end, hu]
    refine ⟨false, _, rfl, rfl, hsol, fun _ hlt => ⟨fun h => ?_, fun _ => ⟨?_, rfl⟩⟩,
      fun _ => Or.inl ⟨rfl, rfl⟩, fun _ _ => rfl, fun h => ?_⟩
    · simp only [List.map_nil, List.sum_nil, Nat.add_zero] at h
      omega
    · simp only [List.map_nil, List.sum_nil, Nat.add_zero]
      rfl
    · have e : (d1.withAux d).found = d.found := rfl
      omega
  | cons row rest ihr =>
    intro pre hl n d hn hd hsol
    obtain ⟨n', rfl⟩ : ∃ n', n = n' + 1 := ⟨n - 1, by simp at hn; omega⟩
    have hmem : row ∈ L := by rw [hl]; simp
    obtain ⟨⟨hr, hrc⟩, hfree⟩ := hL row hmem
    have hk0 : c / 81 < 4 := by omega
    have hdown : d2.down.get ((c :: pre.map (nodeOf c)).getLast (List.cons_ne_nil _ _))
        = nodeOf c row := by
      have hd := hcol.down
      rw [hl, List.map_append] at hd
      have := PtrChain.next_of_append hd
      simpa using this
    have hne : nodeOf c row ≠ c := nodeOf_ne_header c row c hc
    have haddr : nodeAddr row (c / 81) = nodeOf c row := rfl
    have hda := withAux_pushRow hd k (nodeOf c row)
    have hrepa : Rep (pushRow d k (nodeOf c row)) (S ++ [c]) := hda ▸ hrep.ofAux _
    have hfree' : ∀ m, 1 ≤ m → m < 4 → rcol row ((c / 81 + m) % 4) ∉ S ++ [c] := by
      intro m h1 h4
      simp only [List.mem_append, List.mem_singleton, not_or]
      refine ⟨hfree _ (Nat.mod_lt _ (by omega)), fun e => ?_⟩
      rw [← hrc] at e
      exact rcol_ne_of_ne hr (Nat.mod_lt _ (by omega)) hk0 (by omega) e
    obtain ⟨d3, hd3, hrep3, hfr3, hun3⟩ := coverOthers_rep hrepa hr hk0 hf hfree'
    rw [haddr] at hd3 hun3
    obtain ⟨hcell, hval⟩ := (freeRow_iff hvg hcov hr).mp hfree
    have hvg' : ValidGivens (withRow g row) :=
      validGivens_set hvg (rr row) (rc row) (rv row) (rv_range row).2 hval
    have hcov' : Covers (S ++ [c] ++ [rcol row ((c / 81 + 1) % 4), rcol row ((c / 81 + 2) % 4),
        rcol row ((c / 81 + 3) % 4)]) (withRow g row) := by
      apply covers_set hcov hr hcell
      intro c'
      rw [ring_cols row hk0 c', hrc]
      simp only [List.mem_append, List.mem_singleton, List.mem_cons, List.mem_nil_iff, or_false,
        or_assoc]
    have hemp : empties (withRow g row) < depth := by
      have := empties_set_lt g (rr row) (rc row) (rv row) hcell (rv_ne_zero row)
      unfold withRow
      omega
    have hsola : SolOK (pushRow d k (nodeOf c row)) (k + 1) := hsol.set _ _
    have hsol3 : SolOK d3 (k + 1) := by
      unfold SolOK
      rw [hfr3.sol, hfr3.solLen]
      exact hsola
    obtain ⟨b4, d4, hrun4, hpost4⟩ := ih (k + 1) d3 _ _ hrep3 hcov' hvg' hemp hsol3
    have hleft : d4.left = d3.left := by rw [← hpost4.matrix]; rfl
    have hun4 : uncoverOthers fuel (nodeOf c row) fuel (d4.left.get (nodeOf c row)) d4
        = some (d2.withAux d4) := by
      have h1 := hun3 d4
      rw [hpost4.matrix, ← hleft, withAux_congr hda] at h1
      exact h1
    have hfound3 : d3.found = d.found := by rw [hfr3.found]; rfl
    have hsum : ((row :: rest).map (fun row => (completions (withRow g row)).ncard)).sum =
        (completions (withRow g row)).ncard +
          (rest.map (fun row => (completions (withRow g row)).ncard)).sum := by
      simp only [List.map_cons, List.sum_cons]
    have hb4 := search_bound ctx fuel want depth (k + 1) d3 b4 d4 hrun4
    have hsolLen3 : d3.solLen = d.solLen := by rw [hfr3.solLen]; rfl
    have hframe4 : ∀ i, i < k → d4.sol.get i = d.sol.get i := by
      intro i hi
      rw [hpost4.frame i (by omega), hfr3.sol]
      show (d.sol.set k (some (nodeOf c row))).get i = d.sol.get i
      rw [Mem.get_set, if_neg (by omega)]
    have hsolk : d4.sol.get k = some (nodeOf c row) := by
      rw [hpost4.frame k (by omega), hfr3.sol]
      show (d.sol.set k (some (nodeOf c row))).get k = _
      rw [Mem.get_set, if_pos rfl]
    have hempt := empties_withRow hcell
    have hidx43 : d4.rowIdx = d3.rowIdx := by rw [← hpost4.matrix]; rfl
    have hidx4 : d4.rowIdx = d2.rowIdx := by
      have e2 : d3.rowIdx = (pushRow d k (nodeOf c row)).rowIdx := hfr3.rowIdx
      have e3 : d.rowIdx = d2.rowIdx := by rw [← hd]; rfl
      rw [hidx43, e2]; exact e3
    have hri : d4.rowIdx.get (nodeOf c row) = row := by
      rw [hidx43]
      exact hrep3.static.rowIdx row (c / 81) hr hk0
    have e5 : (d2.withAux d4).found = d4.found := rfl
    have e6 : (d2.withAux d4).solLen = d4.solLen := rfl
    rw [hdown, searchRows_step _ _ _ _ _ _ _ hne, hd3]
    simp only
    rw [hrun4]
    cases b4 with
    | true =>
      simp only
      rw [hun4]
      simp only
      rw [hun d4]
      refine ⟨true, _, rfl, rfl, ⟨fun i hi => hpost4.sol.1 i (by omega), hpost4.sol.2⟩,
        fun hctx hlt => ?_, fun hlt => ?_, hframe4, fun h1 h2 => ?_⟩
      · have hc4 := hpost4.count hctx (by rw [hfound3]; exact hlt)
        rw [hfound3] at hc4
        rw [hsum]
        by_cases hw : want ≤ d.found + (completions (withRow g row)).ncard
        · have h5 := (hc4.1 hw).1
          exact ⟨fun _ => ⟨h5, rfl⟩, fun h => by omega⟩
        · have h5 := (hc4.2 (by omega)).2
          simp at h5
      · rcases hpost4.len (by rw [hfound3]; exact hlt) with ⟨a1, b1⟩ | ⟨a1, b1⟩
        · refine Or.inl ⟨?_, ?_⟩
          · show d4.found = d.found
            omega
          · show d4.solLen = d.solLen
            omega
        · refine Or.inr ⟨?_, ?_⟩
          · show d.found < d4.found
            omega
          · show d4.solLen = k + empties g
            omega
      · have h1' : d4.found = d3.found + 1 := by rw [hfound3]; exact h1
        obtain ⟨h, hcomp, hrec⟩ := hpost4.trail h1' h2
        obtain ⟨hcg, hpl⟩ := (mem_completions_withRow hcell h).mp hcomp
        refine ⟨h, hcg, fun out => ?_⟩
        have hcongr : ∀ (n i : Nat) (o : Grid),
            reconstruct (d1.withAux d4) n i o = reconstruct d4 n i o :=
          reconstruct_congr rfl (hidx.trans hidx4.symm)
        rw [hcongr, ← hempt]
        simp only [reconstruct, hsolk, hri, decodeRow_eq hr]
        have := hrec (withRow out row)
        rw [overlay_withRow hcell hpl] at this
        exact this
    | false =>
      simp only
      rw [hun4]
      simp only
      have hsol5 : SolOK (d2.withAux d4) k :=
        ⟨fun i hi => hpost4.sol.1 i (by omega), hpost4.sol.2⟩
      obtain ⟨b, d', hrun, hpost⟩ := ihr (pre ++ [row]) (by simp [hl]) n' (d2.withAux d4)
        (by simp at hn; omega) rfl hsol5
      rw [getLast_map_append_singleton] at hrun
      have hmono4 := hb4.mono
      refine ⟨b, d', hrun, hpost.matrix, hpost.sol, fun hctx hlt => ?_, fun hlt => ?_,
        fun i hi => ?_, fun h1 h2 => ?_⟩
      · have hc4 := hpost4.count hctx (by rw [hfound3]; exact hlt)
        rw [hfound3] at hc4
        rw [hsum]
        by_cases hw : want ≤ d.found + (completions (withRow g row)).ncard
        · have h5 := (hc4.1 hw).2
          simp at h5
        · have h5 : d4.found = d.found + (completions (withRow g row)).ncard :=
            (hc4.2 (by omega)).1
          have hc5 := hpost.count hctx (by
            show d4.found < want
            omega)
          rw [e5, h5] at hc5
          exact ⟨fun h => hc5.1 (by omega), fun h => by
            have := hc5.2 (by omega)
            exact ⟨by omega, this.2⟩⟩
      · have hlt4 : d4.found < want := hb4.lt (by rw [hfound3]; exact hlt) rfl
        have hl5 := hpost.len (by rw [e5]; exact hlt4)
        rw [e5, e6] at hl5
        rcases hpost4.len (by rw [hfound3]; exact hlt) with ⟨a1, b1⟩ | ⟨a1, b1⟩
        · rcases hl5 with ⟨a2, b2⟩ | ⟨a2, b2⟩
          · exact Or.inl ⟨by omega, by omega⟩
          · exact Or.inr ⟨by omega, b2⟩
        · rcases hl5 with ⟨a2, b2⟩ | ⟨a2, b2⟩
          · exact Or.inr ⟨by omega, by omega⟩
          · exact Or.inr ⟨by omega, b2⟩
      · rw [hpost.frame i hi]
        exact hframe4 i hi
      · have hlt4 : d4.found < want := hb4.lt (by rw [hfound3]; omega) rfl
        exact hpost.trail (by rw [e5]; omega) h2

end Sudoku

namespace Sudoku

/-- The completions of the grid behind a matrix, split along the rows of a column that
is not covered. -/
theorem ncard_of_rep {d : DLX} {S : List Nat} {g : Grid} (hrep : Rep d S) (hcov : Covers S g)
    (hvg : ValidGivens g) {c : Nat} (hc : c < 324) (hcS : c ∉ S) :
    (completions g).ncard =
      ((lstOf S c).map (fun row => (completions (withRow g row)).ncard)).sum := by
  apply ncard_completions_rows hc
  · intro hex
    exact hcS ((hcov c hc).mpr hex)
  · exact (hrep.vert c hc).nodup
  · intro row
    rw [mem_lstOf_of_not_mem hcS]
    constructor
    · rintro ⟨h1, h2⟩
      exact ⟨h1, (freeRow_iff hvg hcov h1.1).mp h2⟩
    · rintro ⟨h1, h2⟩
      exact ⟨h1, (freeRow_iff hvg hcov h1.1).mpr h2⟩

/-- The search over a matrix that stands for a grid with valid givens: it returns, it
restores the matrix, and without cancellation it counts the completions of the grid up to
`want`. -/
theorem search_spec (ctx : Ctx) {fuel : Nat} (want : Nat) (hf : 730 ≤ fuel) :
    ∀ depth, SearchIH ctx fuel want depth := by
  intro depth
  induction depth with
  | zero => intro k d S g _ _ _ h _; omega
  | succ n ih =>
    intro k d S g hrep hcov hvg hemp hsol
    rw [search_succ]
    by_cases hdone : ctx.done d.tick = true
    · rw [if_pos hdone]
      refine ⟨true, _, rfl, rfl, hsol, fun hctx _ => ?_, fun _ => Or.inl ⟨rfl, rfl⟩,
        fun _ _ => rfl, fun h => ?_⟩
      · subst hctx
        simp [Ctx.done] at hdone
      · have e : (polled d).found = d.found := rfl
        omega
    · rw [if_neg hdone]
      have hrep1 : Rep (polled d) S := hrep.ofAux (polled d)
      by_cases hact : (polled d).activeCnt = 0
      · rw [if_pos hact]
        have hall := (activeCnt_zero_iff hrep1).mp hact
        have hfull := full_of_all_covered hcov hall
        have he0 := empties_of_full hfull
        have e : (leafState (polled d) k).found = d.found + 1 := rfl
        refine ⟨_, _, rfl, rfl, ⟨hsol.1, hsol.1⟩, fun _ hlt => ?_, fun _ => Or.inr ⟨?_, ?_⟩,
          fun _ _ => rfl, fun _ _ => ⟨g, ⟨solved_of_valid_full hvg hfull, fun _ _ _ => rfl⟩,
            fun out => ?_⟩⟩
        · rw [completions_of_full hvg hfull, Set.ncard_singleton]
          rw [e]
          constructor
          · intro hw
            exact ⟨by omega, by simpa using hw⟩
          · intro hw
            exact ⟨rfl, by simp; omega⟩
        · rw [e]; omega
        · rw [he0]; rfl
        · rw [he0]
          simp only [reconstruct, Option.some.injEq]
          funext r c
          rw [if_neg (hfull r c)]
      · rw [if_neg hact]
        obtain ⟨c, hch, hc, hcS⟩ := chooseColumn_rep hrep1 hact
        rw [hch]
        simp only
        have hN := ncard_of_rep hrep hcov hvg hc hcS
        by_cases hsz : (polled d).size.get c = 0
        · rw [if_pos hsz]
          refine ⟨false, _, rfl, rfl, hsol, fun _ hlt => ?_, fun _ => Or.inl ⟨rfl, rfl⟩,
            fun _ _ => rfl, fun h => ?_⟩
          · have hlen := (hrep1.vert c hc).size
            rw [hsz] at hlen
            have hnil : lstOf S c = [] := by
              apply List.eq_nil_of_length_eq_zero
              exact_mod_cast hlen.symm
            rw [hN, hnil]
            simp only [List.map_nil, List.sum_nil, Nat.add_zero]
            exact ⟨fun h => by omega, fun _ => ⟨rfl, trivial⟩⟩
          · have e : (polled d).found = d.found := rfl
            omega
        · rw [if_neg hsz]
          obtain ⟨d2, hd2, hrep2, hfr2, hun2⟩ := cover_rep_aux hrep1 hc hcS hf
          rw [hd2]
          simp only
          have hcol : ColOK d2 c (lstOf S c) := by
            have := hrep2.vert c hc
            rw [lstOf_append_self hcS] at this
            exact this
          have hsol2 : SolOK d2 k := by
            unfold SolOK
            rw [hfr2.sol, hfr2.solLen]
            exact hsol
          obtain ⟨b, d', hrun, hpost⟩ := searchRows_spec hf ih hrep2 hcov hvg hc hemp hun2 hcol
            (fun row hrow => (mem_lstOf_of_not_mem hcS).mp hrow) hfr2.rowIdx.symm (lstOf S c) []
            rfl fuel d2 (by have := lstOf_length_le S c; omega) rfl hsol2
          have hfound : d2.found = d.found := by rw [hfr2.found]; rfl
          have hsolLen : d2.solLen = d.solLen := by rw [hfr2.solLen]; rfl
          have hsolEq : d2.sol = d.sol := by rw [hfr2.sol]; rfl
          refine ⟨b, d', hrun, hpost.matrix, hpost.sol, fun hctx hlt => ?_, fun hlt => ?_,
            fun i hi => ?_, fun h1 h2 => ?_⟩
          · have := hpost.count hctx (by rw [hfound]; exact hlt)
            rw [hfound, ← hN] at this
            exact this
          · have := hpost.len (by rw [hfound]; exact hlt)
            rw [hfound, hsolLen] at this
            exact this
          · rw [hpost.frame i hi, hsolEq]
          · exact hpost.trail (by rw [hfound]; exact h1) h2

end Sudoku

namespace Sudoku

/-! ## Applying the givens, and the results of `DLXSolver` -/

/-- The grid `b` cut down to its first `n` cells in row-major order. -/
def restrict (b : Grid) (n : Nat) : Grid :=
  fun i j => if 9 * i.val + j.val < n then b i j else 0

theorem restrict_all (b : Grid) : restrict b 81 = b := by
  funext i j
  have := i.isLt
  have := j.isLt
  simp only [restrict]
  rw [if_pos (by omega)]

theorem restrict_valid {b : Grid} (hb : ValidGivens b) (n : Nat) : ValidGivens (restrict b n) := by
  refine ⟨fun r c => ?_, fun r c r' c' hp hne => ?_⟩
  · simp only [restrict]
    split
    · exact hb.1 r c
    · omega
  · simp only [restrict] at hne ⊢
    split at hne
    · rw [if_pos (by assumption)]
      split
      · exact hb.2 r c r' c' hp hne
      · exact hne
    · exact absurd rfl hne

theorem restrict_succ_zero {b : Grid} {n : Nat} (r c : Fin 9) (hr : r.val = n / 9)
    (hc : c.val = n % 9) (h0 : b r c = 0) : restrict b (n + 1) = restrict b n := by
  funext i j
  simp only [restrict]
  by_cases h : 9 * i.val + j.val = n
  · have e1 : i = r := Fin.ext (by omega)
    have e2 : j = c := Fin.ext (by omega)
    rw [if_pos (by omega), if_neg (by omega), e1, e2, h0]
  · by_cases h2 : 9 * i.val + j.val < n
    · rw [if_pos (by omega), if_pos h2]
    · rw [if_neg (by omega), if_neg h2]

theorem restrict_succ_set {b : Grid} {n : Nat} (r c : Fin 9)
    (hr : r.val = n / 9) (hc : c.val = n % 9) :
    restrict b (n + 1) = (restrict b n).set r.val c.val (b r c) := by
  funext i j
  rw [Grid.set_apply]
  simp only [restrict]
  by_cases h : i = r ∧ j = c
  · obtain ⟨rfl, rfl⟩ := h
    rw [if_pos (by omega), if_pos ⟨rfl, rfl⟩]
  · rw [if_neg h]
    have hne : 9 * i.val + j.val ≠ n := by
      intro e
      apply h
      exact ⟨Fin.ext (by omega), Fin.ext (by omega)⟩
    by_cases h2 : 9 * i.val + j.val < n
    · rw [if_pos (by omega), if_pos h2]
    · rw [if_neg (by omega), if_neg h2]

theorem covers_zero : Covers [] Grid.zero := by
  intro c _
  simp only [List.not_mem_nil, false_iff, not_exists, not_and]
  intro row _ hp
  unfold placed at hp
  simp [Grid.zero, rv] at hp

set_option maxRecDepth 100000 in
theorem cells_eq : cells = (List.range 81).map (fun p => (p / 9, p % 9)) := by decide

theorem cells_drop {n : Nat} (hn : n < 81) :
    cells.drop n = (n / 9, n % 9) :: cells.drop (n + 1) := by
  have hlen : n < cells.length := by rw [cells_length]; exact hn
  rw [List.drop_eq_getElem_cons hlen]
  congr 1
  simp only [cells_eq, List.getElem_map, List.getElem_range]

theorem rowIndex_eq_mkRow (r c : Fin 9) (v : Nat) : rowIndex r.val c.val v = mkRow r c v := by
  simp only [rowIndex, mkRow, nSize_eq]
  omega

/-- Applying a given of a board with valid givens covers the four columns of its row. -/
theorem applyGiven_rep {d : DLX} {S : List Nat} {g : Grid} {fuel : Nat} (hrep : Rep d S)
    (hcov : Covers S g) (hvg : ValidGivens g) (hf : 730 ≤ fuel) (r c : Fin 9) {v : Nat}
    (h1 : 1 ≤ v) (h9 : v ≤ 9) (hcell : g r c = 0) (hval : isValid g r.val c.val v = true) :
    ∃ d' S', applyGiven fuel d r.val c.val v = some (.ok d') ∧ Rep d' S' ∧
      Covers S' (g.set r.val c.val v) ∧ SameFrame d d' ∧ S'.length = S.length + 4 := by
  obtain ⟨m1, m2, m3, m4⟩ := mkRow_spec r c h1 h9
  have hfree : freeRow S (mkRow r c v) := by
    rw [freeRow_iff hvg hcov m1, m2, m3, m4]
    exact ⟨hcell, hval⟩
  obtain ⟨d', hrun, hrep', hfr⟩ := applyLoop_rep hrep m1 hf hfree
  refine ⟨d', _, ?_, hrep', ?_, hfr, by simp⟩
  · unfold applyGiven
    rw [rowIndex_eq_mkRow, hrep.static.rowHead _ m1]
    simp only
    rw [hrun]
  · have hS : ∀ c', c' ∈ S ++ [rcol (mkRow r c v) 0, rcol (mkRow r c v) 1,
        rcol (mkRow r c v) 2, rcol (mkRow r c v) 3] ↔
        c' ∈ S ∨ ∃ k, k < 4 ∧ rcol (mkRow r c v) k = c' := by
      intro c'
      rw [ring_cols (mkRow r c v) (by omega : 0 < 4) c']
      simp only [List.mem_append, List.mem_cons, List.mem_nil_iff, or_false, Nat.zero_add,
        Nat.reduceMod]
    have := covers_set hcov m1 (by rw [m2, m3]; exact hcell) hS
    rw [m2, m3, m4] at this
    exact this

/-- The loops of `Solve` and `Unique` that apply the givens, on a board with valid givens,
from the cell number `n` on. -/
theorem applyGivens_rep {b : Grid} {fuel : Nat} (hb : ValidGivens b) (hf : 730 ≤ fuel) :
    ∀ (m n : Nat) (d : DLX) (S : List Nat), n + m = 81 → Rep d S → Covers S (restrict b n) →
      S.length + 4 * empties (restrict b n) = 324 →
      ∃ d' S', applyGivens fuel b (cells.drop n) d = some (.ok d') ∧ Rep d' S' ∧
        Covers S' b ∧ SameFrame d d' ∧ S'.length + 4 * empties b = 324 := by
  intro m
  induction m with
  | zero =>
    intro n d S hn hrep hcov hlen
    have e : n = 81 := by omega
    subst e
    have hdrop : cells.drop 81 = [] := by
      apply List.drop_eq_nil_of_le
      rw [cells_length]
    rw [hdrop, restrict_all] at *
    exact ⟨d, S, rfl, hrep, hcov, SameFrame.refl d, hlen⟩
  | succ m ih =>
    intro n d S hn hrep hcov hlen
    have hn81 : n < 81 := by omega
    obtain ⟨r, hr⟩ : ∃ r : Fin 9, r.val = n / 9 := ⟨⟨n / 9, by omega⟩, rfl⟩
    obtain ⟨c, hc⟩ : ∃ c : Fin 9, c.val = n % 9 := ⟨⟨n % 9, Nat.mod_lt _ (by omega)⟩, rfl⟩
    rw [cells_drop hn81]
    simp only [applyGivens]
    rw [← hr, ← hc, Grid.get_fin]
    by_cases hv : b r c > 0
    · rw [if_pos hv]
      have h9 := hb.1 r c
      rw [if_neg (by omega)]
      have hcell : restrict b n r c = 0 := by
        simp only [restrict]
        rw [if_neg (by omega)]
      have hval : isValid (restrict b n) r.val c.val (b r c) = true := by
        rw [isValid_iff]
        intro r' c' hrel heq
        simp only [restrict] at heq
        split at heq
        · rename_i hlt
          have hpeers : Peers r' c' r c := by
            refine ⟨?_, hrel⟩
            by_contra hcon
            push_neg at hcon
            rw [hcon.1, hcon.2] at hlt
            omega
          exact hb.2 r' c' r c hpeers (by omega) heq
        · omega
      obtain ⟨d1, S1, hrun, hrep1, hcov1, hfr1, hlen1⟩ := applyGiven_rep hrep hcov
        (restrict_valid hb n) hf r c (by omega) h9 hcell hval
      rw [hrun]
      simp only
      have hemp := empties_set_add_one (restrict b n) r c (b r c) hcell (by omega)
      rw [← restrict_succ_set r c hr hc] at hcov1 hemp
      obtain ⟨d', S', hrun', hrep', hcov', hfr', hlen'⟩ := ih (n + 1) d1 S1 (by omega) hrep1
        hcov1 (by omega)
      exact ⟨d', S', hrun', hrep', hcov', hfr1.trans hfr', hlen'⟩
    · rw [if_neg hv]
      have h0 : b r c = 0 := by omega
      have hres : restrict b (n + 1) = restrict b n := restrict_succ_zero r c hr hc h0
      exact ih (n + 1) d S (by omega) hrep (by rw [hres]; exact hcov) (by rw [hres]; exact hlen)

theorem reconstruct_some (d : DLX) : ∀ (n i : Nat) (out : Grid),
    (∀ j, i ≤ j → j < i + n → (d.sol.get j).isSome = true) →
    ∃ res, reconstruct d n i out = some res := by
  intro n
  induction n with
  | zero => intro i out _; exact ⟨out, rfl⟩
  | succ n ih =>
    intro i out h
    simp only [reconstruct]
    have := h i (le_refl _) (by omega)
    cases hs : d.sol.get i with
    | none => rw [hs] at this; simp at this
    | some node =>
      simp only
      exact ih _ _ (fun j h1 h2 => h j (by omega) (by omega))

theorem Rep.setTick {d : DLX} {S : List Nat} (h : Rep d S) (t : Nat) :
    Rep { d with tick := t } S := h.ofAux { d with tick := t }

theorem solLen_setTick (d : DLX) (t : Nat) : ({ d with tick := t } : DLX).solLen = d.solLen :=
  rfl

theorem nodes_setTick (d : DLX) (t : Nat) : ({ d with tick := t } : DLX).nodes = d.nodes :=
  rfl

theorem Rep.setFound {d : DLX} {S : List Nat} (h : Rep d S) (n : Nat) :
    Rep { d with found := n } S := h.ofAux { d with found := n }

theorem empties_zero : empties Grid.zero = 81 := by
  unfold empties
  have e : Finset.univ.filter (fun p : Fin 9 × Fin 9 => Grid.zero p.1 p.2 = 0) = Finset.univ := by
    ext p
    simp [Grid.zero]
  rw [e]
  simp

/-- The run of `applyGivens` and `search` inside `DLXSolver.Solve` and `DLXSolver.Unique`
on a board with valid givens, with everything the search establishes. -/
theorem dlx_run_post (ctx : Ctx) (tick want : Nat) (b : Board) (hb : ValidGivens b.Values) :
    ∃ d S stop d', applyGivens loopFuel b.Values cells { newDLX with tick := tick } = some (.ok d) ∧
      Rep d S ∧ Covers S b.Values ∧ SameFrame { newDLX with tick := tick } d ∧
      S.length + 4 * empties b.Values = 324 ∧
      search ctx loopFuel want searchFuel 0 { d with found := 0 } = some (stop, d') ∧
      SearchPost ctx want (completions b.Values).ncard 0 b.Values { d with found := 0 }
        { d with found := 0 } stop d' := by
  have hf : 730 ≤ loopFuel := by simp [loopFuel]
  have hrep0 : Rep { newDLX with tick := tick } [] := newDLX_rep.setTick tick
  have e0 : restrict b.Values 0 = Grid.zero := by
    funext i j
    simp [restrict, Grid.zero]
  have hcov0 : Covers [] (restrict b.Values 0) := by
    rw [e0]; exact covers_zero
  obtain ⟨d, S, hrun, hrep, hcov, hfr, hlen⟩ := applyGivens_rep hb hf 81 0 _ [] rfl hrep0 hcov0
    (by rw [e0, empties_zero]; rfl)
  rw [List.drop_zero] at hrun
  have hrep' : Rep { d with found := 0 } S := hrep.setFound 0
  have hsol : SolOK { d with found := 0 } 0 := by
    refine ⟨fun i hi => by omega, fun i hi => ?_⟩
    have e : d.solLen = 0 := by rw [hfr.solLen, solLen_setTick, newDLX_inv.aux.solLen]
    have hi' : i < d.solLen := hi
    omega
  obtain ⟨stop, d', hsearch, hpost⟩ := search_spec ctx want hf searchFuel 0 _ S b.Values hrep'
    hcov hb (by have := empties_le b.Values; simp only [searchFuel]; omega) hsol
  exact ⟨d, S, stop, d', hrun, hrep, hcov, hfr, hlen, hsearch, hpost⟩

/-- The run of `applyGivens` and `search` inside `DLXSolver.Solve` and `DLXSolver.Unique`
on a board with valid givens. -/
theorem dlx_run (ctx : Ctx) (tick want : Nat) (b : Board) (hb : ValidGivens b.Values) :
    ∃ d S stop d', applyGivens loopFuel b.Values cells { newDLX with tick := tick } = some (.ok d) ∧
      Rep d S ∧ Covers S b.Values ∧ SameFrame { newDLX with tick := tick } d ∧
      search ctx loopFuel want searchFuel 0 { d with found := 0 } = some (stop, d') ∧
      SolOK d' 0 ∧
      (ctx = none → 0 < want →
        (want ≤ (completions b.Values).ncard → d'.found = want) ∧
        ((completions b.Values).ncard < want → d'.found = (completions b.Values).ncard)) := by
  obtain ⟨d, S, stop, d', hrun, hrep, hcov, hfr, _, hsearch, hpost⟩ :=
    dlx_run_post ctx tick want b hb
  refine ⟨d, S, stop, d', hrun, hrep, hcov, hfr, hsearch, hpost.sol, fun hctx hw => ?_⟩
  have := hpost.count hctx hw
  simp only [Nat.zero_add] at this
  exact ⟨fun h => (this.1 h).1, fun h => (this.2 h).1⟩

end Sudoku

namespace Sudoku

/-! ## The results of `DLXSolver.Solve` and `DLXSolver.Unique` on valid givens -/

/-- On valid givens `DLXSolver.Unique` returns, with a nil error, and without cancellation
its verdict tells whether the board has exactly one completion. -/
theorem dlx_unique_run (ctx : Ctx) (tick : Nat) (b : Board) (hb : ValidGivens b.Values) :
    ∃ res, DLXSolver.Unique ctx tick b = some res ∧ res.err = none ∧
      (ctx = none → (res.unique = true ↔ (completions b.Values).ncard = 1)) := by
  obtain ⟨d, S, stop, d', hrun, _, _, _, hsearch, _, hcount⟩ := dlx_run ctx tick 2 b hb
  refine ⟨{ unique := decide (d'.found = 1), stats := { Nodes := d'.nodes }, err := none,
            tick := d'.tick }, ?_, rfl, fun hctx => ?_⟩
  · simp only [DLXSolver.Unique, DLXSolver.uniqueWith, hrun, hsearch]
  · have h := hcount hctx (by omega)
    simp only [decide_eq_true_eq]
    constructor
    · intro h1
      by_contra hcon
      by_cases h2 : 2 ≤ (completions b.Values).ncard
      · have := h.1 h2; omega
      · have := h.2 (by omega); omega
    · intro h1
      have := h.2 (by omega)
      omega

/-- On valid givens `DLXSolver.Solve` returns; its only error is "no solution", and
without cancellation it fails exactly when the board has no completion. -/
theorem dlx_solve_run (ctx : Ctx) (tick : Nat) (b : Board) (hb : ValidGivens b.Values) :
    ∃ res, DLXSolver.Solve ctx tick b = some res ∧
      (∀ e, res.board = .error e → e = Err.noSolution) ∧
      (ctx = none → ((∃ e, res.board = .error e) ↔ completions b.Values = ∅)) := by
  obtain ⟨d, S, stop, d', hrun, _, _, _, hsearch, hsol, hcount⟩ := dlx_run ctx tick 1 b hb
  by_cases hfound : d'.found < 1
  · refine ⟨{ board := .error Err.noSolution, stats := { Nodes := d'.nodes }, tick := d'.tick },
      ?_, ?_, fun hctx => ?_⟩
    · simp only [DLXSolver.Solve, DLXSolver.solveWith, hrun, hsearch, hfound, if_true]
    · intro e he
      simp only [Except.error.injEq] at he
      exact he.symm
    · have h := hcount hctx (by omega)
      simp only [Except.error.injEq, exists_eq', true_iff]
      by_contra hne
      have hpos : 1 ≤ (completions b.Values).ncard := by
        have := (Set.ncard_eq_zero (completions_finite b.Values)).not.mpr hne
        omega
      have := h.1 hpos
      omega
  · obtain ⟨out, hout⟩ := reconstruct_some d' d'.solLen 0 Grid.zero
      (fun j _ hj => hsol.2 j (by omega))
    refine ⟨{ board := .ok { Values := out, Fixed := Mask.zero }, stats := { Nodes := d'.nodes },
              tick := d'.tick }, ?_, ?_, fun hctx => ?_⟩
    · simp only [DLXSolver.Solve, DLXSolver.solveWith, hrun, hsearch, hfound, if_false, hout]
    · intro e he
      simp at he
    · have h := hcount hctx (by omega)
      simp only [reduceCtorEq, exists_false, false_iff]
      intro hem
      rw [hem, Set.ncard_empty] at h
      have := h.2 (by omega)
      omega

theorem dlx_exactUnique : ExactUnique NewDLXSolver := by
  intro tick b hb
  obtain ⟨res, h1, _, h2⟩ := dlx_unique_run none tick b hb
  exact ⟨res, h1, h2 rfl⟩

theorem dlx_uniqueReturns : UniqueReturns NewDLXSolver := by
  intro ctx tick b hb
  obtain ⟨res, h1, _⟩ := dlx_unique_run ctx tick b hb
  exact ⟨res, h1⟩

/-- On a full board with valid givens `DLXSolver.Solve` returns the empty board. -/
theorem dlx_solve_full (tick : Nat) (b : Board) (hb : ValidGivens b.Values) (hfull : Full b.Values) :
    ∃ res, DLXSolver.Solve none tick b = some res ∧
      res.board = .ok { Values := Grid.zero, Fixed := Mask.zero } ∧ res.stats.Nodes = 0 := by
  obtain ⟨d, S, stop, d', hrun, hrep, hcov, hfr, _, _, _⟩ := dlx_run none tick 1 b hb
  have hall : ∀ c, c < 324 → c ∈ S := by
    intro c hc
    rw [hcov c hc]
    exact solved_filled (solved_of_valid_full hb hfull) hc
  have hact : (polled { d with found := 0 }).activeCnt = 0 :=
    (activeCnt_zero_iff ((hrep.setFound 0).ofAux (polled { d with found := 0 }))).mpr hall
  have hsearch' : search none loopFuel 1 searchFuel 0 { d with found := 0 } =
      some (true, leafState (polled { d with found := 0 }) 0) := by
    have : searchFuel = 81 + 1 := rfl
    rw [this, search_succ]
    simp only [Ctx.done, Bool.false_eq_true, if_false]
    rw [if_pos hact]
    rfl
  have hnodes : d.nodes = 0 := by rw [hfr.nodes, nodes_setTick, newDLX_inv.aux.nodes]
  refine ⟨{ board := .ok { Values := Grid.zero, Fixed := Mask.zero }, stats := { Nodes := 0 },
            tick := d.tick + 1 }, ?_, rfl, rfl⟩
  simp only [DLXSolver.Solve, DLXSolver.solveWith, hrun, hsearch']
  have e1 : (leafState (polled { d with found := 0 }) 0).found = 1 := rfl
  have e2 : (leafState (polled { d with found := 0 }) 0).solLen = 0 := rfl
  have e3 : (leafState (polled { d with found := 0 }) 0).nodes = d.nodes := rfl
  have e4 : (leafState (polled { d with found := 0 }) 0).tick = d.tick + 1 := rfl
  rw [e1, e2, e3, e4, hnodes]
  simp only [Nat.lt_irrefl, if_false, reconstruct]

end Sudoku

namespace Sudoku

/-! ## Covering without the hypothesis of valid givens

On a board with conflicting givens `applyGiven` covers columns that are covered already.
The vertical links then no longer describe the lists of active rows, but every pointer
still stays inside its column and points forward (`down`) or backward (`up`) in the order
of the candidate rows, which is what makes the loops of `cover` end. -/

/-- The pointer `y` stays in the column `c` and, coming from the candidate row `src`,
goes to a later row or to the header. -/
def Fwd (c : Nat) (src : Option Nat) (y : Nat) : Prop :=
  y = c ∨ ∃ row', row' < 729 ∧ rcol row' (c / 81) = c ∧ y = nodeAddr row' (c / 81) ∧
    ∀ row, src = some row → row < row'

/-- The pointer `y` stays in the column `c` and, coming from the candidate row `src`,
goes to an earlier row or to the header. -/
def Bwd (c : Nat) (src : Option Nat) (y : Nat) : Prop :=
  y = c ∨ ∃ row', row' < 729 ∧ rcol row' (c / 81) = c ∧ y = nodeAddr row' (c / 81) ∧
    ∀ row, src = some row → row' < row

/-- All vertical pointers stay in their column and respect the order of the rows. -/
structure Mono (d : DLX) : Prop where
  hdown : ∀ c, c < 324 → Fwd c none (d.down.get c)
  hup : ∀ c, c < 324 → Bwd c none (d.up.get c)
  ndown : ∀ row k, row < 729 → k < 4 → Fwd (rcol row k) (some row) (d.down.get (nodeAddr row k))
  nup : ∀ row k, row < 729 → k < 4 → Bwd (rcol row k) (some row) (d.up.get (nodeAddr row k))

theorem Fwd.to_header {c : Nat} {src : Option Nat} {y : Nat} (h : Fwd c src y) : Fwd c none y := by
  rcases h with h | ⟨row', h1, h2, h3, _⟩
  · exact Or.inl h
  · exact Or.inr ⟨row', h1, h2, h3, fun _ e => by simp at e⟩

theorem Bwd.to_header_up {c : Nat} {src : Option Nat} {y : Nat} (h : Bwd c src y) : Bwd c none y := by
  rcases h with h | ⟨row', h1, h2, h3, _⟩
  · exact Or.inl h
  · exact Or.inr ⟨row', h1, h2, h3, fun _ e => by simp at e⟩

/-- Unlinking a node keeps the pointers in order. -/
theorem unlinkNode_mono {d : DLX} (hm : Mono d) {row k : Nat} (hr : row < 729) (hk : k < 4) :
    Mono (unlinkNode d (nodeAddr row k)) := by
  have hc := rcol_lt hr hk
  have hdiv := rcol_div hr hk
  have hdn := hm.ndown row k hr hk
  have hu := hm.nup row k hr hk
  have hne : nodeAddr row k ≠ d.down.get (nodeAddr row k) := by
    rcases hdn with h | ⟨row', _, _, h3, h4⟩
    · rw [h]; simp only [nodeAddr_eq]; omega
    · rw [h3, hdiv]
      have := h4 row rfl
      simp only [nodeAddr_eq]; omega
  have eup := unlinkNode_up d (nodeAddr row k)
  have edown := unlinkNode_down d (nodeAddr row k) hne
  refine ⟨fun c' hc' => ?_, fun c' hc' => ?_, fun row2 k2 hr2 hk2 => ?_,
    fun row2 k2 hr2 hk2 => ?_⟩
  · rw [edown, Mem.get_set]
    split
    · rename_i e
      -- the header `c'` is the node above: it is the header of the column
      rcases hu with h | ⟨row', _, _, h3, _⟩
      · rw [e.trans h]
        exact hdn.to_header
      · rw [h3, hdiv] at e
        simp only [nodeAddr_eq] at e
        omega
    · exact hm.hdown c' hc'
  · rw [eup, Mem.get_set]
    split
    · rename_i e
      rcases hdn with h | ⟨row', _, _, h3, _⟩
      · rw [e.trans h]
        exact hu.to_header_up
      · rw [h3, hdiv] at e
        simp only [nodeAddr_eq] at e
        omega
    · exact hm.hup c' hc'
  · rw [edown, Mem.get_set]
    split
    · rename_i e
      rcases hu with h | ⟨row', h1, h2, h3, h4⟩
      · rw [h] at e
        simp only [nodeAddr_eq] at e
        omega
      · rw [h3, hdiv] at e
        have e1 : row2 = row' ∧ k2 = k := by
          simp only [nodeAddr_eq] at e
          omega
        obtain ⟨rfl, rfl⟩ := e1
        rw [hdiv] at h2
        rw [h2]
        have hlt := h4 row rfl
        rcases hdn with h | ⟨row3, g1, g2, g3, g4⟩
        · exact Or.inl h
        · refine Or.inr ⟨row3, g1, g2, g3, fun r e => ?_⟩
          simp only [Option.some.injEq] at e
          have := g4 row rfl
          omega
    · exact hm.ndown row2 k2 hr2 hk2
  · rw [eup, Mem.get_set]
    split
    · rename_i e
      rcases hdn with h | ⟨row', h1, h2, h3, h4⟩
      · rw [h] at e
        simp only [nodeAddr_eq] at e
        omega
      · rw [h3, hdiv] at e
        have e1 : row2 = row' ∧ k2 = k := by
          simp only [nodeAddr_eq] at e
          omega
        obtain ⟨rfl, rfl⟩ := e1
        rw [hdiv] at h2
        rw [h2]
        have hlt := h4 row rfl
        rcases hu with h | ⟨row3, g1, g2, g3, g4⟩
        · exact Or.inl h
        · refine Or.inr ⟨row3, g1, g2, g3, fun r e => ?_⟩
          simp only [Option.some.injEq] at e
          have := g4 row rfl
          omega
    · exact hm.nup row2 k2 hr2 hk2

theorem unlinkRow_mono {d : DLX} (hm : Mono d) {row k0 : Nat} (hr : row < 729) :
    Mono (unlinkRow d row k0) :=
  unlinkNode_mono (unlinkNode_mono (unlinkNode_mono hm hr (Nat.mod_lt _ (by omega))) hr
    (Nat.mod_lt _ (by omega))) hr (Nat.mod_lt _ (by omega))

theorem unlinkRow_frame (d : DLX) (row k0 : Nat) : SameFrame d (unlinkRow d row k0) :=
  ((unlinkNode_frame _ _).1.trans (unlinkNode_frame _ _).1).trans (unlinkNode_frame _ _).1

/-- The outer loop of `cover` ends on any matrix whose pointers are in order. -/
theorem coverLoop_total {c fuel : Nat} (hc : c < 324) (hf : 4 ≤ fuel) :
    ∀ (m n i : Nat) (d : DLX), Mono d → Static d → m < n →
      (i = c ∨ ∃ row, row < 729 ∧ rcol row (c / 81) = c ∧ i = nodeAddr row (c / 81) ∧
        729 ≤ row + m) →
      ∃ d', coverLoop fuel c n i d = some d' ∧ Mono d' ∧ SameFrame d d' ∧
        d'.active = d.active ∧ d'.activeCnt = d.activeCnt := by
  intro m
  induction m with
  | zero =>
    intro n i d hm hs hn hi
    obtain ⟨n', rfl⟩ : ∃ n', n = n' + 1 := ⟨n - 1, by omega⟩
    rcases hi with rfl | ⟨row, h1, _, _, h4⟩
    · exact ⟨d, by simp only [coverLoop, if_true], hm, SameFrame.refl d, rfl, rfl⟩
    · omega
  | succ m ih =>
    intro n i d hm hs hn hi
    obtain ⟨n', rfl⟩ : ∃ n', n = n' + 1 := ⟨n - 1, by omega⟩
    rcases hi with rfl | ⟨row, h1, h2, rfl, h4⟩
    · exact ⟨d, by simp only [coverLoop, if_true], hm, SameFrame.refl d, rfl, rfl⟩
    · have hk : c / 81 < 4 := by omega
      have hne : nodeAddr row (c / 81) ≠ c := by simp only [nodeAddr_eq]; omega
      have hm1 : Mono (unlinkRow d row (c / 81)) := unlinkRow_mono hm h1
      have hfr := unlinkRow_frame d row (c / 81)
      have hs1 : Static (unlinkRow d row (c / 81)) := hs.of_frame hfr
      have hnext := hm1.ndown row (c / 81) h1 hk
      rw [h2] at hnext
      obtain ⟨d', hrun, hm', hfr', ha', hc'⟩ := ih n'
        ((unlinkRow d row (c / 81)).down.get (nodeAddr row (c / 81))) _ hm1 hs1 (by omega)
        (by
          rcases hnext with h | ⟨row', g1, g2, g3, g4⟩
          · exact Or.inl h
          · refine Or.inr ⟨row', g1, g2, g3, ?_⟩
            have := g4 row rfl
            omega)
      refine ⟨d', ?_, hm', hfr.trans hfr', ?_, ?_⟩
      · simp only [coverLoop, if_neg hne]
        rw [coverRow_eq hs h1 hk hf]
        exact hrun
      · rw [ha']; rfl
      · rw [hc']; rfl

/-- The function `cover` ends on any matrix whose pointers are in order. -/
theorem cover_total {d : DLX} {c fuel : Nat} (hm : Mono d) (hs : Static d) (hc : c < 324)
    (hf : 731 ≤ fuel) :
    ∃ d', cover fuel c d = some d' ∧ Mono d' ∧ SameFrame d d' := by
  unfold cover
  by_cases hact : d.active.get c = true
  · rw [if_pos hact]
    have hm1 : Mono { d with active := d.active.set c false, activeCnt := d.activeCnt - 1 } :=
      ⟨hm.hdown, hm.hup, hm.ndown, hm.nup⟩
    have hsu : StaticUpTo d 729 := hs
    have hs1 : Static { d with active := d.active.set c false, activeCnt := d.activeCnt - 1 } := by
      show StaticUpTo _ 729
      exact ⟨hsu.col, hsu.right, hsu.left, hsu.rowIdx, hsu.rowHead⟩
    obtain ⟨d', hrun, hm', hfr', _, _⟩ := coverLoop_total hc (by omega : 4 ≤ fuel) 729 fuel
      (d.down.get c) _ hm1 hs1 (by omega)
      (by
        rcases hm.hdown c hc with h | ⟨row', g1, g2, g3, _⟩
        · exact Or.inl h
        · exact Or.inr ⟨row', g1, g2, g3, by omega⟩)
    exact ⟨d', hrun, hm', ⟨hfr'.left, hfr'.right, hfr'.col, hfr'.rowIdx, hfr'.rowHead,
      hfr'.name, hfr'.sol, hfr'.solLen, hfr'.nodes, hfr'.found, hfr'.tick⟩⟩
  · rw [if_neg hact]
    obtain ⟨d', hrun, hm', hfr', _, _⟩ := coverLoop_total hc (by omega : 4 ≤ fuel) 729 fuel
      (d.down.get c) _ hm hs (by omega)
      (by
        rcases hm.hdown c hc with h | ⟨row', g1, g2, g3, _⟩
        · exact Or.inl h
        · exact Or.inr ⟨row', g1, g2, g3, by omega⟩)
    exact ⟨d', hrun, hm', hfr'⟩

end Sudoku

namespace Sudoku

/-! ## Applying the givens of an arbitrary board -/

theorem chain_rel {f : Nat → Nat} {h : Nat} {g : Nat → Nat} {R : Nat → Nat → Prop} :
    ∀ (l : List Nat) (p : Nat), l.Pairwise R → PtrChain f h p (l.map g) →
      (f p = h ∨ ∃ y ∈ l, f p = g y) ∧
      ∀ x ∈ l, f (g x) = h ∨ ∃ y ∈ l, R x y ∧ f (g x) = g y := by
  intro l
  induction l with
  | nil =>
    intro p _ hc
    simp only [List.map_nil, PtrChain] at hc
    exact ⟨Or.inl hc, fun x hx => by simp at hx⟩
  | cons a rest ih =>
    intro p hp hc
    simp only [List.map_cons, PtrChain] at hc
    rw [List.pairwise_cons] at hp
    obtain ⟨i1, i2⟩ := ih (g a) hp.2 hc.2
    refine ⟨Or.inr ⟨a, List.mem_cons_self _ _, hc.1⟩, fun x hx => ?_⟩
    rcases List.mem_cons.mp hx with rfl | hx
    · rcases i1 with h1 | ⟨y, hy, h1⟩
      · exact Or.inl h1
      · exact Or.inr ⟨y, List.mem_cons_of_mem _ hy, hp.1 y hy, h1⟩
    · rcases i2 x hx with h1 | ⟨y, hy, h1, h2⟩
      · exact Or.inl h1
      · exact Or.inr ⟨y, List.mem_cons_of_mem _ hy, h1, h2⟩

/-- Columns that link increasing lists of rows have their pointers in order. -/
theorem mono_of_vert {d : DLX} {lst : Nat → List Nat} (hv : Vert d lst)
    (hsorted : ∀ c, c < 324 → (lst c).Pairwise (fun a b => a < b))
    (hall : ∀ row k, row < 729 → k < 4 → row ∈ lst (rcol row k)) : Mono d := by
  have hd : ∀ c, c < 324 →
      (d.down.get c = c ∨ ∃ y ∈ lst c, d.down.get c = nodeOf c y) ∧
      ∀ x ∈ lst c, d.down.get (nodeOf c x) = c ∨
        ∃ y ∈ lst c, x < y ∧ d.down.get (nodeOf c x) = nodeOf c y :=
    fun c hc => chain_rel (lst c) c (hsorted c hc) (hv c hc).down
  have hu : ∀ c, c < 324 →
      (d.up.get c = c ∨ ∃ y ∈ (lst c).reverse, d.up.get c = nodeOf c y) ∧
      ∀ x ∈ (lst c).reverse, d.up.get (nodeOf c x) = c ∨
        ∃ y ∈ (lst c).reverse, y < x ∧ d.up.get (nodeOf c x) = nodeOf c y := by
    intro c hc
    have h1 := (hv c hc).up
    rw [← List.map_reverse] at h1
    exact chain_rel (lst c).reverse c (List.pairwise_reverse.mpr (hsorted c hc)) h1
  refine ⟨fun c hc => ?_, fun c hc => ?_, fun row k hr hk => ?_, fun row k hr hk => ?_⟩
  · rcases (hd c hc).1 with h | ⟨y, hy, h⟩
    · exact Or.inl h
    · have := (hv c hc).mem y hy
      exact Or.inr ⟨y, this.1, this.2, h, fun _ e => by simp at e⟩
  · rcases (hu c hc).1 with h | ⟨y, hy, h⟩
    · exact Or.inl h
    · have := (hv c hc).mem y (List.mem_reverse.mp hy)
      exact Or.inr ⟨y, this.1, this.2, h, fun _ e => by simp at e⟩
  · have hc := rcol_lt hr hk
    have hdiv := rcol_div hr hk
    have e : nodeOf (rcol row k) row = nodeAddr row k := by simp only [nodeOf, hdiv]
    rcases (hd _ hc).2 row (hall row k hr hk) with h | ⟨y, hy, h1, h2⟩
    · rw [e] at h; exact Or.inl h
    · rw [e] at h2
      have := (hv _ hc).mem y hy
      refine Or.inr ⟨y, this.1, this.2, h2, fun r er => ?_⟩
      simp only [Option.some.injEq] at er
      omega
  · have hc := rcol_lt hr hk
    have hdiv := rcol_div hr hk
    have e : nodeOf (rcol row k) row = nodeAddr row k := by simp only [nodeOf, hdiv]
    rcases (hu _ hc).2 row (List.mem_reverse.mpr (hall row k hr hk)) with h | ⟨y, hy, h1, h2⟩
    · rw [e] at h; exact Or.inl h
    · rw [e] at h2
      have := (hv _ hc).mem y (List.mem_reverse.mp hy)
      refine Or.inr ⟨y, this.1, this.2, h2, fun r er => ?_⟩
      simp only [Option.some.injEq] at er
      omega

theorem newDLX_mono : Mono newDLX := by
  apply mono_of_vert newDLX_inv.vert
  · intro c _
    exact (List.pairwise_lt_range 729).filter _
  · intro row k hr hk
    simp only [List.mem_filter, List.mem_range, decide_eq_true_eq]
    exact ⟨hr, by rw [rcol_div hr hk]⟩

/-- The loop of `applyGiven` ends on any matrix whose pointers are in order. -/
theorem applyLoop_total {d : DLX} {row fuel : Nat} (hm : Mono d) (hs : Static d)
    (hr : row < 729) (hf : 731 ≤ fuel) :
    ∃ d', applyLoop fuel (nodeAddr row 0) fuel (nodeAddr row 0) d = some d' ∧ Mono d' ∧
      SameFrame d d' := by
  obtain ⟨d0, hd0, hm0, hfr0⟩ := cover_total hm hs (rcol_lt hr (by omega : 0 < 4)) hf
  have hs0 : Static d0 := hs.of_frame hfr0
  obtain ⟨d1, hd1, hm1, hfr1⟩ := cover_total hm0 hs0 (rcol_lt hr (by omega : 1 < 4)) hf
  have hs1 : Static d1 := hs0.of_frame hfr1
  obtain ⟨d2, hd2, hm2, hfr2⟩ := cover_total hm1 hs1 (rcol_lt hr (by omega : 2 < 4)) hf
  have hs2 : Static d2 := hs1.of_frame hfr2
  obtain ⟨d3, hd3, hm3, hfr3⟩ := cover_total hm2 hs2 (rcol_lt hr (by omega : 3 < 4)) hf
  have hfr01 : SameFrame d d1 := hfr0.trans hfr1
  have hfr02 : SameFrame d d2 := hfr01.trans hfr2
  have hfr03 : SameFrame d d3 := hfr02.trans hfr3
  have n1 : nodeAddr row 1 ≠ nodeAddr row 0 := by simp only [nodeAddr_eq]; omega
  have n2 : nodeAddr row 2 ≠ nodeAddr row 0 := by simp only [nodeAddr_eq]; omega
  have n3 : nodeAddr row 3 ≠ nodeAddr row 0 := by simp only [nodeAddr_eq]; omega
  refine ⟨d3, ?_, hm3, hfr03⟩
  obtain ⟨f, rfl⟩ : ∃ f, fuel = f + 4 := ⟨fuel - 4, by omega⟩
  have hsu : StaticUpTo d 729 := hs
  have r0 := hsu.right row 0 hr (by omega)
  have r1 := hsu.right row 1 hr (by omega)
  have r2 := hsu.right row 2 hr (by omega)
  have r3 := hsu.right row 3 hr (by omega)
  simp only [Nat.reduceAdd, Nat.reduceMod] at r0 r1 r2 r3
  simp only [applyLoop, hsu.col row 0 hr (by omega), hd0, hfr0.right, r0, if_neg n1,
    hfr0.col, hsu.col row 1 hr (by omega), hd1, hfr01.right, r1, if_neg n2,
    hfr01.col, hsu.col row 2 hr (by omega), hd2, hfr02.right, r2, if_neg n3,
    hfr02.col, hsu.col row 3 hr (by omega), hd3, hfr03.right, r3, if_true]

theorem rowIndex_lt {r c v : Nat} (hr : r < 9) (hc : c < 9) (h1 : 1 ≤ v) (h9 : v ≤ 9) :
    rowIndex r c v < 729 := by
  simp only [rowIndex, nSize_eq]
  omega

/-- The loops of `Solve` and `Unique` that apply the givens end on every board, and they
end with an error when one of the cells holds a value above 9. -/
theorem applyGivens_total {fuel : Nat} (hf : 731 ≤ fuel) (b : Grid) :
    ∀ (cs : List (Nat × Nat)) (d : DLX), (∀ p ∈ cs, p.1 < 9 ∧ p.2 < 9) → Mono d → Static d →
      ∃ res, applyGivens fuel b cs d = some res ∧
        ((∃ p ∈ cs, 9 < b.get p.1 p.2) → ∃ e, res = .error e) := by
  intro cs
  induction cs with
  | nil =>
    intro d _ _ _
    exact ⟨.ok d, rfl, fun ⟨p, hp, _⟩ => by simp at hp⟩
  | cons p rest ih =>
    intro d hcs hm hs
    obtain ⟨hp1, hp2⟩ := hcs p (List.mem_cons_self _ _)
    have hrest : ∀ q ∈ rest, q.1 < 9 ∧ q.2 < 9 := fun q hq => hcs q (List.mem_cons_of_mem _ hq)
    simp only [applyGivens]
    by_cases hv : b.get p.1 p.2 > 0
    · rw [if_pos hv]
      by_cases hbad : b.get p.1 p.2 < 1 ∨ b.get p.1 p.2 > 9
      · rw [if_pos hbad]
        exact ⟨_, rfl, fun _ => ⟨_, rfl⟩⟩
      · rw [if_neg hbad]
        have hrow := rowIndex_lt hp1 hp2 (by omega : 1 ≤ b.get p.1 p.2) (by omega)
        have hsu : StaticUpTo d 729 := hs
        obtain ⟨d1, hrun, hm1, hfr1⟩ := applyLoop_total hm hs hrow hf
        have happ : applyGiven fuel d p.1 p.2 (b.get p.1 p.2) = some (.ok d1) := by
          unfold applyGiven
          rw [hsu.rowHead _ hrow]
          simp only
          rw [hrun]
        rw [happ]
        simp only
        obtain ⟨res, hres, herr⟩ := ih d1 hrest hm1 (hs.of_frame hfr1)
        refine ⟨res, hres, fun ⟨q, hq, hq9⟩ => herr ?_⟩
        rcases List.mem_cons.mp hq with rfl | hq
        · omega
        · exact ⟨q, hq, hq9⟩
    · rw [if_neg hv]
      obtain ⟨res, hres, herr⟩ := ih d hrest hm hs
      refine ⟨res, hres, fun ⟨q, hq, hq9⟩ => herr ?_⟩
      rcases List.mem_cons.mp hq with rfl | hq
      · omega
      · exact ⟨q, hq, hq9⟩

theorem Mono.atTick {d : DLX} (h : Mono d) (t : Nat) : Mono { d with tick := t } :=
  ⟨h.hdown, h.hup, h.ndown, h.nup⟩

theorem static_atTick {d : DLX} (h : Static d) (t : Nat) : Static { d with tick := t } := by
  have hsu : StaticUpTo d 729 := h
  show StaticUpTo _ 729
  exact ⟨hsu.col, hsu.right, hsu.left, hsu.rowIdx, hsu.rowHead⟩

/-- On a board with a value above 9 both methods of `DLXSolver` return an error without
searching. -/
theorem dlx_invalid (ctx : Ctx) (tick : Nat) (b : Board) (r c : Fin 9) (hbad : 9 < b.Values r c) :
    (∃ e, DLXSolver.Solve ctx tick b =
      some { board := .error e, stats := { Nodes := 0 }, tick := tick }) ∧
    (∃ e, DLXSolver.Unique ctx tick b =
      some { unique := false, stats := { Nodes := 0 }, err := some e, tick := tick }) := by
  have hf : 731 ≤ loopFuel := by simp [loopFuel]
  have hm0 : Mono { newDLX with tick := tick } := newDLX_mono.atTick tick
  have hs0 : Static { newDLX with tick := tick } := static_atTick newDLX_inv.static tick
  obtain ⟨res, hres, herr⟩ := applyGivens_total hf b.Values cells _
    (fun p hp => (mem_cells p).mp hp) hm0 hs0
  obtain ⟨e, rfl⟩ := herr ⟨(r.val, c.val), (mem_cells _).mpr ⟨r.isLt, c.isLt⟩, by
    rw [Grid.get_fin]; exact hbad⟩
  constructor
  · refine ⟨e, ?_⟩
    simp only [DLXSolver.Solve, DLXSolver.solveWith, hres]
  · refine ⟨e, ?_⟩
    simp only [DLXSolver.Unique, DLXSolver.uniqueWith, hres]

end Sudoku

namespace Sudoku

/-! ## The size of the columns -/

/-- The candidate row number `t` of the nine rows of the column `c`. -/
def rowAt (c t : Nat) : Nat :=
  if c < 81 then 9 * c + t
  else if c < 162 then 81 * ((c - 81) / 9) + 9 * t + (c - 81) % 9
  else if c < 243 then 81 * t + 9 * ((c - 162) / 9) + (c - 162) % 9
  else 81 * (3 * ((c - 243) / 9 / 3) + t / 3) + 9 * (3 * ((c - 243) / 9 % 3) + t % 3) +
    (c - 243) % 9

theorem rowAt_inj {c t t' : Nat} (h : rowAt c t = rowAt c t') :
    t = t' := by
  unfold rowAt at h
  split at h
  · omega
  · split at h
    · omega
    · split at h <;> omega

theorem mem_rows_iff {c : Nat} (hc : c < 324) (row : Nat) :
    (row < 729 ∧ rcol row (c / 81) = c) ↔ ∃ t, t < 9 ∧ rowAt c t = row := by
  unfold rowAt
  have h4 : c / 81 = 0 ∨ c / 81 = 1 ∨ c / 81 = 2 ∨ c / 81 = 3 := by omega
  rcases h4 with e | e | e | e
  · have a1 : c < 81 := by omega
    rw [e, rcol_zero]
    simp only [a1, if_true]
    constructor
    · rintro ⟨h1, h2⟩
      exact ⟨row % 9, by omega, by omega⟩
    · rintro ⟨t, ht, rfl⟩
      omega
  · have a1 : ¬ c < 81 := by omega
    have a2 : c < 162 := by omega
    rw [e, rcol_one]
    simp only [a1, a2, if_true, if_false]
    constructor
    · rintro ⟨h1, h2⟩
      exact ⟨row / 9 % 9, by omega, by omega⟩
    · rintro ⟨t, ht, rfl⟩
      omega
  · have a1 : ¬ c < 81 := by omega
    have a2 : ¬ c < 162 := by omega
    have a3 : c < 243 := by omega
    rw [e, rcol_two]
    simp only [a1, a2, a3, if_true, if_false]
    constructor
    · rintro ⟨h1, h2⟩
      exact ⟨row / 81, by omega, by omega⟩
    · rintro ⟨t, ht, rfl⟩
      omega
  · have a1 : ¬ c < 81 := by omega
    have a2 : ¬ c < 162 := by omega
    have a3 : ¬ c < 243 := by omega
    rw [e, rcol_three]
    simp only [a1, a2, a3, if_false]
    constructor
    · rintro ⟨h1, h2⟩
      exact ⟨row / 81 % 3 * 3 + row / 9 % 9 % 3, by omega, by omega⟩
    · rintro ⟨t, ht, rfl⟩
      obtain ⟨br, hbr⟩ : ∃ br, br = (c - 243) / 9 / 3 := ⟨_, rfl⟩
      obtain ⟨bc, hbc⟩ : ∃ bc, bc = (c - 243) / 9 % 3 := ⟨_, rfl⟩
      obtain ⟨v, hv⟩ : ∃ v, v = (c - 243) % 9 := ⟨_, rfl⟩
      obtain ⟨p, hp⟩ : ∃ p, p = t / 3 := ⟨_, rfl⟩
      obtain ⟨q, hq⟩ : ∃ q, q = t % 3 := ⟨_, rfl⟩
      rw [← hbr, ← hbc, ← hv, ← hp, ← hq]
      have b1 : br < 3 := by omega
      have b2 : bc < 3 := by omega
      have b3 : v < 9 := by omega
      have b4 : p < 3 := by omega
      have b5 : q < 3 := by omega
      have hc' : c = 243 + 9 * (3 * br + bc) + v := by omega
      have e1 : (81 * (3 * br + p) + 9 * (3 * bc + q) + v) / 81 = 3 * br + p := by omega
      have e2 : (81 * (3 * br + p) + 9 * (3 * bc + q) + v) / 9 % 9 = 3 * bc + q := by omega
      have e3 : (81 * (3 * br + p) + 9 * (3 * bc + q) + v) % 9 = v := by omega
      rw [e1, e2, e3]
      have e4 : (3 * br + p) / 3 = br := by omega
      have e5 : (3 * bc + q) / 3 = bc := by omega
      rw [e4, e5]
      omega

/-- Every column has nine candidate rows. -/
theorem rows_length {c : Nat} (hc : c < 324) :
    ((List.range 729).filter (fun row => decide (rcol row (c / 81) = c))).length = 9 := by
  have hnd : ((List.range 729).filter (fun row => decide (rcol row (c / 81) = c))).Nodup :=
    (List.nodup_range 729).filter _
  have hE : ((List.range 9).map (rowAt c)).Nodup := by
    apply List.Nodup.map_on _ (List.nodup_range 9)
    intro x _ y _ h
    exact rowAt_inj h
  have hperm := (List.perm_ext_iff_of_nodup hnd hE).mpr (fun row => by
    simp only [List.mem_filter, List.mem_range, decide_eq_true_eq, List.mem_map]
    exact mem_rows_iff hc row)
  rw [hperm.length_eq]
  simp

end Sudoku

namespace Sudoku

/-! ## The generator: what the result depends on -/

/-- The carving loop reads the clock only at its own iterations. -/
theorem carve_congr (g : UniqueGenerator) (env1 env2 : GenEnv) (target : Nat)
    (hctx : env1.ctx = env2.ctx) :
    ∀ (ps : List Nat) (i : Nat) (s : CarveState),
      (∀ j, i ≤ j → j < i + ps.length → env1.expired j = env2.expired j) →
      carve g env1 target ps i s = carve g env2 target ps i s := by
  intro ps
  induction ps with
  | nil => intro i s _; rfl
  | cons pos rest ih =>
    intro i s hexp
    have h0 := hexp i (le_refl _) (by simp)
    have hrest : ∀ (s' : CarveState),
        carve g env1 target rest (i + 1) s' = carve g env2 target rest (i + 1) s' :=
      fun s' => ih (i + 1) s' (fun j h1 h2 => hexp j (by omega) (by
        simp only [List.length_cons]; omega))
    simp only [carve, h0, hctx, hrest]

/-- The result of `Generate` is determined by the seed, the tier, the solver, the
cancellation and the outcomes of the deadline test at the 81 iterations of the carving
loop. -/
theorem generate_congr (g : UniqueGenerator) (env1 env2 : GenEnv) (seed : Int)
    (diff : Difficulty) (hrng : env1.rng seed = env2.rng seed) (hctx : env1.ctx = env2.ctx)
    (hexp : ∀ i, i < 81 → env1.expired i = env2.expired i) :
    g.Generate env1 seed diff = g.Generate env2 seed diff := by
  unfold UniqueGenerator.Generate
  simp only [hrng, hctx]
  cases hfill : fillRandom env2.ctx (env2.rng seed) 0 Grid.zero with
  | none => rfl
  | some r =>
    obtain ⟨b, fs⟩ := r
    cases b with
    | false => rfl
    | true =>
      simp only
      rw [carve_congr g env1 env2 _ hctx _ 0 _ (fun j _ hj => hexp j (by
        rw [positions_length] at hj; omega))]

theorem carve_expired (g : UniqueGenerator) (env : GenEnv) (target : Nat) (ps : List Nat)
    (i : Nat) (s : CarveState) (h : env.expired i = true) :
    carve g env target ps i s = some s := by
  cases ps with
  | nil => rfl
  | cons pos rest => simp only [carve, h, if_true]

/-- The carving loop never fills a cell. -/
theorem carve_zero (g : UniqueGenerator) (env : GenEnv) (target : Nat) (a b : Fin 9) :
    ∀ (ps : List Nat) (i : Nat) (s s' : CarveState),
      carve g env target ps i s = some s' → s.puz a b = 0 → s'.puz a b = 0 := by
  intro ps
  induction ps with
  | nil =>
    intro i s s' h h0
    simp only [carve, Option.some.injEq] at h
    rw [← h]; exact h0
  | cons pos rest ih =>
    intro i s s' h h0
    simp only [carve] at h
    split at h
    · simp only [Option.some.injEq] at h; rw [← h]; exact h0
    · split at h
      · simp only [Option.some.injEq] at h; rw [← h]; exact h0
      · split at h
        · exact ih _ _ _ h h0
        · split at h
          · exact absurd h (by simp)
          · split at h
            · refine ih _ _ _ h ?_
              dsimp only
              rw [Grid.set_twice, Grid.set_get_cell]
              exact h0
            · refine ih _ _ _ h ?_
              dsimp only
              unfold Grid.set
              split
              · rfl
              · exact h0

/-- A full valid grid with one cell blanked has the grid as its only completion. -/
theorem completions_hole {g : Grid} (hv : ValidGivens g) (hf : Full g) (r c : Fin 9) :
    completions (g.set r.val c.val 0) = {g} := by
  ext h
  simp only [Set.mem_singleton_iff]
  constructor
  · rintro ⟨hs, he⟩
    have hoff : ∀ i j : Fin 9, (i ≠ r ∨ j ≠ c) → h i j = g i j := by
      intro i j hij
      have e := Grid.set_other g r c 0 i j hij
      have := he i j (by rw [e]; exact hf i j)
      rw [this, e]
    funext i j
    by_cases hij : i = r ∧ j = c
    · obtain ⟨rfl, rfl⟩ := hij
      by_contra hne
      have hb : 1 ≤ g i j ∧ g i j ≤ 9 := ⟨Nat.pos_of_ne_zero (hf i j), hv.1 i j⟩
      obtain ⟨j', hj', _⟩ := (hs (g i j) hb.1 hb.2).1 i
      have hjj : j' ≠ j := by
        intro e
        rw [e] at hj'
        exact hne hj'
      have hg : g i j' = g i j := by rw [← hoff i j' (Or.inr hjj)]; exact hj'
      exact hv.2 i j' i j ⟨Or.inr hjj, Or.inl rfl⟩ (hf i j') hg
    · have : i ≠ r ∨ j ≠ c := by
        by_contra hcon
        push_neg at hcon
        exact hij hcon
      exact hoff i j this
  · rintro rfl
    refine ⟨solved_of_valid_full hv hf, fun i j hne => ?_⟩
    rw [Grid.set_apply] at hne ⊢
    split
    · rename_i hij
      rw [if_pos hij] at hne
      exact absurd rfl hne
    · rfl

/-- The givens of a board that satisfies the invariant are valid when the full grid is. -/
theorem boardInv_valid {full puz : Grid} {fixed : Mask} (h : BoardInv full puz fixed)
    (hv : ValidGivens full) : ValidGivens puz := by
  refine ⟨fun r c => ?_, fun r c r' c' hp hne heq => ?_⟩
  · by_cases h0 : puz r c = 0
    · omega
    · rw [(h r c).2 h0]; exact hv.1 r c
  · have e1 := (h r c).2 hne
    have hne' : puz r' c' ≠ 0 := by rw [← heq]; exact hne
    have e2 := (h r' c').2 hne'
    apply hv.2 r c r' c' hp
    · rw [← e1]; exact hne
    · rw [← e1, ← e2]; exact heq

theorem boardInv_init (full : Grid) (hf : Full full) : BoardInv full full (fun _ _ => true) :=
  fun r c => ⟨⟨fun _ => hf r c, fun _ => rfl⟩, fun _ => rfl⟩

end Sudoku

namespace Sudoku

/-! ## Test boards and test environments -/

/-- The solved grid with four cells blanked that form a rectangle over two boxes: it has
two completions. -/
def twoSolGrid : Grid := Grid.ofRows [
  [5, 3, 4, 0, 0, 8, 9, 1, 2], [6, 7, 2, 1, 9, 5, 3, 4, 8], [1, 9, 8, 3, 4, 2, 5, 6, 7],
  [8, 5, 9, 0, 0, 1, 4, 2, 3], [4, 2, 6, 8, 5, 3, 7, 9, 1], [7, 1, 3, 9, 2, 4, 8, 5, 6],
  [9, 6, 1, 5, 3, 7, 2, 8, 4], [2, 8, 7, 4, 1, 9, 6, 3, 5], [3, 4, 5, 2, 8, 6, 1, 7, 9]]

/-- The second completion of `twoSolGrid`. -/
def solvedGrid2 : Grid := Grid.ofRows [
  [5, 3, 4, 7, 6, 8, 9, 1, 2], [6, 7, 2, 1, 9, 5, 3, 4, 8], [1, 9, 8, 3, 4, 2, 5, 6, 7],
  [8, 5, 9, 6, 7, 1, 4, 2, 3], [4, 2, 6, 8, 5, 3, 7, 9, 1], [7, 1, 3, 9, 2, 4, 8, 5, 6],
  [9, 6, 1, 5, 3, 7, 2, 8, 4], [2, 8, 7, 4, 1, 9, 6, 3, 5], [3, 4, 5, 2, 8, 6, 1, 7, 9]]

/-- The solved grid with the value 10 in its first cell. -/
def badDigitGrid : Grid := solvedGrid.set 0 0 10

/-- A grid with valid givens and no completion: the last cell of the first row has no
digit left. -/
def deadGrid : Grid := Grid.ofRows [
  [1, 2, 3, 4, 5, 6, 7, 8, 0], [0, 0, 0, 0, 0, 0, 0, 0, 9]]

/-- A random source that never swaps, a context that is never cancelled, and a deadline
that has passed when the carving loop starts. -/
def envExpired : GenEnv :=
  { rng := fun _ => { swaps := fun _ => [] }, ctx := none, expired := fun _ => true }

/-- The same random source and context, and a deadline that is never reached. -/
def envPatient : GenEnv :=
  { rng := fun _ => { swaps := fun _ => [] }, ctx := none, expired := fun _ => false }

/-- The same random source and context, and a deadline that has passed at the 81
iterations of the carving loop but not later. -/
def envExpired81 : GenEnv :=
  { rng := fun _ => { swaps := fun _ => [] }, ctx := none, expired := fun i => decide (i < 81) }

/-- The error of a result of `Solve`, nil when it carries a board. -/
def SolveResult.err (r : SolveResult) : Option Err :=
  match r.board with
  | .error e => some e
  | .ok _ => none

theorem twoSol_valid : ValidGivens twoSolGrid := validGivens_of_check _ (by decide!)

theorem solvedGrid2_solved : Solved solvedGrid2 :=
  solved_of_valid_full (validGivens_of_check _ (by decide!)) (by decide)

theorem twoSol_completions :
    solvedGrid ≠ solvedGrid2 ∧ IsCompletion twoSolGrid solvedGrid ∧
      IsCompletion twoSolGrid solvedGrid2 := by
  refine ⟨fun h => ?_, ⟨solvedGrid_solved, by decide⟩, ⟨solvedGrid2_solved, by decide⟩⟩
  have := congrFun (congrFun h 0) 3
  revert this
  decide

end Sudoku

namespace Sudoku

/-! ## The solvers: what `Solve` and `Unique` return -/

/-- Claim C1, at the input where it fails: on the solved board, all of whose 81 cells are
valid givens, `DLXSolver.Solve` returns no error and a board of zeros. The board it returns
holds only the rows chosen by the search, not the givens. -/
theorem dlx_solve_drops_givens :
    ValidGivens solvedGrid ∧ Full solvedGrid ∧
      ∃ res, DLXSolver.Solve none 0 { Values := solvedGrid, Fixed := Mask.zero } = some res ∧
        res.board = .ok { Values := Grid.zero, Fixed := Mask.zero } := by
  obtain ⟨res, h1, h2, _⟩ := dlx_solve_full 0 { Values := solvedGrid, Fixed := Mask.zero }
    solvedGrid_valid solvedGrid_full
  exact ⟨solvedGrid_valid, solvedGrid_full, res, h1, h2⟩

/-- Claim C2: on a board with valid givens, a board that `BacktrackingSolver.Solve` returns
without error has no zero cell, equals the input at every cell that was non-empty there,
and is accepted by `FastValidator.Validate`: no digit is repeated in a row, column or
box. -/
theorem bt_solve_sound (ctx : Ctx) (tick : Nat) (b : Board) (res : SolveResult) (out : Board)
    (hb : ValidGivens b.Values) (hrun : BacktrackingSolver.Solve ctx tick b = some res)
    (hok : res.board = .ok out) :
    Full out.Values ∧ Extends b.Values out.Values ∧ (FastValidator.Validate out).1 = true ∧
      NoRepeat out.Values := by
  obtain ⟨ok, s', _, hspec, hres⟩ := bt_solve_run ctx tick b
  rw [hres] at hrun
  simp only [Option.some.injEq] at hrun
  cases ok with
  | false =>
    rw [← hrun] at hok
    simp at hok
  | true =>
    rw [← hrun] at hok
    simp only [if_true, Except.ok.injEq] at hok
    have hc : IsCompletion b.Values s'.grid := hspec.sound hb rfl
    have hv : out.Values = s'.grid := by rw [← hok]
    rw [hv]
    refine ⟨hc.1.full, hc.2, ?_, hc.1.noRepeat⟩
    have := validate_of_noRepeat out (by rw [hv]; exact hc.1.validGivens)
    exact this

theorem bt_solve_sound_witness :
    ∃ res out, BacktrackingSolver.Solve none 0 { Values := twoSolGrid, Fixed := Mask.zero } =
        some res ∧ res.board = .ok out ∧
      Full out.Values ∧ Extends twoSolGrid out.Values ∧
      (FastValidator.Validate out).1 = true ∧ NoRepeat out.Values := by
  obtain ⟨res, hrun, hiff, _⟩ := bt_solve_exact 0 { Values := twoSolGrid, Fixed := Mask.zero }
    twoSol_valid
  cases hb : res.board with
  | error e =>
    exfalso
    have hem := hiff.mp ⟨e, hb⟩
    have : solvedGrid ∈ completions twoSolGrid := twoSol_completions.2.1
    rw [hem] at this
    exact this
  | ok out =>
    exact ⟨res, out, hrun, hb,
      bt_solve_sound none 0 { Values := twoSolGrid, Fixed := Mask.zero } res out twoSol_valid
        hrun hb⟩

/-- Claim C3, at the input where it fails: on the solved board with the value 10 in its
first cell, and without cancellation, `DLXSolver.Solve` returns an error and
`BacktrackingSolver.Solve` returns a board, so the two engines do not agree on whether
`Solve` succeeds. `BacktrackingSolver` lacks the range check of its sibling. -/
theorem engines_disagree_on_bad_digit :
    (DLXSolver.Solve none 0 { Values := badDigitGrid, Fixed := Mask.zero }).map
        (fun r => r.board.toBool) = some false ∧
    (BacktrackingSolver.Solve none 0 { Values := badDigitGrid, Fixed := Mask.zero }).map
        (fun r => r.board.toBool) = some true := by
  constructor
  · obtain ⟨⟨e, he⟩, _⟩ := dlx_invalid none 0 { Values := badDigitGrid, Fixed := Mask.zero } 0 0
      (by decide)
    rw [he]
    rfl
  · decide

/-- Where the engines do agree: on every board with valid givens (digits 1-9, no repeat in
a row, column or box) and without cancellation, `DLXSolver` and `BacktrackingSolver` agree
on whether `Solve` succeeds, and their `Unique` return the same boolean with a nil
error. -/
theorem engines_agree_on_valid (tick tick' : Nat) (b : Board) (hb : ValidGivens b.Values) :
    ∃ r1 r2 u1 u2, DLXSolver.Solve none tick b = some r1 ∧
      BacktrackingSolver.Solve none tick' b = some r2 ∧
      r1.board.toBool = r2.board.toBool ∧
      DLXSolver.Unique none tick b = some u1 ∧ BacktrackingSolver.Unique none tick' b = some u2 ∧
      u1.unique = u2.unique ∧ u1.err = none ∧ u2.err = none := by
  obtain ⟨r1, h1, _, hi1⟩ := dlx_solve_run none tick b hb
  obtain ⟨r2, h2, hi2, _⟩ := bt_solve_exact tick' b hb
  obtain ⟨u1, h3, he1, hu1⟩ := dlx_unique_run none tick b hb
  obtain ⟨u2, h4, he2, hu2⟩ := bt_unique_exact tick' b hb
  refine ⟨r1, r2, u1, u2, h1, h2, ?_, h3, h4, ?_, he1, he2⟩
  · have hiff : (∃ e, r1.board = .error e) ↔ (∃ e, r2.board = .error e) :=
      (hi1 rfl).trans hi2.symm
    cases hr1 : r1.board with
    | error e1 =>
      obtain ⟨e2, he2⟩ := hiff.mp ⟨e1, hr1⟩
      rw [he2]; rfl
    | ok o1 =>
      cases hr2 : r2.board with
      | error e2 =>
        obtain ⟨e1, he1⟩ := hiff.mpr ⟨e2, hr2⟩
        rw [he1] at hr1
        simp at hr1
      | ok o2 => rfl
  · rw [Bool.eq_iff_iff]
    exact (hu1 rfl).trans hu2.symm

theorem engines_agree_on_valid_witness :
    ValidGivens twoSolGrid ∧
    ∃ r1 r2 u1 u2,
      DLXSolver.Solve none 0 { Values := twoSolGrid, Fixed := Mask.zero } = some r1 ∧
      BacktrackingSolver.Solve none 0 { Values := twoSolGrid, Fixed := Mask.zero } = some r2 ∧
      r1.board.toBool = r2.board.toBool ∧
      DLXSolver.Unique none 0 { Values := twoSolGrid, Fixed := Mask.zero } = some u1 ∧
      BacktrackingSolver.Unique none 0 { Values := twoSolGrid, Fixed := Mask.zero } = some u2 ∧
      u1.unique = u2.unique ∧ u1.err = none ∧ u2.err = none :=
  ⟨twoSol_valid,
    engines_agree_on_valid 0 0 { Values := twoSolGrid, Fixed := Mask.zero } twoSol_valid⟩

/-- Claim C4: on a board with valid givens and without cancellation `DLXSolver.Unique`
returns true if and only if the board has exactly one valid completion; it returns false
when there is no completion and when there are two or more. -/
theorem dlx_unique_iff (tick : Nat) (b : Board) (hb : ValidGivens b.Values) :
    ∃ res, DLXSolver.Unique none tick b = some res ∧ res.err = none ∧
      (res.unique = true ↔ ∃! h, IsCompletion b.Values h) ∧
      ((¬ ∃ h, IsCompletion b.Values h) → res.unique = false) ∧
      ((∃ h1 h2, h1 ≠ h2 ∧ IsCompletion b.Values h1 ∧ IsCompletion b.Values h2) →
        res.unique = false) := by
  obtain ⟨res, hrun, herr, hiff⟩ := dlx_unique_run none tick b hb
  have hiff' : res.unique = true ↔ ∃! h, IsCompletion b.Values h :=
    (hiff rfl).trans (ncard_eq_one_iff_existsUnique b.Values)
  refine ⟨res, hrun, herr, hiff', fun hno => ?_, fun ⟨h1, h2, hne, hc1, hc2⟩ => ?_⟩
  · rw [← Bool.not_eq_true]
    intro ht
    obtain ⟨h, hh, _⟩ := hiff'.mp ht
    exact hno ⟨h, hh⟩
  · rw [← Bool.not_eq_true]
    intro ht
    obtain ⟨h, _, huniq⟩ := hiff'.mp ht
    exact hne ((huniq h1 hc1).trans (huniq h2 hc2).symm)

theorem dlx_unique_iff_witness :
    ValidGivens twoSolGrid ∧
    ∃ res, DLXSolver.Unique none 0 { Values := twoSolGrid, Fixed := Mask.zero } = some res ∧
      res.unique = false := by
  obtain ⟨res, hrun, _, _, _, h2⟩ := dlx_unique_iff 0 { Values := twoSolGrid, Fixed := Mask.zero }
    twoSol_valid
  exact ⟨twoSol_valid, res, hrun, h2 ⟨solvedGrid, solvedGrid2, twoSol_completions⟩⟩

/-- Claim C5: on a board with valid givens and without cancellation
`BacktrackingSolver.Unique` returns true if and only if the board has exactly one valid
completion. -/
theorem bt_unique_iff (tick : Nat) (b : Board) (hb : ValidGivens b.Values) :
    ∃ res, BacktrackingSolver.Unique none tick b = some res ∧ res.err = none ∧
      (res.unique = true ↔ ∃! h, IsCompletion b.Values h) := by
  obtain ⟨res, hrun, herr, hiff⟩ := bt_unique_exact tick b hb
  exact ⟨res, hrun, herr, hiff.trans (ncard_eq_one_iff_existsUnique b.Values)⟩

theorem bt_unique_iff_witness :
    ValidGivens twoSolGrid ∧
    ∃ res, BacktrackingSolver.Unique none 0 { Values := twoSolGrid, Fixed := Mask.zero } =
        some res ∧ res.unique = false := by
  obtain ⟨res, hrun, _, hiff⟩ := bt_unique_iff 0 { Values := twoSolGrid, Fixed := Mask.zero }
    twoSol_valid
  refine ⟨twoSol_valid, res, hrun, ?_⟩
  rw [← Bool.not_eq_true]
  intro ht
  obtain ⟨h, _, huniq⟩ := hiff.mp ht
  exact twoSol_completions.1
    ((huniq _ twoSol_completions.2.1).trans (huniq _ twoSol_completions.2.2).symm)

/-- Claim C6, at the input where it fails: on a board with valid givens and two
completions, with the context seen cancelled from its sixth poll on,
`BacktrackingSolver.Unique` returns true. The search has counted one completion when it is
cancelled, and the verdict `count == 1` does not look at the cancellation. -/
theorem bt_unique_cancelled_true :
    (BacktrackingSolver.Unique (some 5) 0 { Values := twoSolGrid, Fixed := Mask.zero }).map
        (fun r => r.unique) = some true ∧
    ValidGivens twoSolGrid ∧
    ∃ h1 h2, h1 ≠ h2 ∧ IsCompletion twoSolGrid h1 ∧ IsCompletion twoSolGrid h2 :=
  ⟨by decide, twoSol_valid, solvedGrid, solvedGrid2, twoSol_completions⟩

/-- Claim C7: on a board with valid givens and without cancellation `DLXSolver.Solve`
returns an error, and so no board, if and only if the board has no valid completion. -/
theorem dlx_solve_error_iff (tick : Nat) (b : Board) (hb : ValidGivens b.Values) :
    ∃ res, DLXSolver.Solve none tick b = some res ∧
      ((∃ e, res.board = .error e) ↔ ¬ ∃ h, IsCompletion b.Values h) := by
  obtain ⟨res, hrun, _, hiff⟩ := dlx_solve_run none tick b hb
  exact ⟨res, hrun, (hiff rfl).trans (completions_eq_empty_iff b.Values)⟩

theorem dlx_solve_error_iff_witness :
    ValidGivens twoSolGrid ∧
    ∃ res out, DLXSolver.Solve none 0 { Values := twoSolGrid, Fixed := Mask.zero } = some res ∧
      res.board = .ok out := by
  obtain ⟨res, hrun, hiff⟩ := dlx_solve_error_iff 0 { Values := twoSolGrid, Fixed := Mask.zero }
    twoSol_valid
  refine ⟨twoSol_valid, ?_⟩
  cases hb : res.board with
  | error e => exact absurd ⟨solvedGrid, twoSol_completions.2.1⟩ (hiff.mp ⟨e, hb⟩)
  | ok out => exact ⟨res, out, hrun, hb⟩

/-- Claim C8: on a board with valid givens and without cancellation
`BacktrackingSolver.Solve` returns an error, and so no board, if and only if the board has
no valid completion. -/
theorem bt_solve_error_iff (tick : Nat) (b : Board) (hb : ValidGivens b.Values) :
    ∃ res, BacktrackingSolver.Solve none tick b = some res ∧
      ((∃ e, res.board = .error e) ↔ ¬ ∃ h, IsCompletion b.Values h) := by
  obtain ⟨res, hrun, hiff, _⟩ := bt_solve_exact tick b hb
  exact ⟨res, hrun, hiff.trans (completions_eq_empty_iff b.Values)⟩

theorem bt_solve_error_iff_witness :
    ValidGivens twoSolGrid ∧
    ∃ res out, BacktrackingSolver.Solve none 0 { Values := twoSolGrid, Fixed := Mask.zero } =
        some res ∧ res.board = .ok out := by
  obtain ⟨res, hrun, hiff⟩ := bt_solve_error_iff 0 { Values := twoSolGrid, Fixed := Mask.zero }
    twoSol_valid
  refine ⟨twoSol_valid, ?_⟩
  cases hb : res.board with
  | error e => exact absurd ⟨solvedGrid, twoSol_completions.2.1⟩ (hiff.mp ⟨e, hb⟩)
  | ok out => exact ⟨res, out, hrun, hb⟩

end Sudoku

namespace Sudoku

/-! ## The generator -/

/-- Claim C9: for every seed, tier and deadline behaviour, when the context is never
cancelled and the solver of the generator is `DLXSolver` or `BacktrackingSolver`,
`Generate` returns a puzzle whose board has exactly one valid completion, and running
`Unique` again on that board returns true. -/
theorem generate_unique (g : UniqueGenerator) (env : GenEnv) (seed : Int) (diff : Difficulty)
    (hctx : env.ctx = none)
    (hsv : g.Solver = NewDLXSolver ∨ g.Solver = NewBacktrackingSolver) :
    ∃ res p, g.Generate env seed diff = some res ∧ res.puzzle = .ok p ∧
      (∃! h, IsCompletion p.Board.Values h) ∧
      ∀ tick, ∃ u, g.Solver.Unique none tick p.Board = some u ∧ u.unique = true := by
  have hex : ExactUnique g.Solver := by
    rcases hsv with h | h
    · rw [h]; exact dlx_exactUnique
    · rw [h]; exact bt_exactUnique
  have hret : UniqueReturns g.Solver := by
    rcases hsv with h | h
    · rw [h]; exact dlx_uniqueReturns
    · rw [h]; exact bt_uniqueReturns
  obtain ⟨res, p, hrun, hok⟩ := generate_none g env seed diff hret hctx
  obtain ⟨hv, hn⟩ := generate_unique_of_exact g env seed diff res p hctx hex hrun hok
  refine ⟨res, p, hrun, hok, (ncard_eq_one_iff_existsUnique _).mp hn, fun tick => ?_⟩
  obtain ⟨u, hu, hiff⟩ := hex tick p.Board hv
  exact ⟨u, hu, hiff.mpr hn⟩

theorem generate_unique_witness :
    ∃ res p, UniqueGenerator.Generate { Solver := NewDLXSolver } envPatient 0 Easy = some res ∧
      res.puzzle = .ok p ∧ (∃! h, IsCompletion p.Board.Values h) ∧
      ∀ tick, ∃ u, DLXSolver.Unique none tick p.Board = some u ∧ u.unique = true :=
  generate_unique { Solver := NewDLXSolver } envPatient 0 Easy rfl (Or.inl rfl)

/-- Claim C10: for every seed, tier, solver, deadline and cancellation behaviour, the
number of non-empty cells of a board that `Generate` returns without error is at least
`targetGivens` of the tier and at most 81, hence between 17 and 81. -/
theorem generate_givens_bounds (g : UniqueGenerator) (env : GenEnv) (seed : Int)
    (diff : Difficulty) (res : GenResult) (p : Puzzle)
    (hrun : g.Generate env seed diff = some res) (hok : res.puzzle = .ok p) :
    targetGivens diff ≤ countGivens p.Board.Values ∧ countGivens p.Board.Values ≤ 81 ∧
      17 ≤ countGivens p.Board.Values := by
  obtain ⟨fs, s', hfill, hcarve, hval, _⟩ := generate_ok g env seed diff res p hrun hok
  obtain ⟨hfull, _⟩ := fillRandom_ok _ _ _ fs hfill
  have h1 := carve_count g env _ _ _ _ _ hcarve (by
    dsimp only
    rw [countGivens_of_full _ hfull]
    exact (targetGivens_le diff).2)
  rw [hval]
  have := targetGivens_le diff
  exact ⟨h1, countGivens_le _, by omega⟩

theorem generate_givens_bounds_witness :
    ∃ res p, UniqueGenerator.Generate { Solver := NewBacktrackingSolver } envPatient 0 Hard =
        some res ∧ res.puzzle = .ok p ∧
      targetGivens Hard ≤ countGivens p.Board.Values ∧ countGivens p.Board.Values ≤ 81 ∧
      17 ≤ countGivens p.Board.Values := by
  obtain ⟨res, p, hrun, hok⟩ := generate_none { Solver := NewBacktrackingSolver } envPatient 0
    Hard bt_uniqueReturns rfl
  exact ⟨res, p, hrun, hok,
    generate_givens_bounds { Solver := NewBacktrackingSolver } envPatient 0 Hard res p hrun hok⟩

/-- Claim C11, as stated, fails: two calls of `Generate` with the same seed, tier, solver
and context return different boards when the deadline has passed at the start of the
carving loop in one call and is never reached in the other. -/
theorem generate_depends_on_clock :
    ∃ r1 r2 p1 p2,
      UniqueGenerator.Generate { Solver := NewBacktrackingSolver } envExpired 0 Easy = some r1 ∧
      UniqueGenerator.Generate { Solver := NewBacktrackingSolver } envPatient 0 Easy = some r2 ∧
      r1.puzzle = .ok p1 ∧ r2.puzzle = .ok p2 ∧ p1.Board.Values ≠ p2.Board.Values := by
  obtain ⟨r1, p1, hrun1, hok1⟩ := generate_none { Solver := NewBacktrackingSolver } envExpired 0
    Easy bt_uniqueReturns rfl
  obtain ⟨r2, p2, hrun2, hok2⟩ := generate_none { Solver := NewBacktrackingSolver } envPatient 0
    Easy bt_uniqueReturns rfl
  refine ⟨r1, r2, p1, p2, hrun1, hrun2, hok1, hok2, ?_⟩
  obtain ⟨fs1, s1, hfill1, hcarve1, hval1, _⟩ := generate_ok _ _ _ _ r1 p1 hrun1 hok1
  obtain ⟨fs2, s2, hfill2, hcarve2, hval2, _⟩ := generate_ok _ _ _ _ r2 p2 hrun2 hok2
  have hfs : fs1 = fs2 := by
    have e : fillRandom envExpired.ctx (envExpired.rng 0) 0 Grid.zero =
        fillRandom envPatient.ctx (envPatient.rng 0) 0 Grid.zero := rfl
    rw [e, hfill2] at hfill1
    simp only [Option.some.injEq, Prod.mk.injEq, true_and] at hfill1
    exact hfill1.symm
  subst hfs
  obtain ⟨hfull, hvalid⟩ := fillRandom_ok _ _ _ fs1 hfill1
  -- the first call keeps the full grid
  rw [carve_expired _ _ _ _ _ _ rfl] at hcarve1
  simp only [Option.some.injEq] at hcarve1
  have hp1 : p1.Board.Values = fs1.grid := by rw [hval1, ← hcarve1]
  -- the second call blanks the cell of the first position
  have hlen := positions_length (envPatient.rng 0) fs1.shuffles
  cases hps : (envPatient.rng 0).shuffle fs1.shuffles (List.range 81) with
  | nil => rw [hps] at hlen; simp at hlen
  | cons pos rest =>
    have hpos : pos < 81 := by
      have := (shuffle_spec (envPatient.rng 0) fs1.shuffles (List.range 81) (by simp)).2 pos
        (by rw [hps]; exact List.mem_cons_self _ _)
      exact List.mem_range.mp this
    obtain ⟨r, hr⟩ : ∃ r : Fin 9, r.val = pos / 9 := ⟨⟨pos / 9, by omega⟩, rfl⟩
    obtain ⟨c, hc⟩ : ∃ c : Fin 9, c.val = pos % 9 := ⟨⟨pos % 9, Nat.mod_lt _ (by omega)⟩, rfl⟩
    rw [hps] at hcarve2
    have hcount : ¬ countGivens fs1.grid ≤ targetGivens Easy := by
      rw [countGivens_of_full _ hfull]
      decide
    have hne : ¬ fs1.grid.get (pos / 9) (pos % 9) = 0 := by
      rw [← hr, ← hc, Grid.get_fin]
      exact hfull r c
    obtain ⟨u, hu, _, hiff⟩ := bt_unique_exact fs1.tick
      { Values := fs1.grid.set (pos / 9) (pos % 9) 0, Fixed := Mask.zero }
      (validGivens_set_zero hvalid _ _)
    have hut : u.unique = true := by
      apply hiff.mpr
      dsimp only
      rw [← hr, ← hc, completions_hole hvalid hfull r c, Set.ncard_singleton]
    have hexp : envPatient.expired 0 = false := rfl
    have hsolver : NewBacktrackingSolver.Unique envPatient.ctx fs1.tick
        { Values := fs1.grid.set (pos / 9) (pos % 9) 0, Fixed := Mask.zero } = some u := hu
    simp only [carve, hexp, Bool.false_eq_true, if_false, hcount, hne, hsolver, hut,
      Bool.not_true] at hcarve2
    have hzero := carve_zero _ _ _ r c _ _ _ _ hcarve2 (by
      dsimp only
      rw [← hr, ← hc, Grid.set_same])
    intro heq
    have h1 : p1.Board.Values r c ≠ 0 := by rw [hp1]; exact hfull r c
    apply h1
    rw [heq, hval2]
    exact hzero

/-- Claim C12: `Generate` terminates. The recursion of `fillRandom` on the empty grid ends
for every random sequence and every context; the carving loop of `Generate` makes at most
81 uniqueness checks; a check by `BacktrackingSolver.Unique` ends on every board and a
check by `DLXSolver.Unique` on every board with valid givens, as the boards of the carving
loop are; and so `Generate` returns, with either solver. -/
theorem generate_terminates :
    (∀ (ctx : Ctx) (rng : Rng) (tick : Nat),
      ∃ b fs, fillRandom ctx rng tick Grid.zero = some (b, fs)) ∧
    (∀ (g : UniqueGenerator) (env : GenEnv) (seed : Int) (diff : Difficulty) (fs : FillState)
      (s' : CarveState),
      carve g env (targetGivens diff) ((env.rng seed).shuffle fs.shuffles (List.range 81)) 0
        { puz := fs.grid, fixed := fun _ _ => true, nodes := 0, tick := fs.tick,
          checks := 0 } = some s' → s'.checks ≤ 81) ∧
    (∀ (ctx : Ctx) (tick : Nat) (b : Board),
      ∃ res, BacktrackingSolver.Unique ctx tick b = some res) ∧
    (∀ (ctx : Ctx) (tick : Nat) (b : Board), ValidGivens b.Values →
      ∃ res, DLXSolver.Unique ctx tick b = some res) ∧
    (∀ (g : UniqueGenerator) (env : GenEnv) (seed : Int) (diff : Difficulty),
      (g.Solver = NewDLXSolver ∨ g.Solver = NewBacktrackingSolver) →
      ∃ res, g.Generate env seed diff = some res) := by
  refine ⟨fun ctx rng tick => fillRandom_total ctx rng tick Grid.zero, ?_, ?_, ?_, ?_⟩
  · intro g env seed diff fs s' h
    have := carve_checks g env _ _ _ _ _ h
    rw [positions_length] at this
    simpa using this
  · intro ctx tick b
    obtain ⟨_, _, _, _, h⟩ := bt_unique_run ctx tick b
    exact ⟨_, h⟩
  · intro ctx tick b hb
    obtain ⟨res, h, _⟩ := dlx_unique_run ctx tick b hb
    exact ⟨res, h⟩
  · intro g env seed diff hsv
    have hret : UniqueReturns g.Solver := by
      rcases hsv with h | h
      · rw [h]; exact dlx_uniqueReturns
      · rw [h]; exact bt_uniqueReturns
    obtain ⟨res, _, _, _, h, _⟩ := generate_total g env seed diff hret
    exact ⟨res, h⟩

end Sudoku

namespace Sudoku

/-! ## The matrix, the error values and the board invariant -/

/-- Claim C13: in the matrix that applying the givens of a board with valid givens to
`newDLX` produces, `cover` of any active column followed at once by `uncover` of that
column gives back the very same state: all sizes, active flags, `activeCnt` and links. -/
theorem cover_uncover_restores (tick : Nat) (b : Board) (hb : ValidGivens b.Values) :
    ∃ d, applyGivens loopFuel b.Values cells { newDLX with tick := tick } = some (.ok d) ∧
      ∀ c, c < 324 → d.active.get c = true →
        ∃ d', cover loopFuel c d = some d' ∧ d'.active.get c = false ∧
          d'.activeCnt = d.activeCnt - 1 ∧ uncover loopFuel c d' = some d := by
  obtain ⟨d, S, _, _, hrun, hrep, _, _, _, _, _⟩ := dlx_run none tick 1 b hb
  refine ⟨d, hrun, fun c hc hact => ?_⟩
  have hcS : c ∉ S := by
    rw [hrep.active c hc] at hact
    simpa using hact
  obtain ⟨d', h1, h2, _, h4⟩ := cover_rep hrep hc hcS (by simp [loopFuel] : 730 ≤ loopFuel)
  refine ⟨d', h1, ?_, ?_, h4⟩
  · rw [h2.active c hc]
    simp
  · rw [h2.activeCnt, hrep.activeCnt]
    simp only [List.length_append, List.length_singleton]
    push_cast
    omega

theorem cover_uncover_restores_witness :
    ValidGivens twoSolGrid ∧
    ∃ d, applyGivens loopFuel twoSolGrid cells { newDLX with tick := 0 } = some (.ok d) ∧
      ∀ c, c < 324 → d.active.get c = true →
        ∃ d', cover loopFuel c d = some d' ∧ d'.active.get c = false ∧
          d'.activeCnt = d.activeCnt - 1 ∧ uncover loopFuel c d' = some d :=
  ⟨twoSol_valid,
    cover_uncover_restores 0 { Values := twoSolGrid, Fixed := Mask.zero } twoSol_valid⟩

/-- Claim C14: `targetGivens` maps Easy to 40, Medium to 34, Hard to 28 and Expert to 24,
so it is strictly decreasing along Easy < Medium < Hard < Expert; every other value of
`Difficulty` maps to 24 as well. -/
theorem targetGivens_table :
    targetGivens Easy = 40 ∧ targetGivens Medium = 34 ∧ targetGivens Hard = 28 ∧
      targetGivens Expert = 24 ∧
    Easy < Medium ∧ Medium < Hard ∧ Hard < Expert ∧
    targetGivens Easy > targetGivens Medium ∧ targetGivens Medium > targetGivens Hard ∧
      targetGivens Hard > targetGivens Expert ∧
    ∀ d : Difficulty, d ≠ Easy → d ≠ Medium → d ≠ Hard → targetGivens d = 24 := by
  refine ⟨by decide, by decide, by decide, by decide, by decide, by decide, by decide,
    by decide, by decide, by decide, fun d h1 h2 h3 => ?_⟩
  simp only [targetGivens, h1, h2, h3, if_false]

/-- Claim C15: on every board with a cell value above 9, `DLXSolver.Solve` returns an
error and no board, and `DLXSolver.Unique` returns false with an error, both with
`Nodes = 0`: the search is never started. -/
theorem dlx_rejects_bad_digit (ctx : Ctx) (tick : Nat) (b : Board)
    (hbad : ∃ r c : Fin 9, 9 < b.Values r c) :
    (∃ res e, DLXSolver.Solve ctx tick b = some res ∧ res.board = .error e ∧
      res.stats.Nodes = 0) ∧
    (∃ res e, DLXSolver.Unique ctx tick b = some res ∧ res.unique = false ∧
      res.err = some e ∧ res.stats.Nodes = 0) := by
  obtain ⟨r, c, h⟩ := hbad
  obtain ⟨⟨e1, h1⟩, ⟨e2, h2⟩⟩ := dlx_invalid ctx tick b r c h
  exact ⟨⟨_, e1, h1, rfl, rfl⟩, ⟨_, e2, h2, rfl, rfl, rfl⟩⟩

theorem dlx_rejects_bad_digit_witness :
    (∃ r c : Fin 9, 9 < badDigitGrid r c) ∧
    (∃ res e, DLXSolver.Solve (some 3) 0 { Values := badDigitGrid, Fixed := Mask.zero } =
        some res ∧ res.board = .error e ∧ res.stats.Nodes = 0) ∧
    (∃ res e, DLXSolver.Unique (some 3) 0 { Values := badDigitGrid, Fixed := Mask.zero } =
        some res ∧ res.unique = false ∧ res.err = some e ∧ res.stats.Nodes = 0) :=
  ⟨⟨0, 0, by decide⟩,
    dlx_rejects_bad_digit (some 3) 0 { Values := badDigitGrid, Fixed := Mask.zero }
      ⟨0, 0, by decide⟩⟩

/-- Claim C16, at the input where it fails: on the solved board with the value 10 in its
first cell `BacktrackingSolver.Solve` returns no error, and the board it returns still
holds the 10. The solver never looks at the range of the givens. -/
theorem bt_solve_accepts_bad_digit :
    badDigitGrid 0 0 = 10 ∧
    (BacktrackingSolver.Solve none 0 { Values := badDigitGrid, Fixed := Mask.zero }).map
      (fun r => (r.err, r.board.toOption.map (fun out => out.Values 0 0))) =
        some (none, some 10) := by
  constructor <;> decide

/-- Claim C17, as stated, fails: on a board with valid givens and no completion,
`BacktrackingSolver.Solve` returns the same error when the context is cancelled before the
search starts and when the search is exhausted without cancellation. -/
theorem solve_errors_coincide :
    (BacktrackingSolver.Solve (some 0) 0 { Values := deadGrid, Fixed := Mask.zero }).map
        SolveResult.err = some (some Err.unsolvableOrCanceled) ∧
    (BacktrackingSolver.Solve none 0 { Values := deadGrid, Fixed := Mask.zero }).map
        SolveResult.err = some (some Err.unsolvableOrCanceled) := by
  constructor <;> decide

end Sudoku

namespace Sudoku

theorem decodeRow_rowIndex {r c v : Nat} (hc : c < 9) (h1 : 1 ≤ v) (h9 : v ≤ 9) :
    decodeRow (rowIndex r c v) = (r, c, v) := by
  simp only [decodeRow, rowIndex, nSize_eq, Prod.mk.injEq]
  omega

theorem rcol_rowIndex {r c v : Nat} (hr : r < 9) (hc : c < 9) (h1 : 1 ≤ v) (h9 : v ≤ 9)
    (k : Nat) : rcol (rowIndex r c v) k = (rowColumns r c v).getD k 0 := by
  simp only [rcol, decodeRow_rowIndex hc h1 h9]

theorem mem_rowColumns_iff {r c v : Nat} (hr : r < 9) (hc : c < 9) (h1 : 1 ≤ v) (h9 : v ≤ 9)
    {col : Nat} (hcol : col < 324) :
    col ∈ rowColumns r c v ↔ rcol (rowIndex r c v) (col / 81) = col := by
  have hrow := rowIndex_lt hr hc h1 h9
  have e : rowColumns r c v = [rcol (rowIndex r c v) 0, rcol (rowIndex r c v) 1,
      rcol (rowIndex r c v) 2, rcol (rowIndex r c v) 3] := by
    have := rowColumns_decodeRow (rowIndex r c v)
    rw [decodeRow_rowIndex hc h1 h9] at this
    exact this
  rw [e]
  simp only [List.mem_cons, List.mem_nil_iff, or_false]
  constructor
  · rintro (h | h | h | h)
    · rw [h, rcol_div hrow (by omega)]
    · rw [h, rcol_div hrow (by omega)]
    · rw [h, rcol_div hrow (by omega)]
    · rw [h, rcol_div hrow (by omega)]
  · intro h
    have h4 : col / 81 = 0 ∨ col / 81 = 1 ∨ col / 81 = 2 ∨ col / 81 = 3 := by omega
    rcases h4 with e | e | e | e <;> rw [e] at h
    · exact Or.inl h.symm
    · exact Or.inr (Or.inl h.symm)
    · exact Or.inr (Or.inr (Or.inl h.symm))
    · exact Or.inr (Or.inr (Or.inr h.symm))

/-- Claim C18: in the matrix of `newDLX` every candidate `(r, c, v)` has four nodes in a
ring, one in each of the four columns that `rowColumns` returns, which lie in the ranges
0..80, 81..161, 162..242 and 243..323; every column links exactly the nine candidate rows
that have it among their columns, has size 9 and is active; and `activeCnt` is 324. -/
theorem newDLX_shape :
    (∀ r c v, r < 9 → c < 9 → 1 ≤ v → v ≤ 9 →
      newDLX.rowHead.get (rowIndex r c v) = some (nodeAddr (rowIndex r c v) 0) ∧
      ∀ k, k < 4 →
        newDLX.col.get (nodeAddr (rowIndex r c v) k) = (rowColumns r c v).getD k 0 ∧
        newDLX.rowIdx.get (nodeAddr (rowIndex r c v) k) = rowIndex r c v ∧
        newDLX.right.get (nodeAddr (rowIndex r c v) k) =
          nodeAddr (rowIndex r c v) ((k + 1) % 4) ∧
        81 * k ≤ (rowColumns r c v).getD k 0 ∧ (rowColumns r c v).getD k 0 < 81 * (k + 1)) ∧
    (∀ col, col < 324 →
      newDLX.size.get col = 9 ∧ newDLX.active.get col = true ∧
      ∃ l : List Nat, l.length = 9 ∧ l.Nodup ∧ (∀ row ∈ l, row < 729) ∧
        PtrChain newDLX.down.get col col (l.map (fun row => nodeAddr row (col / 81))) ∧
        ∀ r c v, r < 9 → c < 9 → 1 ≤ v → v ≤ 9 →
          (rowIndex r c v ∈ l ↔ col ∈ rowColumns r c v)) ∧
    newDLX.activeCnt = 324 := by
  have hinv := newDLX_inv
  have hs : StaticUpTo newDLX 729 := hinv.static
  refine ⟨fun r c v hr hc h1 h9 => ?_, fun col hcol => ?_, hinv.activeCnt⟩
  · have hrow := rowIndex_lt hr hc h1 h9
    refine ⟨hs.rowHead _ hrow, fun k hk => ?_⟩
    have hrange := rcol_range hrow hk
    rw [rcol_rowIndex hr hc h1 h9] at hrange
    refine ⟨?_, hs.rowIdx _ k hrow hk, hs.right _ k hrow hk, hrange.1, hrange.2⟩
    rw [hs.col _ k hrow hk, rcol_rowIndex hr hc h1 h9]
  · obtain ⟨l, hl, hcolOK⟩ : ∃ l,
        l = (List.range 729).filter (fun row => decide (rcol row (col / 81) = col)) ∧
          ColOK newDLX col l := ⟨_, rfl, hinv.vert col hcol⟩
    have hlen : l.length = 9 := by rw [hl]; exact rows_length hcol
    have hmem : ∀ row, row ∈ l ↔ row < 729 ∧ rcol row (col / 81) = col := by
      intro row
      rw [hl]
      simp only [List.mem_filter, List.mem_range, decide_eq_true_eq]
    have hchain : PtrChain newDLX.down.get col col (l.map (nodeOf col)) := hcolOK.down
    refine ⟨?_, hinv.active col hcol, l, hlen, hcolOK.nodup, fun row hrow => ((hmem row).mp hrow).1,
      hchain, fun r c v hr hc h1 h9 => ?_⟩
    · rw [hcolOK.size, hlen]
      rfl
    · rw [mem_rowColumns_iff hr hc h1 h9 hcol, hmem]
      exact ⟨fun h => h.2, fun h => ⟨rowIndex_lt hr hc h1 h9, h⟩⟩

/-- Claim C19: when every uniqueness check returns, whatever its verdict or error,
`Generate` returns; it returns an error if and only if `fillRandom` returned false, and
that error is the cancellation error; once `fillRandom` has built the full grid,
`Generate` returns a puzzle, whatever the deadline and the cancellation do during
carving. -/
theorem generate_error_iff (g : UniqueGenerator) (env : GenEnv) (seed : Int) (diff : Difficulty)
    (hsv : UniqueReturns g.Solver) :
    ∃ res b fs, fillRandom env.ctx (env.rng seed) 0 Grid.zero = some (b, fs) ∧
      g.Generate env seed diff = some res ∧
      ((∃ e, res.puzzle = .error e) ↔ b = false) ∧
      (∀ e, res.puzzle = .error e → e = Err.contextCanceled) ∧
      (b = true → ∃ p, res.puzzle = .ok p) := by
  obtain ⟨res, b, fs, hfill, hrun, hf, ht⟩ := generate_total g env seed diff hsv
  refine ⟨res, b, fs, hfill, hrun, ?_, ?_, ht⟩
  · cases b with
    | false => exact ⟨fun _ => rfl, fun _ => ⟨_, hf rfl⟩⟩
    | true =>
      obtain ⟨p, hp⟩ := ht rfl
      constructor
      · rintro ⟨e, he⟩
        rw [hp] at he
        simp at he
      · intro h
        simp at h
  · intro e he
    cases b with
    | false =>
      rw [hf rfl] at he
      simp only [Except.error.injEq] at he
      exact he.symm
    | true =>
      obtain ⟨p, hp⟩ := ht rfl
      rw [hp] at he
      simp at he

/-- A context that is seen cancelled from its poll number 40 on. -/
def envCancelled : GenEnv :=
  { rng := fun _ => { swaps := fun _ => [] }, ctx := some 40, expired := fun _ => false }

theorem generate_error_iff_witness :
    ∃ res b fs, fillRandom (some 40) (envCancelled.rng 5) 0 Grid.zero = some (b, fs) ∧
      UniqueGenerator.Generate { Solver := NewBacktrackingSolver } envCancelled 5 Expert =
        some res ∧
      ((∃ e, res.puzzle = .error e) ↔ b = false) ∧
      (∀ e, res.puzzle = .error e → e = Err.contextCanceled) ∧
      (b = true → ∃ p, res.puzzle = .ok p) :=
  generate_error_iff { Solver := NewBacktrackingSolver } envCancelled 5 Expert bt_uniqueReturns

/-- Claim C20: the board that `Generate` returns satisfies the board invariant, for every
seed, tier, solver and deadline behaviour: the mask is true exactly at the non-empty
cells, every non-empty cell holds the digit of the full grid that `fillRandom` built, and
so no digit is repeated in a row, column or box among the givens. -/
theorem generate_board_invariant (g : UniqueGenerator) (env : GenEnv) (seed : Int)
    (diff : Difficulty) (res : GenResult) (p : Puzzle)
    (hrun : g.Generate env seed diff = some res) (hok : res.puzzle = .ok p) :
    ∃ fs, fillRandom env.ctx (env.rng seed) 0 Grid.zero = some (true, fs) ∧
      Full fs.grid ∧ ValidGivens fs.grid ∧
      (∀ r c, (p.Board.Fixed r c = true ↔ p.Board.Values r c ≠ 0) ∧
        (p.Board.Values r c ≠ 0 → p.Board.Values r c = fs.grid r c)) ∧
      ValidGivens p.Board.Values := by
  obtain ⟨fs, s', hfill, hcarve, hval, hfix⟩ := generate_ok g env seed diff res p hrun hok
  obtain ⟨hfull, hvalid⟩ := fillRandom_ok _ _ _ fs hfill
  have hinv := carve_inv g env _ fs.grid _ _ _ _ hcarve (boardInv_init fs.grid hfull)
  rw [← hval, ← hfix] at hinv
  exact ⟨fs, hfill, hfull, hvalid, hinv, boardInv_valid hinv hvalid⟩

theorem generate_board_invariant_witness :
    ∃ res p fs,
      UniqueGenerator.Generate { Solver := NewDLXSolver } envPatient 3 Medium = some res ∧
      res.puzzle = .ok p ∧
      fillRandom envPatient.ctx (envPatient.rng 3) 0 Grid.zero = some (true, fs) ∧
      Full fs.grid ∧ ValidGivens fs.grid ∧
      (∀ r c, (p.Board.Fixed r c = true ↔ p.Board.Values r c ≠ 0) ∧
        (p.Board.Values r c ≠ 0 → p.Board.Values r c = fs.grid r c)) ∧
      ValidGivens p.Board.Values := by
  obtain ⟨res, p, hrun, hok⟩ := generate_none { Solver := NewDLXSolver } envPatient 3 Medium
    dlx_uniqueReturns rfl
  obtain ⟨fs, h⟩ := generate_board_invariant { Solver := NewDLXSolver } envPatient 3 Medium res p
    hrun hok
  exact ⟨res, p, fs, hrun, hok, h⟩

end Sudoku

namespace Sudoku

/-! ## Candidate rows and their columns -/

/-- C29: two candidates with coordinates in 0..8 and digits in 1..9 share a column of
`rowColumns` exactly when they conflict (same cell, or same digit in the same row, the same
column or the same box); `rowIndex` maps the candidates into 0..728 with `decodeRow` as its
inverse on both sides. -/
theorem rowColumns_share_iff_conflict :
    (∀ r c v r' c' v' : Nat, r < 9 → c < 9 → r' < 9 → c' < 9 → 1 ≤ v → v ≤ 9 → 1 ≤ v' →
      v' ≤ 9 →
      ((∃ col, col ∈ rowColumns r c v ∧ col ∈ rowColumns r' c' v') ↔
        ((r = r' ∧ c = c') ∨
          (v = v' ∧ (r = r' ∨ c = c' ∨ (r / 3 = r' / 3 ∧ c / 3 = c' / 3)))))) ∧
    (∀ r c v : Nat, r < 9 → c < 9 → 1 ≤ v → v ≤ 9 →
      rowIndex r c v < 729 ∧ decodeRow (rowIndex r c v) = (r, c, v)) ∧
    (∀ row : Nat, row < 729 →
      (decodeRow row).1 < 9 ∧ (decodeRow row).2.1 < 9 ∧ 1 ≤ (decodeRow row).2.2 ∧
        (decodeRow row).2.2 ≤ 9 ∧
        rowIndex (decodeRow row).1 (decodeRow row).2.1 (decodeRow row).2.2 = row) := by
  refine ⟨?_, ?_, ?_⟩
  · intro r c v r' c' v' hr hc hr' hc' h1 h9 h1' h9'
    simp only [rowColumns, nSize_eq, colCell_eq, colRowNum_eq, colColNum_eq, colBoxNum_eq,
      List.mem_cons, List.mem_singleton, List.not_mem_nil, or_false]
    constructor
    · rintro ⟨col, hA, hB⟩
      rcases hA with rfl | rfl | rfl | rfl <;> rcases hB with h | h | h | h <;> omega
    · rintro (⟨rfl, rfl⟩ | ⟨rfl, rfl | rfl | ⟨h3, h4⟩⟩)
      · exact ⟨0 + r * 9 + c, Or.inl rfl, Or.inl rfl⟩
      · exact ⟨81 + r * 9 + (v - 1), Or.inr (Or.inl rfl), Or.inr (Or.inl rfl)⟩
      · exact ⟨162 + c * 9 + (v - 1), Or.inr (Or.inr (Or.inl rfl)), Or.inr (Or.inr (Or.inl rfl))⟩
      · refine ⟨243 + (r / 3 * 3 + c / 3) * 9 + (v - 1), Or.inr (Or.inr (Or.inr rfl)),
          Or.inr (Or.inr (Or.inr ?_))⟩
        rw [h3, h4]
  · intro r c v hr hc h1 h9
    exact ⟨rowIndex_lt hr hc h1 h9, decodeRow_rowIndex hc h1 h9⟩
  · intro row hrow
    refine ⟨?_, ?_, ?_, ?_, rowIndex_decodeRow⟩
    · simp only [decodeRow, nSize_eq]; omega
    · simp only [decodeRow, nSize_eq]; omega
    · simp only [decodeRow, nSize_eq]; omega
    · simp only [decodeRow, nSize_eq]; omega

end Sudoku

namespace Sudoku

/-! ## The generator: what carving leaves -/

/-- The carving loop only clears cells: a cell that is non-empty at the end holds the
digit it held at the start. -/
theorem carve_sub (g : UniqueGenerator) (env : GenEnv) (target : Nat) :
    ∀ (ps : List Nat) (i : Nat) (s s' : CarveState),
      carve g env target ps i s = some s' →
        ∀ a b : Fin 9, s'.puz a b ≠ 0 → s'.puz a b = s.puz a b := by
  intro ps
  induction ps with
  | nil =>
    intro i s s' h a b _
    simp only [carve, Option.some.injEq] at h
    rw [← h]
  | cons pos rest ih =>
    intro i s s' h a b hne
    simp only [carve] at h
    split at h
    · simp only [Option.some.injEq] at h; rw [← h]
    · split at h
      · simp only [Option.some.injEq] at h; rw [← h]
      · split at h
        · exact ih _ _ _ h a b hne
        · split at h
          · exact absurd h (by simp)
          · split at h
            · have := ih _ _ _ h a b hne
              dsimp only at this
              rw [Grid.set_twice, Grid.set_get_cell] at this
              exact this
            · have := ih _ _ _ h a b hne
              dsimp only at this
              rw [this]
              unfold Grid.set
              split
              · rename_i hab
                rw [this] at hne
                unfold Grid.set at hne
                rw [if_pos hab] at hne
                exact absurd rfl hne
              · rfl

theorem countGivens_mono {g h : Grid} (hsub : ∀ a b : Fin 9, g a b ≠ 0 → h a b ≠ 0) :
    countGivens g ≤ countGivens h := by
  rw [countGivens_eq_countP, countGivens_eq_countP]
  apply List.countP_mono_left
  intro p hp
  rw [mem_cells] at hp
  simp only [decide_eq_true_eq]
  rw [Grid.get_of_lt g hp.1 hp.2, Grid.get_of_lt h hp.1 hp.2]
  exact hsub _ _

theorem carve_count_le (g : UniqueGenerator) (env : GenEnv) (target : Nat) (ps : List Nat)
    (i : Nat) (s s' : CarveState) (h : carve g env target ps i s = some s') :
    countGivens s'.puz ≤ countGivens s.puz :=
  countGivens_mono (fun a b hne => by
    rw [← carve_sub g env target ps i s s' h a b hne]; exact hne)

/-- With a smaller target the carving loop, from the same state and with the same clock
readings, leaves a subset of the givens. -/
theorem carve_mono (g : UniqueGenerator) (env : GenEnv) {t1 t2 : Nat} (ht : t2 ≤ t1) :
    ∀ (ps : List Nat) (i : Nat) (s s1 s2 : CarveState),
      carve g env t1 ps i s = some s1 → carve g env t2 ps i s = some s2 →
        ∀ a b : Fin 9, s2.puz a b ≠ 0 → s2.puz a b = s1.puz a b := by
  intro ps
  induction ps with
  | nil =>
    intro i s s1 s2 h1 h2 a b _
    simp only [carve, Option.some.injEq] at h1 h2
    rw [← h1, ← h2]
  | cons pos rest ih =>
    intro i s s1 s2 h1 h2 a b hne
    by_cases hexp : env.expired i = true
    · rw [carve_expired _ _ _ _ _ _ hexp] at h1 h2
      simp only [Option.some.injEq] at h1 h2
      rw [← h1, ← h2]
    · by_cases hc1 : countGivens s.puz ≤ t1
      · have e1 : carve g env t1 (pos :: rest) i s = some s := by
          simp only [carve, if_neg hexp, if_pos hc1]
        rw [e1] at h1
        simp only [Option.some.injEq] at h1
        rw [← h1]
        exact carve_sub g env t2 _ _ _ _ h2 a b hne
      · have hc2 : ¬ countGivens s.puz ≤ t2 := by omega
        simp only [carve, if_neg hexp, if_neg hc1] at h1
        simp only [carve, if_neg hexp, if_neg hc2] at h2
        by_cases h0 : s.puz.get (pos / 9) (pos % 9) = 0
        · rw [if_pos h0] at h1 h2
          exact ih _ _ _ _ h1 h2 a b hne
        · rw [if_neg h0] at h1 h2
          cases hu : g.Solver.Unique env.ctx s.tick
              { Values := s.puz.set (pos / 9) (pos % 9) 0, Fixed := Mask.zero } with
          | none => rw [hu] at h1; exact absurd h1 (by simp)
          | some res =>
            rw [hu] at h1 h2
            dsimp only at h1 h2
            by_cases hq : (!res.unique) = true
            · rw [if_pos hq] at h1 h2
              exact ih _ _ _ _ h1 h2 a b hne
            · rw [if_neg hq] at h1 h2
              exact ih _ _ _ _ h1 h2 a b hne

/-- A grid with a completion and not exactly one has more than one. -/
theorem one_lt_ncard_completions {g h : Grid} (hh : h ∈ completions g)
    (hne : (completions g).ncard ≠ 1) : 1 < (completions g).ncard := by
  have hpos : 0 < (completions g).ncard :=
    (Set.ncard_pos (completions_finite g)).mpr ⟨h, hh⟩
  omega

theorem completions_mono {g g' : Grid} (hsub : ∀ a b : Fin 9, g' a b ≠ 0 → g' a b = g a b) :
    completions g ⊆ completions g' := by
  rintro h ⟨hs, he⟩
  refine ⟨hs, fun a b hne => ?_⟩
  have e := hsub a b hne
  rw [e]
  exact he a b (by rw [← e]; exact hne)

/-- When the carving loop, with an exact solver and without deadline or cancellation, ends
above its target, every given it leaves at one of the positions it walked is needed:
clearing it gives a board with more than one completion. -/
theorem carve_irreducible (g : UniqueGenerator) (env : GenEnv) (target : Nat)
    (hctx : env.ctx = none) (hexp : ∀ i, env.expired i = false) (hsv : ExactUnique g.Solver)
    (full : Grid) (hfull : Solved full) :
    ∀ (ps : List Nat) (i : Nat) (s s' : CarveState),
      carve g env target ps i s = some s' → BoardInv full s.puz s.fixed →
      target < countGivens s'.puz →
      ∀ pos ∈ ps, ∀ a b : Fin 9, a.val = pos / 9 → b.val = pos % 9 → s'.puz a b ≠ 0 →
        1 < (completions (s'.puz.set a.val b.val 0)).ncard := by
  intro ps
  induction ps with
  | nil => intro i s s' _ _ _ pos hpos; simp at hpos
  | cons p rest ih =>
    intro i s s' h hinv hmore pos hpos a b ha hb hne
    have hcnt := carve_count_le g env target _ _ _ _ h
    have hc : ¬ countGivens s.puz ≤ target := by omega
    have hsub := carve_sub g env target _ _ _ _ h
    simp only [carve, hexp i, Bool.false_eq_true, if_false, if_neg hc] at h
    by_cases h0 : s.puz.get (p / 9) (p % 9) = 0
    · rw [if_pos h0] at h
      rcases List.mem_cons.mp hpos with e | hin
      · exfalso
        subst e
        rw [← ha, ← hb, Grid.get_fin] at h0
        have := hsub a b hne
        rw [h0] at this
        exact hne this
      · exact ih _ _ _ h hinv hmore pos hin a b ha hb hne
    · rw [if_neg h0] at h
      have hv0 : ValidGivens (s.puz.set (p / 9) (p % 9) 0) :=
        validGivens_set_zero (boardInv_valid hinv hfull.validGivens) _ _
      obtain ⟨res, hres, hiff⟩ := hsv s.tick
        { Values := s.puz.set (p / 9) (p % 9) 0, Fixed := Mask.zero } hv0
      rw [hctx, hres] at h
      dsimp only at h
      by_cases hq : (!res.unique) = true
      · rw [if_pos hq] at h
        rw [Grid.set_twice, Grid.set_get_cell] at h
        have hinv1 : BoardInv full s.puz ((s.fixed.set (p / 9) (p % 9) false).set (p / 9)
            (p % 9) true) := by
          intro x y
          refine ⟨?_, (hinv x y).2⟩
          unfold Mask.set
          by_cases hxy : x.val = p / 9 ∧ y.val = p % 9
          · simp only [hxy, and_self, if_true, true_iff]
            rw [← hxy.1, ← hxy.2, Grid.get_fin] at h0
            exact h0
          · simp only [hxy, if_false]
            exact (hinv x y).1
        rcases List.mem_cons.mp hpos with e | hin
        · subst e
          have hsub1 := carve_sub g env target _ _ _ _ h
          dsimp only at hsub1
          have hn1 : (completions (s.puz.set (pos / 9) (pos % 9) 0)).ncard ≠ 1 := by
            intro hone
            have := hiff.mpr hone
            rw [this] at hq
            simp at hq
          have hmem : full ∈ completions (s.puz.set (pos / 9) (pos % 9) 0) := by
            refine ⟨hfull, fun x y hxy => ?_⟩
            unfold Grid.set at hxy ⊢
            split
            · rename_i hc'
              rw [if_pos hc'] at hxy
              exact absurd rfl hxy
            · rename_i hc'
              rw [if_neg hc'] at hxy
              exact ((hinv x y).2 hxy).symm
          have h2 := one_lt_ncard_completions hmem hn1
          have hmono : completions (s.puz.set (pos / 9) (pos % 9) 0) ⊆
              completions (s'.puz.set a.val b.val 0) := by
            apply completions_mono
            intro x y hxy
            rw [ha, hb]
            unfold Grid.set at hxy ⊢
            split
            · rfl
            · rename_i hc'
              rw [ha, hb, if_neg hc'] at hxy
              exact hsub1 x y hxy
          exact lt_of_lt_of_le h2 (Set.ncard_le_ncard hmono (completions_finite _))
        · exact ih _ _ _ h hinv1 hmore pos hin a b ha hb hne
      · rw [if_neg hq] at h
        rcases List.mem_cons.mp hpos with e | hin
        · exfalso
          subst e
          have hsub1 := carve_sub g env target _ _ _ _ h a b hne
          dsimp only at hsub1
          rw [hsub1] at hne
          unfold Grid.set at hne
          rw [if_pos ⟨ha, hb⟩] at hne
          exact hne rfl
        · exact ih _ _ _ h (boardInv_set_zero hinv _ _) hmore pos hin a b ha hb hne

/-- The carving loop ends when the solver is exact and the context never cancelled. -/
theorem carve_total_exact (g : UniqueGenerator) (env : GenEnv) (target : Nat)
    (hctx : env.ctx = none) (hsv : ExactUnique g.Solver) :
    ∀ (ps : List Nat) (i : Nat) (s : CarveState), ValidGivens s.puz →
      ∃ s', carve g env target ps i s = some s' := by
  intro ps
  induction ps with
  | nil => intro i s _; exact ⟨s, rfl⟩
  | cons pos rest ih =>
    intro i s hv
    simp only [carve]
    split
    · exact ⟨s, rfl⟩
    · split
      · exact ⟨s, rfl⟩
      · split
        · exact ih _ _ hv
        · have hv0 := validGivens_set_zero hv (pos / 9) (pos % 9)
          obtain ⟨res, hres, _⟩ := hsv s.tick
            { Values := s.puz.set (pos / 9) (pos % 9) 0, Fixed := Mask.zero } hv0
          rw [hctx, hres]
          dsimp only
          split
          · apply ih
            dsimp only
            rw [Grid.set_twice, Grid.set_get_cell]; exact hv
          · exact ih _ _ hv0

/-- With an exact solver and no cancellation `Generate` returns a puzzle. -/
theorem generate_none_exact (g : UniqueGenerator) (env : GenEnv) (seed : Int)
    (diff : Difficulty) (hctx : env.ctx = none) (hsv : ExactUnique g.Solver) :
    ∃ res p, g.Generate env seed diff = some res ∧ res.puzzle = .ok p := by
  obtain ⟨fs, hfill⟩ := fillRandom_none (env.rng seed) 0
  have hfill' : fillRandom env.ctx (env.rng seed) 0 Grid.zero = some (true, fs) := by
    rw [hctx]; exact hfill
  obtain ⟨_, hvalid⟩ := fillRandom_ok _ _ _ fs hfill'
  obtain ⟨s', hcarve⟩ := carve_total_exact g env (targetGivens diff) hctx hsv
    ((env.rng seed).shuffle fs.shuffles (List.range 81)) 0
    { puz := fs.grid, fixed := fun _ _ => true, nodes := 0, tick := fs.tick, checks := 0 }
    hvalid
  refine ⟨{ puzzle := .ok { Seed := seed, Difficulty := diff,
                            Board := { Values := s'.puz, Fixed := s'.fixed } },
            stats := { Nodes := s'.nodes } }, _, ?_, rfl⟩
  simp only [UniqueGenerator.Generate, hfill', hcarve]

end Sudoku

namespace Sudoku

/-! ## The generator across the tiers -/

/-- C30: for a fixed seed and solver whose uniqueness checks return, a context that is
never cancelled and the same outcomes of the deadline tests (in particular when the
deadline never passes), the puzzles of the four tiers are carved from the same full grid of
`fillRandom`, and their givens are nested with equal digits on shared cells: Expert within
Hard within Medium within Easy within the full grid. -/
theorem generate_tiers_nested (g : UniqueGenerator) (env : GenEnv) (seed : Int)
    (hsv : UniqueReturns g.Solver) (hctx : env.ctx = none) :
    ∃ fs re rm rh rx pe pm ph px,
      fillRandom env.ctx (env.rng seed) 0 Grid.zero = some (true, fs) ∧ Solved fs.grid ∧
      g.Generate env seed Easy = some re ∧ re.puzzle = .ok pe ∧
      g.Generate env seed Medium = some rm ∧ rm.puzzle = .ok pm ∧
      g.Generate env seed Hard = some rh ∧ rh.puzzle = .ok ph ∧
      g.Generate env seed Expert = some rx ∧ rx.puzzle = .ok px ∧
      Extends px.Board.Values ph.Board.Values ∧ Extends ph.Board.Values pm.Board.Values ∧
      Extends pm.Board.Values pe.Board.Values ∧ Extends pe.Board.Values fs.grid := by
  obtain ⟨re, pe, hre, hpe⟩ := generate_none g env seed Easy hsv hctx
  obtain ⟨rm, pm, hrm, hpm⟩ := generate_none g env seed Medium hsv hctx
  obtain ⟨rh, ph, hrh, hph⟩ := generate_none g env seed Hard hsv hctx
  obtain ⟨rx, px, hrx, hpx⟩ := generate_none g env seed Expert hsv hctx
  obtain ⟨fs, se, hfill, hce, hve, _⟩ := generate_ok g env seed Easy re pe hre hpe
  obtain ⟨fs2, sm, hfill2, hcm, hvm, _⟩ := generate_ok g env seed Medium rm pm hrm hpm
  obtain ⟨fs3, sh, hfill3, hch, hvh, _⟩ := generate_ok g env seed Hard rh ph hrh hph
  obtain ⟨fs4, sx, hfill4, hcx, hvx, _⟩ := generate_ok g env seed Expert rx px hrx hpx
  have e2 : fs2 = fs := by
    rw [hfill] at hfill2
    simp only [Option.some.injEq, Prod.mk.injEq, true_and] at hfill2
    exact hfill2.symm
  have e3 : fs3 = fs := by
    rw [hfill] at hfill3
    simp only [Option.some.injEq, Prod.mk.injEq, true_and] at hfill3
    exact hfill3.symm
  have e4 : fs4 = fs := by
    rw [hfill] at hfill4
    simp only [Option.some.injEq, Prod.mk.injEq, true_and] at hfill4
    exact hfill4.symm
  subst e2 e3 e4
  obtain ⟨hfull, hvalid⟩ := fillRandom_ok _ _ _ _ hfill
  refine ⟨_, re, rm, rh, rx, pe, pm, ph, px, hfill, solved_of_valid_full hvalid hfull,
    hre, hpe, hrm, hpm, hrh, hph, hrx, hpx, ?_, ?_, ?_, ?_⟩
  · intro r c hne
    rw [hvx] at hne ⊢
    rw [hvh]
    exact (carve_mono g env (by decide : targetGivens Expert ≤ targetGivens Hard)
      _ _ _ _ _ hch hcx r c hne).symm
  · intro r c hne
    rw [hvh] at hne ⊢
    rw [hvm]
    exact (carve_mono g env (by decide : targetGivens Hard ≤ targetGivens Medium)
      _ _ _ _ _ hcm hch r c hne).symm
  · intro r c hne
    rw [hvm] at hne ⊢
    rw [hve]
    exact (carve_mono g env (by decide : targetGivens Medium ≤ targetGivens Easy)
      _ _ _ _ _ hce hcm r c hne).symm
  · intro r c hne
    rw [hve] at hne ⊢
    exact (carve_sub g env _ _ _ _ _ hce r c hne).symm

theorem generate_tiers_nested_witness :
    ∃ fs re rm rh rx pe pm ph px,
      fillRandom envPatient.ctx (envPatient.rng 7) 0 Grid.zero = some (true, fs) ∧
      Solved fs.grid ∧
      UniqueGenerator.Generate { Solver := NewDLXSolver } envPatient 7 Easy = some re ∧
      re.puzzle = .ok pe ∧
      UniqueGenerator.Generate { Solver := NewDLXSolver } envPatient 7 Medium = some rm ∧
      rm.puzzle = .ok pm ∧
      UniqueGenerator.Generate { Solver := NewDLXSolver } envPatient 7 Hard = some rh ∧
      rh.puzzle = .ok ph ∧
      UniqueGenerator.Generate { Solver := NewDLXSolver } envPatient 7 Expert = some rx ∧
      rx.puzzle = .ok px ∧
      Extends px.Board.Values ph.Board.Values ∧ Extends ph.Board.Values pm.Board.Values ∧
      Extends pm.Board.Values pe.Board.Values ∧ Extends pe.Board.Values fs.grid :=
  generate_tiers_nested { Solver := NewDLXSolver } envPatient 7 dlx_uniqueReturns rfl

/-- C31: with an exact solver, no cancellation and a deadline that never passes, a puzzle
that `Generate` returns with more givens than the target of its tier (so the carving walk
went through all 81 positions) is irreducible: clearing any one of its givens leaves a
board with more than one completion. -/
theorem generate_irreducible (g : UniqueGenerator) (env : GenEnv) (seed : Int)
    (diff : Difficulty) (hctx : env.ctx = none) (hexp : ∀ i, env.expired i = false)
    (hsv : ExactUnique g.Solver) :
    ∃ res p, g.Generate env seed diff = some res ∧ res.puzzle = .ok p ∧
      (targetGivens diff < countGivens p.Board.Values →
        ∀ r c : Fin 9, p.Board.Values r c ≠ 0 →
          1 < (completions (p.Board.Values.set r.val c.val 0)).ncard) := by
  obtain ⟨res, p, hrun, hok⟩ := generate_none_exact g env seed diff hctx hsv
  refine ⟨res, p, hrun, hok, fun hmore r c hne => ?_⟩
  obtain ⟨fs, s', hfill, hcarve, hval, _⟩ := generate_ok g env seed diff res p hrun hok
  obtain ⟨hfull, hvalid⟩ := fillRandom_ok _ _ _ fs hfill
  rw [hval] at hmore hne ⊢
  have hr := r.isLt
  have hc := c.isLt
  refine carve_irreducible g env _ hctx hexp hsv fs.grid (solved_of_valid_full hvalid hfull)
    _ _ _ _ hcarve (boardInv_init fs.grid hfull) hmore (9 * r.val + c.val) ?_ r c (by omega)
    (by omega) hne
  apply shuffle_mem _ _ _ (by simp)
  rw [List.mem_range]
  omega

theorem generate_irreducible_witness :
    ∃ res p, UniqueGenerator.Generate { Solver := NewBacktrackingSolver } envPatient 11 Expert =
        some res ∧ res.puzzle = .ok p ∧
      (targetGivens Expert < countGivens p.Board.Values →
        ∀ r c : Fin 9, p.Board.Values r c ≠ 0 →
          1 < (completions (p.Board.Values.set r.val c.val 0)).ncard) :=
  generate_irreducible { Solver := NewBacktrackingSolver } envPatient 11 Expert rfl
    (fun _ => rfl) bt_exactUnique

end Sudoku

namespace Sudoku

/-! ## The validator reports every repeat -/

theorem scanCell_length (b : Grid) (acc : Nat × List (Nat × Nat)) (p : Nat × Nat) :
    acc.2.length ≤ (scanCell b acc p).2.length := by
  unfold scanCell
  dsimp only
  split
  · exact le_refl _
  · dsimp only
    split
    · simp
    · exact le_refl _

theorem scan_length_le (b : Grid) : ∀ (u : List (Nat × Nat)) (acc : Nat × List (Nat × Nat)),
    acc.2.length ≤ (u.foldl (scanCell b) acc).2.length := by
  intro u
  induction u with
  | nil => intro acc; exact le_refl _
  | cons p u ih =>
    intro acc
    rw [List.foldl_cons]
    exact le_trans (scanCell_length b acc p) (ih _)

/-- The state of a scan after a non-empty cell: the bit of its digit is set, the bits set
before stay set, and the cell is reported when its bit was set before. -/
theorem scanCell_bit (b : Grid) (m : Nat) (conf : List (Nat × Nat)) (p : Nat × Nat)
    (hz : b.get p.1 p.2 ≠ 0) (hlt : b.get p.1 p.2 < 64) :
    (scanCell b (m, conf) p).1 = m ||| 2 ^ b.get p.1 p.2 ∧
      (m.testBit (b.get p.1 p.2) = true →
        conf.length < (scanCell b (m, conf) p).2.length) := by
  have hbit : (1 <<< b.get p.1 p.2) % 2 ^ 64 = 2 ^ b.get p.1 p.2 := by
    rw [Nat.one_shiftLeft]
    exact Nat.mod_eq_of_lt (Nat.pow_lt_pow_right (by norm_num) hlt)
  unfold scanCell
  simp only [hz, if_false, hbit]
  refine ⟨trivial, fun hon => ?_⟩
  have hand : m &&& 2 ^ b.get p.1 p.2 ≠ 0 := by
    rw [Nat.and_two_pow, hon]
    simp
  rw [if_pos hand]
  simp

theorem scan_hit (b : Grid) (h64 : ∀ r c, b.get r c < 64) (d : Nat) (hd : d ≠ 0) :
    ∀ (u : List (Nat × Nat)) (m : Nat) (conf : List (Nat × Nat)),
      m.testBit d = true → (∃ p ∈ u, b.get p.1 p.2 = d) →
      conf.length < (u.foldl (scanCell b) (m, conf)).2.length := by
  intro u
  induction u with
  | nil => intro m conf _ h; simp at h
  | cons p u ih =>
    intro m conf hm hex
    rw [List.foldl_cons]
    by_cases hz : b.get p.1 p.2 = 0
    · have e : scanCell b (m, conf) p = (m, conf) := by simp [scanCell, hz]
      rw [e]
      apply ih m conf hm
      obtain ⟨q, hq, hqd⟩ := hex
      rcases List.mem_cons.mp hq with rfl | hq
      · rw [hz] at hqd; exact absurd hqd.symm hd
      · exact ⟨q, hq, hqd⟩
    · obtain ⟨h1, h2⟩ := scanCell_bit b m conf p hz (h64 _ _)
      by_cases hpd : b.get p.1 p.2 = d
      · rw [hpd] at h2
        exact lt_of_lt_of_le (h2 hm) (scan_length_le b u _)
      · obtain ⟨q, hq, hqd⟩ := hex
        rcases List.mem_cons.mp hq with rfl | hq
        · exact absurd hqd hpd
        · have hlen := scanCell_length b (m, conf) p
          have hm' : (scanCell b (m, conf) p).1.testBit d = true := by
            rw [h1, Nat.testBit_or, hm, Bool.true_or]
          have := ih (scanCell b (m, conf) p).1 (scanCell b (m, conf) p).2 hm' ⟨q, hq, hqd⟩
          exact lt_of_le_of_lt hlen this

/-- A unit in which a cell repeats the digit of an earlier cell makes the scan report a
conflict. -/
theorem scan_conflict (b : Grid) (h64 : ∀ r c, b.get r c < 64) :
    ∀ (u : List (Nat × Nat)) (m : Nat) (conf : List (Nat × Nat)),
      ¬ u.Pairwise (fun q p => b.get q.1 q.2 ≠ 0 → b.get q.1 q.2 ≠ b.get p.1 p.2) →
      conf.length < (u.foldl (scanCell b) (m, conf)).2.length := by
  intro u
  induction u with
  | nil => intro m conf h; simp at h
  | cons p u ih =>
    intro m conf hnp
    rw [List.pairwise_cons, not_and_or] at hnp
    rw [List.foldl_cons]
    have hlen := scanCell_length b (m, conf) p
    rcases hnp with h | h
    · push_neg at h
      obtain ⟨q, hq, hz, heq⟩ := h
      obtain ⟨h1, _⟩ := scanCell_bit b m conf p hz (h64 _ _)
      have hm' : (scanCell b (m, conf) p).1.testBit (b.get p.1 p.2) = true := by
        rw [h1, Nat.testBit_or, Nat.testBit_two_pow_self, Bool.or_true]
      have := scan_hit b h64 _ hz u (scanCell b (m, conf) p).1 (scanCell b (m, conf) p).2 hm'
        ⟨q, hq, heq.symm⟩
      exact lt_of_le_of_lt hlen this
    · exact lt_of_le_of_lt hlen (ih _ _ h)

theorem scanUnits_length (b : Grid) : ∀ (us : List (List (Nat × Nat))) (conf : List (Nat × Nat)),
    conf.length ≤ (us.foldl (fun conf u => scanUnit b u conf) conf).length := by
  intro us
  induction us with
  | nil => intro conf; exact le_refl _
  | cons u us ih =>
    intro conf
    rw [List.foldl_cons]
    exact le_trans (scan_length_le b u (0, conf)) (ih _)

theorem scanUnits_conflict (b : Grid) (h64 : ∀ r c, b.get r c < 64) :
    ∀ (us : List (List (Nat × Nat))) (conf : List (Nat × Nat)),
      (∃ u ∈ us,
        ¬ u.Pairwise (fun q p => b.get q.1 q.2 ≠ 0 → b.get q.1 q.2 ≠ b.get p.1 p.2)) →
      conf.length < (us.foldl (fun conf u => scanUnit b u conf) conf).length := by
  intro us
  induction us with
  | nil => intro conf h; simp at h
  | cons u us ih =>
    intro conf hex
    rw [List.foldl_cons]
    obtain ⟨w, hw, hbad⟩ := hex
    rcases List.mem_cons.mp hw with rfl | hw
    · exact lt_of_lt_of_le (scan_conflict b h64 w 0 conf hbad) (scanUnits_length b us _)
    · exact lt_of_le_of_lt (scan_length_le b u (0, conf)) (ih _ ⟨w, hw, hbad⟩)

/-- Two peers lie in one of the 27 units. -/
theorem peers_unit (r c r' c' : Fin 9) (hp : Peers r c r' c') :
    ∃ u ∈ units, (r.val, c.val) ∈ u ∧ (r'.val, c'.val) ∈ u := by
  have hr := r.isLt
  have hc := c.isLt
  have hr' := r'.isLt
  have hc' := c'.isLt
  obtain ⟨_, hrel⟩ := hp
  rcases hrel with h | h | ⟨h1, h2⟩
  · refine ⟨rowCells r.val, ?_, ?_, ?_⟩
    · simp only [units, List.mem_append, List.mem_map, List.mem_range]
      exact Or.inl (Or.inl ⟨r.val, hr, rfl⟩)
    · simp only [rowCells, List.mem_map, List.mem_range]
      exact ⟨c.val, hc, rfl⟩
    · simp only [rowCells, List.mem_map, List.mem_range]
      exact ⟨c'.val, hc', by rw [h]⟩
  · refine ⟨colCells c.val, ?_, ?_, ?_⟩
    · simp only [units, List.mem_append, List.mem_map, List.mem_range]
      exact Or.inl (Or.inr ⟨c.val, hc, rfl⟩)
    · simp only [colCells, List.mem_map, List.mem_range]
      exact ⟨r.val, hr, rfl⟩
    · simp only [colCells, List.mem_map, List.mem_range]
      exact ⟨r'.val, hr', by rw [h]⟩
  · refine ⟨boxCells (r.val / 3) (c.val / 3), ?_, ?_, ?_⟩
    · simp only [units, List.mem_append, List.mem_flatMap, List.mem_map, List.mem_range]
      exact Or.inr ⟨r.val / 3, by omega, c.val / 3, by omega, rfl⟩
    · simp only [boxCells, List.mem_flatMap, List.mem_map, List.mem_range, Prod.mk.injEq]
      exact ⟨r.val % 3, by omega, c.val % 3, by omega, by omega, by omega⟩
    · simp only [boxCells, List.mem_flatMap, List.mem_map, List.mem_range, Prod.mk.injEq]
      exact ⟨r'.val % 3, by omega, c'.val % 3, by omega, by omega, by omega⟩

/-- When `Validate` reports no conflict, no digit is repeated in a row, column or box. -/
theorem noRepeat_of_validate (b : Board) (h9 : ∀ r c, b.Values r c ≤ 9)
    (hok : (FastValidator.Validate b).1 = true) : NoRepeat b.Values := by
  have h64 : ∀ r c, b.Values.get r c < 64 := fun r c => by
    have := Grid.get_le h9 r c
    omega
  have hall : ∀ u ∈ units,
      u.Pairwise (fun q p => b.Values.get q.1 q.2 ≠ 0 →
        b.Values.get q.1 q.2 ≠ b.Values.get p.1 p.2) := by
    intro u hu
    by_contra hbad
    have := scanUnits_conflict b.Values h64 units [] ⟨u, hu, hbad⟩
    simp only [FastValidator.Validate, beq_iff_eq] at hok
    rw [hok] at this
    simp at this
  intro r c r' c' hp hne
  obtain ⟨u, hu, h1, h2⟩ := peers_unit r c r' c' hp
  have hsym : Symmetric (fun q p : Nat × Nat => b.Values.get q.1 q.2 ≠ 0 →
      b.Values.get q.1 q.2 ≠ b.Values.get p.1 p.2) := by
    intro q p hqp hpne heq
    exact hqp (by rw [← heq]; exact hpne) heq.symm
  have hdiff : (r.val, c.val) ≠ (r'.val, c'.val) := by
    intro e
    simp only [Prod.mk.injEq] at e
    rcases hp.1 with h | h
    · exact h (Fin.ext e.1)
    · exact h (Fin.ext e.2)
  have := (hall u hu).forall hsym h1 h2 hdiff
  simp only [Grid.get_fin] at this
  exact this hne

/-- C21: on every board with cell values in 0..9, `Validate` returns ok = true exactly
when no non-zero digit occurs twice in a row, a column or a box; ok is true exactly when
the list of conflicts is empty; and the error is nil. -/
theorem validate_ok_iff (b : Board) (h9 : ∀ r c, b.Values r c ≤ 9) :
    ((FastValidator.Validate b).1 = true ↔ NoRepeat b.Values) ∧
    ((FastValidator.Validate b).1 = true ↔ (FastValidator.Validate b).2.1 = []) ∧
    (FastValidator.Validate b).2.2 = none := by
  refine ⟨⟨noRepeat_of_validate b h9, fun h => validate_of_noRepeat b ⟨h9, h⟩⟩, ?_, rfl⟩
  simp only [FastValidator.Validate, beq_iff_eq, List.length_eq_zero]

theorem validate_ok_iff_witness :
    ((FastValidator.Validate { Values := twoSolGrid, Fixed := Mask.zero }).1 = true ↔
      NoRepeat twoSolGrid) ∧
    ((FastValidator.Validate { Values := twoSolGrid, Fixed := Mask.zero }).1 = true ↔
      (FastValidator.Validate { Values := twoSolGrid, Fixed := Mask.zero }).2.1 = []) ∧
    (FastValidator.Validate { Values := twoSolGrid, Fixed := Mask.zero }).2.2 = none :=
  validate_ok_iff { Values := twoSolGrid, Fixed := Mask.zero } twoSol_valid.1

end Sudoku

namespace Sudoku

/-! ## The hinter finds the first naked single -/

/-- The digit `v` is absent from the row, the column and the box of the cell `(r, c)`. -/
def Fits (g : Grid) (r c : Fin 9) (v : Nat) : Prop :=
  1 ≤ v ∧ v ≤ 9 ∧
    ∀ r' c' : Fin 9, (r' = r ∨ c' = c ∨ (r'.val / 3 = r.val / 3 ∧ c'.val / 3 = c.val / 3)) →
      g r' c' ≠ v

/-- The cell `(r, c)` is empty and `v` is the only digit that fits there. -/
def IsSingle (g : Grid) (r c : Fin 9) (v : Nat) : Prop :=
  g r c = 0 ∧ Fits g r c v ∧ ∀ w, Fits g r c w → w = v

/-- The hint that `Singles.Hint` makes for the digit `v` at the cell `p`. -/
def singleHint (p : Nat × Nat) (v : Nat) : Hint :=
  { Message := "Single: only " ++ toString v ++ " fits here", Cells := [(p.1, p.2)],
    Strategy := StrategySingles }

theorem hint_allowed_iff (g : Grid) (r c : Fin 9) (v : Nat) :
    (v ∈ digits ∧ hint.allowed g r.val c.val v = true) ↔ Fits g r c v := by
  have e : hint.allowed g r.val c.val v = isValid g r.val c.val v := rfl
  rw [e, isValid_iff, mem_digits]
  unfold Fits
  tauto

theorem soleLoop_eq (g : Grid) (r c : Nat) : ∀ (vs : List Nat) (count last : Nat),
    count ≤ 1 →
    hint.soleLoop g r c vs count last =
      if count + (vs.filter (hint.allowed g r c)).length > 1 then (0, false)
      else (((vs.filter (hint.allowed g r c)).getLast?).getD last,
            count + (vs.filter (hint.allowed g r c)).length == 1) := by
  intro vs
  induction vs with
  | nil =>
    intro count last hc
    simp only [hint.soleLoop, List.filter_nil, List.length_nil, Nat.add_zero, List.getLast?_nil,
      Option.getD_none]
    rw [if_neg (by omega)]
  | cons v vs ih =>
    intro count last hc
    by_cases ha : hint.allowed g r c v = true
    · simp only [hint.soleLoop, ha, if_true, List.filter_cons_of_pos, List.length_cons]
      by_cases h1 : count + 1 > 1
      · rw [if_pos h1, if_pos (by omega)]
      · rw [if_neg h1, ih _ _ (by omega)]
        have h0 : count = 0 := by omega
        subst h0
        cases hA : vs.filter (hint.allowed g r c) with
        | nil => simp
        | cons x xs =>
          simp only [List.length_cons]
          rw [if_pos (by omega), if_pos (by omega)]
    · simp only [hint.soleLoop, ha, if_false, Bool.false_eq_true]
      rw [ih _ _ hc]
      simp only [List.filter_cons, ha, if_false, Bool.false_eq_true]

theorem eq_singleton_of_nodup {l : List Nat} {v : Nat} (hn : l.Nodup) (hv : v ∈ l)
    (hall : ∀ x ∈ l, x = v) : l = [v] := by
  cases l with
  | nil => simp at hv
  | cons a t =>
    have ha : a = v := hall a (List.mem_cons_self _ _)
    subst ha
    cases t with
    | nil => rfl
    | cons b t' =>
      exfalso
      have hb : b = a := hall b (by simp)
      rw [List.nodup_cons] at hn
      exact hn.1 (by rw [hb]; simp)

theorem digits_nodup : digits.Nodup := by decide

/-- What `soleCandidate` answers: the digit when exactly one digit fits the cell. -/
theorem soleCandidate_true_iff (g : Grid) (r c : Fin 9) (v : Nat) :
    hint.soleCandidate g r.val c.val = (v, true) ↔
      (Fits g r c v ∧ ∀ w, Fits g r c w → w = v) := by
  unfold hint.soleCandidate
  rw [soleLoop_eq g r.val c.val digits 0 0 (by omega)]
  have hmem : ∀ w, w ∈ digits.filter (hint.allowed g r.val c.val) ↔ Fits g r c w := by
    intro w
    rw [List.mem_filter]
    exact hint_allowed_iff g r c w
  have hnd : (digits.filter (hint.allowed g r.val c.val)).Nodup := digits_nodup.filter _
  generalize digits.filter (hint.allowed g r.val c.val) = A at hmem hnd
  constructor
  · intro h
    split at h
    · simp at h
    · rename_i hlen
      simp only [Nat.zero_add, Prod.mk.injEq, beq_iff_eq] at h
      obtain ⟨h1, h2⟩ := h
      obtain ⟨x, rfl⟩ := List.length_eq_one.mp h2
      simp only [List.getLast?_singleton, Option.getD_some] at h1
      subst h1
      refine ⟨(hmem x).mp (by simp), fun w hw => ?_⟩
      have := (hmem w).mpr hw
      simpa using this
  · rintro ⟨hf, huniq⟩
    have hA : A = [v] := eq_singleton_of_nodup hnd ((hmem v).mpr hf)
      (fun x hx => huniq x ((hmem x).mp hx))
    rw [hA]
    simp

theorem soleCandidate_cases (g : Grid) (r c : Nat) :
    (∃ v, hint.soleCandidate g r c = (v, true)) ∨ (∃ v, hint.soleCandidate g r c = (v, false)) := by
  cases h : hint.soleCandidate g r c with
  | mk v b =>
    cases b with
    | true => exact Or.inl ⟨v, rfl⟩
    | false => exact Or.inr ⟨v, rfl⟩

/-- A naked single at the cell `p`, whose coordinates are natural numbers. -/
def SingleAt (g : Grid) (p : Nat × Nat) (v : Nat) : Prop :=
  ∃ (hr : p.1 < 9) (hc : p.2 < 9), IsSingle g ⟨p.1, hr⟩ ⟨p.2, hc⟩ v

/-- The scan of `Singles.Hint` over a list of cells: it stops at the first cell with a
naked single, or finds none. -/
theorem hint_scan_spec (g : Grid) : ∀ cs : List (Nat × Nat), (∀ p ∈ cs, p.1 < 9 ∧ p.2 < 9) →
    (∃ pre p post v, cs = pre ++ p :: post ∧ SingleAt g p v ∧
        (∀ q ∈ pre, ∀ w, ¬ SingleAt g q w) ∧ hint.scan g cs = (singleHint p v, true, none)) ∨
    ((∀ q ∈ cs, ∀ w, ¬ SingleAt g q w) ∧ hint.scan g cs = (Hint.zero, false, none)) := by
  intro cs
  induction cs with
  | nil => intro _; exact Or.inr ⟨fun q hq => by simp at hq, rfl⟩
  | cons p rest ih =>
    intro hcs
    obtain ⟨hr, hc⟩ := hcs p (List.mem_cons_self _ _)
    have ih' := ih (fun q hq => hcs q (List.mem_cons_of_mem _ hq))
    have hskip : (∀ w, ¬ SingleAt g p w) → hint.scan g (p :: rest) = hint.scan g rest →
        (∃ pre p' post v, p :: rest = pre ++ p' :: post ∧ SingleAt g p' v ∧
          (∀ q ∈ pre, ∀ w, ¬ SingleAt g q w) ∧
          hint.scan g (p :: rest) = (singleHint p' v, true, none)) ∨
        ((∀ q ∈ p :: rest, ∀ w, ¬ SingleAt g q w) ∧
          hint.scan g (p :: rest) = (Hint.zero, false, none)) := by
      intro hno heq
      rw [heq]
      rcases ih' with ⟨pre, p', post, v, e, hs, hpre, hrun⟩ | ⟨hnone, hrun⟩
      · refine Or.inl ⟨p :: pre, p', post, v, by rw [e]; rfl, hs, ?_, hrun⟩
        intro q hq
        rcases List.mem_cons.mp hq with rfl | hq
        · exact hno
        · exact hpre q hq
      · refine Or.inr ⟨?_, hrun⟩
        intro q hq
        rcases List.mem_cons.mp hq with rfl | hq
        · exact hno
        · exact hnone q hq
    by_cases hz : g.get p.1 p.2 ≠ 0
    · apply hskip
      · rintro w ⟨_, _, h0, _⟩
        rw [Grid.get_of_lt g hr hc] at hz
        exact hz h0
      · simp only [hint.scan, if_pos hz]
    · have h0 : g ⟨p.1, hr⟩ ⟨p.2, hc⟩ = 0 := by
        rw [Grid.get_of_lt g hr hc] at hz
        push_neg at hz
        exact hz
      rcases soleCandidate_cases g p.1 p.2 with ⟨v, hv⟩ | ⟨v, hv⟩
      · have hs := (soleCandidate_true_iff g ⟨p.1, hr⟩ ⟨p.2, hc⟩ v).mp hv
        refine Or.inl ⟨[], p, rest, v, rfl, ⟨hr, hc, h0, hs.1, hs.2⟩,
          fun q hq => by simp at hq, ?_⟩
        simp only [hint.scan, if_neg hz, hv]
        rfl
      · apply hskip
        · rintro w ⟨_, _, _, hf, hu⟩
          have := (soleCandidate_true_iff g ⟨p.1, hr⟩ ⟨p.2, hc⟩ w).mpr ⟨hf, hu⟩
          rw [hv] at this
          simp at this
        · simp only [hint.scan, if_neg hz, hv]

theorem cells_sorted : cells.Pairwise (fun a b => 9 * a.1 + a.2 < 9 * b.1 + b.2) := by
  decide

/-- C22: for a max tier below `StrategySingles`, `Singles.Hint` finds nothing. For any
other max tier it returns found = true exactly when some empty cell has exactly one digit
in 1..9 absent from its row, column and box; it then returns the first such cell in
row-major order as its only cell, with the message naming that digit; otherwise it returns
the zero hint. The error is nil. -/
theorem singles_hint_spec (b : Board) (max : StrategyTier) :
    (max < StrategySingles → Singles.Hint b max = (Hint.zero, false, none)) ∧
    (StrategySingles ≤ max →
      ((Singles.Hint b max).2.1 = true ↔ ∃ r c v, IsSingle b.Values r c v) ∧
      ((Singles.Hint b max).2.1 = true →
        ∃ (r c : Fin 9) (v : Nat), IsSingle b.Values r c v ∧
          (∀ r' c' v', IsSingle b.Values r' c' v' →
            9 * r.val + c.val ≤ 9 * r'.val + c'.val) ∧
          Singles.Hint b max =
            ({ Message := "Single: only " ++ toString v ++ " fits here",
               Cells := [(r.val, c.val)], Strategy := StrategySingles }, true, none)) ∧
      ((Singles.Hint b max).2.1 = false → Singles.Hint b max = (Hint.zero, false, none))) ∧
    (Singles.Hint b max).2.2 = none := by
  have hnil : (Singles.Hint b max).2.2 = none := by
    unfold Singles.Hint
    split
    · rfl
    · rcases hint_scan_spec b.Values cells (fun p hp => (mem_cells p).mp hp) with
        ⟨_, _, _, _, _, _, _, hrun⟩ | ⟨_, hrun⟩
      · rw [hrun]
      · rw [hrun]
  refine ⟨fun h => by simp only [Singles.Hint, if_pos h], fun hmax => ?_, hnil⟩
  have e : Singles.Hint b max = hint.scan b.Values cells := by
    simp only [Singles.Hint, if_neg (not_lt.mpr hmax)]
  rw [e]
  rcases hint_scan_spec b.Values cells (fun p hp => (mem_cells p).mp hp) with
    ⟨pre, p, post, v, hsplit, ⟨hr, hc, hs⟩, hpre, hrun⟩ | ⟨hnone, hrun⟩
  · rw [hrun]
    have hfirst : ∀ r' c' v', IsSingle b.Values r' c' v' →
        9 * p.1 + p.2 ≤ 9 * r'.val + c'.val := by
      intro r' c' v' hs'
      have hmem : (r'.val, c'.val) ∈ cells := (mem_cells _).mpr ⟨r'.isLt, c'.isLt⟩
      have hsorted := cells_sorted
      rw [hsplit] at hmem hsorted
      rcases List.mem_append.mp hmem with hin | hin
      · exact absurd ⟨r'.isLt, c'.isLt, hs'⟩ (hpre _ hin v')
      · rcases List.mem_cons.mp hin with heq | hin
        · rw [← heq]
        · have := (List.pairwise_cons.mp (List.pairwise_append.mp hsorted).2.1).1 _ hin
          exact le_of_lt this
    exact ⟨⟨fun _ => ⟨_, _, v, hs⟩, fun _ => rfl⟩,
      fun _ => ⟨⟨p.1, hr⟩, ⟨p.2, hc⟩, v, hs, hfirst, rfl⟩, fun h => by simp at h⟩
  · rw [hrun]
    refine ⟨⟨fun h => by simp at h, ?_⟩, fun h => by simp at h, fun _ => rfl⟩
    rintro ⟨r, c, v, hs⟩
    exact absurd ⟨r.isLt, c.isLt, hs⟩
      (hnone (r.val, c.val) ((mem_cells _).mpr ⟨r.isLt, c.isLt⟩) v)

end Sudoku

namespace Sudoku

/-! ## The column that `chooseColumn` returns -/

theorem chooseLoop_inactive (d : DLX) : ∀ (l : List Nat) (best : Option Nat),
    (∀ c ∈ l, d.active.get c = false) → chooseLoop d l best = best := by
  intro l
  induction l with
  | nil => intro best _; rfl
  | cons x rest ih =>
    intro best h
    have hx := h x (List.mem_cons_self _ _)
    simp only [chooseLoop, hx, Bool.false_eq_true, if_false]
    exact ih best (fun c hc => h c (List.mem_cons_of_mem _ hc))

/-- The test `best == nil || c.size < best.size` of `chooseColumn`. -/
def betterThan (d : DLX) (x : Nat) (best : Option Nat) : Bool :=
  match best with
  | none => true
  | some b => decide (d.size.get x < d.size.get b)

theorem chooseLoop_cons (d : DLX) (x : Nat) (rest : List Nat) (best : Option Nat) :
    chooseLoop d (x :: rest) best =
      if d.active.get x = true then
        if betterThan d x best = true then
          if d.size.get x = 0 then some x else chooseLoop d rest (some x)
        else chooseLoop d rest best
      else chooseLoop d rest best := by
  cases best <;> rfl

theorem betterThan_iff (d : DLX) (x : Nat) (best : Option Nat) :
    betterThan d x best = true ↔ ∀ b, best = some b → d.size.get x < d.size.get b := by
  cases best <;> simp [betterThan]

/-- The loop of `chooseColumn` over an increasing list of columns whose active members
have sizes that are not negative: the result is the best column so far or an active column
of the list, no active column of the list is smaller, an equally small one comes later, and
the best column so far is replaced only by a smaller one. -/
theorem chooseLoop_min (d : DLX) : ∀ (l : List Nat) (best : Option Nat) (c : Nat),
    l.Pairwise (fun a b => a < b) →
    (∀ x ∈ l, d.active.get x = true → 0 ≤ d.size.get x) →
    (∀ b, best = some b → ∀ x ∈ l, b < x) →
    chooseLoop d l best = some c →
      (best = some c ∨ (c ∈ l ∧ d.active.get c = true)) ∧
      (∀ x ∈ l, d.active.get x = true →
        d.size.get c ≤ d.size.get x ∧ (d.size.get x = d.size.get c → c ≤ x)) ∧
      (∀ b, best = some b → d.size.get c ≤ d.size.get b ∧ (d.size.get b = d.size.get c → c = b)) := by
  intro l
  induction l with
  | nil =>
    intro best c _ _ _ h
    simp only [chooseLoop] at h
    refine ⟨Or.inl h, fun x hx => by simp at hx, fun b hb => ?_⟩
    rw [h] at hb
    simp only [Option.some.injEq] at hb
    subst hb
    exact ⟨le_refl _, fun _ => rfl⟩
  | cons x rest ih =>
    intro best c hsorted hsz hb h
    rw [List.pairwise_cons] at hsorted
    have hsz' : ∀ y ∈ rest, d.active.get y = true → 0 ≤ d.size.get y :=
      fun y hy => hsz y (List.mem_cons_of_mem _ hy)
    have hb' : ∀ b, best = some b → ∀ y ∈ rest, b < y :=
      fun b e y hy => hb b e y (List.mem_cons_of_mem _ hy)
    rw [chooseLoop_cons] at h
    by_cases hact : d.active.get x = true
    · rw [if_pos hact] at h
      by_cases hbetter : betterThan d x best = true
      · rw [if_pos hbetter] at h
        have hlt := (betterThan_iff d x best).mp hbetter
        by_cases h0 : d.size.get x = 0
        · rw [if_pos h0] at h
          simp only [Option.some.injEq] at h
          subst h
          refine ⟨Or.inr ⟨List.mem_cons_self _ _, hact⟩, fun y hy hya => ?_, fun b e => ?_⟩
          · rcases List.mem_cons.mp hy with rfl | hy
            · exact ⟨le_refl _, fun _ => le_refl _⟩
            · have := hsz' y hy hya
              exact ⟨by omega, fun _ => le_of_lt (hsorted.1 y hy)⟩
          · have := hlt b e
            exact ⟨by omega, fun h => by omega⟩
        · rw [if_neg h0] at h
          obtain ⟨hA, hB, hC⟩ := ih (some x) c hsorted.2 hsz'
            (fun b e y hy => by
              simp only [Option.some.injEq] at e
              subst e
              exact hsorted.1 y hy) h
          obtain ⟨hC1, hC2⟩ := hC x rfl
          refine ⟨?_, fun y hy hya => ?_, fun b e => ?_⟩
          · rcases hA with hA | hA
            · simp only [Option.some.injEq] at hA
              subst hA
              exact Or.inr ⟨List.mem_cons_self _ _, hact⟩
            · exact Or.inr ⟨List.mem_cons_of_mem _ hA.1, hA.2⟩
          · rcases List.mem_cons.mp hy with rfl | hy
            · exact ⟨hC1, fun e => le_of_eq (hC2 e)⟩
            · exact hB y hy hya
          · have := hlt b e
            exact ⟨by omega, fun h => by omega⟩
      · rw [if_neg hbetter] at h
        obtain ⟨hA, hB, hC⟩ := ih best c hsorted.2 hsz' hb' h
        obtain ⟨b, hbest, hnlt⟩ : ∃ b, best = some b ∧ ¬ d.size.get x < d.size.get b := by
          rw [betterThan_iff] at hbetter
          push_neg at hbetter
          obtain ⟨b, h1, h2⟩ := hbetter
          exact ⟨b, h1, by omega⟩
        obtain ⟨hC1, hC2⟩ := hC b hbest
        refine ⟨?_, fun y hy hya => ?_, hC⟩
        · rcases hA with hA | hA
          · exact Or.inl hA
          · exact Or.inr ⟨List.mem_cons_of_mem _ hA.1, hA.2⟩
        · rcases List.mem_cons.mp hy with rfl | hy
          · refine ⟨by omega, fun e => ?_⟩
            have : c = b := hC2 (by omega)
            rw [this]
            exact le_of_lt (hb b hbest y (List.mem_cons_self _ _))
          · exact hB y hy hya
    · rw [if_neg hact] at h
      obtain ⟨hA, hB, hC⟩ := ih best c hsorted.2 hsz' hb' h
      refine ⟨?_, fun y hy hya => ?_, hC⟩
      · rcases hA with hA | hA
        · exact Or.inl hA
        · exact Or.inr ⟨List.mem_cons_of_mem _ hA.1, hA.2⟩
      · rcases List.mem_cons.mp hy with rfl | hy
        · exact absurd hya hact
        · exact hB y hy hya

/-- The sizes of the columns of a matrix that `newDLX` and `cover` built are not
negative. -/
theorem Rep.size_nonneg {d : DLX} {S : List Nat} (h : Rep d S) (c : Nat) (hc : c < 324) :
    0 ≤ d.size.get c := by
  rw [(h.vert c hc).size]
  exact Int.ofNat_nonneg _

/-- C23, amended: in a matrix whose active columns have sizes that are not negative (as
in every matrix built from a board without repeated givens), `chooseColumn` returns nil
exactly when no column is active; otherwise it returns an active column of minimum size,
and among the active columns of that size the one with the lowest index. -/
theorem chooseColumn_min (d : DLX)
    (hsz : ∀ c, c < 324 → d.active.get c = true → 0 ≤ d.size.get c) :
    (chooseColumn d = none ↔ ∀ c, c < 324 → d.active.get c = false) ∧
    (∀ c, chooseColumn d = some c →
      c < 324 ∧ d.active.get c = true ∧
      ∀ x, x < 324 → d.active.get x = true →
        d.size.get c ≤ d.size.get x ∧ (d.size.get x = d.size.get c → c ≤ x)) := by
  constructor
  · constructor
    · exact fun h => chooseColumn_none h
    · intro h
      unfold chooseColumn
      exact chooseLoop_inactive d _ none (fun c hc => h c (by simpa [nCols_eq] using hc))
  · intro c h
    obtain ⟨h1, h2⟩ := chooseColumn_some h
    obtain ⟨_, hB, _⟩ := chooseLoop_min d (List.range nCols) none c (List.pairwise_lt_range _)
      (fun x hx => hsz x (by simpa [nCols_eq] using hx)) (fun b e => by simp at e) h
    exact ⟨h1, h2, fun x hx hxa => hB x (by simpa [nCols_eq] using hx) hxa⟩

end Sudoku

namespace Sudoku

/-! ## The digits that a visit of `fillRandom` tries -/

/-- The array `nums` always holds the digits 1-9, each once. -/
theorem numsOK_perm {l : List Nat} (h : NumsOK l) : l.Perm digits := by
  have hsub : digits ⊆ l := fun v hv => by
    rw [mem_digits] at hv
    exact h.2.2 v hv.1 hv.2
  have hnd : digits.Nodup := by decide
  exact ((List.subperm_of_subset hnd hsub).perm_of_length_le (by rw [h.1]; decide)).symm

/-- The loop over the digits of a visit tries them one after the other: the loop over
`l1 ++ l2` is the loop over `l1` followed, when it did not succeed, by the loop over `l2`
from the state it left. -/
theorem fillDigits_append (dfs : FillState → Option (Bool × FillState)) (r c : Nat)
    (l2 : List Nat) : ∀ (l1 : List Nat) (s : FillState),
    fillDigits dfs r c (l1 ++ l2) s =
      match fillDigits dfs r c l1 s with
      | none => none
      | some (true, s') => some (true, s')
      | some (false, s') => fillDigits dfs r c l2 s' := by
  intro l1
  induction l1 with
  | nil => intro s; rfl
  | cons v vs ih =>
    intro s
    simp only [List.cons_append, fillDigits]
    split
    · cases hd : dfs { s with grid := s.grid.set r c v } with
      | none => rfl
      | some res =>
        obtain ⟨b, s2⟩ := res
        cases b with
        | true => rfl
        | false => exact ih _
    · exact ih _

/-- C26: for every random source and a context that is never cancelled, `fillRandom` on
the empty grid returns true and leaves a full grid with each digit 1-9 exactly once in
every row, column and box. Each visit of a cell runs the digit loop over the list that the
shuffle made on entering the cell produced, a permutation of 1..9, whatever the recursive
calls do to `nums`; and the digit loop tries the digits of its list one after the other, in
order. -/
theorem fillRandom_fills (rng : Rng) (tick : Nat) :
    (∃ fs, fillRandom none rng tick Grid.zero = some (true, fs) ∧ Full fs.grid ∧
      Solved fs.grid) ∧
    (∀ (fuel r c : Nat) (s : FillState), r ≠ 9 → NumsOK s.nums →
      (rng.shuffle s.shuffles s.nums).Perm digits ∧ NumsOK (rng.shuffle s.shuffles s.nums) ∧
      fillDfs none rng (fuel + 1) r c s =
        fillDigits
          (fillDfs none rng fuel (if c + 1 = 9 then r + 1 else r) (if c + 1 = 9 then 0 else c + 1))
          r c (rng.shuffle s.shuffles s.nums)
          { s with tick := s.tick + 1, nums := rng.shuffle s.shuffles s.nums,
                   shuffles := s.shuffles + 1 }) ∧
    (∀ (dfs : FillState → Option (Bool × FillState)) (r c : Nat) (l1 l2 : List Nat)
        (s : FillState),
      fillDigits dfs r c (l1 ++ l2) s =
        match fillDigits dfs r c l1 s with
        | none => none
        | some (true, s') => some (true, s')
        | some (false, s') => fillDigits dfs r c l2 s') := by
  refine ⟨?_, ?_, fun dfs r c l1 l2 s => fillDigits_append dfs r c l2 l1 s⟩
  · obtain ⟨fs, h⟩ := fillRandom_none rng tick
    obtain ⟨hfull, hvalid⟩ := fillRandom_ok _ _ _ fs h
    exact ⟨fs, h, hfull, solved_of_valid_full hvalid hfull⟩
  · intro fuel r c s hr hn
    have hn' := numsOK_shuffle rng s.shuffles s.nums hn
    refine ⟨numsOK_perm hn', hn', ?_⟩
    simp only [fillDfs, Ctx.done, Bool.false_eq_true, if_false, if_neg hr]

end Sudoku

namespace Sudoku

/-! ## The counters of the counting search of `BacktrackingSolver.Unique` -/

/-- What every run of the closure `dfs` of `Unique`, and of its loop over the digits, does
to the counters, with or without cancellation: `count` does not decrease and does not pass
2; the run returns false only below 2 and true only at 2 or after a poll that saw the
cancellation; no poll follows the first one that saw the cancellation; `tick` and `nodes`
do not decrease. -/
structure BTBound (ctx : Ctx) (s : BTState) (b : Bool) (s' : BTState) : Prop where
  mono : s.count ≤ s'.count
  le : s.count ≤ 2 → s'.count ≤ 2
  lt : s.count < 2 → b = false → s'.count < 2
  stop : b = true → 2 ≤ s'.count ∨ (s.tick < s'.tick ∧ ctx.done (s'.tick - 1) = true)
  quiet : ∀ n, ctx = some n → s.tick ≤ n → s'.tick ≤ n + 1 ∧ (b = false → s'.tick ≤ n)
  tick : s.tick ≤ s'.tick
  nodes : s.nodes ≤ s'.nodes

theorem BTBound.bt_of_eq {ctx : Ctx} {s s' e e' : BTState} {b : Bool} (h : BTBound ctx s b s')
    (h1 : e.count = s.count) (h2 : e.tick = s.tick) (h3 : e.nodes ≤ s.nodes)
    (h4 : e'.count = s'.count) (h5 : e'.tick = s'.tick) (h6 : e'.nodes = s'.nodes) :
    BTBound ctx e b e' where
  mono := by have := h.mono; omega
  le := fun hl => by have := h.le (by omega); omega
  lt := fun hl hb => by have := h.lt (by omega) hb; omega
  stop := fun hb => by
    rw [h4, h5, h2]
    exact h.stop hb
  quiet := fun n hn ht => by
    rw [h5]
    exact h.quiet n hn (by omega)
  tick := by have := h.tick; omega
  nodes := by have := h.nodes; omega

theorem BTBound.bt_after_false {ctx : Ctx} {s s1 s2 : BTState} {b : Bool}
    (h1 : BTBound ctx s false s1) (h2 : BTBound ctx s1 b s2) :
    BTBound ctx s b s2 where
  mono := le_trans h1.mono h2.mono
  le := fun hl => h2.le (h1.le hl)
  lt := fun hl hb => h2.lt (h1.lt hl rfl) hb
  stop := fun hb => by
    rcases h2.stop hb with h | ⟨h, h'⟩
    · exact Or.inl h
    · exact Or.inr ⟨lt_of_le_of_lt h1.tick h, h'⟩
  quiet := fun n hn ht => h2.quiet n hn ((h1.quiet n hn ht).2 rfl)
  tick := le_trans h1.tick h2.tick
  nodes := le_trans h1.nodes h2.nodes

theorem uniqueDigits_bound {ctx : Ctx} (dfs : BTState → Option (Bool × BTState))
    (hdfs : ∀ x b x', dfs x = some (b, x') → BTBound ctx x b x') (r c : Nat) :
    ∀ (vs : List Nat) (s : BTState) (b : Bool) (s' : BTState), s.count < 2 →
      uniqueDigits dfs r c vs s = some (b, s') → BTBound ctx s b s' := by
  intro vs
  induction vs with
  | nil =>
    intro s b s' hlt h
    simp only [uniqueDigits, Option.some.injEq, Prod.mk.injEq] at h
    obtain ⟨rfl, rfl⟩ := h
    exact ⟨le_refl _, fun h => h, fun h _ => h, fun h => by simp at h,
      fun n _ ht => ⟨by omega, fun _ => ht⟩, le_refl _, le_refl _⟩
  | cons v vs ih =>
    intro s b s' hlt h
    simp only [uniqueDigits] at h
    have hskip : BTBound ctx s false { s with nodes := s.nodes + 1 } :=
      ⟨le_refl _, fun h => h, fun h _ => h, fun h => by simp at h,
        fun n _ ht => ⟨by show s.tick ≤ n + 1; omega, fun _ => ht⟩, le_refl _, Nat.le_succ _⟩
    split at h
    · cases hd : dfs { s with nodes := s.nodes + 1, grid := s.grid.set r c v } with
      | none => rw [hd] at h; simp at h
      | some res =>
        obtain ⟨b2, s2⟩ := res
        have hb2 := hdfs _ _ _ hd
        rw [hd] at h
        cases b2 with
        | true =>
          simp only [Option.some.injEq, Prod.mk.injEq] at h
          obtain ⟨rfl, rfl⟩ := h
          exact hb2.bt_of_eq rfl rfl (Nat.le_succ _) rfl rfl rfl
        | false =>
          simp only at h
          have hfirst : BTBound ctx s false { s2 with grid := s2.grid.set r c 0 } :=
            hb2.bt_of_eq rfl rfl (Nat.le_succ _) rfl rfl rfl
          have hlt2 : ({ s2 with grid := s2.grid.set r c 0 } : BTState).count < 2 :=
            hfirst.lt hlt rfl
          exact hfirst.bt_after_false (ih _ _ _ hlt2 h)
    · exact hskip.bt_after_false (ih _ _ _ hlt h)

/-- The bounds that every run of the closure `dfs` of `Unique` keeps. -/
theorem uniqueDfs_bound (ctx : Ctx) : ∀ (fuel : Nat) (s : BTState) (b : Bool) (s' : BTState),
    uniqueDfs ctx fuel s = some (b, s') → BTBound ctx s b s' := by
  intro fuel
  induction fuel with
  | zero => intro s b s' h; simp [uniqueDfs] at h
  | succ n ih =>
    intro s b s' h
    simp only [uniqueDfs] at h
    by_cases hd : (ctx.done s.tick || decide (s.count ≥ 2)) = true
    · rw [if_pos hd] at h
      simp only [Option.some.injEq, Prod.mk.injEq] at h
      obtain ⟨rfl, rfl⟩ := h
      refine ⟨le_refl _, fun h => h, fun _ hb => by simp at hb, fun _ => ?_, fun m hm ht => ?_,
        Nat.le_succ _, le_refl _⟩
      · simp only [Bool.or_eq_true, decide_eq_true_eq] at hd
        rcases hd with hd | hd
        · refine Or.inr ⟨Nat.lt_succ_self _, ?_⟩
          show ctx.done (s.tick + 1 - 1) = true
          rw [Nat.add_sub_cancel]
          exact hd
        · exact Or.inl hd
      · exact ⟨by show s.tick + 1 ≤ m + 1; omega, fun hb => by simp at hb⟩
    · rw [if_neg hd] at h
      simp only [Bool.or_eq_true, decide_eq_true_eq, not_or] at hd
      obtain ⟨hnd, hcount⟩ := hd
      have hq : ∀ m, ctx = some m → s.tick ≤ m → s.tick + 1 ≤ m := by
        intro m hm _
        subst hm
        simp only [Ctx.done, decide_eq_true_eq] at hnd
        omega
      cases hfe : findEmpty s.grid with
      | none =>
        rw [hfe] at h
        simp only [Option.some.injEq, Prod.mk.injEq] at h
        obtain ⟨rfl, rfl⟩ := h
        refine ⟨Nat.le_succ _, fun _ => ?_, fun _ hb => ?_, fun hb => ?_, fun m hm ht => ?_,
          Nat.le_succ _, le_refl _⟩
        · show s.count + 1 ≤ 2
          omega
        · simp only [decide_eq_false_iff_not] at hb
          show s.count + 1 < 2
          omega
        · simp only [decide_eq_true_eq] at hb
          exact Or.inl hb
        · have := hq m hm ht
          exact ⟨by show s.tick + 1 ≤ m + 1; omega, fun _ => this⟩
      | some p =>
        obtain ⟨r, c⟩ := p
        rw [hfe] at h
        simp only at h
        have hrows := uniqueDigits_bound (uniqueDfs ctx n) ih r c digits
          { s with tick := s.tick + 1 } b s' (by show s.count < 2; omega) h
        have hfirst : BTBound ctx s false { s with tick := s.tick + 1 } :=
          ⟨le_refl _, fun h => h, fun h _ => h, fun h => by simp at h,
            fun m hm ht => ⟨by show s.tick + 1 ≤ m + 1; omega, fun _ => hq m hm ht⟩,
            Nat.le_succ _, le_refl _⟩
        exact hfirst.bt_after_false hrows

end Sudoku

namespace Sudoku

/-! ## The matrix after the givens, and the board that `Solve` returns -/

/-- The non-empty and the empty cells make up the 81 cells. -/
theorem countGivens_add_empties (g : Grid) : countGivens g + empties g = 81 := by
  have h1 : countGivens g =
      (Finset.univ.filter (fun p : Fin 9 × Fin 9 => g p.1 p.2 ≠ 0)).card := by
    rw [countGivens_eq_countP, List.countP_eq_length_filter,
      ← List.toFinset_card_of_nodup (cells_nodup.filter _)]
    have hinj : Function.Injective (fun p : Fin 9 × Fin 9 => (p.1.val, p.2.val)) := by
      rintro ⟨a, b⟩ ⟨c, d⟩ h
      simp only [Prod.mk.injEq] at h
      exact Prod.ext (Fin.ext h.1) (Fin.ext h.2)
    rw [← Finset.card_map ⟨_, hinj⟩]
    congr 1
    ext ⟨a, b⟩
    simp only [List.mem_toFinset, List.mem_filter, mem_cells, decide_eq_true_eq,
      Finset.mem_map, Finset.mem_filter, Finset.mem_univ, true_and,
      Function.Embedding.coeFn_mk, Prod.mk.injEq, Prod.exists]
    constructor
    · rintro ⟨⟨ha, hb⟩, hne⟩
      refine ⟨⟨a, ha⟩, ⟨b, hb⟩, ?_, rfl, rfl⟩
      rw [Grid.get_of_lt g ha hb] at hne
      exact hne
    · rintro ⟨i, j, hne, rfl, rfl⟩
      refine ⟨⟨i.isLt, j.isLt⟩, ?_⟩
      rw [Grid.get_fin]
      exact hne
  have h2 : (Finset.univ.filter (fun p : Fin 9 × Fin 9 => g p.1 p.2 = 0)).card +
      (Finset.univ.filter (fun p : Fin 9 × Fin 9 => ¬ g p.1 p.2 = 0)).card =
        (Finset.univ : Finset (Fin 9 × Fin 9)).card :=
    Finset.filter_card_add_filter_neg_card_eq_card _
  have h3 : (Finset.univ : Finset (Fin 9 × Fin 9)).card = 81 := by simp
  unfold empties
  rw [h1]
  simp only [ne_eq]
  omega

/-- The matrix fields of `d'` are those of `d`: the links, the columns and their sizes,
the active flags and their counter. -/
def SameMatrix (d d' : DLX) : Prop :=
  d'.left = d.left ∧ d'.right = d.right ∧ d'.up = d.up ∧ d'.down = d.down ∧ d'.col = d.col ∧
    d'.rowIdx = d.rowIdx ∧ d'.size = d.size ∧ d'.name = d.name ∧ d'.active = d.active ∧
    d'.rowHead = d.rowHead ∧ d'.activeCnt = d.activeCnt

theorem sameMatrix_of_aux {m d' : DLX} (h : m.withAux d' = d') : SameMatrix m d' := by
  rw [← h]
  exact ⟨rfl, rfl, rfl, rfl, rfl, rfl, rfl, rfl, rfl, rfl, rfl⟩

/-- The columns that the givens of a grid cover, in terms of `rowColumns`. -/
theorem covers_rowColumns {S : List Nat} {g : Grid} (hcov : Covers S g) (hvg : ValidGivens g)
    {col : Nat} (hcol : col < 324) :
    col ∈ S ↔ ∃ r c : Fin 9, g r c ≠ 0 ∧ col ∈ rowColumns r.val c.val (g r c) := by
  rw [hcov col hcol]
  constructor
  · rintro ⟨row, hrow, hp, hc⟩
    refine ⟨rr row, rc row, ?_, ?_⟩
    · rw [hp]; exact rv_ne_zero row
    · rw [hp]
      have h1 := rowColumns_decodeRow row
      rw [decodeRow_eq hrow] at h1
      rw [h1, ← hc]
      have hk : col / 81 < 4 := by omega
      have h4 : col / 81 = 0 ∨ col / 81 = 1 ∨ col / 81 = 2 ∨ col / 81 = 3 := by omega
      rcases h4 with e | e | e | e <;> rw [e] <;> simp
  · rintro ⟨r, c, hne, hmem⟩
    have h1 : 1 ≤ g r c := Nat.pos_of_ne_zero hne
    have h9 := hvg.1 r c
    obtain ⟨m1, m2, m3, m4⟩ := mkRow_spec r c h1 h9
    refine ⟨mkRow r c (g r c), m1, ?_, ?_⟩
    · unfold placed
      rw [m2, m3, m4]
    · have := (mem_rowColumns_iff r.isLt c.isLt h1 h9 hcol).mp hmem
      rw [rowIndex_eq_mkRow] at this
      exact this

/-- A successful `DLXSolver.Solve` on valid givens: the search found one solution of
`empties` rows, and the board returned holds the entries of a completion at the empty
cells of the input and zeros elsewhere. -/
theorem dlx_solve_ok (ctx : Ctx) (tick : Nat) (b : Board) (hb : ValidGivens b.Values) :
    ∃ d stop d',
      applyGivens loopFuel b.Values cells { newDLX with tick := tick } = some (.ok d) ∧
      search ctx loopFuel 1 searchFuel 0 { d with found := 0 } = some (stop, d') ∧
      ∀ res out, DLXSolver.Solve ctx tick b = some res → res.board = .ok out →
        d'.found = 1 ∧ d'.solLen = empties b.Values ∧
        ∃ h, IsCompletion b.Values h ∧
          out.Values = (fun r c => if b.Values r c = 0 then h r c else 0) := by
  obtain ⟨d, S, stop, d', hrun, _, _, _, _, hsearch, hpost⟩ := dlx_run_post ctx tick 1 b hb
  have hbound := search_bound ctx loopFuel 1 searchFuel 0 _ stop d' hsearch
  refine ⟨d, stop, d', hrun, hsearch, fun res out hsolve hok => ?_⟩
  have h0 : ({ d with found := 0 } : DLX).found = 0 := rfl
  simp only [DLXSolver.Solve, DLXSolver.solveWith, hrun, hsearch] at hsolve
  by_cases hfound : d'.found < 1
  · rw [if_pos hfound] at hsolve
    simp only [Option.some.injEq] at hsolve
    rw [← hsolve] at hok
    simp at hok
  · rw [if_neg hfound] at hsolve
    have hle := hbound.le (by rw [h0]; omega)
    have hone : d'.found = 1 := by omega
    have hlen : d'.solLen = empties b.Values := by
      rcases hpost.len (by rw [h0]; omega) with ⟨a, _⟩ | ⟨_, a⟩
      · rw [h0] at a; omega
      · rw [a]; omega
    obtain ⟨h, hcomp, hrec⟩ := hpost.trail (by rw [h0]; exact hone) hone
    refine ⟨hone, hlen, h, hcomp, ?_⟩
    rw [hlen, hrec Grid.zero] at hsolve
    simp only [Option.some.injEq] at hsolve
    rw [← hsolve] at hok
    simp only [Except.ok.injEq] at hok
    rw [← hok]
    rfl

end Sudoku

namespace Sudoku

/-! ## The exact-cover search: frame, counters, givens and the board returned -/

/-- C24: a call of `search` leaves the matrix as it found it, whatever the cancellation
and the cap (so on every return path): from every matrix reached by covering the columns
of a grid with valid givens, at every depth, and in particular from the matrix that
`Solve` and `Unique` build by applying the givens of a board, the call returns and the
links, sizes, active flags and `activeCnt` are the same before and after. -/
theorem search_restores_matrix (b : Board) (hb : ValidGivens b.Values) (tick : Nat) :
    (∃ d, applyGivens loopFuel b.Values cells { newDLX with tick := tick } = some (.ok d) ∧
      ∀ (ctx : Ctx) (want found : Nat), ∃ stop d',
        search ctx loopFuel want searchFuel 0 { d with found := found } = some (stop, d') ∧
          SameMatrix d d') ∧
    (∀ (ctx : Ctx) (want k : Nat) (d : DLX) (S : List Nat) (g : Grid),
      Rep d S → Covers S g → ValidGivens g → SolOK d k →
        ∃ stop d', search ctx loopFuel want searchFuel k d = some (stop, d') ∧
          SameMatrix d d') := by
  have hf : 730 ≤ loopFuel := by simp [loopFuel]
  have hgen : ∀ (ctx : Ctx) (want k : Nat) (d : DLX) (S : List Nat) (g : Grid),
      Rep d S → Covers S g → ValidGivens g → SolOK d k →
        ∃ stop d', search ctx loopFuel want searchFuel k d = some (stop, d') ∧
          SameMatrix d d' := by
    intro ctx want k d S g hrep hcov hvg hsol
    obtain ⟨stop, d', hrun, hpost⟩ := search_spec ctx want hf searchFuel k d S g hrep hcov hvg
      (by have := empties_le g; simp only [searchFuel]; omega) hsol
    exact ⟨stop, d', hrun, sameMatrix_of_aux hpost.matrix⟩
  refine ⟨?_, hgen⟩
  obtain ⟨d, S, _, _, hrun, hrep, hcov, hfr, _, _, _⟩ := dlx_run_post none tick 1 b hb
  refine ⟨d, hrun, fun ctx want found => ?_⟩
  have hsol : SolOK { d with found := found } 0 := by
    refine ⟨fun i hi => by omega, fun i hi => ?_⟩
    have e : d.solLen = 0 := by rw [hfr.solLen, solLen_setTick, newDLX_inv.aux.solLen]
    have hi' : i < d.solLen := hi
    omega
  exact hgen ctx want 0 _ S b.Values (hrep.setFound found) hcov hb hsol

theorem search_restores_matrix_witness :
    (∃ d, applyGivens loopFuel twoSolGrid cells { newDLX with tick := 0 } = some (.ok d) ∧
      ∀ (ctx : Ctx) (want found : Nat), ∃ stop d',
        search ctx loopFuel want searchFuel 0 { d with found := found } = some (stop, d') ∧
          SameMatrix d d') ∧
    (∀ (ctx : Ctx) (want k : Nat) (d : DLX) (S : List Nat) (g : Grid),
      Rep d S → Covers S g → ValidGivens g → SolOK d k →
        ∃ stop d', search ctx loopFuel want searchFuel k d = some (stop, d') ∧
          SameMatrix d d') :=
  search_restores_matrix { Values := twoSolGrid, Fixed := Mask.zero } twoSol_valid 0

/-- C25: in the uniqueness search of both engines the counter never passes the cap. On a
board with valid givens, for every context and every cap `k ≥ 1`, the search of `DLXSolver`
returns with `found ≤ k`, with `found = min k (number of completions)` when the context is
never cancelled, with the stop flag false only below the cap and true only at the cap or
after a poll that saw the cancellation, and without any poll after the first one that saw
the cancellation; the search of `BacktrackingSolver.Unique` has the same properties with
the cap 2. And the stop is immediate: when the recursive call returns true the row loop of
`search` and the digit loop of `Unique` return true with the node counter of that call,
and a call that sees the cancellation (or, in `Unique`, a counter at the cap) returns true
before trying anything. -/
theorem search_counter_capped (b : Board) (hb : ValidGivens b.Values) (ctx : Ctx)
    (tick k : Nat) (hk : 1 ≤ k) :
    (∃ d stop d',
      applyGivens loopFuel b.Values cells { newDLX with tick := tick } = some (.ok d) ∧
      search ctx loopFuel k searchFuel 0 { d with found := 0 } = some (stop, d') ∧
      d'.found ≤ k ∧
      (ctx = none → d'.found = min k (completions b.Values).ncard) ∧
      (stop = false → d'.found < k) ∧
      (stop = true → d'.found = k ∨ ctx.done (d'.tick - 1) = true) ∧
      (∀ n, ctx = some n → tick ≤ n → d'.tick ≤ n + 1)) ∧
    (∃ stop s',
      uniqueDfs ctx searchFuel { grid := b.Values, nodes := 0, count := 0, tick := tick } =
        some (stop, s') ∧
      s'.count ≤ 2 ∧
      (ctx = none → s'.count = min 2 (completions b.Values).ncard) ∧
      (stop = false → s'.count < 2) ∧
      (stop = true → 2 ≤ s'.count ∨ ctx.done (s'.tick - 1) = true) ∧
      (∀ n, ctx = some n → tick ≤ n → s'.tick ≤ n + 1)) ∧
    (∀ (fuel : Nat) (dfs : DLX → Option (Bool × DLX)) (c kk n r : Nat) (d d3 d4 : DLX)
        (res : Bool × DLX), r ≠ c →
      coverOthers fuel r fuel ((pushRow d kk r).right.get r) (pushRow d kk r) = some d3 →
      dfs d3 = some (true, d4) → searchRows fuel dfs c kk (n + 1) r d = some res →
        res.1 = true ∧ res.2.nodes = d4.nodes ∧ res.2.found = d4.found ∧
          res.2.tick = d4.tick) ∧
    (∀ (ctx' : Ctx) (fuel want depth kk : Nat) (d : DLX), ctx'.done d.tick = true →
      search ctx' fuel want (depth + 1) kk d = some (true, { d with tick := d.tick + 1 })) ∧
    (∀ (dfs : BTState → Option (Bool × BTState)) (r c v : Nat) (vs : List Nat)
        (s s2 : BTState), isValid s.grid r c v = true →
      dfs { s with nodes := s.nodes + 1, grid := s.grid.set r c v } = some (true, s2) →
        uniqueDigits dfs r c (v :: vs) s = some (true, s2)) ∧
    (∀ (ctx' : Ctx) (fuel : Nat) (s : BTState), (ctx'.done s.tick = true ∨ 2 ≤ s.count) →
      uniqueDfs ctx' (fuel + 1) s = some (true, { s with tick := s.tick + 1 })) := by
  refine ⟨?_, ?_, ?_, ?_, ?_, ?_⟩
  · obtain ⟨d, S, stop, d', hrun, _, _, hfr, _, hsearch, hpost⟩ := dlx_run_post ctx tick k b hb
    have hbound := search_bound ctx loopFuel k searchFuel 0 _ stop d' hsearch
    have h0 : ({ d with found := 0 } : DLX).found = 0 := rfl
    have ht : ({ d with found := 0 } : DLX).tick = tick := hfr.tick
    refine ⟨d, stop, d', hrun, hsearch, hbound.le (by rw [h0]; omega), fun hctx => ?_,
      fun hs => hbound.lt (by rw [h0]; omega) hs, fun hs => ?_, fun n hn hle => ?_⟩
    · have := hpost.count hctx (by rw [h0]; omega)
      rw [h0, Nat.zero_add] at this
      by_cases hc : k ≤ (completions b.Values).ncard
      · rw [min_eq_left hc]; exact (this.1 hc).1
      · rw [min_eq_right (by omega)]; exact (this.2 (by omega)).1
    · rcases hbound.stop (by rw [h0]; omega) hs with h | h
      · exact Or.inl h
      · exact Or.inr h.2
    · exact (hbound.quiet n hn (by rw [ht]; exact hle)).1
  · obtain ⟨stop, s', hrun, hspec, _⟩ := bt_unique_run ctx tick b
    have hbound := uniqueDfs_bound ctx _ _ _ _ hrun
    refine ⟨stop, s', hrun, hbound.le (by show 0 ≤ 2; omega), fun hctx => ?_,
      fun hs => hbound.lt (by show 0 < 2; omega) hs, fun hs => ?_, fun n hn hle => ?_⟩
    · have := hspec.count hb hctx (by omega)
      rw [Nat.zero_add] at this
      by_cases hc : 2 ≤ (completions b.Values).ncard
      · rw [min_eq_left hc]; exact (this.1 hc).1
      · rw [min_eq_right (by omega)]; exact (this.2 (by omega)).1
    · rcases hbound.stop hs with h | h
      · exact Or.inl h
      · exact Or.inr h.2
    · exact (hbound.quiet n hn hle).1
  · intro fuel dfs c kk n r d d3 d4 res hne h3 h4 hres
    rw [searchRows_step _ _ _ _ _ _ _ hne, h3] at hres
    simp only [h4] at hres
    cases h5 : uncoverOthers fuel r fuel (d4.left.get r) d4 with
    | none => rw [h5] at hres; simp at hres
    | some d5 =>
      rw [h5] at hres
      simp only at hres
      cases h6 : uncover fuel c d5 with
      | none => rw [h6] at hres; simp at hres
      | some d6 =>
        rw [h6] at hres
        simp only [Option.some.injEq] at hres
        obtain ⟨b1, b2, b3, _, _⟩ := aux_fields (uncoverOthers_aux h5)
        obtain ⟨c1, c2, c3, _, _⟩ := aux_fields (uncover_aux h6)
        rw [← hres]
        exact ⟨rfl, by show d6.nodes = d4.nodes; omega, by show d6.found = d4.found; omega,
          by show d6.tick = d4.tick; omega⟩
  · intro ctx' fuel want depth kk d hdone
    rw [search_succ, if_pos hdone]
    rfl
  · intro dfs r c v vs s s2 hval hdfs
    simp only [uniqueDigits, hval, if_true, hdfs]
  · intro ctx' fuel s h
    have hd : (ctx'.done s.tick || decide (s.count ≥ 2)) = true := by
      simp only [Bool.or_eq_true, decide_eq_true_eq]
      exact h
    simp only [uniqueDfs, hd, if_true]

theorem search_counter_capped_witness :
    (∃ d stop d',
      applyGivens loopFuel twoSolGrid cells { newDLX with tick := 0 } = some (.ok d) ∧
      search (some 5) loopFuel 2 searchFuel 0 { d with found := 0 } = some (stop, d') ∧
      d'.found ≤ 2 ∧
      ((some 5 : Ctx) = none → d'.found = min 2 (completions twoSolGrid).ncard) ∧
      (stop = false → d'.found < 2) ∧
      (stop = true → d'.found = 2 ∨ Ctx.done (some 5) (d'.tick - 1) = true) ∧
      (∀ n, (some 5 : Ctx) = some n → 0 ≤ n → d'.tick ≤ n + 1)) ∧
    (∃ stop s',
      uniqueDfs (some 5) searchFuel { grid := twoSolGrid, nodes := 0, count := 0, tick := 0 } =
        some (stop, s') ∧
      s'.count ≤ 2 ∧
      ((some 5 : Ctx) = none → s'.count = min 2 (completions twoSolGrid).ncard) ∧
      (stop = false → s'.count < 2) ∧
      (stop = true → 2 ≤ s'.count ∨ Ctx.done (some 5) (s'.tick - 1) = true) ∧
      (∀ n, (some 5 : Ctx) = some n → 0 ≤ n → s'.tick ≤ n + 1)) :=
  ⟨(search_counter_capped { Values := twoSolGrid, Fixed := Mask.zero } twoSol_valid (some 5) 0 2
      (by decide)).1,
   (search_counter_capped { Values := twoSolGrid, Fixed := Mask.zero } twoSol_valid (some 5) 0 2
      (by decide)).2.1⟩

theorem sol_setTick (d : DLX) (t : Nat) : ({ d with tick := t } : DLX).sol = d.sol := rfl

/-- C27: on a board with valid givens, `n` of them, the loops of `Solve` and `Unique` that
apply the givens end with a matrix in which the inactive columns are exactly the columns of
the candidate rows of the givens, `4 n` in number, with `activeCnt = 324 - 4 n`; no given
is recorded as a choice (the solution list is empty and `solLen` is 0 before the search);
and on a successful `Solve` the search ends with `solLen = 81 - n`. -/
theorem givens_cover_columns (b : Board) (hb : ValidGivens b.Values) (tick : Nat) :
    ∃ (d : DLX) (S : List Nat),
      applyGivens loopFuel b.Values cells { newDLX with tick := tick } = some (.ok d) ∧
      S.Nodup ∧ S.length = 4 * countGivens b.Values ∧
      (∀ col, col < 324 → (d.active.get col = false ↔ col ∈ S)) ∧
      (∀ col, col < 324 →
        (col ∈ S ↔
          ∃ r c : Fin 9, b.Values r c ≠ 0 ∧ col ∈ rowColumns r.val c.val (b.Values r c))) ∧
      d.activeCnt = 324 - 4 * (countGivens b.Values : Int) ∧
      d.solLen = 0 ∧ (∀ i, d.sol.get i = none) ∧
      (∀ ctx res out, DLXSolver.Solve ctx tick b = some res → res.board = .ok out →
        ∃ stop d', search ctx loopFuel 1 searchFuel 0 { d with found := 0 } = some (stop, d') ∧
          d'.found = 1 ∧ d'.solLen = 81 - countGivens b.Values) := by
  obtain ⟨d, S, _, _, hrun, hrep, hcov, hfr, hlen, _, _⟩ := dlx_run_post none tick 1 b hb
  have hsum := countGivens_add_empties b.Values
  have hS : S.length = 4 * countGivens b.Values := by omega
  refine ⟨d, S, hrun, hrep.nodup, hS, fun col hcol => ?_,
    fun col hcol => covers_rowColumns hcov hb hcol, ?_, ?_, fun i => ?_,
    fun ctx res out hsolve hok => ?_⟩
  · rw [hrep.active col hcol]
    simp
  · rw [hrep.activeCnt, hS]
    push_cast
    rfl
  · rw [hfr.solLen, solLen_setTick, newDLX_inv.aux.solLen]
  · rw [hfr.sol, sol_setTick, newDLX_inv.aux.sol, Mem.get_const]
  · obtain ⟨d2, stop, d', hrun2, hsearch, hres⟩ := dlx_solve_ok ctx tick b hb
    rw [hrun] at hrun2
    simp only [Option.some.injEq, Except.ok.injEq] at hrun2
    subst hrun2
    obtain ⟨h1, h2, _⟩ := hres res out hsolve hok
    exact ⟨stop, d', hsearch, h1, by omega⟩

theorem givens_cover_columns_witness :
    ∃ (d : DLX) (S : List Nat),
      applyGivens loopFuel twoSolGrid cells { newDLX with tick := 0 } = some (.ok d) ∧
      S.Nodup ∧ S.length = 4 * countGivens twoSolGrid ∧
      (∀ col, col < 324 → (d.active.get col = false ↔ col ∈ S)) ∧
      (∀ col, col < 324 →
        (col ∈ S ↔
          ∃ r c : Fin 9, twoSolGrid r c ≠ 0 ∧ col ∈ rowColumns r.val c.val (twoSolGrid r c))) ∧
      d.activeCnt = 324 - 4 * (countGivens twoSolGrid : Int) ∧
      d.solLen = 0 ∧ (∀ i, d.sol.get i = none) ∧
      (∀ ctx res out,
        DLXSolver.Solve ctx 0 { Values := twoSolGrid, Fixed := Mask.zero } = some res →
        res.board = .ok out →
        ∃ stop d', search ctx loopFuel 1 searchFuel 0 { d with found := 0 } = some (stop, d') ∧
          d'.found = 1 ∧ d'.solLen = 81 - countGivens twoSolGrid) :=
  givens_cover_columns { Values := twoSolGrid, Fixed := Mask.zero } twoSol_valid 0

/-- The exact-cover solver solves the sample board with two completions. -/
theorem dlx_solves_twoSol :
    ∃ res out, DLXSolver.Solve none 0 { Values := twoSolGrid, Fixed := Mask.zero } = some res ∧
      res.board = .ok out := by
  obtain ⟨res, hrun, _, hiff⟩ := dlx_solve_run none 0 { Values := twoSolGrid, Fixed := Mask.zero }
    twoSol_valid
  cases hb : res.board with
  | error e =>
    have hem := (hiff rfl).mp ⟨e, hb⟩
    have hmem : solvedGrid ∈ completions twoSolGrid := twoSol_completions.2.1
    rw [hem] at hmem
    simp at hmem
  | ok out => exact ⟨res, out, hrun, hb⟩

/-- C28: when `DLXSolver.Solve` succeeds on a board without a repeat in a row, column or
box (whatever the context), the board it returns is non-zero exactly at the cells that are
empty in the input, and the input's givens together with the returned values at the
input's empty cells form a full grid with each digit once in every row, column and box. -/
theorem dlx_solve_fills_empties (ctx : Ctx) (tick : Nat) (b : Board)
    (hnr : NoRepeat b.Values) (res : SolveResult) (out : Board)
    (hrun : DLXSolver.Solve ctx tick b = some res) (hok : res.board = .ok out) :
    (∀ r c, out.Values r c ≠ 0 ↔ b.Values r c = 0) ∧
    Solved (fun r c => if b.Values r c ≠ 0 then b.Values r c else out.Values r c) ∧
    Full (fun r c => if b.Values r c ≠ 0 then b.Values r c else out.Values r c) := by
  have hb : ValidGivens b.Values := by
    refine ⟨fun r c => ?_, hnr⟩
    by_contra hcon
    obtain ⟨⟨e, he⟩, _⟩ := dlx_invalid ctx tick b r c (by omega)
    rw [he] at hrun
    simp only [Option.some.injEq] at hrun
    rw [← hrun] at hok
    simp at hok
  obtain ⟨_, _, _, _, _, hres⟩ := dlx_solve_ok ctx tick b hb
  obtain ⟨_, _, h, ⟨hsolved, hext⟩, hout⟩ := hres res out hrun hok
  have hmerge : (fun r c => if b.Values r c ≠ 0 then b.Values r c else out.Values r c) = h := by
    funext r c
    rw [hout]
    by_cases h0 : b.Values r c = 0
    · simp only [h0, ne_eq, not_true_eq_false, if_false, if_true]
    · simp only [h0, ne_eq, not_false_eq_true, if_true]
      exact (hext r c h0).symm
  refine ⟨fun r c => ?_, by rw [hmerge]; exact hsolved, by rw [hmerge]; exact hsolved.full⟩
  rw [hout]
  by_cases h0 : b.Values r c = 0
  · simp only [h0, if_true, iff_true]
    exact hsolved.full r c
  · simp only [h0, if_false, ne_eq, not_true_eq_false]

theorem dlx_solve_fills_empties_witness :
    ∃ res out, DLXSolver.Solve none 0 { Values := twoSolGrid, Fixed := Mask.zero } = some res ∧
      res.board = .ok out ∧
      (∀ r c, out.Values r c ≠ 0 ↔ twoSolGrid r c = 0) ∧
      Solved (fun r c => if twoSolGrid r c ≠ 0 then twoSolGrid r c else out.Values r c) ∧
      Full (fun r c => if twoSolGrid r c ≠ 0 then twoSolGrid r c else out.Values r c) := by
  obtain ⟨res, out, hrun, hok⟩ := dlx_solves_twoSol
  exact ⟨res, out, hrun, hok,
    dlx_solve_fills_empties none 0 { Values := twoSolGrid, Fixed := Mask.zero } twoSol_valid.2
      res out hrun hok⟩

end Sudoku

namespace Sudoku

/-! ## A walk of the carving loop that keeps a given -/

/-- The sample board with two completions and the given 6 back in the cell (0, 3). -/
def threeHoleGrid : Grid := twoSolGrid.set 0 3 6

theorem twoSol_ncard_ne_one : (completions twoSolGrid).ncard ≠ 1 := by
  intro h
  obtain ⟨a, ha⟩ := Set.ncard_eq_one.mp h
  have h1 : solvedGrid ∈ completions twoSolGrid := twoSol_completions.2.1
  have h2 : solvedGrid2 ∈ completions twoSolGrid := twoSol_completions.2.2
  rw [ha, Set.mem_singleton_iff] at h1 h2
  exact twoSol_completions.1 (h1.trans h2.symm)

/-- The carving loop can end above its target with a given that it tried to clear and
kept: from `threeHoleGrid`, with the backtracking solver, no deadline and the target 24,
the walk over the position 3 keeps the 6 of the cell (0, 3), and clearing that cell would
leave a board with more than one completion. -/
theorem carve_keeps_needed_given :
    ∃ s', carve { Solver := NewBacktrackingSolver } envPatient 24 [3] 0
        { puz := threeHoleGrid, fixed := fun r c => decide (threeHoleGrid r c ≠ 0),
          nodes := 0, tick := 0, checks := 0 } = some s' ∧
      s'.puz = threeHoleGrid ∧ 24 < countGivens s'.puz ∧ s'.puz 0 3 ≠ 0 ∧
      1 < (completions (s'.puz.set 0 3 0)).ncard := by
  have hclear : threeHoleGrid.set 0 3 0 = twoSolGrid := by
    unfold threeHoleGrid
    rw [Grid.set_twice]
    have e := Grid.set_get_cell twoSolGrid 0 3
    rw [show twoSolGrid.get 0 3 = 0 from by decide] at e
    exact e
  have hback : twoSolGrid.set 0 3 (threeHoleGrid.get 0 3) = threeHoleGrid := by
    rw [show threeHoleGrid.get 0 3 = 6 from by decide]
    rfl
  obtain ⟨res, hres, hiff⟩ := bt_exactUnique 0 { Values := twoSolGrid, Fixed := Mask.zero }
    twoSol_valid
  have hnu : res.unique = false := by
    cases hu : res.unique with
    | false => rfl
    | true => exact absurd (hiff.mp hu) twoSol_ncard_ne_one
  have hcount : countGivens threeHoleGrid = 78 := by decide
  have hget : threeHoleGrid.get 0 3 ≠ 0 := by decide
  have hrun : carve { Solver := NewBacktrackingSolver } envPatient 24 [3] 0
      { puz := threeHoleGrid, fixed := fun r c => decide (threeHoleGrid r c ≠ 0),
        nodes := 0, tick := 0, checks := 0 } =
      some { puz := threeHoleGrid,
             fixed := Mask.set (Mask.set (fun r c => decide (threeHoleGrid r c ≠ 0)) 0 3 false)
               0 3 true,
             nodes := 0 + res.stats.Nodes, tick := res.tick, checks := 0 + 1 } := by
    have h1 : envPatient.expired 0 = false := rfl
    have h2 : ¬ countGivens threeHoleGrid ≤ 24 := by rw [hcount]; omega
    have h3 : (3 : Nat) / 9 = 0 := rfl
    have h4 : (3 : Nat) % 9 = 3 := rfl
    have h5 : NewBacktrackingSolver.Unique envPatient.ctx 0
        { Values := twoSolGrid, Fixed := Mask.zero } = some res := hres
    simp only [carve, h1, Bool.false_eq_true, if_false, h2, h3, h4, hget, hclear, h5, hnu,
      Bool.not_false, if_true, hback]
  refine ⟨_, hrun, rfl, ?_, ?_, ?_⟩
  · show 24 < countGivens threeHoleGrid
    rw [hcount]
    omega
  · show threeHoleGrid 0 3 ≠ 0
    decide
  · show 1 < (completions (threeHoleGrid.set 0 3 0)).ncard
    rw [hclear]
    exact one_lt_ncard_completions twoSol_completions.2.1 twoSol_ncard_ne_one

end Sudoku

namespace Sudoku

/-! ## The generator: where the deadline cuts the carving walk -/

/-- The environment with the same random source and context and a deadline that is never
reached. -/
def GenEnv.calm (env : GenEnv) : GenEnv := { env with expired := fun _ => false }

/-- The deadline is first seen passed at the iteration `k` of the carving loop; at none of
its 81 iterations when `k ≥ 81`. -/
def CutAt (env : GenEnv) (k : Nat) : Prop :=
  (∀ j, j < k → env.expired j = false) ∧ (k < 81 → env.expired k = true)

theorem calm_expired (env : GenEnv) (i : Nat) : env.calm.expired i = false := rfl

theorem calm_ctx (env : GenEnv) : env.calm.ctx = env.ctx := rfl

/-- A walk that the deadline cuts at its iteration `k` is the walk over the first `k`
positions without a deadline. -/
theorem carve_cut (g : UniqueGenerator) (env : GenEnv) (target : Nat) :
    ∀ (ps : List Nat) (k i : Nat) (s : CarveState),
      (∀ j, j < k → env.expired (i + j) = false) →
      (k < ps.length → env.expired (i + k) = true) →
      carve g env target ps i s = carve g env.calm target (ps.take k) i s := by
  intro ps
  induction ps with
  | nil => intro k i s _ _; simp only [List.take_nil]; rfl
  | cons pos rest ih =>
    intro k i s h1 h2
    cases k with
    | zero =>
      have := h2 (by simp)
      rw [Nat.add_zero] at this
      rw [carve_expired _ _ _ _ _ _ this]
      rfl
    | succ k =>
      have h0 : env.expired i = false := h1 0 (by omega)
      have hrest : ∀ s' : CarveState,
          carve g env target rest (i + 1) s' = carve g env.calm target (rest.take k) (i + 1) s' :=
        fun s' => ih k (i + 1) s'
          (fun j hj => by
            have := h1 (j + 1) (by omega)
            rw [show i + 1 + j = i + (j + 1) from by omega]
            exact this)
          (fun hk => by
            have := h2 (by simp only [List.length_cons]; omega)
            rw [show i + 1 + k = i + (k + 1) from by omega]
            exact this)
      simp only [List.take_succ_cons, carve, h0, calm_expired, calm_ctx, hrest]

/-- Without a deadline the number of the iteration plays no part. -/
theorem carve_calm_index (g : UniqueGenerator) (env : GenEnv) (target : Nat) :
    ∀ (ps : List Nat) (i j : Nat) (s : CarveState),
      carve g env.calm target ps i s = carve g env.calm target ps j s := by
  intro ps
  induction ps with
  | nil => intro i j s; rfl
  | cons pos rest ih =>
    intro i j s
    have hrest : ∀ s' : CarveState,
        carve g env.calm target rest (i + 1) s' = carve g env.calm target rest (j + 1) s' :=
      fun s' => ih (i + 1) (j + 1) s'
    simp only [carve, calm_expired, hrest]

theorem carve_at_target (g : UniqueGenerator) (env : GenEnv) (target : Nat) (ps : List Nat)
    (i : Nat) (s : CarveState) (h : countGivens s.puz ≤ target) :
    carve g env.calm target ps i s = some s := by
  cases ps with
  | nil => rfl
  | cons pos rest => simp only [carve, calm_expired, Bool.false_eq_true, if_false, if_pos h]

/-- Without a deadline, the walk over `l1 ++ l2` is the walk over `l1` followed by the walk
over `l2` from the state it left. -/
theorem carve_append (g : UniqueGenerator) (env : GenEnv) (target : Nat) (l2 : List Nat) :
    ∀ (l1 : List Nat) (i : Nat) (s : CarveState),
      carve g env.calm target (l1 ++ l2) i s =
        (carve g env.calm target l1 i s).bind (fun s1 => carve g env.calm target l2 i s1) := by
  intro l1
  induction l1 with
  | nil => intro i s; rfl
  | cons pos rest ih =>
    intro i s
    have hrest : ∀ s' : CarveState,
        carve g env.calm target (rest ++ l2) (i + 1) s' =
          (carve g env.calm target rest (i + 1) s').bind
            (fun s1 => carve g env.calm target l2 i s1) := by
      intro s'
      rw [ih (i + 1) s']
      congr 1
      funext s1
      exact carve_calm_index g env target l2 (i + 1) i s1
    by_cases hc : countGivens s.puz ≤ target
    · have e1 : carve g env.calm target (pos :: rest ++ l2) i s = some s :=
        carve_at_target g env target _ i s hc
      have e2 : carve g env.calm target (pos :: rest) i s = some s :=
        carve_at_target g env target _ i s hc
      rw [e1, e2]
      exact (carve_at_target g env target l2 i s hc).symm
    · rw [List.cons_append]
      simp only [carve, calm_expired, Bool.false_eq_true, if_false, if_neg hc]
      split
      · exact hrest _
      · cases g.Solver.Unique env.calm.ctx s.tick
            { Values := s.puz.set (pos / 9) (pos % 9) 0, Fixed := Mask.zero } with
        | none => rfl
        | some res =>
          dsimp only
          split <;> exact hrest _

end Sudoku

namespace Sudoku

/-! ## Searches that succeed saw no cancellation -/

/-- The digit loop of `Solve` returns true only where its recursive call did. -/
theorem solveDigits_calm {n : Nat} (dfs : BTState → Option (Bool × BTState))
    (hdfs : ∀ x x', dfs x = some (true, x') → x'.tick ≤ n) (r c : Nat) :
    ∀ (vs : List Nat) (s s' : BTState),
      solveDigits dfs r c vs s = some (true, s') → s'.tick ≤ n := by
  intro vs
  induction vs with
  | nil => intro s s' h; simp [solveDigits] at h
  | cons v vs ih =>
    intro s s' h
    simp only [solveDigits] at h
    split at h
    · cases hd : dfs { s with nodes := s.nodes + 1, grid := s.grid.set r c v } with
      | none => rw [hd] at h; simp at h
      | some res =>
        obtain ⟨b2, s2⟩ := res
        rw [hd] at h
        cases b2 with
        | true =>
          simp only [Option.some.injEq, Prod.mk.injEq, true_and] at h
          rw [← h]
          exact hdfs _ _ hd
        | false => exact ih _ _ h
    · exact ih _ _ h

/-- A run of the closure `dfs` of `Solve` that returns true made all its polls before the
cancellation. -/
theorem solveDfs_calm (n : Nat) : ∀ (fuel : Nat) (s s' : BTState),
    solveDfs (some n) fuel s = some (true, s') → s'.tick ≤ n := by
  intro fuel
  induction fuel with
  | zero => intro s s' h; simp [solveDfs] at h
  | succ m ih =>
    intro s s' h
    simp only [solveDfs] at h
    by_cases hd : Ctx.done (some n) s.tick = true
    · rw [if_pos hd] at h
      simp at h
    · rw [if_neg hd] at h
      simp only [Ctx.done, decide_eq_true_eq] at hd
      cases hfe : findEmpty s.grid with
      | none =>
        rw [hfe] at h
        simp only [Option.some.injEq, Prod.mk.injEq, true_and] at h
        rw [← h]
        show s.tick + 1 ≤ n
        omega
      | some p =>
        obtain ⟨r, c⟩ := p
        rw [hfe] at h
        exact solveDigits_calm (solveDfs (some n) m) (ih) r c digits _ _ h

/-- A successful `BacktrackingSolver.Solve` made all its polls before the cancellation. -/
theorem bt_solve_calm (n tick : Nat) (b : Board) (res : SolveResult) (out : Board)
    (h : BacktrackingSolver.Solve (some n) tick b = some res) (hok : res.board = .ok out) :
    res.tick ≤ n := by
  obtain ⟨ok, s', hrun, _, hres⟩ := bt_solve_run (some n) tick b
  rw [hres] at h
  simp only [Option.some.injEq] at h
  cases ok with
  | true =>
    rw [← h]
    exact solveDfs_calm n _ _ _ hrun
  | false =>
    rw [← h] at hok
    simp at hok

/-- A run of `search` that brings the counter `found` to its cap made all its polls before
the cancellation. -/
def Calm (ctx : Ctx) (want : Nat) (d d' : DLX) : Prop :=
  d.found < want → d'.found = want → ∀ n, ctx = some n → d'.tick ≤ n

theorem searchRows_calm {ctx : Ctx} {want fuel c k : Nat} (dfs : DLX → Option (Bool × DLX))
    (hdfs : ∀ x b x', dfs x = some (b, x') → Bound ctx want x b x' ∧ Calm ctx want x x') :
    ∀ (n r : Nat) (d : DLX) (b : Bool) (d' : DLX),
      searchRows fuel dfs c k n r d = some (b, d') → Calm ctx want d d' := by
  intro n
  induction n with
  | zero => intro r d b d' h; simp [searchRows] at h
  | succ n ih =>
    intro r d b d' h
    by_cases hr : r = c
    · subst hr
      rw [searchRows_end] at h
      cases hu : uncover fuel r d with
      | none => rw [hu] at h; simp at h
      | some d1 =>
        rw [hu] at h
        simp only [Option.some.injEq, Prod.mk.injEq] at h
        obtain ⟨rfl, rfl⟩ := h
        obtain ⟨a1, _, _, _, _⟩ := aux_fields (uncover_aux hu)
        intro hl he
        omega
    · rw [searchRows_step _ _ _ _ _ _ _ hr] at h
      cases h3 : coverOthers fuel r fuel ((pushRow d k r).right.get r) (pushRow d k r) with
      | none => rw [h3] at h; simp at h
      | some d3 =>
        rw [h3] at h
        simp only at h
        obtain ⟨a1, a2, _, _, _⟩ := aux_fields (coverOthers_aux h3)
        have e1 : d3.found = d.found := a1
        have e2 : d3.tick = d.tick := a2
        cases h4 : dfs d3 with
        | none => rw [h4] at h; simp at h
        | some res =>
          obtain ⟨b4, d4⟩ := res
          obtain ⟨hb4, hc4⟩ := hdfs d3 b4 d4 h4
          rw [h4] at h
          cases b4 with
          | true =>
            simp only at h
            cases h5 : uncoverOthers fuel r fuel (d4.left.get r) d4 with
            | none => rw [h5] at h; simp at h
            | some d5 =>
              rw [h5] at h
              simp only at h
              cases h6 : uncover fuel c d5 with
              | none => rw [h6] at h; simp at h
              | some d6 =>
                rw [h6] at h
                simp only [Option.some.injEq, Prod.mk.injEq] at h
                obtain ⟨rfl, rfl⟩ := h
                obtain ⟨b1, b2, _, _, _⟩ := aux_fields (uncoverOthers_aux h5)
                obtain ⟨c1, c2, _, _, _⟩ := aux_fields (uncover_aux h6)
                intro hl he m hm
                have := hc4 (by omega) (by omega) m hm
                omega
          | false =>
            simp only at h
            cases h5 : uncoverOthers fuel r fuel (d4.left.get r) d4 with
            | none => rw [h5] at h; simp at h
            | some d5 =>
              rw [h5] at h
              simp only at h
              obtain ⟨b1, b2, _, _, _⟩ := aux_fields (uncoverOthers_aux h5)
              intro hl he m hm
              have hlt := hb4.lt (by omega) rfl
              exact ih _ _ _ _ h (by omega) he m hm

theorem search_calm (ctx : Ctx) (fuel want : Nat) : ∀ (depth k : Nat) (d : DLX) (b : Bool)
    (d' : DLX), search ctx fuel want depth k d = some (b, d') → Calm ctx want d d' := by
  intro depth
  induction depth with
  | zero => intro k d b d' h; simp [search] at h
  | succ n ih =>
    intro k d b d' h
    rw [search_succ] at h
    have hsame : ∀ e : DLX, e.found = d.found → Calm ctx want d e := by
      intro e he hl hw
      omega
    by_cases hdone : ctx.done d.tick = true
    · rw [if_pos hdone] at h
      simp only [Option.some.injEq, Prod.mk.injEq] at h
      obtain ⟨rfl, rfl⟩ := h
      exact hsame _ rfl
    · rw [if_neg hdone] at h
      by_cases hact : (polled d).activeCnt = 0
      · rw [if_pos hact] at h
        simp only [Option.some.injEq, Prod.mk.injEq] at h
        obtain ⟨rfl, rfl⟩ := h
        intro _ _ m hm
        subst hm
        simp only [Ctx.done, decide_eq_true_eq] at hdone
        show d.tick + 1 ≤ m
        omega
      · rw [if_neg hact] at h
        cases hch : chooseColumn (polled d) with
        | none =>
          rw [hch] at h
          simp only [Option.some.injEq, Prod.mk.injEq] at h
          obtain ⟨rfl, rfl⟩ := h
          exact hsame _ rfl
        | some c =>
          rw [hch] at h
          simp only at h
          by_cases hsz : (polled d).size.get c = 0
          · rw [if_pos hsz] at h
            simp only [Option.some.injEq, Prod.mk.injEq] at h
            obtain ⟨rfl, rfl⟩ := h
            exact hsame _ rfl
          · rw [if_neg hsz] at h
            cases hcv : cover fuel c (polled d) with
            | none => rw [hcv] at h; simp at h
            | some d2 =>
              rw [hcv] at h
              simp only at h
              obtain ⟨a1, _, _, _, _⟩ := aux_fields (cover_aux hcv)
              have e1 : d2.found = d.found := a1
              have hrows := searchRows_calm (search ctx fuel want n (k + 1))
                (fun x b x' hx => ⟨search_bound ctx fuel want n (k + 1) x b x' hx,
                  ih (k + 1) x b x' hx⟩) _ _ _ _ _ h
              intro hl he m hm
              exact hrows (by omega) he m hm

/-- A successful `DLXSolver.Solve` on valid givens made all its polls before the
cancellation. -/
theorem dlx_solve_calm (n tick : Nat) (b : Board) (hb : ValidGivens b.Values)
    (res : SolveResult) (out : Board)
    (h : DLXSolver.Solve (some n) tick b = some res) (hok : res.board = .ok out) :
    res.tick ≤ n := by
  obtain ⟨d, S, stop, d', hrun, _, _, _, _, hsearch, _⟩ := dlx_run_post (some n) tick 1 b hb
  have hbound := search_bound (some n) loopFuel 1 searchFuel 0 _ stop d' hsearch
  have hcalm := search_calm (some n) loopFuel 1 searchFuel 0 _ stop d' hsearch
  have h0 : ({ d with found := 0 } : DLX).found = 0 := rfl
  simp only [DLXSolver.Solve, DLXSolver.solveWith, hrun, hsearch] at h
  by_cases hfound : d'.found < 1
  · rw [if_pos hfound] at h
    simp only [Option.some.injEq] at h
    rw [← h] at hok
    simp at hok
  · rw [if_neg hfound] at h
    have hle := hbound.le (by rw [h0]; omega)
    have hone : d'.found = 1 := by omega
    have ht := hcalm (by rw [h0]; omega) hone n rfl
    cases hrec : reconstruct d' d'.solLen 0 Grid.zero with
    | none => rw [hrec] at h; simp at h
    | some o =>
      rw [hrec] at h
      simp only [Option.some.injEq] at h
      rw [← h]
      exact ht

/-! ## The first step of the carving loop -/

theorem targetGivens_lt (diff : Difficulty) : targetGivens diff < 81 := by
  unfold targetGivens
  split_ifs <;> omega

/-- With an exact solver, no cancellation, and the deadline not passed at the start of
the carving loop, the puzzle that `Generate` returns has an empty cell: the loop clears
the first position it visits. -/
theorem generate_carves_first (g : UniqueGenerator) (hsv : ExactUnique g.Solver) (env : GenEnv)
    (hctx : env.ctx = none) (hexp : env.expired 0 = false) (seed : Int) (diff : Difficulty)
    (res : GenResult) (p : Puzzle) (hrun : g.Generate env seed diff = some res)
    (hok : res.puzzle = .ok p) : ∃ a b : Fin 9, p.Board.Values a b = 0 := by
  obtain ⟨fs, s, hfill, hcarve, hval, _⟩ := generate_ok g env seed diff res p hrun hok
  obtain ⟨hfull, hvalid⟩ := fillRandom_ok _ _ _ fs hfill
  have hlen := positions_length (env.rng seed) fs.shuffles
  cases hps : (env.rng seed).shuffle fs.shuffles (List.range 81) with
  | nil => rw [hps] at hlen; simp at hlen
  | cons pos rest =>
    have hpos : pos < 81 := by
      have := (shuffle_spec (env.rng seed) fs.shuffles (List.range 81) (by simp)).2 pos
        (by rw [hps]; exact List.mem_cons_self _ _)
      exact List.mem_range.mp this
    obtain ⟨r, hr⟩ : ∃ r : Fin 9, r.val = pos / 9 := ⟨⟨pos / 9, by omega⟩, rfl⟩
    obtain ⟨c, hc⟩ : ∃ c : Fin 9, c.val = pos % 9 := ⟨⟨pos % 9, Nat.mod_lt _ (by omega)⟩, rfl⟩
    rw [hps] at hcarve
    have hcount : ¬ countGivens fs.grid ≤ targetGivens diff := by
      rw [countGivens_of_full _ hfull]
      have := targetGivens_lt diff
      omega
    have hne : ¬ fs.grid.get (pos / 9) (pos % 9) = 0 := by
      rw [← hr, ← hc, Grid.get_fin]
      exact hfull r c
    obtain ⟨u, hu, hiff⟩ := hsv fs.tick
      { Values := fs.grid.set (pos / 9) (pos % 9) 0, Fixed := Mask.zero }
      (validGivens_set_zero hvalid _ _)
    have hut : u.unique = true := by
      apply hiff.mpr
      dsimp only
      rw [← hr, ← hc, completions_hole hvalid hfull r c, Set.ncard_singleton]
    rw [← hctx] at hu
    simp only [carve, hexp, Bool.false_eq_true, if_false, hcount, hne, hu, hut,
      Bool.not_true] at hcarve
    have hzero := carve_zero _ _ _ r c _ _ _ _ hcarve (by
      dsimp only
      rw [← hr, ← hc, Grid.set_same])
    exact ⟨r, c, by rw [hval]; exact hzero⟩

end Sudoku

namespace Sudoku

/-! ## Covering a column that is already covered -/

/-- Unlinking a node of the kind `k` writes no `down` pointer of a header or a node of
another kind `k0`. -/
theorem unlinkNode_down_other {d : DLX} (hm : Mono d) {row k k0 : Nat} (hr : row < 729)
    (hk : k < 4) (hk0 : k0 < 4) (hne : k ≠ k0) (a : Nat)
    (ha : (a < 324 ∧ a / 81 = k0) ∨ ∃ row', a = nodeAddr row' k0) :
    (unlinkNode d (nodeAddr row k)).down.get a = d.down.get a := by
  have hdn := hm.ndown row k hr hk
  have hu := hm.nup row k hr hk
  have hdiv := rcol_div hr hk
  have hlt := rcol_lt hr hk
  have hj : nodeAddr row k ≠ d.down.get (nodeAddr row k) := by
    rcases hdn with h | ⟨row', _, _, h3, h4⟩
    · rw [h]; simp only [nodeAddr_eq]; omega
    · rw [h3]
      have := h4 row rfl
      simp only [nodeAddr_eq]; omega
  rw [unlinkNode_down d _ hj, Mem.get_set, if_neg]
  intro e
  rcases hu with h | ⟨row', _, _, h3, _⟩
  · rw [h] at e
    rcases ha with ⟨_, h2⟩ | ⟨row'', h2⟩
    · rw [e] at h2; omega
    · rw [h2] at e; simp only [nodeAddr_eq] at e; omega
  · rw [h3, hdiv] at e
    rcases ha with ⟨h1, _⟩ | ⟨row'', h2⟩
    · simp only [nodeAddr_eq] at e; omega
    · rw [h2] at e; simp only [nodeAddr_eq] at e; omega

theorem unlinkNode_size_get {d : DLX} (hs : Static d) {row k : Nat} (hr : row < 729)
    (hk : k < 4) (x : Nat) :
    (unlinkNode d (nodeAddr row k)).size.get x =
      if x = rcol row k then d.size.get x - 1 else d.size.get x := by
  have hsu : StaticUpTo d 729 := hs
  rw [unlinkNode_size, hsu.col row k hr hk, Mem.get_set]
  by_cases h : x = rcol row k
  · rw [if_pos h, if_pos h, h]
  · rw [if_neg h, if_neg h]

/-- The three unlinks of a candidate row leave the `down` pointers of the column in which
the row was met. -/
theorem unlinkRow_down_same {d : DLX} (hm : Mono d) {row k0 : Nat} (hr : row < 729)
    (hk0 : k0 < 4) (a : Nat)
    (ha : (a < 324 ∧ a / 81 = k0) ∨ ∃ row', a = nodeAddr row' k0) :
    (unlinkRow d row k0).down.get a = d.down.get a := by
  have hk1 : (k0 + 1) % 4 < 4 := Nat.mod_lt _ (by omega)
  have hk2 : (k0 + 2) % 4 < 4 := Nat.mod_lt _ (by omega)
  have hk3 : (k0 + 3) % 4 < 4 := Nat.mod_lt _ (by omega)
  have hm1 := unlinkNode_mono hm hr hk1
  have hm2 := unlinkNode_mono hm1 hr hk2
  unfold unlinkRow
  rw [unlinkNode_down_other hm2 hr hk3 hk0 (by omega) a ha,
    unlinkNode_down_other hm1 hr hk2 hk0 (by omega) a ha,
    unlinkNode_down_other hm hr hk1 hk0 (by omega) a ha]

/-- The three unlinks of a candidate row take one from the size of each of its three
other columns, and leave the other sizes. -/
theorem unlinkRow_sizes {d : DLX} (hs : Static d) {row k0 : Nat} (hr : row < 729)
    (hk0 : k0 < 4) :
    (∀ x, (unlinkRow d row k0).size.get x ≤ d.size.get x) ∧
    (∀ k, k < 4 → k ≠ k0 →
      (unlinkRow d row k0).size.get (rcol row k) < d.size.get (rcol row k)) ∧
    (∀ x, (∀ k, k < 4 → k ≠ k0 → rcol row k ≠ x) →
      (unlinkRow d row k0).size.get x = d.size.get x) := by
  have hk1 : (k0 + 1) % 4 < 4 := Nat.mod_lt _ (by omega)
  have hk2 : (k0 + 2) % 4 < 4 := Nat.mod_lt _ (by omega)
  have hk3 : (k0 + 3) % 4 < 4 := Nat.mod_lt _ (by omega)
  have hs1 : Static (unlinkNode d (nodeAddr row ((k0 + 1) % 4))) :=
    hs.of_frame (unlinkNode_frame _ _).1
  have hs2 : Static (unlinkNode (unlinkNode d (nodeAddr row ((k0 + 1) % 4)))
      (nodeAddr row ((k0 + 2) % 4))) := hs1.of_frame (unlinkNode_frame _ _).1
  have e : ∀ x, (unlinkRow d row k0).size.get x =
      d.size.get x - (if x = rcol row ((k0 + 1) % 4) then 1 else 0)
        - (if x = rcol row ((k0 + 2) % 4) then 1 else 0)
        - (if x = rcol row ((k0 + 3) % 4) then 1 else 0) := by
    intro x
    unfold unlinkRow
    rw [unlinkNode_size_get hs2 hr hk3, unlinkNode_size_get hs1 hr hk2,
      unlinkNode_size_get hs hr hk1]
    split_ifs <;> omega
  refine ⟨fun x => ?_, fun k hk hne => ?_, fun x hx => ?_⟩
  · rw [e]
    split_ifs <;> omega
  · rw [e]
    have hcase : k = (k0 + 1) % 4 ∨ k = (k0 + 2) % 4 ∨ k = (k0 + 3) % 4 := by omega
    rcases hcase with h | h | h
    · rw [← h, if_pos rfl]
      split_ifs <;> omega
    · rw [← h, if_pos rfl]
      split_ifs <;> omega
    · rw [← h, if_pos rfl]
      split_ifs <;> omega
  · have n1 : ¬ x = rcol row ((k0 + 1) % 4) := fun h => hx _ hk1 (by omega) h.symm
    have n2 : ¬ x = rcol row ((k0 + 2) % 4) := fun h => hx _ hk2 (by omega) h.symm
    have n3 : ¬ x = rcol row ((k0 + 3) % 4) := fun h => hx _ hk3 (by omega) h.symm
    rw [e, if_neg n1, if_neg n2, if_neg n3]
    omega

/-- The outer loop of `cover` along the list of a column, on any matrix whose pointers
are in order: it visits every row of the list, takes one from the size of each of the three
other columns of each row, and touches no other size. The column itself may be covered
already. -/
theorem coverLoop_visits {c fuel : Nat} (hc : c < 324) (hf : 4 ≤ fuel) :
    ∀ (l : List Nat) (n p : Nat) (d : DLX), Mono d → Static d → l.length < n →
      (∀ row ∈ l, row < 729 ∧ rcol row (c / 81) = c) →
      PtrChain d.down.get c p (l.map (nodeOf c)) →
      ∃ d', coverLoop fuel c n (d.down.get p) d = some d' ∧ Mono d' ∧ SameFrame d d' ∧
        d'.active = d.active ∧
        (∀ x, d'.size.get x ≤ d.size.get x) ∧
        (∀ row ∈ l, ∀ k, k < 4 → k ≠ c / 81 →
          d'.size.get (rcol row k) < d.size.get (rcol row k)) ∧
        (∀ x, (∀ row ∈ l, ∀ k, k < 4 → k ≠ c / 81 → rcol row k ≠ x) →
          d'.size.get x = d.size.get x) := by
  have hk : c / 81 < 4 := by omega
  intro l
  induction l with
  | nil =>
    intro n p d hm hs hn _ hch
    obtain ⟨n', rfl⟩ : ∃ n', n = n' + 1 := ⟨n - 1, by simp at hn; omega⟩
    simp only [List.map_nil, PtrChain] at hch
    rw [hch]
    exact ⟨d, by simp only [coverLoop, if_true], hm, SameFrame.refl d, rfl, fun _ => le_refl _,
      fun row hrow => by simp at hrow, fun _ _ => rfl⟩
  | cons row rest ih =>
    intro n p d hm hs hn hmem hch
    obtain ⟨n', rfl⟩ : ∃ n', n = n' + 1 := ⟨n - 1, by simp at hn; omega⟩
    simp only [List.map_cons, PtrChain] at hch
    obtain ⟨h1, h2⟩ := hmem row (List.mem_cons_self _ _)
    have hnode : nodeOf c row = nodeAddr row (c / 81) := rfl
    have hne : nodeAddr row (c / 81) ≠ c := by simp only [nodeAddr_eq]; omega
    have hm1 : Mono (unlinkRow d row (c / 81)) := unlinkRow_mono hm h1
    have hfr := unlinkRow_frame d row (c / 81)
    have hs1 : Static (unlinkRow d row (c / 81)) := hs.of_frame hfr
    have hch1 : PtrChain (unlinkRow d row (c / 81)).down.get c (nodeOf c row)
        (rest.map (nodeOf c)) := by
      apply PtrChain.frame hch.2
      intro a ha
      apply unlinkRow_down_same hm h1 hk
      rcases List.mem_cons.mp ha with e | e
      · exact Or.inr ⟨row, e⟩
      · obtain ⟨r', _, e'⟩ := List.mem_map.mp e
        exact Or.inr ⟨r', e'.symm⟩
    obtain ⟨d', hrun, hm', hfr', ha', s1, s2, s3⟩ := ih n' (nodeOf c row)
      (unlinkRow d row (c / 81)) hm1 hs1 (by simp at hn; omega)
      (fun r hr' => hmem r (List.mem_cons_of_mem _ hr')) hch1
    obtain ⟨u1, u2, u3⟩ := unlinkRow_sizes hs h1 hk
    refine ⟨d', ?_, hm', hfr.trans hfr', ?_, fun x => le_trans (s1 x) (u1 x), ?_, ?_⟩
    · rw [hch.1, hnode]
      simp only [coverLoop, if_neg hne]
      rw [coverRow_eq hs h1 hk hf]
      exact hrun
    · rw [ha']; rfl
    · intro r hr' k hk' hkne
      rcases List.mem_cons.mp hr' with e | e
      · rw [e]
        exact lt_of_le_of_lt (s1 _) (u2 k hk' hkne)
      · exact lt_of_lt_of_le (s2 r e k hk' hkne) (u1 _)
    · intro x hx
      rw [s3 x (fun r hr' => hx r (List.mem_cons_of_mem _ hr')),
        u3 x (hx row (List.mem_cons_self _ _))]

/-- Covering again a column that is covered already: the loops of `cover` walk the list
that the column had when it was covered, and take one more from the sizes of the other
columns of its rows. -/
theorem cover_again {d : DLX} {S : List Nat} {c fuel : Nat} (h : Rep d S) (hm : Mono d)
    (hc : c < 324) (hcS : c ∈ S) (hf : 730 ≤ fuel) :
    ∃ d', cover fuel c d = some d' ∧ Mono d' ∧ SameFrame d d' ∧ d'.active = d.active ∧
      (∀ x, d'.size.get x ≤ d.size.get x) ∧
      (∀ row ∈ lstOf S c, ∀ k, k < 4 → k ≠ c / 81 →
        d'.size.get (rcol row k) < d.size.get (rcol row k)) ∧
      (∀ x, (∀ row ∈ lstOf S c, ∀ k, k < 4 → k ≠ c / 81 → rcol row k ≠ x) →
        d'.size.get x = d.size.get x) := by
  have hact : d.active.get c = false := by
    rw [h.active c hc]
    simpa using hcS
  have hcol := h.vert c hc
  have hlen := lstOf_length_le S c
  unfold cover
  simp only [hact, Bool.false_eq_true, if_false]
  exact coverLoop_visits hc (by omega) (lstOf S c) fuel c d hm h.static (by omega) hcol.mem
    hcol.down

/-! ## The loops that apply the givens, on any board -/

theorem applyGivens_append (fuel : Nat) (b : Grid) (l2 : List (Nat × Nat)) :
    ∀ (l1 : List (Nat × Nat)) (d : DLX),
      applyGivens fuel b (l1 ++ l2) d =
        match applyGivens fuel b l1 d with
        | some (.ok d1) => applyGivens fuel b l2 d1
        | other => other := by
  intro l1
  induction l1 with
  | nil => intro d; rfl
  | cons p rest ih =>
    intro d
    simp only [List.cons_append, applyGivens]
    split
    · split
      · rfl
      · cases applyGiven fuel d p.1 p.2 (b.get p.1 p.2) with
        | none => rfl
        | some r =>
          cases r with
          | error e => rfl
          | ok d1 => exact ih d1
    · exact ih d

theorem applyGivens_congr (fuel : Nat) (b b' : Grid) :
    ∀ (l : List (Nat × Nat)) (d : DLX), (∀ p ∈ l, b.get p.1 p.2 = b'.get p.1 p.2) →
      applyGivens fuel b l d = applyGivens fuel b' l d := by
  intro l
  induction l with
  | nil => intro d _; rfl
  | cons p rest ih =>
    intro d h
    have hp := h p (List.mem_cons_self _ _)
    have hrest := fun d1 => ih d1 (fun q hq => h q (List.mem_cons_of_mem _ hq))
    simp only [applyGivens, hp, hrest]

/-- The loops that apply the givens keep the pointers in order, on any board. -/
theorem applyGivens_mono {fuel : Nat} (hf : 731 ≤ fuel) (b : Grid) :
    ∀ (cs : List (Nat × Nat)) (d d' : DLX), (∀ p ∈ cs, p.1 < 9 ∧ p.2 < 9) → Mono d →
      Static d → applyGivens fuel b cs d = some (.ok d') → Mono d' := by
  intro cs
  induction cs with
  | nil =>
    intro d d' _ hm _ h
    simp only [applyGivens, Option.some.injEq, Except.ok.injEq] at h
    rw [← h]
    exact hm
  | cons p rest ih =>
    intro d d' hcs hm hs h
    obtain ⟨hp1, hp2⟩ := hcs p (List.mem_cons_self _ _)
    have hrest : ∀ q ∈ rest, q.1 < 9 ∧ q.2 < 9 := fun q hq => hcs q (List.mem_cons_of_mem _ hq)
    simp only [applyGivens] at h
    by_cases hv : b.get p.1 p.2 > 0
    · rw [if_pos hv] at h
      by_cases hbad : b.get p.1 p.2 < 1 ∨ b.get p.1 p.2 > 9
      · rw [if_pos hbad] at h
        simp at h
      · rw [if_neg hbad] at h
        have hrow := rowIndex_lt hp1 hp2 (by omega : 1 ≤ b.get p.1 p.2) (by omega)
        have hsu : StaticUpTo d 729 := hs
        obtain ⟨d1, hrun, hm1, hfr1⟩ := applyLoop_total hm hs hrow hf
        have happ : applyGiven fuel d p.1 p.2 (b.get p.1 p.2) = some (.ok d1) := by
          unfold applyGiven
          rw [hsu.rowHead _ hrow]
          simp only
          rw [hrun]
        rw [happ] at h
        exact ih d1 d' hrest hm1 (hs.of_frame hfr1) h
    · rw [if_neg hv] at h
      exact ih d d' hrest hm hs h

/-- The loop of `applyGiven`, from the results of its four calls of `cover`. -/
theorem applyLoop_four {d d0 d1 d2 d3 : DLX} {row fuel : Nat} (hs : Static d) (hr : row < 729)
    (hf : 4 ≤ fuel)
    (h0 : cover fuel (rcol row 0) d = some d0) (f0 : SameFrame d d0)
    (h1 : cover fuel (rcol row 1) d0 = some d1) (f1 : SameFrame d0 d1)
    (h2 : cover fuel (rcol row 2) d1 = some d2) (f2 : SameFrame d1 d2)
    (h3 : cover fuel (rcol row 3) d2 = some d3) (f3 : SameFrame d2 d3) :
    applyLoop fuel (nodeAddr row 0) fuel (nodeAddr row 0) d = some d3 := by
  have hfr01 : SameFrame d d1 := f0.trans f1
  have hfr02 : SameFrame d d2 := hfr01.trans f2
  have hfr03 : SameFrame d d3 := hfr02.trans f3
  have n1 : nodeAddr row 1 ≠ nodeAddr row 0 := by simp only [nodeAddr_eq]; omega
  have n2 : nodeAddr row 2 ≠ nodeAddr row 0 := by simp only [nodeAddr_eq]; omega
  have n3 : nodeAddr row 3 ≠ nodeAddr row 0 := by simp only [nodeAddr_eq]; omega
  obtain ⟨f, rfl⟩ : ∃ f, fuel = f + 4 := ⟨fuel - 4, by omega⟩
  have hsu : StaticUpTo d 729 := hs
  have r0 := hsu.right row 0 hr (by omega)
  have r1 := hsu.right row 1 hr (by omega)
  have r2 := hsu.right row 2 hr (by omega)
  have r3 := hsu.right row 3 hr (by omega)
  simp only [Nat.reduceAdd, Nat.reduceMod] at r0 r1 r2 r3
  simp only [applyLoop, hsu.col row 0 hr (by omega), h0, f0.right, r0, if_neg n1,
    f0.col, hsu.col row 1 hr (by omega), h1, hfr01.right, r1, if_neg n2,
    hfr01.col, hsu.col row 2 hr (by omega), h2, hfr02.right, r2, if_neg n3,
    hfr02.col, hsu.col row 3 hr (by omega), h3, hfr03.right, r3, if_true]

/-- When the column 0 is active and of size 0, `chooseColumn` returns it. -/
theorem chooseColumn_zero {d : DLX} (ha : d.active.get 0 = true) (hz : d.size.get 0 = 0) :
    chooseColumn d = some 0 := by
  unfold chooseColumn
  have e : List.range nCols = 0 :: (List.range 323).map Nat.succ := by
    rw [nCols_eq]
    exact List.range_succ_eq_map 323
  have hb : betterThan d 0 none = true := rfl
  rw [e, chooseLoop_cons, if_pos ha, if_pos hb, if_pos hz]

end Sudoku

namespace Sudoku

/-! ## The deadline of `Generate` -/

/-- A random source that never swaps, a context that is never cancelled, and a deadline
that is seen passed from the iteration 3 of the carving loop on. -/
def envCut3 : GenEnv :=
  { rng := fun _ => { swaps := fun _ => [] }, ctx := none, expired := fun i => decide (3 ≤ i) }

/-- The same random source and context, and a clock that shows the deadline passed at the
iteration 3 of the carving loop only. -/
def envBlink3 : GenEnv :=
  { rng := fun _ => { swaps := fun _ => [] }, ctx := none, expired := fun i => decide (i = 3) }

/-- Claim C11, amended: for a seed, a tier and a solver, what two calls of `Generate` with
the same cancellation return depends on the clock only through the iteration at which the
deadline is first seen passed. When that iteration is the same in both calls (or the
deadline is seen at none of the 81 iterations in both) the two calls return the same
result, board and mask included. When it is later in the second call, the second call
carved on from the board of the first: its givens are among the givens of the first, with
the same digits, and so are its fixed cells. -/
theorem generate_deadline_cut (g : UniqueGenerator) (env1 env2 : GenEnv) (seed : Int)
    (diff : Difficulty) (hrng : env1.rng seed = env2.rng seed) (hctx : env1.ctx = env2.ctx)
    (k1 k2 : Nat) (h1 : CutAt env1 k1) (h2 : CutAt env2 k2) :
    (min k1 81 = min k2 81 → g.Generate env1 seed diff = g.Generate env2 seed diff) ∧
    (k1 ≤ k2 → ∀ r1 r2 p1 p2,
      g.Generate env1 seed diff = some r1 → r1.puzzle = .ok p1 →
      g.Generate env2 seed diff = some r2 → r2.puzzle = .ok p2 →
        Extends p2.Board.Values p1.Board.Values ∧
        ∀ r c, p2.Board.Fixed r c = true → p1.Board.Fixed r c = true) := by
  have hA : ∀ (ps : List Nat) (s : CarveState), ps.length = 81 →
      carve g env1 (targetGivens diff) ps 0 s =
        carve g env1.calm (targetGivens diff) (ps.take k1) 0 s := by
    intro ps s hlen
    apply carve_cut
    · intro j hj
      rw [Nat.zero_add]
      exact h1.1 j hj
    · intro hk
      rw [Nat.zero_add]
      exact h1.2 (by omega)
  have hB : ∀ (ps : List Nat) (s : CarveState), ps.length = 81 →
      carve g env2 (targetGivens diff) ps 0 s =
        carve g env1.calm (targetGivens diff) (ps.take k2) 0 s := by
    intro ps s hlen
    rw [carve_cut g env2 (targetGivens diff) ps k2 0 s
      (fun j hj => by rw [Nat.zero_add]; exact h2.1 j hj)
      (fun hk => by rw [Nat.zero_add]; exact h2.2 (by omega))]
    exact carve_congr g env2.calm env1.calm _ hctx.symm _ 0 s (fun _ _ _ => rfl)
  constructor
  · intro hk
    have hcv : ∀ (ps : List Nat) (s : CarveState), ps.length = 81 →
        carve g env1 (targetGivens diff) ps 0 s = carve g env2 (targetGivens diff) ps 0 s := by
      intro ps s hlen
      rw [hA ps s hlen, hB ps s hlen]
      have : ps.take k1 = ps.take k2 := by
        rw [List.take_eq_take, hlen]
        exact hk
      rw [this]
    unfold UniqueGenerator.Generate
    simp only [hrng, hctx]
    cases hfill : fillRandom env2.ctx (env2.rng seed) 0 Grid.zero with
    | none => rfl
    | some r =>
      obtain ⟨b, fs⟩ := r
      cases b with
      | false => rfl
      | true =>
        simp only
        rw [hcv _ _ (positions_length _ _)]
  · intro hk r1 r2 p1 p2 hrun1 hok1 hrun2 hok2
    obtain ⟨fs, s1, hfill1, hcarve1, hval1, hfix1⟩ := generate_ok g env1 seed diff r1 p1 hrun1 hok1
    obtain ⟨fs2, s2, hfill2, hcarve2, hval2, hfix2⟩ :=
      generate_ok g env2 seed diff r2 p2 hrun2 hok2
    rw [← hrng, ← hctx] at hfill2
    rw [← hrng] at hcarve2
    have e2 : fs2 = fs := by
      rw [hfill1] at hfill2
      simp only [Option.some.injEq, Prod.mk.injEq, true_and] at hfill2
      exact hfill2.symm
    subst e2
    obtain ⟨hfull, _⟩ := fillRandom_ok _ _ _ _ hfill1
    have hlen := positions_length (env1.rng seed) fs2.shuffles
    rw [hA _ _ hlen] at hcarve1
    have hinv1 := carve_inv g _ _ fs2.grid _ _ _ _ hcarve1 (boardInv_init fs2.grid hfull)
    have hinv2 := carve_inv g _ _ fs2.grid _ _ _ _ hcarve2 (boardInv_init fs2.grid hfull)
    rw [hB _ _ hlen] at hcarve2
    obtain ⟨ps, hps⟩ : ∃ ps, ps = (env1.rng seed).shuffle fs2.shuffles (List.range 81) :=
      ⟨_, rfl⟩
    rw [← hps] at hcarve1 hcarve2
    have hsplit : ps.take k2 = ps.take k1 ++ (ps.take k2).drop k1 := by
      have := List.take_append_drop k1 (ps.take k2)
      rw [List.take_take, min_eq_left hk] at this
      exact this.symm
    rw [hsplit, carve_append, hcarve1] at hcarve2
    simp only [Option.some_bind] at hcarve2
    have hsub := carve_sub g _ _ _ _ _ _ hcarve2
    rw [hval1, hval2, hfix1, hfix2]
    refine ⟨fun r c hne => (hsub r c hne).symm, fun r c hf => ?_⟩
    have hne2 := (hinv2 r c).1.mp hf
    apply (hinv1 r c).1.mpr
    rw [← hsub r c hne2]
    exact hne2

theorem generate_deadline_cut_witness :
    envCut3.expired ≠ envBlink3.expired ∧
    UniqueGenerator.Generate { Solver := NewBacktrackingSolver } envCut3 7 Medium =
      UniqueGenerator.Generate { Solver := NewBacktrackingSolver } envBlink3 7 Medium ∧
    ∃ r1 r2 p1 p2,
      UniqueGenerator.Generate { Solver := NewBacktrackingSolver } envCut3 7 Medium = some r1 ∧
      r1.puzzle = .ok p1 ∧
      UniqueGenerator.Generate { Solver := NewBacktrackingSolver } envPatient 7 Medium =
        some r2 ∧
      r2.puzzle = .ok p2 ∧
      (∃ a b : Fin 9, p1.Board.Values a b = 0) ∧
      Extends p2.Board.Values p1.Board.Values ∧
      ∀ r c, p2.Board.Fixed r c = true → p1.Board.Fixed r c = true := by
  have hcut : CutAt envCut3 3 :=
    ⟨fun j hj => by simp only [envCut3, decide_eq_false_iff_not]; omega, fun _ => rfl⟩
  have hblink : CutAt envBlink3 3 :=
    ⟨fun j hj => by simp only [envBlink3, decide_eq_false_iff_not]; omega, fun _ => rfl⟩
  have hpatient : CutAt envPatient 81 := ⟨fun _ _ => rfl, fun h => absurd h (by omega)⟩
  obtain ⟨r1, p1, hrun1, hok1⟩ := generate_none { Solver := NewBacktrackingSolver } envCut3 7
    Medium bt_uniqueReturns rfl
  obtain ⟨r2, p2, hrun2, hok2⟩ := generate_none { Solver := NewBacktrackingSolver } envPatient 7
    Medium bt_uniqueReturns rfl
  refine ⟨fun h => ?_, ?_, r1, r2, p1, p2, hrun1, hok1, hrun2, hok2, ?_, ?_⟩
  · have := congrFun h 4
    revert this
    decide
  · exact (generate_deadline_cut { Solver := NewBacktrackingSolver } envCut3 envBlink3 7 Medium
      rfl rfl 3 3 hcut hblink).1 rfl
  · exact generate_carves_first { Solver := NewBacktrackingSolver } bt_exactUnique envCut3 rfl
      rfl 7 Medium r1 p1 hrun1 hok1
  · exact (generate_deadline_cut { Solver := NewBacktrackingSolver } envCut3 envPatient 7 Medium
      rfl rfl 3 81 hcut hpatient).2 (by omega) r1 r2 p1 p2 hrun1 hok1 hrun2 hok2

/-! ## The error of `Solve` -/

theorem deadGrid_valid : ValidGivens deadGrid := validGivens_of_check _ (by decide!)

theorem deadGrid_no_completion : completions deadGrid = ∅ := by
  obtain ⟨res, hrun, hiff, _⟩ := bt_solve_exact 0 { Values := deadGrid, Fixed := Mask.zero }
    deadGrid_valid
  apply hiff.mp
  have h : (BacktrackingSolver.Solve none 0 { Values := deadGrid, Fixed := Mask.zero }).map
      SolveResult.err = some (some Err.unsolvableOrCanceled) := by decide
  rw [hrun] at h
  simp only [Option.map_some', Option.some.injEq, SolveResult.err] at h
  cases hb : res.board with
  | error e => exact ⟨e, rfl⟩
  | ok out => rw [hb] at h; simp at h

theorem solveDfs_done (ctx : Ctx) (fuel : Nat) (s : BTState) (h : ctx.done s.tick = true) :
    solveDfs ctx (fuel + 1) s = some (false, { s with tick := s.tick + 1 }) := by
  simp only [solveDfs, h, if_true]

/-- Claim C17, amended: for each solver the error of a cancelled `Solve` is the same value
as the error of an exhausted search. On every board with valid givens: whenever a poll of
the context saw the cancellation (the context is cancelled from its poll number `n` on,
and the call ends with more than `n` polls answered), `BacktrackingSolver.Solve` returns
the error "unsolvable or canceled" and `DLXSolver.Solve` the error "no solution", whether
or not the board has completions; a call whose context is cancelled from the start returns,
with that error; when the board has no completion the two return these same errors, with
or without cancellation; and under every context these are the only errors they return. -/
theorem solve_error_same_value (b : Board) (hb : ValidGivens b.Values) (tick : Nat) :
    (∀ n res, BacktrackingSolver.Solve (some n) tick b = some res → n < res.tick →
      res.board = .error Err.unsolvableOrCanceled) ∧
    (∀ n res, DLXSolver.Solve (some n) tick b = some res → n < res.tick →
      res.board = .error Err.noSolution) ∧
    (∀ n, n ≤ tick →
      (∃ res, BacktrackingSolver.Solve (some n) tick b = some res ∧
        res.board = .error Err.unsolvableOrCanceled) ∧
      (∃ res, DLXSolver.Solve (some n) tick b = some res ∧
        res.board = .error Err.noSolution)) ∧
    (completions b.Values = ∅ → ∀ ctx,
      (∃ res, BacktrackingSolver.Solve ctx tick b = some res ∧
        res.board = .error Err.unsolvableOrCanceled) ∧
      (∃ res, DLXSolver.Solve ctx tick b = some res ∧
        res.board = .error Err.noSolution)) ∧
    (∀ ctx res e, BacktrackingSolver.Solve ctx tick b = some res → res.board = .error e →
      e = Err.unsolvableOrCanceled) ∧
    (∀ ctx res e, DLXSolver.Solve ctx tick b = some res → res.board = .error e →
      e = Err.noSolution) := by
  have hbtErr : ∀ ctx res e, BacktrackingSolver.Solve ctx tick b = some res →
      res.board = .error e → e = Err.unsolvableOrCanceled := by
    intro ctx res e hrun herr
    obtain ⟨ok, s', _, _, hres⟩ := bt_solve_run ctx tick b
    rw [hres] at hrun
    simp only [Option.some.injEq] at hrun
    rw [← hrun] at herr
    cases ok with
    | true => simp at herr
    | false =>
      simp only [Bool.false_eq_true, if_false, Except.error.injEq] at herr
      exact herr.symm
  have hdlxErr : ∀ ctx res e, DLXSolver.Solve ctx tick b = some res →
      res.board = .error e → e = Err.noSolution := by
    intro ctx res e hrun herr
    obtain ⟨res', hrun', hall, _⟩ := dlx_solve_run ctx tick b hb
    rw [hrun'] at hrun
    simp only [Option.some.injEq] at hrun
    rw [hrun] at hall
    exact hall e herr
  refine ⟨fun n res hrun hn => ?_, fun n res hrun hn => ?_, fun n hn => ⟨?_, ?_⟩,
    fun hem ctx => ⟨?_, ?_⟩, hbtErr, hdlxErr⟩
  · cases hbd : res.board with
    | error e => rw [hbtErr _ res e hrun hbd]
    | ok out =>
      have := bt_solve_calm n tick b res out hrun hbd
      omega
  · cases hbd : res.board with
    | error e => rw [hdlxErr _ res e hrun hbd]
    | ok out =>
      have := dlx_solve_calm n tick b hb res out hrun hbd
      omega
  · have hdone : Ctx.done (some n) tick = true := by
      simp only [Ctx.done, decide_eq_true_eq]
      exact hn
    have hdfs : solveDfs (some n) searchFuel
        { grid := b.Values, nodes := 0, count := 0, tick := tick } =
          some (false, { grid := b.Values, nodes := 0, count := 0, tick := tick + 1 }) :=
      solveDfs_done (some n) 81 { grid := b.Values, nodes := 0, count := 0, tick := tick } hdone
    simp only [BacktrackingSolver.Solve, hdfs]
    exact ⟨_, rfl, rfl⟩
  · obtain ⟨d, S, stop, d', hrun, _, _, hfr, _, _, _⟩ := dlx_run_post (some n) tick 1 b hb
    have ht : ({ d with found := 0 } : DLX).tick = tick := hfr.tick
    have hdone : Ctx.done (some n) ({ d with found := 0 } : DLX).tick = true := by
      rw [ht]
      simp only [Ctx.done, decide_eq_true_eq]
      exact hn
    have hsearch : search (some n) loopFuel 1 searchFuel 0 { d with found := 0 } =
        some (true, polled { d with found := 0 }) := by
      show search (some n) loopFuel 1 (81 + 1) 0 { d with found := 0 } = _
      rw [search_succ, if_pos hdone]
    have hfound : (polled { d with found := 0 }).found < 1 := by
      show 0 < 1
      omega
    simp only [DLXSolver.Solve, DLXSolver.solveWith, hrun, hsearch, hfound, if_true]
    exact ⟨_, rfl, rfl⟩
  · obtain ⟨ok, s', _, hspec, hres⟩ := bt_solve_run ctx tick b
    cases ok with
    | true =>
      have hc : s'.grid ∈ completions b.Values := hspec.sound hb rfl
      rw [hem] at hc
      simp at hc
    | false => exact ⟨_, hres, rfl⟩
  · obtain ⟨res, hrun, hall, _⟩ := dlx_solve_run ctx tick b hb
    refine ⟨res, hrun, ?_⟩
    cases hbd : res.board with
    | error e => rw [hall e hbd]
    | ok out =>
      obtain ⟨_, _, _, _, _, hres⟩ := dlx_solve_ok ctx tick b hb
      obtain ⟨_, _, h, hcomp, _⟩ := hres res out hrun hbd
      have hc : h ∈ completions b.Values := hcomp
      rw [hem] at hc
      simp at hc

theorem solve_error_same_value_witness :
    (∃ res, BacktrackingSolver.Solve (some 2) 0 { Values := twoSolGrid, Fixed := Mask.zero } =
        some res ∧ res.tick = 4 ∧ res.board = .error Err.unsolvableOrCanceled) ∧
    (∃ res, BacktrackingSolver.Solve (some 0) 0 { Values := twoSolGrid, Fixed := Mask.zero } =
        some res ∧ res.board = .error Err.unsolvableOrCanceled) ∧
    (∃ res, DLXSolver.Solve (some 0) 0 { Values := twoSolGrid, Fixed := Mask.zero } =
        some res ∧ res.board = .error Err.noSolution) ∧
    (∃ res, BacktrackingSolver.Solve none 0 { Values := deadGrid, Fixed := Mask.zero } =
        some res ∧ res.board = .error Err.unsolvableOrCanceled) ∧
    (∃ res, DLXSolver.Solve none 0 { Values := deadGrid, Fixed := Mask.zero } =
        some res ∧ res.board = .error Err.noSolution) := by
  have hmid : (BacktrackingSolver.Solve (some 2) 0
      { Values := twoSolGrid, Fixed := Mask.zero }).map (fun r => r.tick) = some 4 := by decide
  obtain ⟨res, hrun, htick⟩ := Option.map_eq_some'.mp hmid
  exact ⟨⟨res, hrun, htick,
      (solve_error_same_value { Values := twoSolGrid, Fixed := Mask.zero } twoSol_valid 0).1 2
        res hrun (by rw [htick]; decide)⟩,
   ((solve_error_same_value { Values := twoSolGrid, Fixed := Mask.zero } twoSol_valid 0).2.2.1 0
      (le_refl 0)).1,
   ((solve_error_same_value { Values := twoSolGrid, Fixed := Mask.zero } twoSol_valid 0).2.2.1 0
      (le_refl 0)).2,
   ((solve_error_same_value { Values := deadGrid, Fixed := Mask.zero } deadGrid_valid 0).2.2.2.1
      deadGrid_no_completion none).1,
   ((solve_error_same_value { Values := deadGrid, Fixed := Mask.zero } deadGrid_valid 0).2.2.2.1
      deadGrid_no_completion none).2⟩

/-! ## `chooseColumn` on matrices with negative sizes -/

/-- A board with the digit 9 twice in its last box, at the cells (6,6) and (8,8), and no
other repeat. Its cells (0,0) and (7,7) are empty, and every digit is excluded from each of
them by a given in its row, column or box. -/
def boxTwice : Grid := Grid.ofRows [
  [0, 1, 2, 3, 4, 5, 6, 7, 8], [9, 0, 0, 0, 0, 0, 0, 0, 0], [0, 0, 0, 0, 0, 0, 0, 0, 0],
  [0, 0, 0, 0, 0, 0, 0, 0, 0], [0, 0, 0, 0, 0, 0, 0, 0, 0], [0, 0, 0, 0, 0, 0, 0, 0, 0],
  [0, 0, 0, 0, 0, 0, 9, 0, 0], [1, 2, 3, 4, 5, 6, 0, 0, 0], [0, 0, 0, 0, 0, 0, 8, 0, 9]]

/-- The board `boxTwice` without its last given: its givens are valid. -/
def boxOnce : Grid := boxTwice.set 8 8 0

/-- The column `col` is one of the four columns of a given of `boxOnce`. -/
def inOnce (col : Nat) : Prop :=
  ∃ r c : Fin 9, boxOnce r c ≠ 0 ∧ col ∈ rowColumns r.val c.val (boxOnce r c)

instance (col : Nat) : Decidable (inOnce col) := by
  unfold inOnce; infer_instance

theorem boxOnce_valid : ValidGivens boxOnce := validGivens_of_check _ (by decide!)

theorem boxOnce_columns :
    ¬ inOnce 80 ∧ ¬ inOnce 161 ∧ ¬ inOnce 242 ∧ inOnce 323 ∧ ¬ inOnce 0 ∧ ¬ inOnce 70 ∧
      ¬ inOnce 152 ∧ ¬ inOnce 233 := by
  decide

/-- No digit fits the cell (0,0) of `boxOnce`: each of its nine candidate rows has a
column that a given covers. -/
theorem boxOnce_first_dead : ∀ i : Fin 9, ∃ k : Fin 4, inOnce (rcol i.val k.val) := by
  decide

/-- No digit fits the cell (7,7) of `boxOnce`. -/
theorem boxOnce_mid_dead : ∀ i : Fin 9, ∃ k : Fin 4, inOnce (rcol (630 + i.val) k.val) := by
  decide

theorem cells_split : cells = cells.take 80 ++ [(8, 8)] := by
  have h1 : cells.drop 80 = [(8, 8)] := by
    rw [cells_drop (by omega : 80 < 81)]
    have : cells.drop 81 = [] := List.drop_eq_nil_of_le (by rw [cells_length])
    rw [this]
  rw [← h1, List.take_append_drop]

/-- Claim C23, as stated, fails on a matrix that `Solve` and `Unique` build. The board
`boxTwice` has the digit 9 twice in its last box, so `applyGiven` covers the column of that
box and digit a second time, and the loops of `cover` take one more from the sizes of the
columns of its rows. The column 70, of the empty cell (7,7) that no digit fits, goes from
the size 0 to a negative size and stays active. `chooseColumn` leaves its scan at the column
0, of the empty cell (0,0) that no digit fits, active and of size 0, and returns it, though
the active column 70 has a smaller size. -/
theorem chooseColumn_skips_negative :
    ∃ d, applyGivens loopFuel boxTwice cells { newDLX with tick := 0 } = some (.ok d) ∧
      chooseColumn d = some 0 ∧ d.active.get 0 = true ∧ d.size.get 0 = 0 ∧
      d.active.get 70 = true ∧ d.size.get 70 < d.size.get 0 := by
  have hf : 731 ≤ loopFuel := by simp [loopFuel]
  have hf0 : 730 ≤ loopFuel := by omega
  obtain ⟨d, S, _, _, hrun0, hrep, hcov, _, _, _, _⟩ :=
    dlx_run_post none 0 1 { Values := boxOnce, Fixed := Mask.zero } boxOnce_valid
  have hrun : applyGivens loopFuel boxOnce cells { newDLX with tick := 0 } = some (.ok d) :=
    hrun0
  have hS : ∀ col, col < 324 → (col ∈ S ↔ inOnce col) :=
    fun col hcol => covers_rowColumns hcov boxOnce_valid hcol
  obtain ⟨i80, i161, i242, i323, i0, i70, i152, i233⟩ := boxOnce_columns
  have hm0 : Mono { newDLX with tick := 0 } := newDLX_mono.atTick 0
  have hs0 : Static { newDLX with tick := 0 } := static_atTick newDLX_inv.static 0
  have hmd : Mono d :=
    applyGivens_mono hf boxOnce cells _ d (fun p hp => (mem_cells p).mp hp) hm0 hs0 hrun
  -- the run over the first 80 cells is the same on both boards
  have hlast0 : boxOnce.get 8 8 = 0 := by decide
  have hlast9 : boxTwice.get 8 8 = 9 := by decide
  have hpre : applyGivens loopFuel boxOnce (cells.take 80) { newDLX with tick := 0 } =
      some (.ok d) := by
    have h := hrun
    rw [cells_split, applyGivens_append] at h
    cases hp : applyGivens loopFuel boxOnce (cells.take 80) { newDLX with tick := 0 } with
    | none => rw [hp] at h; simp at h
    | some r =>
      cases r with
      | error e => rw [hp] at h; simp at h
      | ok d1 =>
        rw [hp] at h
        simp only [applyGivens, hlast0, gt_iff_lt, Nat.lt_irrefl, if_false] at h
        rw [h]
  have hsame : ∀ p ∈ cells.take 80, boxTwice.get p.1 p.2 = boxOnce.get p.1 p.2 := by
    intro p hp
    have hnd := cells_nodup
    rw [cells_split] at hnd
    have hne : p ≠ (8, 8) := fun e =>
      (List.nodup_append.mp hnd).2.2 (e ▸ hp) (List.mem_singleton_self _)
    unfold boxOnce
    rw [Grid.get_set_cell, if_neg]
    rintro ⟨_, _, h1, h2⟩
    exact hne (Prod.ext h1 h2)
  -- the four columns of the last given
  have c0 : rcol 728 0 = 80 := by decide
  have c1 : rcol 728 1 = 161 := by decide
  have c2 : rcol 728 2 = 242 := by decide
  have c3 : rcol 728 3 = 323 := by decide
  have n80 : 80 ∉ S := fun h => i80 ((hS 80 (by omega)).mp h)
  have n161 : 161 ∉ S ++ [80] := by
    simp only [List.mem_append, List.mem_singleton, not_or]
    exact ⟨fun h => i161 ((hS 161 (by omega)).mp h), by omega⟩
  have n242 : 242 ∉ S ++ [80] ++ [161] := by
    simp only [List.mem_append, List.mem_singleton, not_or]
    exact ⟨⟨fun h => i242 ((hS 242 (by omega)).mp h), by omega⟩, by omega⟩
  have m323 : 323 ∈ S ++ [80] ++ [161] ++ [242] := by
    simp only [List.mem_append, List.mem_singleton]
    exact Or.inl (Or.inl (Or.inl ((hS 323 (by omega)).mpr i323)))
  have hmem : ∀ x, x < 324 → ¬ inOnce x → x ≠ 80 → x ≠ 161 → x ≠ 242 →
      x ∉ S ++ [80] ++ [161] ++ [242] := by
    intro x hx h1 h2 h3 h4
    simp only [List.mem_append, List.mem_singleton, not_or]
    exact ⟨⟨⟨fun h => h1 ((hS x hx).mp h), h2⟩, h3⟩, h4⟩
  obtain ⟨d0, hd0, hrep0, hfr0, _⟩ := cover_rep hrep (by omega : 80 < 324) n80 hf0
  obtain ⟨e0, he0, hmd0, _⟩ := cover_total hmd hrep.static (by omega : 80 < 324) hf
  rw [hd0, Option.some.injEq] at he0
  subst he0
  obtain ⟨d1, hd1, hrep1, hfr1, _⟩ := cover_rep hrep0 (by omega : 161 < 324) n161 hf0
  obtain ⟨e1, he1, hmd1, _⟩ := cover_total hmd0 hrep0.static (by omega : 161 < 324) hf
  rw [hd1, Option.some.injEq] at he1
  subst he1
  obtain ⟨d2, hd2, hrep2, hfr2, _⟩ := cover_rep hrep1 (by omega : 242 < 324) n242 hf0
  obtain ⟨e2, he2, hmd2, _⟩ := cover_total hmd1 hrep1.static (by omega : 242 < 324) hf
  rw [hd2, Option.some.injEq] at he2
  subst he2
  obtain ⟨d3, hd3, _, hfr3, hact3, _, hless, hkeep⟩ :=
    cover_again hrep2 hmd2 (by omega : 323 < 324) m323 hf0
  have hloop : applyLoop loopFuel (nodeAddr 728 0) loopFuel (nodeAddr 728 0) d = some d3 :=
    applyLoop_four hrep.static (by omega : 728 < 729) (by omega)
      (by rw [c0]; exact hd0) hfr0 (by rw [c1]; exact hd1) hfr1 (by rw [c2]; exact hd2) hfr2
      (by rw [c3]; exact hd3) hfr3
  have hsu : StaticUpTo d 729 := hrep.static
  have happ : applyGiven loopFuel d 8 8 9 = some (.ok d3) := by
    unfold applyGiven
    rw [show rowIndex 8 8 9 = 728 from rfl, hsu.rowHead 728 (by omega)]
    simp only
    rw [hloop]
  have hfull : applyGivens loopFuel boxTwice cells { newDLX with tick := 0 } = some (.ok d3) := by
    rw [cells_split, applyGivens_append,
      applyGivens_congr loopFuel boxTwice boxOnce (cells.take 80) _ hsame, hpre]
    simp only [applyGivens, hlast9, happ]
    rw [if_pos (by decide : 9 > 0), if_neg (by decide : ¬ (9 < 1 ∨ 9 > 9))]
  -- the rows of a column of a dead cell are all unlinked
  have hdead : ∀ (x base : Nat), x < 324 → x / 81 = 0 → base = 9 * x →
      x ∉ S ++ [80] ++ [161] ++ [242] →
      (∀ i : Fin 9, ∃ k : Fin 4, inOnce (rcol (base + i.val) k.val)) →
      d2.size.get x = 0 := by
    intro x base hx hx0 hbase hxS hrows
    have hnil : lstOf (S ++ [80] ++ [161] ++ [242]) x = [] := by
      apply List.eq_nil_iff_forall_not_mem.mpr
      intro row hrow
      rw [mem_lstOf_of_not_mem hxS, hx0, rcol_zero] at hrow
      obtain ⟨⟨hlt, hcol⟩, hfree⟩ := hrow
      obtain ⟨k, hk⟩ := hrows ⟨row - base, by omega⟩
      have e : base + (row - base) = row := by omega
      simp only [e] at hk
      have hin : rcol row k.val ∈ S := (hS _ (rcol_lt hlt k.isLt)).mpr hk
      apply hfree k.val k.isLt
      simp only [List.mem_append, List.mem_singleton]
      exact Or.inl (Or.inl (Or.inl hin))
    rw [(hrep2.vert x hx).size, hnil]
    rfl
  have n0 := hmem 0 (by omega) i0 (by omega) (by omega) (by omega)
  have n70 := hmem 70 (by omega) i70 (by omega) (by omega) (by omega)
  have n152 := hmem 152 (by omega) i152 (by omega) (by omega) (by omega)
  have n233 := hmem 233 (by omega) i233 (by omega) (by omega) (by omega)
  have hz0 : d2.size.get 0 = 0 :=
    hdead 0 0 (by omega) (by omega) (by omega) n0 (fun i => by
      simpa using boxOnce_first_dead i)
  have hz70 : d2.size.get 70 = 0 :=
    hdead 70 630 (by omega) (by omega) (by omega) n70 boxOnce_mid_dead
  have ha0 : d3.active.get 0 = true := by
    rw [hact3, hrep2.active 0 (by omega)]
    simpa using n0
  have ha70 : d3.active.get 70 = true := by
    rw [hact3, hrep2.active 70 (by omega)]
    simpa using n70
  -- the second cover of the column 323 leaves the column 0 and visits the column 70
  have hs0' : d3.size.get 0 = 0 := by
    rw [hkeep 0, hz0]
    intro row hrow k hk hne
    have hr := (hrep2.vert 323 (by omega)).mem row hrow
    have h3 : rcol row 3 = 323 := hr.2
    rw [rcol_three] at h3
    have hk' : k = 0 ∨ k = 1 ∨ k = 2 := by omega
    rcases hk' with rfl | rfl | rfl
    · rw [rcol_zero]; omega
    · rw [rcol_one]; omega
    · rw [rcol_two]; omega
  have hrow638 : 638 ∈ lstOf (S ++ [80] ++ [161] ++ [242]) 323 := by
    unfold lstOf
    rw [List.mem_filter, mem_rowsOf, decide_eq_true_eq]
    refine ⟨⟨by omega, by decide⟩, ?_⟩
    intro k hk hin
    have hsub := (List.takeWhile_sublist _).subset hin
    have hk' : k = 0 ∨ k = 1 ∨ k = 2 ∨ k = 3 := by omega
    rcases hk' with rfl | rfl | rfl | rfl
    · rw [show rcol 638 0 = 70 from by decide] at hsub
      exact n70 hsub
    · rw [show rcol 638 1 = 152 from by decide] at hsub
      exact n152 hsub
    · rw [show rcol 638 2 = 233 from by decide] at hsub
      exact n233 hsub
    · rw [show rcol 638 3 = 323 from by decide] at hin
      have := List.mem_takeWhile_imp hin
      simp at this
  have hneg : d3.size.get 70 < 0 := by
    have := hless 638 hrow638 0 (by omega) (by omega)
    rw [show rcol 638 0 = 70 from by decide, hz70] at this
    exact this
  exact ⟨d3, hfull, chooseColumn_zero ha0 hs0', ha0, hs0', ha70, by rw [hs0']; exact hneg⟩

theorem deadGrid_low_columns :
    ∀ j : Fin 8, ∃ r c : Fin 9, deadGrid r c ≠ 0 ∧ j.val ∈ rowColumns r.val c.val (deadGrid r c) := by
  decide

theorem deadGrid_free_columns :
    ∀ col : Fin 2, ¬ ∃ r c : Fin 9,
      deadGrid r c ≠ 0 ∧ 8 + col.val ∈ rowColumns r.val c.val (deadGrid r c) := by
  decide

theorem chooseColumn_min_witness :
    ∃ d, applyGivens loopFuel deadGrid cells { newDLX with tick := 0 } = some (.ok d) ∧
      (∀ c, c < 324 → d.active.get c = true → 0 ≤ d.size.get c) ∧
      chooseColumn d = some 8 ∧ d.size.get 8 = 0 ∧ d.active.get 9 = true ∧
      0 < d.size.get 9 ∧
      (∀ x, x < 324 → d.active.get x = true →
        d.size.get 8 ≤ d.size.get x ∧ (d.size.get x = d.size.get 8 → 8 ≤ x)) := by
  obtain ⟨d, S, _, _, hrun, hrep, hcov, _, _, _, _⟩ :=
    dlx_run_post none 0 1 { Values := deadGrid, Fixed := Mask.zero } deadGrid_valid
  have hsz : ∀ c, c < 324 → d.active.get c = true → 0 ≤ d.size.get c :=
    fun c hc _ => hrep.size_nonneg c hc
  have hmin := chooseColumn_min d hsz
  have hS : ∀ col, col < 324 → (col ∈ S ↔ ∃ r c : Fin 9,
      deadGrid r c ≠ 0 ∧ col ∈ rowColumns r.val c.val (deadGrid r c)) :=
    fun col hcol => covers_rowColumns hcov deadGrid_valid hcol
  have h8 : 8 ∉ S := by
    rw [hS 8 (by omega)]
    exact deadGrid_free_columns 0
  have h9 : 9 ∉ S := by
    rw [hS 9 (by omega)]
    exact deadGrid_free_columns 1
  have hlow : ∀ c, c < 8 → c ∈ S := by
    intro c hc
    rw [hS c (by omega)]
    exact deadGrid_low_columns ⟨c, hc⟩
  have hact8 : d.active.get 8 = true := by
    rw [hrep.active 8 (by omega)]
    simpa using h8
  have hact9 : d.active.get 9 = true := by
    rw [hrep.active 9 (by omega)]
    simpa using h9
  have hnil : lstOf S 8 = [] := by
    apply List.eq_nil_iff_forall_not_mem.mpr
    intro row hrow
    rw [mem_lstOf_of_not_mem h8] at hrow
    obtain ⟨⟨hlt, hcol⟩, hfree⟩ := hrow
    rw [freeRow_iff deadGrid_valid hcov hlt] at hfree
    have hdiv : row / 9 = 8 := by
      rw [← rcol_zero]
      exact hcol
    have hlo : 72 ≤ row := by omega
    have hhi : row ≤ 80 := by omega
    revert hfree
    interval_cases row <;> decide
  have hsize8 : d.size.get 8 = 0 := by
    rw [(hrep.vert 8 (by omega)).size, hnil]
    rfl
  have hmem9 : 84 ∈ lstOf S 9 := by
    rw [mem_lstOf_of_not_mem h9]
    refine ⟨⟨by omega, by rw [show (9 : Nat) / 81 = 0 from rfl, rcol_zero]⟩, ?_⟩
    rw [freeRow_iff deadGrid_valid hcov (by omega)]
    decide
  have hsize9 : 0 < d.size.get 9 := by
    rw [(hrep.vert 9 (by omega)).size]
    exact_mod_cast List.length_pos_of_mem hmem9
  have hch : chooseColumn d = some 8 := by
    cases hc : chooseColumn d with
    | none =>
      have := hmin.1.mp hc 8 (by omega)
      rw [hact8] at this
      simp at this
    | some c =>
      obtain ⟨hc324, hact, hall⟩ := hmin.2 c hc
      obtain ⟨hle, htie⟩ := hall 8 (by omega) hact8
      have hnn := hsz c hc324 hact
      have hc0 : d.size.get c = 0 := by omega
      have hc8 : c ≤ 8 := htie (by rw [hsize8, hc0])
      have hge : 8 ≤ c := by
        by_contra hlt
        have hin := hlow c (by omega)
        rw [hrep.active c hc324] at hact
        simp [hin] at hact
      have : c = 8 := by omega
      rw [this]
  obtain ⟨_, _, hall⟩ := hmin.2 8 hch
  exact ⟨d, hrun, hsz, hch, hsize8, hact9, hsize9, hall⟩

end Sudoku
